import Mathlib

/-!
# Spring RTS simulation core: unit handler and path-manager front end

A shallow embedding of `rts/Sim/Units/UnitHandler.cpp` and
`rts/Sim/Path/IPathManager.cpp`, followed by theorems about the embedded code.

Conventions of the embedding

* A `CUnit*` is a natural number (the identity of the object).  The fields of the
  pointed-to object that the handler reads or writes live in a heap `CUnit → UnitFields`.
* `std::list<CUnit*>` is a `List CUnit`.  A local list iterator that is only ever
  advanced (`usi`, `sui`) is the remaining suffix of the list: `end()` is `[]`,
  `++it` is `List.tail`, `*it` is the head.  The persistent `slowUpdateIterator`
  is the index of the node it points to, `activeUnits.length` standing for `end()`.
  Where the validity of an iterator or the lifetime of an object is in question
  (`CUnitHandlerMem`), the list is its chain of nodes with addresses, an iterator is the
  address of its node, and deleted objects are recorded.
* A `float` is a significand and a binary exponent; products are rounded to 24 significant
  bits, to nearest and ties to even (IEEE-754 single precision).
* `int` values that are compared and incremented are `Int`; list sizes are bounded by
  the unit limit, far below `2^31`, so no wrap-around is modelled for them.
* Calls into code outside these files appear as events of a trace.
-/

namespace Spring

/-- Identity of a `CUnit` object (the pointer value). -/
abbrev CUnit := Nat

/-! ## The worker pool of `CUnitHandler::MoveTypeThreadFunc` -/

/-- Values of `simThreadingStage`. -/
inductive SimThreadingStage
  | PROJECTILE_COLLISION
  | UPDATE_MOVETYPE
  | SLOW_UPDATE_MOVETYPE
  | DELAYED_SLOW_UPDATE_MOVETYPE
  deriving DecidableEq, Repr

/-- Where a pool thread stands inside the `while(true)` loop of its stage. -/
inductive WorkerPc
  /-- about to execute `int nextPos = ++atomicCount` -/
  | claiming
  /-- the index is claimed and the iterator positioned; about to dereference it and call -/
  | calling
  /-- left the loop by `break`; waiting in the second `simBarrier->wait()` -/
  | atBarrier
  deriving DecidableEq, Repr

/-- The locals of one pool thread: `curPos`, the iterator `usi`/`sui`, and its position
in the loop. -/
structure Worker where
  curPos : Int
  it : List CUnit
  pc : WorkerPc
  deriving DecidableEq, Repr

/-- Shared state of one barrier round: the atomic counter, the threads, the calls made so
far as `(thread, claimed index, unit)` in execution order, and whether some thread has
dereferenced `activeUnits.end()`. -/
structure PoolState where
  atomicCount : Int
  workers : List Worker
  calls : List (Nat × Int × CUnit)
  derefEnd : Bool
  deriving DecidableEq, Repr

/-- The loop `while(curPos < nextPos) { ++usi; ++curPos; }` of the UPDATE_MOVETYPE stage;
the first argument bounds the number of iterations. -/
def advanceUpdate (nextPos : Int) : Nat → Int → List CUnit → Int × List CUnit
  | 0, curPos, usi => (curPos, usi)
  | fuel + 1, curPos, usi =>
    if curPos < nextPos then advanceUpdate nextPos fuel (curPos + 1) usi.tail
    else (curPos, usi)

/-- The loop `while(curPos < nextPos && sui != activeUnits.end()) { ++sui; ++curPos; }` of
the SLOW_UPDATE_MOVETYPE stage; the first argument bounds the number of iterations. -/
def advanceSlow (nextPos : Int) : Nat → Int → List CUnit → Int × List CUnit
  | 0, curPos, sui => (curPos, sui)
  | fuel + 1, curPos, sui =>
    if curPos < nextPos ∧ sui ≠ [] then advanceSlow nextPos fuel (curPos + 1) sui.tail
    else (curPos, sui)

/-- UPDATE_MOVETYPE, one pass of a thread from `++atomicCount` to just before
`CUnit *unit = *usi`.  Returns the new counter value and the thread's new locals. -/
def claimUpdateMoveType (countEnd : Int) (atomicCount : Int) (w : Worker) : Int × Worker :=
  let nextPos := atomicCount + 1
  if nextPos ≥ countEnd then (nextPos, { w with pc := .atBarrier })
  else
    let r := advanceUpdate nextPos (nextPos - w.curPos).toNat w.curPos w.it
    (nextPos, { curPos := r.1, it := r.2, pc := .calling })

/-- SLOW_UPDATE_MOVETYPE, one pass of a thread from `++atomicCount` to just before
`CUnit *unit = *sui`, with the extra `if (sui == activeUnits.end()) break;`. -/
def claimSlowUpdateMoveType (countEnd : Int) (atomicCount : Int) (w : Worker) : Int × Worker :=
  let nextPos := atomicCount + 1
  if nextPos ≥ countEnd then (nextPos, { w with pc := .atBarrier })
  else
    let r := advanceSlow nextPos (nextPos - w.curPos).toNat w.curPos w.it
    if r.2 = [] then (nextPos, { curPos := r.1, it := r.2, pc := .atBarrier })
    else (nextPos, { curPos := r.1, it := r.2, pc := .calling })

/-- The claim pass of the two per-unit stages. -/
def claimPass (stage : SimThreadingStage) (countEnd : Int) (atomicCount : Int) (w : Worker) :
    Int × Worker :=
  match stage with
  | .SLOW_UPDATE_MOVETYPE => claimSlowUpdateMoveType countEnd atomicCount w
  | _ => claimUpdateMoveType countEnd atomicCount w

/-- One scheduling step of pool thread `i`: either its atomic `++atomicCount` together with
the thread-local iterator walk that follows, or the dereference and per-unit call
(`UpdateMoveType(unit)` resp. `unit->moveType->SlowUpdate()`) for an index it holds. -/
def poolStep (stage : SimThreadingStage) (countEnd : Int) (s : PoolState) (i : Nat) : PoolState :=
  match s.workers[i]? with
  | none => s
  | some w =>
    match w.pc with
    | .atBarrier => s
    | .claiming =>
      let r := claimPass stage countEnd s.atomicCount w
      { s with atomicCount := r.1, workers := s.workers.set i r.2 }
    | .calling =>
      match w.it with
      | [] => { s with derefEnd := true, workers := s.workers.set i { w with pc := .claiming } }
      | unit :: _ =>
        { s with calls := s.calls ++ [(i, w.curPos, unit)],
                 workers := s.workers.set i { w with pc := .claiming } }

/-- State of the pool when the threads are released from the first barrier: thread 0 has
reset the counter to `-1`, every thread has `curPos = 0` and its iterator at the start
position of the stage. -/
def poolInit (nThreads : Nat) (start : List CUnit) : PoolState :=
  { atomicCount := -1,
    workers := List.replicate nThreads { curPos := 0, it := start, pc := .claiming },
    calls := [],
    derefEnd := false }

/-- Run the pool under a schedule (the sequence of thread numbers taking a step). -/
def poolRun (stage : SimThreadingStage) (countEnd : Int) (s : PoolState) (sched : List Nat) :
    PoolState :=
  sched.foldl (poolStep stage countEnd) s

/-- Every thread has reached the second barrier: the round is over. -/
def PoolState.finished (s : PoolState) : Prop :=
  ∀ w ∈ s.workers, w.pc = .atBarrier

instance (s : PoolState) : Decidable s.finished := by
  unfold PoolState.finished; infer_instance

/-- Start position of the slow-update walk:
`((gs->frameNum & (UNIT_SLOWUPDATE_RATE - 1)) == 0) ? activeUnits.begin() : slowUpdateIterator`. -/
def slowStart (RATE frameNum : Nat) (activeUnits : List CUnit) (slowUpdateIterator : Nat) :
    List CUnit :=
  if frameNum &&& (RATE - 1) = 0 then activeUnits else activeUnits.drop slowUpdateIterator

/-- The per-tick budget `(activeUnits.size() / UNIT_SLOWUPDATE_RATE) + 1`. -/
def slowCount (RATE : Nat) (activeUnits : List CUnit) : Int :=
  ((activeUnits.length / RATE + 1 : Nat) : Int)

/-- The inline loop of the SLOW_UPDATE_MOVETYPE stage,
`for (; sui != activeUnits.end() && n != 0; ++sui) { ... unit->moveType->SlowUpdate(); }`:
the body does not change `n`. -/
def inlineSlowLoop (n : Int) : List CUnit → List CUnit
  | [] => []
  | unit :: sui => if n ≠ 0 then unit :: inlineSlowLoop n sui else []

/-- The inline loop of the UPDATE_MOVETYPE stage: `UpdateMoveType` on every element. -/
def inlineUpdateLoop : List CUnit → List CUnit
  | [] => []
  | unit :: usi => unit :: inlineUpdateLoop usi

/-- Calls made by `MoveTypeThreadFunc(0)` when `simNumExtraThreads == 0`, per stage
(the units on which `UpdateMoveType` resp. `moveType->SlowUpdate` is invoked, in order). -/
def MoveTypeThreadFunc_inline (stage : SimThreadingStage) (RATE frameNum : Nat)
    (activeUnits : List CUnit) (slowUpdateIterator : Nat) : List CUnit :=
  match stage with
  | .UPDATE_MOVETYPE => inlineUpdateLoop activeUnits
  | .SLOW_UPDATE_MOVETYPE =>
    inlineSlowLoop (slowCount RATE activeUnits)
      (slowStart RATE frameNum activeUnits slowUpdateIterator)
  | _ => []

/-- One barrier round of `MoveTypeThreadFunc` with `simNumExtraThreads > 0`, for the two
per-unit stages, under a schedule of the `simNumExtraThreads + 1` threads. -/
def MoveTypeThreadFunc_pooled (stage : SimThreadingStage) (RATE frameNum : Nat)
    (activeUnits : List CUnit) (slowUpdateIterator : Nat) (simNumExtraThreads : Nat)
    (sched : List Nat) : PoolState :=
  match stage with
  | .SLOW_UPDATE_MOVETYPE =>
    poolRun stage (slowCount RATE activeUnits)
      (poolInit (simNumExtraThreads + 1) (slowStart RATE frameNum activeUnits slowUpdateIterator))
      sched
  | _ => poolRun stage (activeUnits.length : Int) (poolInit (simNumExtraThreads + 1) activeUnits) sched

/-- The units on which the per-unit function was called, in execution order. -/
def PoolState.calledUnits (s : PoolState) : List CUnit := s.calls.map (fun c => c.2.2)

/-- The claimed indices for which the per-unit function was called, in execution order. -/
def PoolState.calledIndices (s : PoolState) : List Int := s.calls.map (fun c => c.2.1)

/-! ### Invariant and progress measure of a barrier round -/

/-- Number of per-unit calls a round can make: the counter bound, cut at the end of the list. -/
def poolBound (countEnd : Int) (base : List CUnit) : Int := min countEnd (base.length : Int)

/-- What holds of the locals of a pool thread, relative to the start position `base` of the
stage and the current counter value `cnt`. -/
structure WorkerInv (base : List CUnit) (M cnt : Int) (w : Worker) : Prop where
  pos : 0 ≤ w.curPos
  it_eq : w.it = base.drop w.curPos.toNat
  le : w.curPos ≤ cnt + 1
  calling : w.pc = .calling → w.curPos ≤ cnt ∧ w.curPos < M
  exited : w.pc = .atBarrier → M ≤ cnt

/-- The invariant of a barrier round with start position `base` and counter bound `countEnd`. -/
structure PoolInv (countEnd : Int) (base : List CUnit) (s : PoolState) : Prop where
  cnt : -1 ≤ s.atomicCount
  workers : ∀ (i : Nat) (w : Worker), s.workers[i]? = some w →
    WorkerInv base (poolBound countEnd base) s.atomicCount w
  nodup : s.calledIndices.Nodup
  called : ∀ c ∈ s.calls, 0 ≤ c.2.1 ∧ c.2.1 ≤ s.atomicCount ∧ c.2.1 < poolBound countEnd base ∧
    base[c.2.1.toNat]? = some c.2.2 ∧ c.1 < s.workers.length
  fresh : ∀ (i : Nat) (w : Worker), s.workers[i]? = some w → w.pc = .calling → w.curPos ∉ s.calledIndices
  distinct : ∀ (i j : Nat) (w w' : Worker), s.workers[i]? = some w → s.workers[j]? = some w' →
    w.pc = .calling → w'.pc = .calling → w.curPos = w'.curPos → i = j
  cover : ∀ k : Int, 0 ≤ k → k ≤ s.atomicCount → k < poolBound countEnd base →
    k ∈ s.calledIndices ∨ ∃ (i : Nat) (w : Worker), s.workers[i]? = some w ∧ w.pc = .calling ∧ w.curPos = k
  noDeref : s.derefEnd = false

/-- Upper bound on the number of scheduling steps thread `i` still needs. -/
def stepsLeft (countEnd : Int) (s : PoolState) (i : Nat) : Nat :=
  match s.workers[i]? with
  | none => 0
  | some w =>
    match w.pc with
    | .atBarrier => 0
    | .claiming => 2 * (countEnd - 1 - s.atomicCount).toNat + 1
    | .calling => 2 * (countEnd - 1 - s.atomicCount).toNat + 2

/-! ## `CUnitHandler`: construction, `AddUnit`, `DeleteUnitNow` -/

/-- The fields of a `CUnit` object used by the handler.  `radius` is a `float` that is only
compared (`std::max`); an integer stands in for it. -/
structure UnitFields where
  id : Nat
  team : Nat
  unitDefId : Nat
  radius : Int
  deriving DecidableEq, Repr

/-- Compile-time switches read by the code: `NDEBUG` removes `assert`, `_DEBUG` adds the
duplicate sweep of `DeleteUnitNow`. -/
structure BuildFlags where
  NDEBUG : Bool
  DEBUG : Bool
  deriving DecidableEq, Repr

/-- The data members of `CUnitHandler` together with the unit objects they point to.
`unitsByDefs[team][def]` is kept as the set of triples `(team, def, unit)`. -/
structure CUnitHandler where
  activeUnits : List CUnit
  units : List (Option CUnit)
  freeUnitIDs : List Nat
  unitsToBeRemoved : List CUnit
  slowUpdateIterator : Nat
  maxUnits : Nat
  maxUnitRadius : Int
  unitsByDefs : List (Nat × Nat × CUnit)
  simNumExtraThreads : Nat
  heap : CUnit → UnitFields

/-- Exchange the elements at positions `i` and `j` (`std::iter_swap`). -/
def iterSwap (l : List Nat) (i j : Nat) : List Nat :=
  (l.set i (l.getD j 0)).set j (l.getD i 0)

/-- The loop of `std::random_shuffle(first, last, rng)`:
`for (i = first + 1; i != last; ++i) iter_swap(i, first + rng((i - first) + 1))`, where
`rng(N)` is the next raw draw reduced modulo `N`.  `draws` is the stream of raw draws of the
`SyncedRNG`, `k` the number of draws consumed so far; the first argument counts the remaining
iterations. -/
def shuffleLoop (draws : Nat → Nat) : Nat → Nat → Nat → List Nat → List Nat
  | 0, _, _, l => l
  | fuel + 1, i, k, l => shuffleLoop draws fuel (i + 1) (k + 1) (iterSwap l i (draws k % (i + 1)))

/-- Model of `std::random_shuffle(freeIDs.begin(), freeIDs.end(), rng)` started after `k`
draws; it consumes `freeIDs.size() - 1` draws. -/
def random_shuffle (draws : Nat → Nat) (k : Nat) (l : List Nat) : List Nat :=
  shuffleLoop draws (l.length - 1) 1 k l

/-- The constructor, as far as the unit tables are concerned.  `teamMaxUnits` lists
`teamHandler->Team(n)->maxUnits` for the active teams (`maxUnits` is an `unsigned int`),
`numExtraThreads` is the value computed for `simNumExtraThreads`, `draws` the raw draws of the
`SyncedRNG`, and `heap` the unit objects. -/
def CUnitHandler.ctor (teamMaxUnits : List Nat) (numExtraThreads : Nat) (draws : Nat → Nat)
    (heap : CUnit → UnitFields) : CUnitHandler :=
  let maxUnits := teamMaxUnits.foldl (fun acc m => (acc + m) % 2 ^ 32) 0
  let freeIDs := List.range maxUnits
  let freeIDs := random_shuffle draws 0 freeIDs
  let freeIDs := random_shuffle draws (freeIDs.length - 1) freeIDs
  { activeUnits := [],
    units := List.replicate maxUnits none,
    -- std::copy(..., std::front_inserter(freeUnitIDs)) reverses the order
    freeUnitIDs := freeIDs.reverse,
    unitsToBeRemoved := [],
    -- slowUpdateIterator = activeUnits.end()
    slowUpdateIterator := 0,
    maxUnits := maxUnits,
    maxUnitRadius := 0,
    unitsByDefs := [],
    simNumExtraThreads := numExtraThreads,
    heap := heap }

/-- Model of `CUnitHandler::AddUnit(unit)`.  `insertionPos` is the value of
`gs->randFloat() * activeUnits.size()` converted to `unsigned`; it is only used when the
list is not empty.  The result is `none` when `assert(false)` stops the program, else the
returned `bool` and the new state.  A list iterator keeps pointing at its node, so the
index of `slowUpdateIterator` moves up when the new node lands at or before it. -/
def AddUnit (flags : BuildFlags) (s : CUnitHandler) (unit : CUnit) (insertionPos : Nat) :
    Option (Bool × CUnitHandler) :=
  match s.freeUnitIDs with
  | [] => if flags.NDEBUG then some (false, s) else none
  | id :: rest =>
    let heap := Function.update s.heap unit { s.heap unit with id := id }
    let ui := if s.activeUnits = [] then 0 else insertionPos
    some (true,
      { s with
        heap := heap,
        freeUnitIDs := rest,
        units := s.units.set id (some unit),
        activeUnits := s.activeUnits.take ui ++ unit :: s.activeUnits.drop ui,
        slowUpdateIterator :=
          if ui ≤ s.slowUpdateIterator then s.slowUpdateIterator + 1 else s.slowUpdateIterator,
        unitsByDefs := List.insert ((heap unit).team, (heap unit).unitDefId, unit) s.unitsByDefs,
        maxUnitRadius := max (heap unit).radius s.maxUnitRadius })

/-- The search of the first loop of `DeleteUnitNow`: index of the first node whose value
is `delUnit`, counting from `i`. -/
def findUnit (delUnit : CUnit) : List CUnit → Nat → Option Nat
  | [], _ => none
  | unit :: usi, i => if unit = delUnit then some i else findUnit delUnit usi (i + 1)

/-- The `_DEBUG` sweep of `DeleteUnitNow`: erase every node whose value is `delUnit`.
Returns the remaining list; `cursor` follows the index of `slowUpdateIterator`.  The loop
does not touch `slowUpdateIterator`, so an iterator on a node it erases dangles; an index
cannot express that and is left on the successor here (`sweepNodes` is the sweep on the
nodes).  In a list of distinct units the sweep finds nothing to erase. -/
def debugSweep (delUnit : CUnit) : List CUnit → Nat → Nat → List CUnit × Nat
  | [], _, cursor => ([], cursor)
  | unit :: usi, i, cursor =>
    if unit = delUnit then
      debugSweep delUnit usi i (if i < cursor then cursor - 1 else cursor)
    else
      let r := debugSweep delUnit usi (i + 1) cursor
      (unit :: r.1, r.2)

/-- Model of `CUnitHandler::DeleteUnitNow(delUnit)` on the handler's data, with the list as
the sequence of its units and the cursor as an index, for a `delUnit` that points to a live
object: the call starts with `delUnit->ExecuteDelayOps()`, which reads the object and acts on
it, and `Team::RemoveUnit` and `delete delUnit` act outside of the handler's data.
`CUnitHandlerMem.DeleteUnitNow` is the same function on list nodes, iterators that can dangle
and object lifetimes; the theorem `DeleteUnitNow_refines` relates the two. -/
def DeleteUnitNow (flags : BuildFlags) (s : CUnitHandler) (delUnit : CUnit) : CUnitHandler :=
  let s1 :=
    match findUnit delUnit s.activeUnits 0 with
    | none => s
    | some i =>
      -- if (slowUpdateIterator != activeUnits.end() && *usi == *slowUpdateIterator) ++slowUpdateIterator;
      let cursor :=
        if s.slowUpdateIterator ≠ s.activeUnits.length
            ∧ s.activeUnits[s.slowUpdateIterator]? = some delUnit
        then s.slowUpdateIterator + 1 else s.slowUpdateIterator
      let delTeam := (s.heap delUnit).team
      let delType := (s.heap delUnit).unitDefId
      { s with
        activeUnits := s.activeUnits.eraseIdx i,
        slowUpdateIterator := if i < cursor then cursor - 1 else cursor,
        freeUnitIDs := s.freeUnitIDs ++ [(s.heap delUnit).id],
        unitsByDefs := s.unitsByDefs.erase (delTeam, delType, delUnit),
        units := s.units.set (s.heap delUnit).id none }
  if flags.DEBUG then
    let r := debugSweep delUnit s1.activeUnits 0 s1.slowUpdateIterator
    { s1 with activeUnits := r.1, slowUpdateIterator := r.2 }
  else s1

/-- Model of `CUnitHandler::DeleteUnit(unit)` on the handler's data. -/
def DeleteUnit (s : CUnitHandler) (unit : CUnit) : CUnitHandler :=
  { s with unitsToBeRemoved := s.unitsToBeRemoved ++ [unit] }

/-- The ids of the units in `activeUnits`, in list order. -/
def CUnitHandler.liveIds (s : CUnitHandler) : List Nat :=
  s.activeUnits.map (fun u => (s.heap u).id)

/-- A call of the handler's spawn/despawn interface. -/
inductive HandlerCall
  | addUnit (unit : CUnit) (insertionPos : Nat)
  | deleteUnitNow (unit : CUnit)
  deriving DecidableEq, Repr

/-- Run a sequence of calls; `none` when an `assert` stopped the program. -/
def runCalls (flags : BuildFlags) : CUnitHandler → List HandlerCall → Option CUnitHandler
  | s, [] => some s
  | s, .addUnit unit pos :: rest =>
    match AddUnit flags s unit pos with
    | none => none
    | some r => runCalls flags r.2 rest
  | s, .deleteUnitNow unit :: rest => runCalls flags (DeleteUnitNow flags s unit) rest

/-- No `AddUnit` call of the sequence is passed a unit that is in `activeUnits` at the time
of the call. -/
def addsAreFresh (flags : BuildFlags) : CUnitHandler → List HandlerCall → Bool
  | _, [] => true
  | s, .addUnit unit pos :: rest =>
    !s.activeUnits.contains unit &&
      match AddUnit flags s unit pos with
      | none => true
      | some r => addsAreFresh flags r.2 rest
  | s, .deleteUnitNow unit :: rest => addsAreFresh flags (DeleteUnitNow flags s unit) rest

/-- The id invariant of the handler: the units in `activeUnits` are distinct objects, and
their ids together with `freeUnitIDs` are the numbers `0 .. maxUnits-1`, each once. -/
def IdInv (s : CUnitHandler) : Prop :=
  s.activeUnits.Nodup ∧ (s.liveIds ++ s.freeUnitIDs).Perm (List.range s.maxUnits)

/-! ## The staggered `Unit::SlowUpdate` block of `CUnitHandler::Update` -/

/-- The loop
`for (; slowUpdateIterator != activeUnits.end() && n != 0; ++slowUpdateIterator) { unit->SlowUpdate(); n--; }`.
Returns the final cursor and the units on which `SlowUpdate` was called; the first argument
bounds the number of iterations. -/
def slowUpdateLoop (activeUnits : List CUnit) : Nat → Nat → Int → Nat × List CUnit
  | 0, it, _ => (it, [])
  | fuel + 1, it, n =>
    if it ≠ activeUnits.length ∧ n ≠ 0 then
      match activeUnits[it]? with
      | some unit =>
        let r := slowUpdateLoop activeUnits fuel (it + 1) (n - 1)
        (r.1, unit :: r.2)
      | none => (it, [])
    else (it, [])

/-- The `Unit::SlowUpdate` block of `Update` for frame `frameNum`: cursor reset every
`UNIT_SLOWUPDATE_RATE` frames, then `n = size / UNIT_SLOWUPDATE_RATE + 1` slow updates. -/
def Update_slowUpdate (RATE frameNum : Nat) (activeUnits : List CUnit) (slowUpdateIterator : Nat) :
    Nat × List CUnit :=
  let it := if frameNum &&& (RATE - 1) = 0 then 0 else slowUpdateIterator
  let n : Int := ((activeUnits.length / RATE + 1 : Nat) : Int)
  slowUpdateLoop activeUnits n.toNat it n

/-- The `SlowUpdate` calls of `count` consecutive `Update`s starting at frame `frameNum`,
with an active set that stays the same; returns the final cursor and the calls in order. -/
def slowUpdateWindow (RATE : Nat) (activeUnits : List CUnit) : Nat → Nat → Nat → Nat × List CUnit
  | 0, _, cursor => (cursor, [])
  | count + 1, frameNum, cursor =>
    let r := Update_slowUpdate RATE frameNum activeUnits cursor
    let r2 := slowUpdateWindow RATE activeUnits count (frameNum + 1) r.1
    (r2.1, r.2 ++ r2.2)

/-! ## `CUnitHandler::Update` as a trace of the calls it makes -/

/-- `CSolidObject::DelayOpType` (SolidObject.h). -/
inductive DelayOpType
  | SCRIPT_STOPMOVING | SCRIPT_STARTMOVING | SCRIPT_LANDED | SCRIPT_MOVERATE
  | CAI_SLOWUPDATE | CAI_STOPMOVE | FAIL | ACTIVATE | DEACTIVATE
  | BLOCK | UNBLOCK
  | UNITUNIT_COLLISION | UNITFEAT_COLLISION | BUGGEROFF | KILLUNIT | MOVE | UNRESERVEPAD
  | CHECKNOTIFY | MOVE_FEATURE | MOVE_UNIT | DODAMAGE | CHANGE_SPEED | KILL | SET_SKIDDING
  | UPDATE_MIDAIMPOS | ADDBUILDPOWER | GETAIRBASEPIECEPOS | MOVE_UNIT_OLDPOS
  deriving DecidableEq, Repr

/-- The calls `Update` makes into the rest of the engine, and the effects of the deferred
operations it drains. -/
inductive Event
  /-- `pathManager->SynchronizeThread()`, run by the constructor of `ScopedDisableThreading` -/
  | SynchronizeThread
  | DeleteSyncedObjects
  | DeleteSyncedUnits
  | DeleteUnitNow (unit : CUnit)
  | UpdateUnits
  | UpdateTicks
  | SetMultiThreadedSim (enabled : Bool)
  | SetThreadedPath (enabled : Bool)
  /-- `UpdateMoveType(unit)` -/
  | UpdateMoveType (unit : CUnit)
  /-- one queued operation of `unit` applied to live state inside `unit->ExecuteDelayOps()` -/
  | DelayOpApplied (unit : CUnit) (op : DelayOpType)
  /-- `units[id]->Block()` -/
  | Block (id : Nat)
  /-- `units[id]->UnBlock()` -/
  | UnBlock (id : Nat)
  | MergePathCaches
  /-- `CSolidObject::UpdateStableData()` -/
  | UpdateStableData
  | KillUnit (unit : CUnit)
  | DeleteUnit (unit : CUnit)
  /-- `unit->Update()` -/
  | UnitUpdate (unit : CUnit)
  /-- `unit->moveType->SlowUpdate()` -/
  | MoveTypeSlowUpdate (unit : CUnit)
  | QueUpdateLOS (id : Nat)
  | QueUpdateRadar (id : Nat)
  | QueUpdateQuad (id : Nat)
  | QueFindPad (id : Nat)
  /-- `LOG_L(L_ERROR, "Invalid slow update type")` -/
  | InvalidSlowUpdateType
  /-- `unit->SlowUpdate()` -/
  | SlowUpdate (unit : CUnit)
  deriving DecidableEq, Repr

/-- Modelled from the spec: `CUnit::ExecuteDelayOps` (Unit.cpp is not among the sources).
"`Drain(entity)` executes each queued operation against live state, in FIFO order, then
clears the queue"; a `BLOCK`/`UNBLOCK` operation is not applied here but reported through
the return value (positive for `Block`, negative for `UnBlock`, zero for neither), which
`Update` records in `CUnit::updateOps` and replays later ("Block/UnBlock is further delayed").
Returns the effects applied, in order, and the return value. -/
def ExecuteDelayOps (unit : CUnit) : List DelayOpType → List Event × Int
  | [] => ([], 0)
  | op :: rest =>
    let r := ExecuteDelayOps unit rest
    match op with
    | .BLOCK => (r.1, if r.2 = 0 then 1 else r.2)
    | .UNBLOCK => (r.1, if r.2 = 0 then -1 else r.2)
    | _ => (.DelayOpApplied unit op :: r.1, r.2)

/-- The flags `modInfo.multiThreadSim` and `modInfo.asyncPathFinder`. -/
structure ModInfo where
  multiThreadSim : Bool
  asyncPathFinder : Bool
  deriving DecidableEq, Repr

/-- Constants of `Unit.h` and `GlobalConstants.h` used by `Update`. -/
structure UnitConsts where
  UNIT_SLOWUPDATE_RATE : Nat
  MAX_UNITS : Nat
  UPDATE_LOS : Nat
  UPDATE_RADAR : Nat
  UPDATE_QUAD : Nat
  FIND_PAD : Nat

/-- What the engine outside of `Update` contributes to one tick: the frame number, the
deferred queue of each unit as the drain loop finds (and exhausts) it, the units whose death
script has finished, the flag table `CUnit::updateOps` as the slow-update phase leaves it,
the deferred queue of a pending unit as `DeleteUnitNow` finds it in the removal loop, and the
thread interleavings of the three pooled rounds. -/
structure TickEnv where
  frameNum : Nat
  delayOps : CUnit → List DelayOpType
  removalOps : CUnit → List DelayOpType
  deathScriptFinished : CUnit → Bool
  slowUpdateOps : Nat → Nat
  moveSched : List Nat
  slowSched : List Nat
  delayedSched : List Nat

/-- Steps that let every thread run until it reaches the barrier, thread after thread. -/
def completion (nThreads steps : Nat) : List Nat :=
  (List.range nThreads).flatMap (fun i => List.replicate steps i)

/-- A whole barrier round of a per-unit stage: the pool runs under `sched`, then any thread
not yet at the barrier runs on until it is (the caller only proceeds past the second
`simBarrier->wait()` when all threads have arrived). -/
def runRound (stage : SimThreadingStage) (countEnd : Int) (nThreads : Nat) (start : List CUnit)
    (sched : List Nat) : PoolState :=
  poolRun stage countEnd (poolInit nThreads start)
    (sched ++ completion nThreads (2 * countEnd.toNat + 1))

/-- Position of a pool thread in the DELAYED_SLOW_UPDATE_MOVETYPE loop. -/
inductive DelayedPc
  | claiming
  | running (nextPos : Int)
  | atBarrier
  deriving DecidableEq, Repr

/-- Shared state of a DELAYED_SLOW_UPDATE_MOVETYPE round: the counter, the threads, and the
trace of the sub-tasks run so far. -/
structure DelayedPool where
  atomicCount : Int
  pcs : List DelayedPc
  done : List (Nat × Int)
  trace : List Event
  deriving DecidableEq, Repr

/-- The body of one `case` of the DELAYED stage:
`for (int i = 0; i < MAX_UNITS; ++i) if (CUnit::updateOps[i] & flag) units[i]->Que...(false);`. -/
def delayedSubTask (c : UnitConsts) (updateOps : Nat → Nat) (flag : Nat) (call : Nat → Event) :
    List Event :=
  ((List.range c.MAX_UNITS).filter (fun i => updateOps i &&& flag ≠ 0)).map call

/-- The `switch(nextPos)` of the DELAYED stage. -/
def delayedSwitch (c : UnitConsts) (updateOps : Nat → Nat) (nextPos : Int) : List Event :=
  if nextPos = 0 then delayedSubTask c updateOps c.UPDATE_LOS .QueUpdateLOS
  else if nextPos = 1 then delayedSubTask c updateOps c.UPDATE_RADAR .QueUpdateRadar
  else if nextPos = 2 then delayedSubTask c updateOps c.UPDATE_QUAD .QueUpdateQuad
  else if nextPos = 3 then delayedSubTask c updateOps c.FIND_PAD .QueFindPad
  else [.InvalidSlowUpdateType]

/-- One scheduling step of thread `i` in the DELAYED stage (`countEnd = 4`). -/
def delayedStep (c : UnitConsts) (updateOps : Nat → Nat) (s : DelayedPool) (i : Nat) :
    DelayedPool :=
  match s.pcs[i]? with
  | none => s
  | some .atBarrier => s
  | some .claiming =>
    let nextPos := s.atomicCount + 1
    if nextPos ≥ 4 then { s with atomicCount := nextPos, pcs := s.pcs.set i .atBarrier }
    else { s with atomicCount := nextPos, pcs := s.pcs.set i (.running nextPos) }
  | some (.running nextPos) =>
    { s with done := s.done ++ [(i, nextPos)],
             trace := s.trace ++ delayedSwitch c updateOps nextPos,
             pcs := s.pcs.set i .claiming }

/-- A whole DELAYED round under `sched`, completed like `runRound`. -/
def runDelayedRound (c : UnitConsts) (updateOps : Nat → Nat) (nThreads : Nat) (sched : List Nat) :
    DelayedPool :=
  (sched ++ completion nThreads 9).foldl (delayedStep c updateOps)
    { atomicCount := -1, pcs := List.replicate nThreads .claiming, done := [], trace := [] }

/-- Model of `MoveTypeThreadFunc(0)` called from `Update` for `simThreadingStage = stage`:
the per-unit calls in the order they are made. -/
def MoveTypeThreadFunc (c : UnitConsts) (env : TickEnv) (s : CUnitHandler)
    (stage : SimThreadingStage) : List Event :=
  if s.simNumExtraThreads > 0 then
    match stage with
    | .PROJECTILE_COLLISION => []
    | .UPDATE_MOVETYPE =>
      (runRound stage (s.activeUnits.length : Int) (s.simNumExtraThreads + 1) s.activeUnits
        env.moveSched).calledUnits.map .UpdateMoveType
    | .SLOW_UPDATE_MOVETYPE =>
      (runRound stage (slowCount c.UNIT_SLOWUPDATE_RATE s.activeUnits) (s.simNumExtraThreads + 1)
        (slowStart c.UNIT_SLOWUPDATE_RATE env.frameNum s.activeUnits s.slowUpdateIterator)
        env.slowSched).calledUnits.map .MoveTypeSlowUpdate
    | .DELAYED_SLOW_UPDATE_MOVETYPE =>
      (runDelayedRound c env.slowUpdateOps (s.simNumExtraThreads + 1) env.delayedSched).trace
  else
    match stage with
    | .UPDATE_MOVETYPE =>
      (MoveTypeThreadFunc_inline stage c.UNIT_SLOWUPDATE_RATE env.frameNum s.activeUnits
        s.slowUpdateIterator).map .UpdateMoveType
    | .SLOW_UPDATE_MOVETYPE =>
      (MoveTypeThreadFunc_inline stage c.UNIT_SLOWUPDATE_RATE env.frameNum s.activeUnits
        s.slowUpdateIterator).map .MoveTypeSlowUpdate
    | _ => []

/-- The removal loop at the start of `Update`: `pending` is `unitsToBeRemoved` read from the
back.  `DeleteUnitNow(delUnit)` starts with `delUnit->ExecuteDelayOps()`, whatever the flags of
`modInfo` are: the effects of that drain follow the call in the trace (its return value is
dropped, so a queued `Block`/`UnBlock` is not replayed). -/
def removalLoop (flags : BuildFlags) (env : TickEnv) :
    List CUnit → CUnitHandler → CUnitHandler × List Event
  | [], s => ({ s with unitsToBeRemoved := [] }, [])
  | delUnit :: pending, s =>
    let r := removalLoop flags env pending (DeleteUnitNow flags s delUnit)
    (r.1, [.DeleteSyncedObjects, .DeleteSyncedUnits, .DeleteUnitNow delUnit]
      ++ (ExecuteDelayOps delUnit (env.removalOps delUnit)).1 ++ r.2)

/-- First block of `Update`: remove the pending units, then `eventHandler.UpdateUnits()`. -/
def Update_removal (flags : BuildFlags) (env : TickEnv) (s : CUnitHandler) :
    CUnitHandler × List Event :=
  if s.unitsToBeRemoved = [] then (s, [.UpdateUnits])
  else
    let r := removalLoop flags env s.unitsToBeRemoved.reverse s
    (r.1, [.SynchronizeThread] ++ r.2 ++ [.UpdateUnits])

/-- The drain loop of `Update` (lines 295-304): in list order, every unit with a non-empty
queue runs `ExecuteDelayOps`; a non-zero result is stored in `CUnit::updateOps[u->id]` and
the id appended to `blockOps`.  Returns the effects, the table and `blockOps`. -/
def drainLoop (env : TickEnv) (heap : CUnit → UnitFields) :
    List CUnit → (Nat → Int) → List Event × (Nat → Int) × List Nat
  | [], updateOps => ([], updateOps, [])
  | u :: rest, updateOps =>
    if env.delayOps u ≠ [] then
      let r := ExecuteDelayOps u (env.delayOps u)
      if r.2 ≠ 0 then
        let t := drainLoop env heap rest (Function.update updateOps (heap u).id r.2)
        (r.1 ++ t.1, t.2.1, (heap u).id :: t.2.2)
      else
        let t := drainLoop env heap rest updateOps
        (r.1 ++ t.1, t.2.1, t.2.2)
    else drainLoop env heap rest updateOps

/-- The replay loop of `Update` (lines 308-311). -/
def replayLoop (updateOps : Nat → Int) : List Nat → List Event
  | [] => []
  | id :: rest => (if updateOps id > 0 then Event.Block id else Event.UnBlock id) :: replayLoop updateOps rest

/-- The sequential drain step: the body of `if (modInfo.asyncPathFinder) { ... }`. -/
def Update_drain (m : ModInfo) (env : TickEnv) (s : CUnitHandler) (updateOps : Nat → Int) :
    List Event :=
  let d := drainLoop env s.heap s.activeUnits updateOps
  d.1 ++ [.SynchronizeThread] ++ replayLoop d.2.1 d.2.2
    ++ (if m.multiThreadSim then [.MergePathCaches] else []) ++ [.UpdateStableData]

/-- Second block of `Update` ("Unit::MoveType::Update"). -/
def Update_moveType (m : ModInfo) (c : UnitConsts) (env : TickEnv) (s : CUnitHandler)
    (updateOps : Nat → Int) : List Event :=
  [.SetMultiThreadedSim m.multiThreadSim, .SetThreadedPath m.asyncPathFinder]
    ++ MoveTypeThreadFunc c env s .UPDATE_MOVETYPE
    ++ [.SetMultiThreadedSim false]
    ++ (if m.asyncPathFinder then Update_drain m env s updateOps else [])

/-- Third block of `Update` ("Unit::Update"). -/
def Update_units (env : TickEnv) : List CUnit → CUnitHandler → CUnitHandler × List Event
  | [], s => (s, [])
  | unit :: rest, s =>
    if env.deathScriptFinished unit then
      let r := Update_units env rest (DeleteUnit s unit)
      (r.1, [.KillUnit unit, .DeleteUnit unit] ++ r.2)
    else
      let r := Update_units env rest s
      (r.1, .UnitUpdate unit :: r.2)

/-- Fourth block of `Update` ("Unit::MoveType::SlowUpdate"). -/
def Update_moveTypeSlow (m : ModInfo) (c : UnitConsts) (env : TickEnv) (s : CUnitHandler) :
    List Event :=
  [.SetMultiThreadedSim m.multiThreadSim]
    ++ MoveTypeThreadFunc c env s .SLOW_UPDATE_MOVETYPE
    ++ [.SetMultiThreadedSim false]
    ++ MoveTypeThreadFunc c env s .DELAYED_SLOW_UPDATE_MOVETYPE

/-- Model of `CUnitHandler::Update()`: the new handler state and the trace of the tick.
`updateOps` is the content of `CUnit::updateOps` at entry. -/
def Update (flags : BuildFlags) (m : ModInfo) (c : UnitConsts) (env : TickEnv) (s : CUnitHandler)
    (updateOps : Nat → Int) : CUnitHandler × List Event :=
  let r1 := Update_removal flags env s
  let t2 := Update_moveType m c env r1.1 updateOps
  let r3 := Update_units env r1.1.activeUnits r1.1
  let t4 := Update_moveTypeSlow m c env r3.1
  let r5 := Update_slowUpdate c.UNIT_SLOWUPDATE_RATE env.frameNum r3.1.activeUnits
    r3.1.slowUpdateIterator
  ({ r3.1 with slowUpdateIterator := r5.1 },
    r1.2 ++ [.UpdateTicks] ++ t2 ++ r3.2 ++ t4 ++ r5.2.map .SlowUpdate)

/-! ## `IPathManager`: the front end of the path thread -/

/-- A `float3`; the front end only stores and forwards these values. -/
structure float3 where
  x : Int
  y : Int
  z : Int
  deriving DecidableEq, Repr

/-- `ZeroVector`. -/
def ZeroVector : float3 := ⟨0, 0, 0⟩

/-- Conversion of an `unsigned int` value to `int` (two's complement, 32 bits). -/
def toInt32 (n : Nat) : Int :=
  if n % 2 ^ 32 < 2 ^ 31 then ((n % 2 ^ 32 : Nat) : Int) else ((n % 2 ^ 32 : Nat) : Int) - 2 ^ 32

/-- Conversion of an `int` value to `unsigned int`. -/
def toUInt32 (i : Int) : Nat := (i % 2 ^ 32).toNat

/-- `IPathManager::PathRequestType`. -/
inductive PathRequestType
  | PATH_NONE | REQUEST_PATH | NEXT_WAYPOINT | DELETE_PATH | UPDATE_PATH | TERRAIN_CHANGE
  | PATH_UPDATED
  deriving DecidableEq, Repr

/-- `IPathManager::PathData`, with the `deleted` member that `DeletePath` sets. -/
structure PathData where
  pathID : Int
  nextWayPoint : float3
  updated : Bool
  deleted : Bool
  deriving DecidableEq, Repr

/-- `PathData()`. -/
def PathData.default : PathData := ⟨-1, ZeroVector, false, false⟩

/-- `PathData(pID, nwp)`. -/
def PathData.mk2 (pID : Int) (nwp : float3) : PathData := ⟨pID, nwp, false, false⟩

/-- `IPathManager::PathOpData`; `goalRadius` shares its storage with `minDistance`.
Pointers (`moveDef`, `owner`) are numbers, `float`s are only forwarded. -/
structure PathOpData where
  type : PathRequestType
  moveDef : Nat
  startPos : float3
  goalPos : float3
  goalRadius : Int
  owner : Nat
  synced : Bool
  pathID : Nat
  numRetries : Int
  deriving DecidableEq, Repr

/-- `IPathManager::PathUpdateData`. -/
structure PathUpdateData where
  type : PathRequestType
  pathID : Nat
  updated : Bool
  wayPoint : float3
  deriving DecidableEq, Repr

/-- A `std::map` with `unsigned int` keys, kept as a list of entries in key order. -/
abbrev PMap (α : Type) := List (Nat × α)

/-- `m.find(k)`. -/
def PMap.find {α : Type} (m : PMap α) (k : Nat) : Option α :=
  match m with
  | [] => none
  | (k', v) :: rest => if k' = k then some v else PMap.find rest k

/-- `m[k] = v`. -/
def PMap.insert {α : Type} (m : PMap α) (k : Nat) (v : α) : PMap α :=
  match m with
  | [] => [(k, v)]
  | (k', v') :: rest =>
    if k < k' then (k, v) :: (k', v') :: rest
    else if k = k' then (k, v) :: rest
    else (k', v') :: PMap.insert rest k v

/-- `m.erase(k)`. -/
def PMap.erase {α : Type} (m : PMap α) (k : Nat) : PMap α :=
  m.filter (fun e => e.1 ≠ k)

/-- The arguments of `RequestPath`. -/
structure RequestArgs where
  moveDef : Nat
  startPos : float3
  goalPos : float3
  goalRadius : Int
  caller : Nat
  synced : Bool
  deriving DecidableEq, Repr

/-- The virtual functions `RequestPath(ST_CALL ...)`, `NextWayPoint(ST_CALL ...)`, ... of the
concrete path manager, acting on its search state `σ`.  Path ids are `unsigned int`. -/
structure PathBackend (σ : Type) where
  RequestPath : σ → RequestArgs → σ × Nat
  NextWayPoint : σ → Nat → float3 → Int → Int → Nat → Bool → σ × float3
  UpdatePath : σ → Nat → Nat → σ
  PathUpdated : σ → Nat → σ × Bool
  DeletePath : σ → Nat → σ

/-- A call of a virtual function of the concrete path manager, with its result. -/
inductive SearchCall
  | RequestPath (handle : Option Nat) (args : RequestArgs) (pid : Nat)
  | NextWayPoint (pid : Nat) (result : float3)
  | UpdatePath (pid : Nat)
  | PathUpdated (pid : Nat) (result : Bool)
  | DeletePath (pid : Nat)
  deriving DecidableEq, Repr

/-- The data members of `IPathManager`, the search state of the concrete manager, the part
of the batch `pops` the path thread has not processed yet, and the log of the calls made
into the concrete manager.  The `wait`/`cond` handshake is represented by its effect:
`SynchronizeThread` merges only once the path thread has emptied `pathOps` and `pops`. -/
structure IPathManager (σ : Type) where
  pathInfos : PMap PathData
  newPathInfos : PMap PathData
  pathOps : List PathOpData
  pops : List PathOpData
  pathUpdates : PMap (List PathUpdateData)
  newPathCache : PMap Nat
  pathRequestID : Nat
  hasThread : Bool
  search : σ
  searchLog : List SearchCall
  invalidLogged : Nat

/-- `IPathManager::GetPathData(cid)`. -/
def GetPathData {σ : Type} (pm : IPathManager σ) (cid : Nat) : Option PathData :=
  pm.pathInfos.find cid

/-- Modelled from the spec: `IPathManager::GetNewPathData` (its declaration is not in the
header among the sources).  A handle is "usable immediately ... even before the async
coordinator has processed it (returns a "not yet available" placeholder)": the entry
registered by the queued `RequestPath` in `newPathInfos` is found first, else the merged
entry of `pathInfos`. -/
def GetNewPathData {σ : Type} (pm : IPathManager σ) (cid : Nat) : Option PathData :=
  match pm.newPathInfos.find cid with
  | some p => some p
  | none => GetPathData pm cid

/-- `IPathManager::GetPathID(cid)`, an `int`. -/
def GetPathID {σ : Type} (pm : IPathManager σ) (cid : Nat) : Int :=
  match pm.newPathCache.find cid with
  | some pid => toInt32 pid
  | none =>
    match GetPathData pm cid with
    | none => -1
    | some p => p.pathID

/-- `pathUpdates[k].push_back(u)`. -/
def pushUpdate (m : PMap (List PathUpdateData)) (k : Nat) (u : PathUpdateData) :
    PMap (List PathUpdateData) :=
  m.insert k ((m.find k).getD [] ++ [u])

/-- `IPathManager::RequestPath`, the public wrapper.  Returns the handle. -/
def RequestPath {σ : Type} (b : PathBackend σ) (threadedPath asyncPathFinder : Bool)
    (pm : IPathManager σ) (a : RequestArgs) : Nat × IPathManager σ :=
  if !threadedPath then
    if !asyncPathFinder then
      let r := b.RequestPath pm.search a
      (r.2 % 2 ^ 32,
        { pm with search := r.1, searchLog := pm.searchLog ++ [.RequestPath none a (r.2 % 2 ^ 32)] })
    else
      let cid := (pm.pathRequestID + 1) % 2 ^ 32
      let r := b.RequestPath pm.search a
      (cid,
        { pm with
          pathRequestID := cid,
          search := r.1,
          searchLog := pm.searchLog ++ [.RequestPath (some cid) a (r.2 % 2 ^ 32)],
          pathInfos := pm.pathInfos.insert cid (PathData.mk2 (toInt32 (r.2 % 2 ^ 32)) a.startPos) })
  else
    let cid := (pm.pathRequestID + 1) % 2 ^ 32
    (cid,
      { pm with
        pathRequestID := cid,
        newPathInfos := pm.newPathInfos.insert cid (PathData.mk2 (-1) a.startPos),
        pathOps := pm.pathOps ++
          [⟨.REQUEST_PATH, a.moveDef, a.startPos, a.goalPos, a.goalRadius, a.caller, a.synced,
            cid, 0⟩] })

/-- `IPathManager::NextWayPoint`, the public wrapper.  Returns the waypoint. -/
def NextWayPoint {σ : Type} (b : PathBackend σ) (threadedPath asyncPathFinder : Bool)
    (pm : IPathManager σ) (pathID : Nat) (callerPos : float3) (minDistance : Int)
    (numRetries : Int) (owner : Nat) (synced : Bool) : float3 × IPathManager σ :=
  if !threadedPath then
    if !asyncPathFinder then
      let r := b.NextWayPoint pm.search pathID callerPos minDistance numRetries owner synced
      (r.2, { pm with search := r.1, searchLog := pm.searchLog ++ [.NextWayPoint pathID r.2] })
    else
      match GetPathData pm pathID with
      | none => (callerPos, pm)
      | some p =>
        if p.pathID < 0 then (callerPos, pm)
        else
          let r := b.NextWayPoint pm.search (toUInt32 p.pathID) callerPos minDistance numRetries
            owner synced
          (r.2,
            { pm with
              search := r.1,
              searchLog := pm.searchLog ++ [.NextWayPoint (toUInt32 p.pathID) r.2],
              pathInfos := pm.pathInfos.insert pathID { p with nextWayPoint := r.2 } })
  else
    let p := GetNewPathData pm pathID
    let pm' := { pm with pathOps := pm.pathOps ++
      [⟨.NEXT_WAYPOINT, 0, callerPos, ZeroVector, minDistance, owner, synced, pathID, numRetries⟩] }
    match p with
    | none => (callerPos, pm')
    | some p => if p.pathID < 0 then (callerPos, pm') else (p.nextWayPoint, pm')

/-- `IPathManager::PathUpdated`, the public wrapper. -/
def PathUpdated {σ : Type} (b : PathBackend σ) (threadedPath asyncPathFinder : Bool)
    (pm : IPathManager σ) (pathID : Nat) : Bool × IPathManager σ :=
  if !threadedPath then
    if !asyncPathFinder then
      let r := b.PathUpdated pm.search pathID
      (r.2, { pm with search := r.1, searchLog := pm.searchLog ++ [.PathUpdated pathID r.2] })
    else
      match GetPathData pm pathID with
      | none => (false, pm)
      | some p =>
        if p.pathID ≥ 0 then
          let r := b.PathUpdated pm.search (toUInt32 p.pathID)
          (r.2,
            { pm with search := r.1,
                      searchLog := pm.searchLog ++ [.PathUpdated (toUInt32 p.pathID) r.2] })
        else (false, pm)
  else
    let p := GetNewPathData pm pathID
    let pm' := { pm with pathOps := pm.pathOps ++
      [⟨.PATH_UPDATED, 0, ZeroVector, ZeroVector, 0, 0, false, pathID, 0⟩] }
    match p with
    | none => (false, pm')
    | some p => if p.pathID ≥ 0 then (p.updated, pm') else (false, pm')

/-- `IPathManager::UpdatePath`, the public wrapper. -/
def UpdatePath {σ : Type} (b : PathBackend σ) (threadedPath asyncPathFinder : Bool)
    (pm : IPathManager σ) (owner : Nat) (pathID : Nat) : IPathManager σ :=
  if !threadedPath then
    if !asyncPathFinder then
      { pm with search := b.UpdatePath pm.search owner pathID,
                searchLog := pm.searchLog ++ [.UpdatePath pathID] }
    else
      match GetPathData pm pathID with
      | none => pm
      | some p =>
        if p.pathID ≥ 0 then
          { pm with search := b.UpdatePath pm.search owner (toUInt32 p.pathID),
                    searchLog := pm.searchLog ++ [.UpdatePath (toUInt32 p.pathID)] }
        else pm
  else
    { pm with pathOps := pm.pathOps ++
      [⟨.UPDATE_PATH, 0, ZeroVector, ZeroVector, 0, owner, false, pathID, 0⟩] }

/-- Set `p->deleted = true` on the entry `GetNewPathData` returned for `cid`. -/
def markDeleted {σ : Type} (pm : IPathManager σ) (cid : Nat) : IPathManager σ :=
  match pm.newPathInfos.find cid with
  | some p => { pm with newPathInfos := pm.newPathInfos.insert cid { p with deleted := true } }
  | none =>
    match pm.pathInfos.find cid with
    | some p => { pm with pathInfos := pm.pathInfos.insert cid { p with deleted := true } }
    | none => pm

/-- `IPathManager::DeletePath`, the public wrapper. -/
def DeletePath {σ : Type} (b : PathBackend σ) (threadedPath asyncPathFinder : Bool)
    (pm : IPathManager σ) (pathID : Nat) : IPathManager σ :=
  if !threadedPath then
    if !asyncPathFinder then
      { pm with search := b.DeletePath pm.search pathID,
                searchLog := pm.searchLog ++ [.DeletePath pathID] }
    else
      let pm1 : IPathManager σ :=
        match GetPathData pm pathID with
        | none => pm
        | some p =>
          if p.pathID ≥ 0 then
            { pm with search := b.DeletePath pm.search (toUInt32 p.pathID),
                      searchLog := pm.searchLog ++ [.DeletePath (toUInt32 p.pathID)] }
          else pm
      { pm1 with pathInfos := pm1.pathInfos.erase pathID }
  else
    let pm' := markDeleted pm pathID
    { pm' with pathOps := pm'.pathOps ++
      [⟨.DELETE_PATH, 0, ZeroVector, ZeroVector, 0, 0, false, pathID, 0⟩] }

/-- `IPathManager::IsFailPath`. -/
def IsFailPath {σ : Type} (asyncPathFinder : Bool) (pm : IPathManager σ) (pathID : Nat) : Bool :=
  if !asyncPathFinder then false
  else
    match GetNewPathData pm pathID with
    | none => true
    | some p => p.pathID == 0

/-- The body of the `for` loop of `AsynchronousThread` for one operation `cid`.  `pid` is an
`unsigned int`, so `GetPathID`'s result is converted and `pid >= 0` compares unsigned. -/
def threadOp {σ : Type} (b : PathBackend σ) (pm : IPathManager σ) (cid : PathOpData) :
    IPathManager σ :=
  match cid.type with
  | .REQUEST_PATH =>
    let a : RequestArgs :=
      ⟨cid.moveDef, cid.startPos, cid.goalPos, cid.goalRadius, cid.owner, cid.synced⟩
    let r := b.RequestPath pm.search a
    let pid := r.2 % 2 ^ 32
    { pm with
      search := r.1,
      searchLog := pm.searchLog ++ [SearchCall.RequestPath (some cid.pathID) a pid],
      newPathCache := pm.newPathCache.insert cid.pathID pid,
      pathUpdates := pushUpdate pm.pathUpdates cid.pathID ⟨.REQUEST_PATH, pid, false, ZeroVector⟩ }
  | .NEXT_WAYPOINT =>
    let pid := toUInt32 (GetPathID pm cid.pathID)
    if 0 ≤ pid then
      let r := b.NextWayPoint pm.search pid cid.startPos cid.goalRadius cid.numRetries cid.owner
        cid.synced
      { pm with
        search := r.1,
        searchLog := pm.searchLog ++ [.NextWayPoint pid r.2],
        pathUpdates := pushUpdate pm.pathUpdates cid.pathID ⟨.NEXT_WAYPOINT, 0, false, r.2⟩ }
    else pm
  | .UPDATE_PATH =>
    let pid := toUInt32 (GetPathID pm cid.pathID)
    if 0 ≤ pid then
      { pm with search := b.UpdatePath pm.search cid.owner pid,
                searchLog := pm.searchLog ++ [.UpdatePath pid] }
    else pm
  | .PATH_UPDATED =>
    let pid := toUInt32 (GetPathID pm cid.pathID)
    if 0 ≤ pid then
      let r := b.PathUpdated pm.search pid
      { pm with
        search := r.1,
        searchLog := pm.searchLog ++ [.PathUpdated pid r.2],
        pathUpdates := pushUpdate pm.pathUpdates cid.pathID ⟨.PATH_UPDATED, 0, r.2, ZeroVector⟩ }
    else pm
  | .DELETE_PATH =>
    let pid := toUInt32 (GetPathID pm cid.pathID)
    let pm1 : IPathManager σ :=
      if 0 ≤ pid then
        { pm with
          search := b.DeletePath pm.search pid,
          searchLog := pm.searchLog ++ [.DeletePath pid],
          pathUpdates := pushUpdate pm.pathUpdates cid.pathID ⟨.DELETE_PATH, 0, false, ZeroVector⟩ }
      else pm
    { pm1 with newPathCache := pm1.newPathCache.erase cid.pathID }
  | _ => { pm with invalidLogged := pm.invalidLogged + 1 }

/-- One step of the path thread: process the next operation of its batch, or, when the
batch is used up, swap in `pathOps` (`pathOps.swap(pops)`). -/
def threadStep {σ : Type} (b : PathBackend σ) (pm : IPathManager σ) : IPathManager σ :=
  match pm.pops with
  | cid :: rest => threadOp b { pm with pops := rest } cid
  | [] => { pm with pops := pm.pathOps, pathOps := [] }

/-- What can happen in threaded-path mode between two `SynchronizeThread` calls: the
simulation calls a queued-form wrapper, or the path thread takes a step. -/
inductive PathStep
  | requestPath (a : RequestArgs)
  | nextWayPoint (pathID : Nat) (callerPos : float3) (minDistance : Int) (numRetries : Int)
      (owner : Nat) (synced : Bool)
  | pathUpdated (pathID : Nat)
  | updatePath (owner : Nat) (pathID : Nat)
  | deletePath (pathID : Nat)
  | thread
  deriving DecidableEq, Repr

/-- Effect of one step in threaded-path mode (`Threading::threadedPath` and
`modInfo.asyncPathFinder` both set). -/
def pathStep {σ : Type} (b : PathBackend σ) (pm : IPathManager σ) : PathStep → IPathManager σ
  | .requestPath a => (RequestPath b true true pm a).2
  | .nextWayPoint h pos d n o sy => (NextWayPoint b true true pm h pos d n o sy).2
  | .pathUpdated h => (PathUpdated b true true pm h).2
  | .updatePath o h => UpdatePath b true true pm o h
  | .deletePath h => DeletePath b true true pm h
  | .thread => threadStep b pm

/-- Run a sequence of steps. -/
def pathRun {σ : Type} (b : PathBackend σ) (pm : IPathManager σ) (steps : List PathStep) :
    IPathManager σ :=
  steps.foldl (pathStep b) pm

/-- The units at positions `a .. b-1` of the list. -/
def seg (l : List CUnit) (a b : Nat) : List CUnit := (l.take b).drop a

/-- Cursor position after `j` slow-update steps of a cycle over `N` units with `rate` frames
per cycle. -/
def stagePos (rate N j : Nat) : Nat := min (j * (N / rate + 1)) N

/-- The immediate effects of draining `u` in the drain loop of `Update`. -/
def drainEffects (env : TickEnv) (u : CUnit) : List Event :=
  if env.delayOps u ≠ [] then (ExecuteDelayOps u (env.delayOps u)).1 else []

/-- The replayed `Block`/`UnBlock` call of `u`, if `u->ExecuteDelayOps()` reported one. -/
def replayEffects (env : TickEnv) (heap : CUnit → UnitFields) (u : CUnit) : List Event :=
  if env.delayOps u ≠ [] ∧ (ExecuteDelayOps u (env.delayOps u)).2 ≠ 0 then
    [if (ExecuteDelayOps u (env.delayOps u)).2 > 0 then Event.Block (heap u).id
     else Event.UnBlock (heap u).id]
  else []

/-- The path thread runs until it is idle (`pathOps` and its batch both empty): the rest of
its batch, the swap, and the operations swapped in are `pops.size() + 1 + pathOps.size()`
steps. -/
def threadDrain {σ : Type} (b : PathBackend σ) (pm : IPathManager σ) : IPathManager σ :=
  pathRun b pm (List.replicate (pm.pops.length + 1 + pm.pathOps.length) .thread)

/-- The `switch(u.type)` of `SynchronizeThread` for one update `u` of handle `k`;
`pathInfos[k]` default-constructs a missing entry. -/
def applyUpdate (infos : PMap PathData) (k : Nat) (u : PathUpdateData) : PMap PathData :=
  match u.type with
  | .REQUEST_PATH =>
    infos.insert k { (infos.find k).getD PathData.default with pathID := toInt32 u.pathID }
  | .NEXT_WAYPOINT =>
    infos.insert k { (infos.find k).getD PathData.default with nextWayPoint := u.wayPoint }
  | .PATH_UPDATED =>
    infos.insert k { (infos.find k).getD PathData.default with updated := u.updated }
  | .DELETE_PATH => infos.erase k
  | _ => infos

/-- The two merge loops of `SynchronizeThread`. -/
def mergeUpdates (infos : PMap PathData) (updates : PMap (List PathUpdateData)) : PMap PathData :=
  updates.foldl (fun acc e => e.2.foldl (fun acc2 u => applyUpdate acc2 e.1 u) acc) infos

/-- `IPathManager::SynchronizeThread()`: nothing without a path thread; else wait until the
thread is idle, copy `newPathInfos` into `pathInfos`, apply `pathUpdates`, clear. -/
def SynchronizeThread {σ : Type} (b : PathBackend σ) (pm : IPathManager σ) : IPathManager σ :=
  if !pm.hasThread then pm
  else
    let pm1 := threadDrain b pm
    let infos := pm1.newPathInfos.foldl (fun acc e => acc.insert e.1 e.2) pm1.pathInfos
    { pm1 with
      pathInfos := mergeUpdates infos pm1.pathUpdates,
      newPathInfos := [],
      newPathCache := [],
      pathUpdates := [] }

/-- The operation a queued `RequestPath` with arguments `a` pushes for handle `h`. -/
def requestOp (h : Nat) (a : RequestArgs) : PathOpData :=
  ⟨.REQUEST_PATH, a.moveDef, a.startPos, a.goalPos, a.goalRadius, a.caller, a.synced, h, 0⟩

/-- `applyUpdate` seen from the entry of the handle it is applied to. -/
def applyUpdateOpt (p : Option PathData) (u : PathUpdateData) : Option PathData :=
  match u.type with
  | .REQUEST_PATH => some { p.getD PathData.default with pathID := toInt32 u.pathID }
  | .NEXT_WAYPOINT => some { p.getD PathData.default with nextWayPoint := u.wayPoint }
  | .PATH_UPDATED => some { p.getD PathData.default with updated := u.updated }
  | .DELETE_PATH => none
  | _ => p

/-- An operation that creates or deletes handle `h` on the path thread. -/
def PathOpData.resets (o : PathOpData) (h : Nat) : Prop :=
  o.pathID = h ∧ (o.type = .DELETE_PATH ∨ o.type = .REQUEST_PATH)

/-- The step is a queued `RequestPath`. -/
def PathStep.isRequest : PathStep → Bool
  | .requestPath _ => true
  | _ => false

/-- The request of handle `h` is still queued for the path thread, and no operation queued
behind it creates or deletes `h`. -/
def RequestPending {σ : Type} (h : Nat) (a : RequestArgs) (pm : IPathManager σ) : Prop :=
  ∃ pre post, pm.pops ++ pm.pathOps = pre ++ requestOp h a :: post ∧ ∀ o ∈ post, ¬ o.resets h

/-- The path thread has processed the request of handle `h`: the search call is in the log
after `log0`, its result `pid` is in the handle's update list with nothing after it that
creates or deletes the handle, and no such operation is queued. -/
def RequestDone {σ : Type} (log0 : List SearchCall) (h : Nat) (a : RequestArgs) (pid : Nat)
    (pm : IPathManager σ) : Prop :=
  ∃ us rest new,
    pm.pathUpdates.find h = some (us ++ ⟨.REQUEST_PATH, pid, false, ZeroVector⟩ :: rest) ∧
    (∀ u ∈ rest, u.type ≠ .REQUEST_PATH ∧ u.type ≠ .DELETE_PATH) ∧
    (∀ o ∈ pm.pops ++ pm.pathOps, ¬ o.resets h) ∧
    pm.searchLog = log0 ++ new ∧ SearchCall.RequestPath (some h) a pid ∈ new ∧ pid < 2 ^ 32

/-- What holds of handle `h` between its queued `RequestPath` and the next merge. -/
structure RequestInv {σ : Type} (log0 : List SearchCall) (h : Nat) (a : RequestArgs)
    (pm : IPathManager σ) : Prop where
  registered : ∃ p, pm.newPathInfos.find h = some p
  keys : (pm.pathUpdates.map Prod.fst).Pairwise (fun k k' => k < k')
  hasThread : pm.hasThread = true
  status : RequestPending h a pm ∨ ∃ pid, RequestDone log0 h a pid pm
  log : ∃ new, pm.searchLog = log0 ++ new

/-- A small concrete path manager used to instantiate the theorems: its search state counts
the paths handed out, `RequestPath` returns the next number, `NextWayPoint` the caller's
position. -/
def countingBackend : PathBackend Nat where
  RequestPath := fun n _ => (n + 1, n + 1)
  NextWayPoint := fun n _ pos _ _ _ _ => (n, pos)
  UpdatePath := fun n _ _ => n
  PathUpdated := fun n _ => (n, false)
  DeletePath := fun n _ => n

/-- A freshly constructed `IPathManager` (`pathRequestID(0)`), with or without path thread. -/
def IPathManager.fresh (hasThread : Bool) : IPathManager Nat :=
  { pathInfos := [], newPathInfos := [], pathOps := [], pops := [], pathUpdates := [],
    newPathCache := [], pathRequestID := 0, hasThread := hasThread, search := 0,
    searchLog := [], invalidLogged := 0 }

/-- Request arguments used to instantiate the theorems. -/
def sampleArgs : RequestArgs :=
  { moveDef := 1, startPos := ⟨1, 2, 3⟩, goalPos := ⟨7, 8, 9⟩, goalRadius := 8, caller := 5,
    synced := true }

/-- The operation a queued `DeletePath(h)` pushes. -/
def deleteOp (h : Nat) : PathOpData :=
  ⟨.DELETE_PATH, 0, ZeroVector, ZeroVector, 0, 0, false, h, 0⟩

/-- What holds of handle `h` after a queued `DeletePath(h)` while only the path thread runs:
the delete operation is the last one queued, or the thread is idle and the handle's update
list ends with the `DELETE_PATH` result. -/
def DeleteInv {σ : Type} (h : Nat) (pm : IPathManager σ) : Prop :=
  pm.hasThread = true ∧ (pm.pathUpdates.map Prod.fst).Pairwise (fun k k' => k < k') ∧
  ((∃ pre, pm.pops ++ pm.pathOps = pre ++ [deleteOp h]) ∨
   (pm.pops = [] ∧ pm.pathOps = [] ∧
     ∃ xs, pm.pathUpdates.find h = some (xs ++ [⟨.DELETE_PATH, 0, false, ZeroVector⟩])))

/-- The state `SynchronizeThread` leaves behind when a path thread exists: the thread is
idle and the three hand-over containers are empty. -/
def Synchronized {σ : Type} (pm : IPathManager σ) : Prop :=
  pm.hasThread = true ∧ pm.newPathInfos = [] ∧ pm.pathOps = [] ∧ pm.pops = [] ∧
  pm.pathUpdates = [] ∧ pm.newPathCache = []

/-- The `switch(u.type)` of `SynchronizeThread` on an entry that exists, for a result other
than `DELETE_PATH`. -/
def applyResult (p : PathData) (u : PathUpdateData) : PathData :=
  match u.type with
  | .REQUEST_PATH => { p with pathID := toInt32 u.pathID }
  | .NEXT_WAYPOINT => { p with nextWayPoint := u.wayPoint }
  | .PATH_UPDATED => { p with updated := u.updated }
  | _ => p

/-- `CUnitHandler::MaxUnits()`. -/
def MaxUnits (s : CUnitHandler) : Nat := s.maxUnits

/-- `CUnitHandler::GetUnitUnsafe(unitID)`, that is `units[unitID]`: `none` when the index is
outside of the vector, else the stored pointer (`some none` is `NULL`). -/
def GetUnitUnsafe (s : CUnitHandler) (unitID : Nat) : Option (Option CUnit) :=
  s.units[unitID]?

/-- `CUnitHandler::GetUnit(unitID)`:
`return (unitID < MaxUnits()? units[unitID]: NULL);`, with `unitID` an `unsigned int`. -/
def GetUnit (s : CUnitHandler) (unitID : Nat) : Option (Option CUnit) :=
  if unitID < MaxUnits s then s.units[unitID]? else some none

/-- The units table mirrors the active set: it has `maxUnits` slots, and slot `id` holds
unit `u` exactly when `u` is active and carries that id. -/
def TableInv (s : CUnitHandler) : Prop :=
  s.units.length = s.maxUnits ∧
  ∀ (id : Nat) (u : CUnit),
    s.units[id]? = some (some u) ↔ (u ∈ s.activeUnits ∧ (s.heap u).id = id)

/-- The handler with unit limit 3 after adding units 10 and 11 and deleting 10, used to
instantiate the theorems. -/
def sampleHandler : CUnitHandler :=
  (runCalls ⟨true, false⟩ (CUnitHandler.ctor [3] 0 (fun k => k) (fun _ => ⟨0, 0, 0, 0⟩))
    [.addUnit 10 0, .addUnit 11 1, .deleteUnitNow 10]).getD
    (CUnitHandler.ctor [3] 0 (fun k => k) (fun _ => ⟨0, 0, 0, 0⟩))

/-- The unit of a `DeleteUnitNow` call in the trace. -/
def Event.deletedNow : Event → Option CUnit
  | .DeleteUnitNow u => some u
  | _ => none

/-- The subset size in the spec's words, `ceil(activeCount / STAGGER_RATE)`. -/
def specSlowCount (RATE activeCount : Nat) : Nat := (activeCount + RATE - 1) / RATE

/-! ## Single-precision arithmetic of the insertion index of `AddUnit` -/

/-- A finite non-negative `float` (IEEE-754 single precision): the value `mant · 2^expo`.
A value of the format has `mant < 2^24`. -/
structure float where
  mant : Nat
  expo : Int
  deriving DecidableEq, Repr

/-- The number a `float` stands for. -/
def float.toRat (f : float) : ℚ := (f.mant : ℚ) * 2 ^ f.expo

/-- The number of bits of `n` beyond 24: the least `d` with `n / 2^d < 2^24`.  The first
argument bounds the number of halvings. -/
def excessBits : Nat → Nat → Nat
  | 0, _ => 0
  | fuel + 1, n => if n < 2 ^ 24 then 0 else excessBits fuel (n / 2) + 1

/-- Rounding of the exact value `n · 2^e` to the 24 significant bits of a `float`, to
nearest and ties to even (the default rounding mode): when `n` has more than 24 bits the
`d` lowest are dropped, and the kept part is incremented when the dropped part is above one
half of its last place, or exactly one half with the kept part odd.  Overflow and underflow
are outside of the model (the products formed here are below `2^32`, and their last place is
that of the draw or above). -/
def roundToFloat (n : Nat) (e : Int) : float :=
  if n < 2 ^ 24 then ⟨n, e⟩
  else
    let d := excessBits n n
    let q := n / 2 ^ d
    let rest := n % 2 ^ d
    if 2 ^ (d - 1) < rest ∨ (rest = 2 ^ (d - 1) ∧ q % 2 = 1) then ⟨q + 1, e + d⟩
    else ⟨q, e + d⟩

/-- The product `a * b` of two `float`s: the exact product, rounded. -/
def float.mul (a b : float) : float := roundToFloat (a.mant * b.mant) (a.expo + b.expo)

/-- Conversion of an unsigned integer (`activeUnits.size()`) to `float`. -/
def float.ofUInt (n : Nat) : float := roundToFloat n 0

/-- Conversion of a non-negative `float` to `unsigned int`: the fraction is discarded. -/
def float.toUInt (f : float) : Nat :=
  if 0 ≤ f.expo then f.mant * 2 ^ f.expo.toNat else f.mant / 2 ^ (-f.expo).toNat

/-- The initialiser of line 160,
`const unsigned int insertionPos = gs->randFloat() * activeUnits.size();`, for the draw `r`
returned by `gs->randFloat()` and a list of `size` units: the size is converted to `float`,
the product is formed in single precision and converted to `unsigned int`. -/
def insertionPos (r : float) (size : Nat) : Nat := (r.mul (float.ofUInt size)).toUInt

/-- The values `(path id, next waypoint, updated)` of a handle-table entry. -/
def PathData.core (p : PathData) : Int × float3 × Bool := (p.pathID, p.nextWayPoint, p.updated)

/-- The operation that the queued form of a query wrapper (`NextWayPoint`, `PathUpdated`,
`UpdatePath`, `DeletePath`) pushes; `none` for the other steps. -/
def PathStep.queuedOp : PathStep → Option PathOpData
  | .nextWayPoint h pos d n o sy => some ⟨.NEXT_WAYPOINT, 0, pos, ZeroVector, d, o, sy, h, n⟩
  | .pathUpdated h => some ⟨.PATH_UPDATED, 0, ZeroVector, ZeroVector, 0, 0, false, h, 0⟩
  | .updatePath o h => some ⟨.UPDATE_PATH, 0, ZeroVector, ZeroVector, 0, o, false, h, 0⟩
  | .deletePath h => some ⟨.DELETE_PATH, 0, ZeroVector, ZeroVector, 0, 0, false, h, 0⟩
  | _ => none

/-- The handle a query step is called with. -/
def PathStep.handle : PathStep → Option Nat
  | .nextWayPoint h _ _ _ _ _ => some h
  | .pathUpdated h => some h
  | .updatePath _ h => some h
  | .deletePath h => some h
  | _ => none

/-- The tag a query step stands for. -/
def PathStep.tag : PathStep → Option PathRequestType
  | .nextWayPoint _ _ _ _ _ _ => some .NEXT_WAYPOINT
  | .pathUpdated _ => some .PATH_UPDATED
  | .updatePath _ _ => some .UPDATE_PATH
  | .deletePath _ => some .DELETE_PATH
  | _ => none

/-- The tags with a `case` in the `switch(cid.type)` of `AsynchronousThread`. -/
def PathRequestType.isOp : PathRequestType → Bool
  | .REQUEST_PATH | .NEXT_WAYPOINT | .UPDATE_PATH | .PATH_UPDATED | .DELETE_PATH => true
  | _ => false

/-- The tags with a `case` in the `switch(u.type)` of `SynchronizeThread`. -/
def PathRequestType.isUpdate : PathRequestType → Bool
  | .REQUEST_PATH | .NEXT_WAYPOINT | .PATH_UPDATED | .DELETE_PATH => true
  | _ => false

/-- The log side of the `switch(u.type)` of `SynchronizeThread`: the number of
"Invalid path update" lines the merge of `updates` writes. -/
def mergeLogs (updates : PMap (List PathUpdateData)) : Nat :=
  (updates.map (fun e => (e.2.filter (fun u =>
    match u.type with
    | .REQUEST_PATH => false
    | .NEXT_WAYPOINT => false
    | .PATH_UPDATED => false
    | .DELETE_PATH => false
    | _ => true)).length)).sum

/-- Every queued operation and every pending result carries a tag its consumer handles. -/
def TagsOk {σ : Type} (pm : IPathManager σ) : Prop :=
  (∀ o ∈ pm.pops ++ pm.pathOps, o.type.isOp = true) ∧
  (∀ e ∈ pm.pathUpdates, ∀ u ∈ e.2, u.type.isUpdate = true)

/-! ## The worker count computed by the constructor of `CUnitHandler` -/

/-- The value of `numThreads` (a `size_t`) after the `if (numThreads == 0)` block of the
constructor.  `simThreadCount` is `configHandler->GetInt("SimThreadCount")`, `lcpu` and
`pcpu` the `unsigned` core counts, `numMainThreads` and `numMainSimThreads` the values of
`GML::NumMainThreads()` and `GML::NumMainSimThreads()`.  The second argument of `std::max`
has type `unsigned`, so `lcpu - T * (int)(lcpu / pcpu) + M` is computed modulo 2^32. -/
def ctorNumThreads (simThreadCount : Int) (lcpu pcpu : Nat)
    (numMainThreads numMainSimThreads : Int) : Nat :=
  let numThreads := (max 0 simThreadCount).toNat
  if numThreads = 0 then
    max (toUInt32 numMainSimThreads)
      (toUInt32 ((lcpu : Int) - numMainThreads * toInt32 (lcpu / pcpu) + numMainSimThreads))
  else numThreads

/-- The value the constructor computes for `simNumExtraThreads`:
`(!modInfo.multiThreadSim) ? 0 : std::max((size_t)0, numThreads - GML::NumMainSimThreads())`,
the subtraction being done in `size_t`, which has `sizeBits` bits. -/
def ctorSimNumExtraThreads (sizeBits : Nat) (multiThreadSim : Bool) (simThreadCount : Int)
    (lcpu pcpu : Nat) (numMainThreads numMainSimThreads : Int) : Nat :=
  if !multiThreadSim then 0
  else
    max 0 ((((ctorNumThreads simThreadCount lcpu pcpu numMainThreads numMainSimThreads : Nat)
      : Int) - numMainSimThreads) % 2 ^ sizeBits).toNat

/-- The worker count in the spec's words: host cores minus those reserved for the main
threads, `max(0, L - T * floor(L / P))` over the integers. -/
def specExtraThreads (lcpu pcpu : Nat) (numMainThreads : Int) : Int :=
  max 0 ((lcpu : Int) - numMainThreads * ((lcpu / pcpu : Nat) : Int))

/-- The handler built by the constructor for a unit limit of 12 and eleven `AddUnit` calls:
it holds units 10 to 20, used to instantiate the theorems. -/
def elevenUnits : CUnitHandler :=
  (runCalls ⟨true, false⟩ (CUnitHandler.ctor [12] 0 (fun k => k) (fun _ => ⟨0, 0, 0, 0⟩))
    ((List.range 11).map (fun i => HandlerCall.addUnit (10 + i) i))).getD
    (CUnitHandler.ctor [12] 0 (fun k => k) (fun _ => ⟨0, 0, 0, 0⟩))

/-- A handler holding the 31 units 10 to 40 (ids 0 to 30) with one free id, used to
instantiate the theorems. -/
def thirtyOneUnits : CUnitHandler :=
  { activeUnits := (List.range 31).map (fun i => 10 + i),
    units := (List.range 31).map (fun i => some (10 + i)) ++ [none],
    freeUnitIDs := [31], unitsToBeRemoved := [], slowUpdateIterator := 31, maxUnits := 32,
    maxUnitRadius := 0, unitsByDefs := [], simNumExtraThreads := 0,
    heap := fun u => ⟨u - 10, 0, 0, 0⟩ }

/-! ## `DeleteUnitNow` on the list nodes and the unit objects

The handler at the level of memory: `activeUnits` is its chain of nodes, each with an
address, an iterator is the address of the node it points to, and an object on which
`delete` has run may not be read any more. -/

/-- The members of `CUnitHandler` that `DeleteUnitNow` works on.  `activeUnits` lists the
nodes of the `std::list` in order, each as (address of the node, stored `CUnit*`);
`slowUpdateIterator` is `some a` when it points to the node at address `a` and `none` for
`activeUnits.end()`: an iterator whose node has been erased keeps the address and dangles;
`deleted` holds the unit objects on which `delete` has run. -/
structure CUnitHandlerMem where
  activeUnits : List (Nat × CUnit)
  slowUpdateIterator : Option Nat
  units : List (Option CUnit)
  freeUnitIDs : List Nat
  unitsByDefs : List (Nat × Nat × CUnit)
  heap : CUnit → UnitFields
  deleted : List CUnit

/-- Dereference `*it` of an iterator to the node at `addr`: the stored pointer, or `none`
when the list has no node at that address (the iterator dangles). -/
def nodeValue : List (Nat × CUnit) → Nat → Option CUnit
  | [], _ => none
  | n :: rest, addr => if n.1 = addr then some n.2 else nodeValue rest addr

/-- Increment `++it` of an iterator to the node at `addr`: the iterator to the next node
(`none` for `end()`), or no result when the iterator dangles. -/
def nextIter : List (Nat × CUnit) → Nat → Option (Option Nat)
  | [], _ => none
  | n :: rest, addr =>
    if n.1 = addr then some (rest.head?.map Prod.fst) else nextIter rest addr

/-- The search of the first loop of `DeleteUnitNow`: the iterator `usi` to the first node
whose value is `delUnit`. -/
def findNode (delUnit : CUnit) : List (Nat × CUnit) → Option Nat
  | [] => none
  | n :: rest => if n.2 = delUnit then some n.1 else findNode delUnit rest

/-- The call `activeUnits.erase(usi)` for the node at `addr`: the other nodes keep their
addresses. -/
def eraseNode : List (Nat × CUnit) → Nat → List (Nat × CUnit)
  | [], _ => []
  | n :: rest, addr => if n.1 = addr then rest else n :: eraseNode rest addr

/-- The `_DEBUG` sweep of `DeleteUnitNow` on the nodes: every node whose value is `delUnit`
is erased.  The loop does not touch `slowUpdateIterator`. -/
def sweepNodes (delUnit : CUnit) : List (Nat × CUnit) → List (Nat × CUnit)
  | [] => []
  | n :: rest =>
    if n.2 = delUnit then sweepNodes delUnit rest else n :: sweepNodes delUnit rest

/-- Lines 192-194 of `DeleteUnitNow`, run when the search has stopped at a node `usi` with
`*usi == delUnit`:
`if (slowUpdateIterator != activeUnits.end() && *usi == *slowUpdateIterator) ++slowUpdateIterator;`.
Returns the new `slowUpdateIterator`, and no result when the old one dangles, which the
condition dereferences. -/
def advanceCursor (nodes : List (Nat × CUnit)) (delUnit : CUnit) :
    Option Nat → Option (Option Nat)
  | none => some none
  | some a =>
    match nodeValue nodes a with
    | none => none
    | some unit => if delUnit = unit then nextIter nodes a else some (some a)

/-- Model of `CUnitHandler::DeleteUnitNow(delUnit)` at the level of memory.  The result is
`none` when the call reads a deleted object (`delUnit->ExecuteDelayOps()` of line 184 is its
first statement) or dereferences a dangling `slowUpdateIterator` (line 192). -/
def CUnitHandlerMem.DeleteUnitNow (flags : BuildFlags) (m : CUnitHandlerMem) (delUnit : CUnit) :
    Option CUnitHandlerMem :=
  if delUnit ∈ m.deleted then none
  else
    let s1 : Option CUnitHandlerMem :=
      match findNode delUnit m.activeUnits with
      | none => some m
      | some usi =>
        let delTeam := (m.heap delUnit).team
        let delType := (m.heap delUnit).unitDefId
        (advanceCursor m.activeUnits delUnit m.slowUpdateIterator).map (fun cursor =>
          { m with
            slowUpdateIterator := cursor,
            activeUnits := eraseNode m.activeUnits usi,
            freeUnitIDs := m.freeUnitIDs ++ [(m.heap delUnit).id],
            unitsByDefs := m.unitsByDefs.erase (delTeam, delType, delUnit),
            units := m.units.set (m.heap delUnit).id none,
            deleted := delUnit :: m.deleted })
    s1.map (fun s1 =>
      if flags.DEBUG then { s1 with activeUnits := sweepNodes delUnit s1.activeUnits } else s1)

/-- An iterator is valid for a list when it is `end()` or points to one of its nodes. -/
def iterValid (nodes : List (Nat × CUnit)) (it : Option Nat) : Prop :=
  ∀ a, it = some a → a ∈ nodes.map Prod.fst

/-- The units a loop visits that walks the iterator `it` up to `end()`, as the staggered
slow update does with `slowUpdateIterator`; no result when the iterator dangles. -/
def unitsFrom : List (Nat × CUnit) → Option Nat → Option (List CUnit)
  | _, none => some []
  | [], some _ => none
  | n :: rest, some a =>
    if n.1 = a then some ((n :: rest).map Prod.snd) else unitsFrom rest (some a)

/-- The units of the nodes before the one `it` points to (all units for `end()`): those the
staggered slow update has passed in the current cycle. -/
def unitsBefore : List (Nat × CUnit) → Option Nat → List CUnit
  | l, none => l.map Prod.snd
  | [], some _ => []
  | n :: rest, some a => if n.1 = a then [] else n.2 :: unitsBefore rest (some a)

/-- Nodes 100, 101, 102 holding units 10, 11, 12 (ids 0, 1, 2), with `slowUpdateIterator` on
the node of unit 11; used to instantiate the theorems. -/
def threeNodes : CUnitHandlerMem :=
  { activeUnits := [(100, 10), (101, 11), (102, 12)], slowUpdateIterator := some 101,
    units := [some 10, some 11, some 12], freeUnitIDs := [], unitsByDefs := [],
    heap := fun u => ⟨u - 10, 0, 0, 0⟩, deleted := [] }

/-! ## `Threading::AtomicCounterInt` -/

/-- The three `#ifdef` branches of `Threading::AtomicCounterInt`. -/
inductive PlatformBranch
  | MSVC
  | APPLE
  | GCC
  deriving DecidableEq, Repr

/-- `Threading::AtomicCounterInt`: the member `num`, a `boost::int32_t`. -/
structure AtomicCounterInt where
  num : Int
  deriving DecidableEq, Repr

/-- Two's complement wrap of an integer to `boost::int32_t`. -/
def wrapInt32 (i : Int) : Int := toInt32 (toUInt32 i)

/-- `AtomicCounterInt::operator=(val)`: the returned value and the counter afterwards.
MSVC: `InterlockedExchange(&num, val)` stores `val`.  GCC:
`__sync_lock_test_and_set(&num, boost::int32_t(1))` stores the constant 1.  Apple:
`OSAtomicTestAndSet(&(boost::uint32_t*)num, val)` passes the address of a cast of `num` as
the bit number and `val` as the address; it is not a store to `num` (`none`). -/
def AtomicCounterInt.assign (branch : PlatformBranch) (_c : AtomicCounterInt) (val : Int) :
    Option (Int × AtomicCounterInt) :=
  match branch with
  | .MSVC => some (val, ⟨val⟩)
  | .APPLE => none
  | .GCC => some (val, ⟨1⟩)

/-- `AtomicCounterInt::operator++()`: the returned value and the counter afterwards.
MSVC `InterlockedIncrement` and Apple `OSAtomicIncrement32` return the new value, GCC
returns `__sync_fetch_and_add(&num, 1) + 1`. -/
def AtomicCounterInt.increment (branch : PlatformBranch) (c : AtomicCounterInt) :
    Int × AtomicCounterInt :=
  match branch with
  | .MSVC => (wrapInt32 (c.num + 1), ⟨wrapInt32 (c.num + 1)⟩)
  | .APPLE => (wrapInt32 (c.num + 1), ⟨wrapInt32 (c.num + 1)⟩)
  | .GCC => (wrapInt32 (c.num + 1), ⟨wrapInt32 (c.num + 1)⟩)

/-- The values returned by `k` successive `++` on the counter. -/
def AtomicCounterInt.increments (branch : PlatformBranch) :
    Nat → AtomicCounterInt → List Int
  | 0, _ => []
  | k + 1, c =>
    (AtomicCounterInt.increment branch c).1 ::
      AtomicCounterInt.increments branch k (AtomicCounterInt.increment branch c).2

/-! ## `CUnitHandler::TestUnitBuildSquare` -/

/-- `enum BuildSquareStatus`. -/
inductive BuildSquareStatus
  | BUILDSQUARE_BLOCKED
  | BUILDSQUARE_OCCUPIED
  | BUILDSQUARE_RECLAIMABLE
  | BUILDSQUARE_OPEN
  deriving DecidableEq, Repr

/-- The enumerator values 0 .. 3. -/
def BuildSquareStatus.toNat : BuildSquareStatus → Nat
  | .BUILDSQUARE_BLOCKED => 0
  | .BUILDSQUARE_OCCUPIED => 1
  | .BUILDSQUARE_RECLAIMABLE => 2
  | .BUILDSQUARE_OPEN => 3

/-- `std::min(a, b)` on `BuildSquareStatus`: `(b < a) ? b : a`. -/
def BuildSquareStatus.min (a b : BuildSquareStatus) : BuildSquareStatus :=
  if b.toNat < a.toNat then b else a

/-- The part of `BuildInfo` the function reads: footprint size in squares, position, and
`def->needGeo`.  Coordinates are integers. -/
structure BuildInfo where
  xsize : Int
  zsize : Int
  pos : float3
  needGeo : Bool
  deriving DecidableEq, Repr

/-- A feature returned by `qf->GetFeaturesExact`: `def->geoThermal` and its position. -/
structure GeoFeature where
  geoThermal : Bool
  pos : float3
  deriving DecidableEq, Repr

/-- The values the loop variable takes in `for (int x = a; x < b; x += SQUARE_SIZE)`; the
first argument bounds the number of iterations. -/
def forCoords (SQUARE_SIZE : Int) : Nat → Int → Int → List Int
  | 0, _, _ => []
  | fuel + 1, x, b => if x < b then x :: forCoords SQUARE_SIZE fuel (x + SQUARE_SIZE) b else []

/-- The geothermal search at the start of `TestUnitBuildSquare`: the initial `canBuild`. -/
def initialStatus (buildInfo : BuildInfo) (features : List GeoFeature) : BuildSquareStatus :=
  if buildInfo.needGeo then
    if features.any (fun fi => fi.geoThermal
        && decide (|fi.pos.x - buildInfo.pos.x| < buildInfo.xsize * 4 - 4)
        && decide (|fi.pos.z - buildInfo.pos.z| < buildInfo.zsize * 4 - 4))
    then .BUILDSQUARE_OPEN else .BUILDSQUARE_BLOCKED
  else .BUILDSQUARE_OPEN

/-- The inner loop of the branch without commands, over the `z` values left: the new
`canBuild` and whether the function has returned `BUILDSQUARE_BLOCKED`. -/
def scanZ (tbs : Int → Int → BuildSquareStatus) (x : Int) :
    List Int → BuildSquareStatus → BuildSquareStatus × Bool
  | [], canBuild => (canBuild, false)
  | z :: zs, canBuild =>
    let canBuild := BuildSquareStatus.min canBuild (tbs x z)
    if canBuild = .BUILDSQUARE_BLOCKED then (.BUILDSQUARE_BLOCKED, true)
    else scanZ tbs x zs canBuild

/-- The outer loop of the branch without commands. -/
def scanX (tbs : Int → Int → BuildSquareStatus) (zs : List Int) :
    List Int → BuildSquareStatus → BuildSquareStatus
  | [], canBuild => canBuild
  | x :: xs, canBuild =>
    let r := scanZ tbs x zs canBuild
    if r.2 then .BUILDSQUARE_BLOCKED else scanX tbs zs xs r.1

/-- The per-square status of the branch with commands: a square that is not blocked becomes
blocked when a queued build command covers it. -/
def commandStatus (SQUARE_SIZE : Int) (commands : List BuildInfo) (tbs : BuildSquareStatus)
    (x z : Int) : BuildSquareStatus :=
  if tbs ≠ .BUILDSQUARE_BLOCKED ∧
      commands.any (fun bc =>
        decide (max (bc.pos.x - x - SQUARE_SIZE) (x - bc.pos.x) * 2 < bc.xsize * SQUARE_SIZE)
        && decide (max (bc.pos.z - z - SQUARE_SIZE) (z - bc.pos.z) * 2 < bc.zsize * SQUARE_SIZE))
  then .BUILDSQUARE_BLOCKED else tbs

/-- Model of `CUnitHandler::TestUnitBuildSquare`, the returned status.  `tbs x z` is the result
of `TestBuildSquare(float3(x, bh, z), buildInfo.def, feature, allyteam, synced)`, `tbsShow x z`
that of the call of the branch with commands (`pos.y`, `gu->myAllyTeam`); both only read the
map.  `features` is the result of `qf->GetFeaturesExact`.  The position lists filled by the
branch with commands are left out. -/
def TestUnitBuildSquare (SQUARE_SIZE : Int) (tbs tbsShow : Int → Int → BuildSquareStatus)
    (features : List GeoFeature) (buildInfo : BuildInfo) (commands : Option (List BuildInfo)) :
    BuildSquareStatus :=
  let x1 := Int.tdiv (2 * buildInfo.pos.x - buildInfo.xsize * SQUARE_SIZE) 2
  let z1 := Int.tdiv (2 * buildInfo.pos.z - buildInfo.zsize * SQUARE_SIZE) 2
  let z2 := z1 + buildInfo.zsize * SQUARE_SIZE
  let x2 := x1 + buildInfo.xsize * SQUARE_SIZE
  let canBuild := initialStatus buildInfo features
  let xs := forCoords SQUARE_SIZE (x2 - x1).toNat x1 x2
  let zs := forCoords SQUARE_SIZE (z2 - z1).toNat z1 z2
  match commands with
  | some cmds =>
    (xs.flatMap (fun x => zs.map (fun z => commandStatus SQUARE_SIZE cmds (tbsShow x z) x z))).foldl
      BuildSquareStatus.min canBuild
  | none => scanX tbs zs xs canBuild

/-- The footprint squares `TestUnitBuildSquare` visits, as `(x, z)` in loop order. -/
def footprintSquares (SQUARE_SIZE : Int) (buildInfo : BuildInfo) : List (Int × Int) :=
  let x1 := Int.tdiv (2 * buildInfo.pos.x - buildInfo.xsize * SQUARE_SIZE) 2
  let z1 := Int.tdiv (2 * buildInfo.pos.z - buildInfo.zsize * SQUARE_SIZE) 2
  let z2 := z1 + buildInfo.zsize * SQUARE_SIZE
  let x2 := x1 + buildInfo.xsize * SQUARE_SIZE
  (forCoords SQUARE_SIZE (x2 - x1).toNat x1 x2).flatMap
    (fun x => (forCoords SQUARE_SIZE (z2 - z1).toNat z1 z2).map (fun z => (x, z)))

/-- Minimum of a list of statuses, `BUILDSQUARE_OPEN` for the empty list. -/
def minStatus (l : List BuildSquareStatus) : BuildSquareStatus :=
  l.foldl BuildSquareStatus.min .BUILDSQUARE_OPEN

/-! ## `CDemoRecorder::WriteSetupText` -/

/-- How a run of `WriteSetupText` ends: it writes `written` and sets `fileHeader.scriptSize`,
or it reads `text.c_str()[index]` outside of the string's buffer. -/
inductive WriteOutcome
  | wrote (scriptSize : Int) (written : List Nat)
  | readOutside (index : Int)
  deriving DecidableEq, Repr

/-- `text.c_str()[i]`: the characters of `text` followed by the terminating NUL; `none`
outside of that buffer. -/
def c_strAt (text : List Nat) (i : Int) : Option Nat :=
  if 0 ≤ i ∧ i ≤ text.length then some ((text ++ [0]).getD i.toNat 0) else none

/-- The loop `while (text.c_str()[length - 1] == '\0') { --length; }`; the first argument
bounds the number of iterations, `none` when it is used up. -/
def trimLoop (text : List Nat) : Nat → Int → Option WriteOutcome
  | 0, _ => none
  | fuel + 1, length =>
    match c_strAt text (length - 1) with
    | none => some (.readOutside (length - 1))
    | some ch =>
      if ch = 0 then trimLoop text fuel (length - 1)
      else some (.wrote length (text.take length.toNat))

/-- Model of `CDemoRecorder::WriteSetupText(text)` for a text whose length fits an `int`:
`int length = text.length();`, the loop, then `fileHeader.scriptSize = length` and
`demoStream.write(text.c_str(), length)`.  Characters are numbers, NUL is 0. -/
def WriteSetupText (text : List Nat) : Option WriteOutcome :=
  trimLoop text (text.length + 1) (text.length : Int)

/-- The text with its trailing NUL characters removed. -/
def stripNul (text : List Nat) : List Nat :=
  (text.reverse.dropWhile (fun ch => ch == 0)).reverse

/-! ### Invariant and progress measure of a DELAYED round -/

/-- The sub-task index a thread of the DELAYED stage holds and has not run yet. -/
def DelayedPc.held : DelayedPc → Option Int
  | .running nextPos => some nextPos
  | _ => none

/-- The sub-task indices claimed so far: those already run and those held by a thread. -/
def DelayedPool.claimed (s : DelayedPool) : List Int :=
  s.done.map Prod.snd ++ s.pcs.filterMap DelayedPc.held

/-- The invariant of a DELAYED round: the claimed indices are `0 .. min(atomicCount, 3)`,
each once; a thread is at the barrier only after the counter has passed 3; the trace is the
concatenation of the sub-tasks run, none of them the default branch. -/
structure DelayedInv (c : UnitConsts) (updateOps : Nat → Nat) (n : Nat) (s : DelayedPool) :
    Prop where
  cnt : -1 ≤ s.atomicCount
  len : s.pcs.length = n
  claimed : s.claimed.Perm
    ((List.range (min (s.atomicCount + 1) 4).toNat).map (fun k : Nat => (k : Int)))
  exited : ∀ i : Nat, s.pcs[i]? = some .atBarrier → 3 ≤ s.atomicCount
  who : ∀ d ∈ s.done, d.1 < n
  trace : s.trace = s.done.flatMap (fun d => delayedSwitch c updateOps d.2)

/-- Upper bound on the number of scheduling steps thread `i` of a DELAYED round still
needs. -/
def delayedStepsLeft (s : DelayedPool) (i : Nat) : Nat :=
  match s.pcs[i]? with
  | none => 0
  | some .atBarrier => 0
  | some .claiming => 2 * (3 - s.atomicCount).toNat + 1
  | some (.running _) => 2 * (3 - s.atomicCount).toNat + 2

/-! ### The order of a worker's claims -/

/-- The claimed indices for which thread `i` has made its per-unit call, in execution
order. -/
def PoolState.callsOf (s : PoolState) (i : Nat) : List Int :=
  (s.calls.filter (fun c => decide (c.1 = i))).map (fun c => c.2.1)

/-- Each thread's calls were made for strictly increasing indices, all below the index it
holds now. -/
def ClaimOrder (s : PoolState) : Prop :=
  ∀ (i : Nat) (w : Worker), s.workers[i]? = some w →
    (s.callsOf i).Pairwise (fun a b => a < b) ∧
    (w.pc = .calling → ∀ k ∈ s.callsOf i, k < w.curPos)

/-- Start position of a per-unit stage of the pool. -/
def stageStart (stage : SimThreadingStage) (RATE frameNum : Nat) (activeUnits : List CUnit)
    (slowUpdateIterator : Nat) : List CUnit :=
  match stage with
  | .SLOW_UPDATE_MOVETYPE => slowStart RATE frameNum activeUnits slowUpdateIterator
  | _ => activeUnits

/-- The bound `countEnd` of a per-unit stage of the pool. -/
def stageCountEnd (stage : SimThreadingStage) (RATE : Nat) (activeUnits : List CUnit) : Int :=
  match stage with
  | .SLOW_UPDATE_MOVETYPE => slowCount RATE activeUnits
  | _ => (activeUnits.length : Int)

/-! # Theorems -/

/-! ### Facts about the iterator walks -/

theorem advanceUpdate_eq (nextPos : Int) :
    ∀ (fuel : Nat) (curPos : Int) (usi : List CUnit), fuel = (nextPos - curPos).toNat →
      advanceUpdate nextPos fuel curPos usi
        = (if curPos < nextPos then nextPos else curPos, usi.drop fuel) := by
  intro fuel
  induction fuel with
  | zero =>
    intro curPos usi h
    have : ¬ curPos < nextPos := by omega
    simp [advanceUpdate, this]
  | succ n ih =>
    intro curPos usi h
    have hlt : curPos < nextPos := by omega
    have h2 : n = (nextPos - (curPos + 1)).toNat := by omega
    rw [advanceUpdate, if_pos hlt, ih (curPos + 1) usi.tail h2]
    simp only [hlt, if_true, List.drop_succ_cons, Prod.mk.injEq]
    refine ⟨?_, ?_⟩
    · split <;> omega
    · cases usi <;> simp

theorem advanceSlow_eq (nextPos : Int) :
    ∀ (fuel : Nat) (curPos : Int) (sui : List CUnit), fuel = (nextPos - curPos).toNat →
      advanceSlow nextPos fuel curPos sui
        = (curPos + (min fuel sui.length : Nat), sui.drop (min fuel sui.length)) := by
  intro fuel
  induction fuel with
  | zero =>
    intro curPos sui h
    simp [advanceSlow]
  | succ n ih =>
    intro curPos sui h
    have hlt : curPos < nextPos := by omega
    have h2 : n = (nextPos - (curPos + 1)).toNat := by omega
    cases sui with
    | nil => simp [advanceSlow]
    | cons u rest =>
      rw [advanceSlow, if_pos ⟨hlt, by simp⟩, ih (curPos + 1) _ h2]
      simp only [List.tail_cons, List.length_cons, Nat.succ_min_succ, List.drop_succ_cons,
        Prod.mk.injEq, and_true]
      push_cast
      omega

/-! ### Invariant of a barrier round -/

theorem WorkerInv.mono {base : List CUnit} {M cnt : Int} {w : Worker}
    (h : WorkerInv base M cnt w) : WorkerInv base M (cnt + 1) w where
  pos := h.pos
  it_eq := h.it_eq
  le := by have := h.le; omega
  calling := fun hc => by have := h.calling hc; omega
  exited := fun hc => by have := h.exited hc; omega

theorem claimPass_spec (stage : SimThreadingStage) (countEnd cnt : Int) (base : List CUnit)
    (w : Worker) (hst : stage = .SLOW_UPDATE_MOVETYPE ∨ countEnd ≤ base.length)
    (hw : WorkerInv base (poolBound countEnd base) cnt w) :
    (claimPass stage countEnd cnt w).1 = cnt + 1 ∧
    WorkerInv base (poolBound countEnd base) (cnt + 1) (claimPass stage countEnd cnt w).2 ∧
    ((claimPass stage countEnd cnt w).2.pc = .calling →
      (claimPass stage countEnd cnt w).2.curPos = cnt + 1) ∧
    (claimPass stage countEnd cnt w).2.pc ≠ .claiming := by
  have hpos := hw.pos
  have hle := hw.le
  have hit := hw.it_eq
  by_cases hs : stage = .SLOW_UPDATE_MOVETYPE
  · subst hs
    by_cases hge : cnt + 1 ≥ countEnd
    · have hv : claimPass .SLOW_UPDATE_MOVETYPE countEnd cnt w
          = (cnt + 1, { w with pc := .atBarrier }) := by
        simp only [claimPass, claimSlowUpdateMoveType, if_pos hge]
      rw [hv]
      refine ⟨rfl, ⟨hpos, hit, ?_, ?_, fun _ => ?_⟩, ?_, ?_⟩
      · show w.curPos ≤ cnt + 1 + 1
        omega
      · intro h; cases h
      · simp only [poolBound]; omega
      · intro h; cases h
      · intro h; cases h
    · have hlen : w.it.length = base.length - w.curPos.toNat := by rw [hit]; simp
      have hdrop : List.drop (min (cnt + 1 - w.curPos).toNat w.it.length) w.it
          = base.drop ((w.curPos + (min (cnt + 1 - w.curPos).toNat w.it.length : Nat)).toNat) := by
        rw [hit, List.drop_drop]
        congr 1
        omega
      by_cases hnil : List.drop (min (cnt + 1 - w.curPos).toNat w.it.length) w.it = []
      · have hv : claimPass .SLOW_UPDATE_MOVETYPE countEnd cnt w
            = (cnt + 1, { curPos := w.curPos + (min (cnt + 1 - w.curPos).toNat w.it.length : Nat),
                          it := List.drop (min (cnt + 1 - w.curPos).toNat w.it.length) w.it,
                          pc := .atBarrier }) := by
          simp only [claimPass, claimSlowUpdateMoveType, if_neg hge,
            advanceSlow_eq (cnt + 1) _ w.curPos w.it rfl, hnil, if_true]
        have hk : w.it.length ≤ min (cnt + 1 - w.curPos).toNat w.it.length := by
          simpa using hnil
        rw [hv]
        refine ⟨rfl, ⟨?_, hdrop, ?_, ?_, fun _ => ?_⟩, ?_, ?_⟩
        · show 0 ≤ w.curPos + _
          omega
        · show w.curPos + _ ≤ cnt + 1 + 1
          omega
        · intro h; cases h
        · simp only [poolBound]; omega
        · intro h; cases h
        · intro h; cases h
      · have hv : claimPass .SLOW_UPDATE_MOVETYPE countEnd cnt w
            = (cnt + 1, { curPos := w.curPos + (min (cnt + 1 - w.curPos).toNat w.it.length : Nat),
                          it := List.drop (min (cnt + 1 - w.curPos).toNat w.it.length) w.it,
                          pc := .calling }) := by
          simp only [claimPass, claimSlowUpdateMoveType, if_neg hge,
            advanceSlow_eq (cnt + 1) _ w.curPos w.it rfl, hnil, if_false]
        have hk : min (cnt + 1 - w.curPos).toNat w.it.length < w.it.length := by
          simpa using hnil
        have hcur : w.curPos + (min (cnt + 1 - w.curPos).toNat w.it.length : Nat) = cnt + 1 := by
          omega
        rw [hv]
        refine ⟨rfl, ⟨?_, hdrop, ?_, fun _ => ?_, ?_⟩, fun _ => hcur, ?_⟩
        · show 0 ≤ w.curPos + _
          omega
        · show w.curPos + _ ≤ cnt + 1 + 1
          omega
        · show w.curPos + _ ≤ cnt + 1 ∧ w.curPos + _ < poolBound countEnd base
          simp only [poolBound]; omega
        · intro h; cases h
        · intro h; cases h
  · have hce : countEnd ≤ base.length := by
      rcases hst with h | h
      · exact absurd h hs
      · exact h
    have hcp : claimPass stage countEnd cnt w = claimUpdateMoveType countEnd cnt w := by
      cases stage <;> first | rfl | exact absurd rfl hs
    rw [hcp]
    by_cases hge : cnt + 1 ≥ countEnd
    · have hv : claimUpdateMoveType countEnd cnt w = (cnt + 1, { w with pc := .atBarrier }) := by
        simp only [claimUpdateMoveType, if_pos hge]
      rw [hv]
      refine ⟨rfl, ⟨hpos, hit, ?_, ?_, fun _ => ?_⟩, ?_, ?_⟩
      · show w.curPos ≤ cnt + 1 + 1
        omega
      · intro h; cases h
      · simp only [poolBound]; omega
      · intro h; cases h
      · intro h; cases h
    · have hcur : (if w.curPos < cnt + 1 then cnt + 1 else w.curPos) = cnt + 1 := by
        split <;> omega
      have hv : claimUpdateMoveType countEnd cnt w
          = (cnt + 1, { curPos := cnt + 1, it := List.drop (cnt + 1 - w.curPos).toNat w.it,
                        pc := .calling }) := by
        simp only [claimUpdateMoveType, if_neg hge,
          advanceUpdate_eq (cnt + 1) _ w.curPos w.it rfl, hcur]
      rw [hv]
      refine ⟨rfl, ⟨?_, ?_, ?_, fun _ => ?_, ?_⟩, fun _ => rfl, ?_⟩
      · show 0 ≤ cnt + 1
        omega
      · show List.drop (cnt + 1 - w.curPos).toNat w.it = base.drop (cnt + 1).toNat
        rw [hit, List.drop_drop]
        congr 1
        omega
      · show cnt + 1 ≤ cnt + 1 + 1
        omega
      · show cnt + 1 ≤ cnt + 1 ∧ cnt + 1 < poolBound countEnd base
        simp only [poolBound]; omega
      · intro h; cases h
      · intro h; cases h

theorem poolStep_none {stage : SimThreadingStage} {countEnd : Int} {s : PoolState} {i : Nat}
    (h : s.workers[i]? = none) : poolStep stage countEnd s i = s := by
  simp [poolStep, h]

theorem poolStep_atBarrier {stage : SimThreadingStage} {countEnd : Int} {s : PoolState} {i : Nat}
    {w : Worker} (h : s.workers[i]? = some w) (hpc : w.pc = .atBarrier) :
    poolStep stage countEnd s i = s := by
  simp [poolStep, h, hpc]

theorem poolStep_claiming {stage : SimThreadingStage} {countEnd : Int} {s : PoolState} {i : Nat}
    {w : Worker} (h : s.workers[i]? = some w) (hpc : w.pc = .claiming) :
    poolStep stage countEnd s i =
      { s with atomicCount := (claimPass stage countEnd s.atomicCount w).1,
               workers := s.workers.set i (claimPass stage countEnd s.atomicCount w).2 } := by
  simp [poolStep, h, hpc]

theorem poolStep_calling_nil {stage : SimThreadingStage} {countEnd : Int} {s : PoolState}
    {i : Nat} {w : Worker} (h : s.workers[i]? = some w) (hpc : w.pc = .calling)
    (hit : w.it = []) :
    poolStep stage countEnd s i =
      { s with derefEnd := true, workers := s.workers.set i { w with pc := .claiming } } := by
  simp [poolStep, h, hpc, hit]

theorem poolStep_calling_cons {stage : SimThreadingStage} {countEnd : Int} {s : PoolState}
    {i : Nat} {w : Worker} {unit : CUnit} {rest : List CUnit} (h : s.workers[i]? = some w)
    (hpc : w.pc = .calling) (hit : w.it = unit :: rest) :
    poolStep stage countEnd s i =
      { s with calls := s.calls ++ [(i, w.curPos, unit)],
               workers := s.workers.set i { w with pc := .claiming } } := by
  simp [poolStep, h, hpc, hit]

theorem poolInit_inv (countEnd : Int) (nThreads : Nat) (start : List CUnit) :
    PoolInv countEnd start (poolInit nThreads start) where
  cnt := by simp [poolInit]
  workers := by
    intro i w h
    simp only [poolInit, List.getElem?_replicate] at h
    split at h
    · cases h
      exact ⟨le_refl _, by simp, by show (0:Int) ≤ -1 + 1; omega, (fun h => by cases h), (fun h => by cases h)⟩
    · cases h
  nodup := by simp [poolInit, PoolState.calledIndices]
  called := by simp [poolInit]
  fresh := by
    intro i w h hpc
    simp only [poolInit, List.getElem?_replicate] at h
    split at h
    · cases h; cases hpc
    · cases h
  distinct := by
    intro i j w w' h _ hpc
    simp only [poolInit, List.getElem?_replicate] at h
    split at h
    · cases h; cases hpc
    · cases h
  cover := by
    intro k hk hk2
    simp only [poolInit] at hk2
    omega
  noDeref := rfl

theorem mem_calledIndices {s : PoolState} {k : Int} :
    k ∈ s.calledIndices ↔ ∃ c ∈ s.calls, c.2.1 = k := by
  simp [PoolState.calledIndices]

theorem poolStep_inv (stage : SimThreadingStage) (countEnd : Int) (base : List CUnit)
    (hst : stage = .SLOW_UPDATE_MOVETYPE ∨ countEnd ≤ base.length)
    (s : PoolState) (i : Nat) (hs : PoolInv countEnd base s) :
    PoolInv countEnd base (poolStep stage countEnd s i) := by
  cases hw : s.workers[i]? with
  | none => rw [poolStep_none hw]; exact hs
  | some w =>
    have hilt : i < s.workers.length := (List.getElem?_eq_some.1 hw).1
    have hwi := hs.workers i w hw
    cases hpc : w.pc with
    | atBarrier => rw [poolStep_atBarrier hw hpc]; exact hs
    | claiming =>
      rw [poolStep_claiming hw hpc]
      obtain ⟨h1, h2, h3, h4⟩ := claimPass_spec stage countEnd s.atomicCount base w hst hwi
      generalize claimPass stage countEnd s.atomicCount w = r at h1 h2 h3 h4
      obtain ⟨c', w'⟩ := r
      simp only at h1 h2 h3 h4
      subst h1
      have hget : ∀ j v, (s.workers.set i w')[j]? = some v →
          (j = i ∧ v = w') ∨ (j ≠ i ∧ s.workers[j]? = some v) := by
        intro j v hv
        rw [List.getElem?_set] at hv
        by_cases hij : i = j
        · subst hij
          rw [if_pos rfl, if_pos hilt] at hv
          exact Or.inl ⟨rfl, (Option.some.inj hv).symm⟩
        · rw [if_neg hij] at hv
          exact Or.inr ⟨fun h => hij h.symm, hv⟩
      refine ⟨?_, ?_, hs.nodup, ?_, ?_, ?_, ?_, hs.noDeref⟩
      · show -1 ≤ s.atomicCount + 1
        have := hs.cnt; omega
      · intro j v hv
        rcases hget j v hv with ⟨_, rfl⟩ | ⟨_, hv'⟩
        · exact h2
        · exact (hs.workers j v hv').mono
      · intro c hc
        obtain ⟨a, b, d, e, f⟩ := hs.called c hc
        refine ⟨a, ?_, d, e, ?_⟩
        · show c.2.1 ≤ s.atomicCount + 1
          omega
        · show c.1 < (s.workers.set i w').length
          rw [List.length_set]; exact f
      · intro j v hv hvc
        rcases hget j v hv with ⟨_, rfl⟩ | ⟨_, hv'⟩
        · intro hmem
          obtain ⟨c, hc, hck⟩ := mem_calledIndices.1 hmem
          have := (hs.called c hc).2.1
          have := h3 hvc
          omega
        · exact hs.fresh j v hv' hvc
      · intro j j' v v' hv hv' hvc hvc' heq
        rcases hget j v hv with ⟨rfl, rfl⟩ | ⟨hj, hv1⟩
        · rcases hget j' v' hv' with ⟨rfl, _⟩ | ⟨_, hv1'⟩
          · rfl
          · have := ((hs.workers j' v' hv1').calling hvc').1
            have := h3 hvc
            omega
        · rcases hget j' v' hv' with ⟨rfl, rfl⟩ | ⟨_, hv1'⟩
          · have := ((hs.workers j v hv1).calling hvc).1
            have := h3 hvc'
            omega
          · exact hs.distinct j j' v v' hv1 hv1' hvc hvc' heq
      · intro k hk0 hk1 hk2
        have hk1' : k ≤ s.atomicCount + 1 := hk1
        by_cases hkc : k ≤ s.atomicCount
        · rcases hs.cover k hk0 hkc hk2 with h | ⟨j, v, hv, hvc, hvk⟩
          · exact Or.inl h
          · refine Or.inr ⟨j, v, ?_, hvc, hvk⟩
            have hji : i ≠ j := by
              rintro rfl
              rw [hw] at hv
              cases hv
              rw [hpc] at hvc
              cases hvc
            show (s.workers.set i w')[j]? = some v
            rw [List.getElem?_set_ne hji]; exact hv
        · have hkeq : k = s.atomicCount + 1 := by omega
          have hcall : w'.pc = .calling := by
            cases hp : w'.pc with
            | calling => rfl
            | claiming => exact absurd hp h4
            | atBarrier => have := h2.exited hp; omega
          refine Or.inr ⟨i, w', ?_, hcall, ?_⟩
          · show (s.workers.set i w')[i]? = some w'
            rw [List.getElem?_set, if_pos rfl, if_pos hilt]
          · rw [h3 hcall, hkeq]
    | calling =>
      obtain ⟨hc1, hc2⟩ := hwi.calling hpc
      have hpos := hwi.pos
      have hlt : w.curPos.toNat < base.length := by
        have : poolBound countEnd base ≤ base.length := by simp only [poolBound]; omega
        omega
      cases hit : w.it with
      | nil =>
        have := hwi.it_eq
        rw [hit] at this
        have := List.drop_eq_nil_iff.1 this.symm
        omega
      | cons unit rest =>
        rw [poolStep_calling_cons hw hpc hit]
        have hunit : base[w.curPos.toNat]? = some unit := by
          have h := hwi.it_eq
          rw [hit] at h
          have h2 := List.head?_drop base w.curPos.toNat
          rw [← h] at h2
          simpa using h2.symm
        have hget : ∀ j v, (s.workers.set i { w with pc := .claiming })[j]? = some v →
            (j = i ∧ v = { w with pc := .claiming }) ∨ (j ≠ i ∧ s.workers[j]? = some v) := by
          intro j v hv
          rw [List.getElem?_set] at hv
          by_cases hij : i = j
          · subst hij
            rw [if_pos rfl, if_pos hilt] at hv
            exact Or.inl ⟨rfl, (Option.some.inj hv).symm⟩
          · rw [if_neg hij] at hv
            exact Or.inr ⟨fun h => hij h.symm, hv⟩
        have hci : PoolState.calledIndices
            { s with calls := s.calls ++ [(i, w.curPos, unit)],
                     workers := s.workers.set i { w with pc := .claiming } }
            = s.calledIndices ++ [w.curPos] := by
          simp [PoolState.calledIndices]
        refine ⟨hs.cnt, ?_, ?_, ?_, ?_, ?_, ?_, hs.noDeref⟩
        · intro j v hv
          rcases hget j v hv with ⟨_, rfl⟩ | ⟨_, hv'⟩
          · exact ⟨hwi.pos, hwi.it_eq, hwi.le, (fun h => by cases h), (fun h => by cases h)⟩
          · exact hs.workers j v hv'
        · rw [hci]
          refine List.Nodup.append hs.nodup (List.nodup_singleton _) ?_
          intro a ha hb
          rw [List.mem_singleton] at hb
          subst hb
          exact hs.fresh i w hw hpc ha
        · intro c hc
          show _ ∧ _ ∧ _ ∧ _ ∧ c.1 < (s.workers.set i _).length
          rw [List.length_set]
          have hc' : c ∈ s.calls ++ [(i, w.curPos, unit)] := hc
          rcases List.mem_append.1 hc' with h | h
          · exact hs.called c h
          · rw [List.mem_singleton] at h
            subst h
            exact ⟨hpos, hc1, hc2, hunit, hilt⟩
        · intro j v hv hvc
          rw [hci]
          rcases hget j v hv with ⟨_, rfl⟩ | ⟨hj, hv'⟩
          · cases hvc
          · intro hmem
            rcases List.mem_append.1 hmem with h | h
            · exact hs.fresh j v hv' hvc h
            · rw [List.mem_singleton] at h
              exact hj (hs.distinct j i v w hv' hw hvc hpc h)
        · intro j j' v v' hv hv' hvc hvc' heq
          rcases hget j v hv with ⟨_, rfl⟩ | ⟨_, hv1⟩
          · cases hvc
          · rcases hget j' v' hv' with ⟨_, rfl⟩ | ⟨_, hv1'⟩
            · cases hvc'
            · exact hs.distinct j j' v v' hv1 hv1' hvc hvc' heq
        · intro k hk0 hk1 hk2
          rw [hci]
          rcases hs.cover k hk0 hk1 hk2 with h | ⟨j, v, hv, hvc, hvk⟩
          · exact Or.inl (List.mem_append_left _ h)
          · by_cases hji : j = i
            · subst hji
              rw [hw] at hv
              cases hv
              exact Or.inl (List.mem_append_right _ (by simp [hvk]))
            · refine Or.inr ⟨j, v, ?_, hvc, hvk⟩
              show (s.workers.set i _)[j]? = some v
              rw [List.getElem?_set_ne (fun h => hji h.symm)]; exact hv

theorem poolRun_inv (stage : SimThreadingStage) (countEnd : Int) (base : List CUnit)
    (hst : stage = .SLOW_UPDATE_MOVETYPE ∨ countEnd ≤ base.length)
    (sched : List Nat) : ∀ s : PoolState, PoolInv countEnd base s →
      PoolInv countEnd base (poolRun stage countEnd s sched) := by
  induction sched with
  | nil => intro s hs; exact hs
  | cons i rest ih =>
    intro s hs
    exact ih _ (poolStep_inv stage countEnd base hst s i hs)

theorem range_map_getElem?_getD (base : List CUnit) (n : Nat) (h : n ≤ base.length) :
    (List.range n).map (fun k => (base[k]?).getD 0) = base.take n := by
  apply List.ext_getElem?
  intro k
  by_cases hk : k < n
  · have hkb : k < base.length := by omega
    simp [List.getElem?_take, hk, hkb]
  · have hk' : n ≤ k := by omega
    simp [List.getElem?_take, hk, hk']

/-- At the end of a round (every thread at the barrier, at least one thread) the called
indices are exactly `0 .. M-1`, each once, and the called units are the first `M` units from
the start position, where `M = min countEnd base.length`. -/
theorem poolInv_finished (countEnd : Int) (base : List CUnit) (s : PoolState)
    (hs : PoolInv countEnd base s) (hne : s.workers ≠ []) (hfin : s.finished) :
    s.calledIndices.Perm
        ((List.range (poolBound countEnd base).toNat).map (fun k : Nat => (k : Int))) ∧
    s.calledUnits.Perm (base.take (poolBound countEnd base).toNat) ∧
    s.derefEnd = false := by
  have hM : poolBound countEnd base ≤ s.atomicCount := by
    cases hws : s.workers with
    | nil => exact absurd hws hne
    | cons w rest =>
      have h0 : s.workers[0]? = some w := by rw [hws]; simp
      exact (hs.workers 0 w h0).exited (hfin w (by rw [hws]; simp))
  have hperm : s.calledIndices.Perm
      ((List.range (poolBound countEnd base).toNat).map (fun k : Nat => (k : Int))) := by
    rw [List.perm_ext_iff_of_nodup hs.nodup
      ((List.nodup_range _).map (fun a b h => by simpa using h))]
    intro k
    constructor
    · intro hk
      obtain ⟨c, hc, rfl⟩ := mem_calledIndices.1 hk
      obtain ⟨a, _, d, _, _⟩ := hs.called c hc
      rw [List.mem_map]
      exact ⟨c.2.1.toNat, by rw [List.mem_range]; omega, by omega⟩
    · intro hk
      rw [List.mem_map] at hk
      obtain ⟨n, hn, rfl⟩ := hk
      rw [List.mem_range] at hn
      rcases hs.cover n (by omega) (by omega) (by omega) with h | ⟨j, v, hv, hvc, _⟩
      · exact h
      · have := hfin v (List.mem_iff_getElem?.2 ⟨j, hv⟩)
        rw [this] at hvc
        cases hvc
  refine ⟨hperm, ?_, hs.noDeref⟩
  have hunits : s.calledUnits = s.calledIndices.map (fun k => (base[k.toNat]?).getD 0) := by
    simp only [PoolState.calledUnits, PoolState.calledIndices, List.map_map]
    apply List.map_congr_left
    intro c hc
    have := (hs.called c hc).2.2.2.1
    simp [this]
  rw [hunits]
  have h2 := hperm.map (fun k => (base[k.toNat]?).getD 0)
  rw [List.map_map] at h2
  have h3 : ((fun k : Int => (base[k.toNat]?).getD 0) ∘ fun k : Nat => (k : Int))
      = fun k : Nat => (base[k]?).getD 0 := by
    funext k
    simp
  rw [h3, range_map_getElem?_getD base _ (by simp only [poolBound]; omega)] at h2
  exact h2

/-! ### Progress: a thread that is scheduled often enough reaches the barrier -/

theorem claimPass_fst (stage : SimThreadingStage) (countEnd cnt : Int) (w : Worker) :
    (claimPass stage countEnd cnt w).1 = cnt + 1 := by
  cases stage <;>
    simp only [claimPass, claimUpdateMoveType, claimSlowUpdateMoveType] <;>
    split <;> (try split) <;> rfl

theorem claimPass_pc (stage : SimThreadingStage) (countEnd cnt : Int) (w : Worker) :
    (claimPass stage countEnd cnt w).2.pc = .atBarrier ∨
    ((claimPass stage countEnd cnt w).2.pc = .calling ∧ cnt + 1 < countEnd) := by
  cases stage <;>
    simp only [claimPass, claimUpdateMoveType, claimSlowUpdateMoveType] <;>
    split <;> (try split) <;> first
      | exact Or.inl rfl
      | exact Or.inr ⟨rfl, by omega⟩

theorem poolStep_length (stage : SimThreadingStage) (countEnd : Int) (s : PoolState) (i : Nat) :
    (poolStep stage countEnd s i).workers.length = s.workers.length := by
  cases hw : s.workers[i]? with
  | none => rw [poolStep_none hw]
  | some w =>
    cases hpc : w.pc with
    | atBarrier => rw [poolStep_atBarrier hw hpc]
    | claiming => rw [poolStep_claiming hw hpc]; simp
    | calling =>
      cases hit : w.it with
      | nil => rw [poolStep_calling_nil hw hpc hit]; simp
      | cons u r => rw [poolStep_calling_cons hw hpc hit]; simp

theorem poolStep_atomicCount_le (stage : SimThreadingStage) (countEnd : Int) (s : PoolState)
    (i : Nat) : s.atomicCount ≤ (poolStep stage countEnd s i).atomicCount := by
  cases hw : s.workers[i]? with
  | none => rw [poolStep_none hw]
  | some w =>
    cases hpc : w.pc with
    | atBarrier => rw [poolStep_atBarrier hw hpc]
    | claiming =>
      rw [poolStep_claiming hw hpc]
      show s.atomicCount ≤ (claimPass stage countEnd s.atomicCount w).1
      rw [claimPass_fst]; omega
    | calling =>
      cases hit : w.it with
      | nil => rw [poolStep_calling_nil hw hpc hit]
      | cons u r => rw [poolStep_calling_cons hw hpc hit]

theorem poolStep_other (stage : SimThreadingStage) (countEnd : Int) (s : PoolState)
    (i j : Nat) (hij : i ≠ j) : (poolStep stage countEnd s i).workers[j]? = s.workers[j]? := by
  cases hw : s.workers[i]? with
  | none => rw [poolStep_none hw]
  | some w =>
    cases hpc : w.pc with
    | atBarrier => rw [poolStep_atBarrier hw hpc]
    | claiming => rw [poolStep_claiming hw hpc]; exact List.getElem?_set_ne hij
    | calling =>
      cases hit : w.it with
      | nil => rw [poolStep_calling_nil hw hpc hit]; exact List.getElem?_set_ne hij
      | cons u r => rw [poolStep_calling_cons hw hpc hit]; exact List.getElem?_set_ne hij

theorem stepsLeft_step (stage : SimThreadingStage) (countEnd : Int) (s : PoolState) (i j : Nat) :
    stepsLeft countEnd (poolStep stage countEnd s j) i
      ≤ stepsLeft countEnd s i - (if j = i then 1 else 0) := by
  by_cases hji : j = i
  · subst hji
    rw [if_pos rfl]
    cases hw : s.workers[j]? with
    | none => rw [poolStep_none hw]; simp [stepsLeft, hw]
    | some w =>
      have hilt : j < s.workers.length := (List.getElem?_eq_some.1 hw).1
      cases hpc : w.pc with
      | atBarrier => rw [poolStep_atBarrier hw hpc]; simp [stepsLeft, hw, hpc]
      | claiming =>
        rw [poolStep_claiming hw hpc]
        have h1 := claimPass_fst stage countEnd s.atomicCount w
        have h2 := claimPass_pc stage countEnd s.atomicCount w
        generalize claimPass stage countEnd s.atomicCount w = r at h1 h2
        simp only [stepsLeft, hw, hpc, List.getElem?_set, if_pos hilt, if_true]
        rcases h2 with h | ⟨h, hlt⟩
        · rw [h]; simp
        · rw [h, h1]
          simp only
          omega
      | calling =>
        cases hit : w.it with
        | nil =>
          rw [poolStep_calling_nil hw hpc hit]
          simp only [stepsLeft, hw, hpc, List.getElem?_set, if_pos hilt, if_true]
          omega
        | cons u r =>
          rw [poolStep_calling_cons hw hpc hit]
          simp only [stepsLeft, hw, hpc, List.getElem?_set, if_pos hilt, if_true]
          omega
  · rw [if_neg hji, Nat.sub_zero]
    have h1 := poolStep_other stage countEnd s j i hji
    have h2 := poolStep_atomicCount_le stage countEnd s j
    simp only [stepsLeft, h1]
    cases s.workers[i]? with
    | none => simp
    | some w =>
      cases hpc : w.pc with
      | atBarrier => simp [hpc]
      | claiming => simp only [hpc]; omega
      | calling => simp only [hpc]; omega

theorem stepsLeft_run (stage : SimThreadingStage) (countEnd : Int) (i : Nat) (sched : List Nat) :
    ∀ s : PoolState, stepsLeft countEnd (poolRun stage countEnd s sched) i
      ≤ stepsLeft countEnd s i - sched.count i := by
  induction sched with
  | nil => intro s; simp [poolRun]
  | cons j rest ih =>
    intro s
    have h1 := ih (poolStep stage countEnd s j)
    have h2 := stepsLeft_step stage countEnd s i j
    have h3 : (j :: rest).count i = rest.count i + (if j = i then 1 else 0) := by
      rw [List.count_cons]
      simp
    rw [h3]
    have : poolRun stage countEnd s (j :: rest)
        = poolRun stage countEnd (poolStep stage countEnd s j) rest := rfl
    rw [this]
    omega

theorem poolRun_length (stage : SimThreadingStage) (countEnd : Int) (sched : List Nat) :
    ∀ s : PoolState, (poolRun stage countEnd s sched).workers.length = s.workers.length := by
  induction sched with
  | nil => intro s; rfl
  | cons j rest ih =>
    intro s
    exact (ih _).trans (poolStep_length stage countEnd s j)

/-- A schedule that gives every thread at least `2 * countEnd + 1` steps ends the round. -/
theorem poolRun_finished (stage : SimThreadingStage) (countEnd : Int) (nThreads : Nat)
    (start : List CUnit) (sched : List Nat)
    (hfair : ∀ i, i < nThreads → 2 * countEnd.toNat + 1 ≤ sched.count i) :
    (poolRun stage countEnd (poolInit nThreads start) sched).finished := by
  intro w hw
  obtain ⟨i, hi⟩ := List.mem_iff_getElem?.1 hw
  have hlen := poolRun_length stage countEnd sched (poolInit nThreads start)
  have hilt : i < nThreads := by
    have := (List.getElem?_eq_some.1 hi).1
    rw [hlen] at this
    simpa [poolInit] using this
  have h1 := stepsLeft_run stage countEnd i sched (poolInit nThreads start)
  have h2 : stepsLeft countEnd (poolInit nThreads start) i = 2 * countEnd.toNat + 1 := by
    simp only [stepsLeft, poolInit, List.getElem?_replicate, if_pos hilt]
    congr 2
    omega
  have h3 := hfair i hilt
  have h4 : stepsLeft countEnd (poolRun stage countEnd (poolInit nThreads start) sched) i = 0 := by
    omega
  simp only [stepsLeft, hi] at h4
  cases hpc : w.pc with
  | atBarrier => rfl
  | claiming => rw [hpc] at h4; simp at h4
  | calling => rw [hpc] at h4; simp at h4

/-! ### The two per-unit stages of `MoveTypeThreadFunc` -/

theorem inlineUpdateLoop_eq (l : List CUnit) : inlineUpdateLoop l = l := by
  induction l with
  | nil => rfl
  | cons u rest ih => simp [inlineUpdateLoop, ih]

theorem inlineSlowLoop_eq (n : Int) (hn : n ≠ 0) (l : List CUnit) : inlineSlowLoop n l = l := by
  induction l with
  | nil => rfl
  | cons u rest ih => simp [inlineSlowLoop, ih, hn]

/-- A pooled round of the SLOW_UPDATE_MOVETYPE stage that has ended has called
`moveType->SlowUpdate` on the first `min countEnd remaining` units from the start position,
each once. -/
theorem pooled_slow_calls (RATE frameNum : Nat) (activeUnits : List CUnit)
    (slowUpdateIterator simNumExtraThreads : Nat) (sched : List Nat)
    (hfin : (MoveTypeThreadFunc_pooled .SLOW_UPDATE_MOVETYPE RATE frameNum activeUnits
      slowUpdateIterator simNumExtraThreads sched).finished) :
    (MoveTypeThreadFunc_pooled .SLOW_UPDATE_MOVETYPE RATE frameNum activeUnits
      slowUpdateIterator simNumExtraThreads sched).calledUnits.Perm
      ((slowStart RATE frameNum activeUnits slowUpdateIterator).take
        (poolBound (slowCount RATE activeUnits)
          (slowStart RATE frameNum activeUnits slowUpdateIterator)).toNat) := by
  have hinv := poolRun_inv .SLOW_UPDATE_MOVETYPE (slowCount RATE activeUnits)
    (slowStart RATE frameNum activeUnits slowUpdateIterator) (Or.inl rfl) sched _
    (poolInit_inv (slowCount RATE activeUnits) (simNumExtraThreads + 1)
      (slowStart RATE frameNum activeUnits slowUpdateIterator))
  have hne : (MoveTypeThreadFunc_pooled .SLOW_UPDATE_MOVETYPE RATE frameNum activeUnits
      slowUpdateIterator simNumExtraThreads sched).workers ≠ [] := by
    intro h
    have hl := poolRun_length .SLOW_UPDATE_MOVETYPE (slowCount RATE activeUnits) sched
      (poolInit (simNumExtraThreads + 1)
        (slowStart RATE frameNum activeUnits slowUpdateIterator))
    simp only [MoveTypeThreadFunc_pooled] at h
    rw [h] at hl
    simp [poolInit] at hl
  exact (poolInv_finished _ _ _ hinv hne hfin).2.1

/-- Claim C1, evaluated on the code at the active set `[10, 11]`, frame 0,
`UNIT_SLOWUPDATE_RATE = 16`: the inline loop of the SLOW_UPDATE_MOVETYPE stage never
decrements its budget `n` and calls `moveType->SlowUpdate` on both units, while every
completed round of the worker pool (any number of extra threads, any interleaving) calls it
on unit 10 only; such a completed round exists. -/
theorem C1_inline_slow_update_overruns_budget :
    MoveTypeThreadFunc_inline .SLOW_UPDATE_MOVETYPE 16 0 [10, 11] 0 = [10, 11] ∧
    (∀ (simNumExtraThreads : Nat) (sched : List Nat),
      (MoveTypeThreadFunc_pooled .SLOW_UPDATE_MOVETYPE 16 0 [10, 11] 0
        simNumExtraThreads sched).finished →
      (MoveTypeThreadFunc_pooled .SLOW_UPDATE_MOVETYPE 16 0 [10, 11] 0
        simNumExtraThreads sched).calledUnits = [10]) ∧
    (MoveTypeThreadFunc_pooled .SLOW_UPDATE_MOVETYPE 16 0 [10, 11] 0 1
      [0, 1, 0, 1, 0]).finished := by
  refine ⟨by decide, ?_, by decide⟩
  intro n sched hfin
  have h := pooled_slow_calls 16 0 [10, 11] 0 n sched hfin
  have h2 : (slowStart 16 0 [10, 11] 0).take
      (poolBound (slowCount 16 [10, 11]) (slowStart 16 0 [10, 11] 0)).toNat = [10] := by
    decide
  rw [h2] at h
  exact List.perm_singleton.1 h

/-- Claim C2: in a round of the UPDATE_MOVETYPE stage run by `simNumExtraThreads + 1`
threads under an arbitrary interleaving `sched` of their steps, (1) the round ends as soon
as every thread has been given `2 * n + 1` steps, and (2) whenever the round has ended, the
claimed indices on which `UpdateMoveType` ran are exactly `0 .. n-1`, each once (one call,
one thread), the units it ran on are those of the inline loop, each once, and no thread
dereferenced `end()`. -/
theorem C2_update_movetype_each_index_once (RATE frameNum : Nat) (activeUnits : List CUnit)
    (slowUpdateIterator simNumExtraThreads : Nat) (sched : List Nat) :
    ((∀ i, i < simNumExtraThreads + 1 → 2 * activeUnits.length + 1 ≤ sched.count i) →
      (MoveTypeThreadFunc_pooled .UPDATE_MOVETYPE RATE frameNum activeUnits slowUpdateIterator
        simNumExtraThreads sched).finished) ∧
    ((MoveTypeThreadFunc_pooled .UPDATE_MOVETYPE RATE frameNum activeUnits slowUpdateIterator
        simNumExtraThreads sched).finished →
      (MoveTypeThreadFunc_pooled .UPDATE_MOVETYPE RATE frameNum activeUnits slowUpdateIterator
        simNumExtraThreads sched).calledIndices.Perm
        ((List.range activeUnits.length).map (fun k : Nat => (k : Int))) ∧
      (MoveTypeThreadFunc_pooled .UPDATE_MOVETYPE RATE frameNum activeUnits slowUpdateIterator
        simNumExtraThreads sched).calledUnits.Perm
        (MoveTypeThreadFunc_inline .UPDATE_MOVETYPE RATE frameNum activeUnits
          slowUpdateIterator) ∧
      (MoveTypeThreadFunc_pooled .UPDATE_MOVETYPE RATE frameNum activeUnits slowUpdateIterator
        simNumExtraThreads sched).derefEnd = false) := by
  have hrun : MoveTypeThreadFunc_pooled .UPDATE_MOVETYPE RATE frameNum activeUnits
      slowUpdateIterator simNumExtraThreads sched
      = poolRun .UPDATE_MOVETYPE (activeUnits.length : Int)
          (poolInit (simNumExtraThreads + 1) activeUnits) sched := rfl
  rw [hrun]
  constructor
  · intro hfair
    apply poolRun_finished
    intro i hi
    simpa using hfair i hi
  · intro hfin
    have hinv := poolRun_inv .UPDATE_MOVETYPE (activeUnits.length : Int) activeUnits
      (Or.inr (le_refl _)) sched _
      (poolInit_inv (activeUnits.length : Int) (simNumExtraThreads + 1) activeUnits)
    have hne : (poolRun .UPDATE_MOVETYPE (activeUnits.length : Int)
        (poolInit (simNumExtraThreads + 1) activeUnits) sched).workers ≠ [] := by
      intro h
      have hl := poolRun_length .UPDATE_MOVETYPE (activeUnits.length : Int) sched
        (poolInit (simNumExtraThreads + 1) activeUnits)
      rw [h] at hl
      simp [poolInit] at hl
    have h := poolInv_finished _ _ _ hinv hne hfin
    have hb : (poolBound (activeUnits.length : Int) activeUnits).toNat = activeUnits.length := by
      simp [poolBound]
    rw [hb, List.take_length] at h
    refine ⟨h.1, ?_, h.2.2⟩
    simp only [MoveTypeThreadFunc_inline, inlineUpdateLoop_eq]
    exact h.2.1

/-- Claim C2 at the active set `[10, 11, 12]` with one extra thread and an interleaving that
gives each of the two threads seven steps. -/
theorem C2_update_movetype_each_index_once_witness :
    (MoveTypeThreadFunc_pooled .UPDATE_MOVETYPE 16 0 [10, 11, 12] 0 1
      [0, 1, 1, 0, 1, 1, 0, 0, 1, 0, 0, 1, 1, 0]).finished ∧
    (MoveTypeThreadFunc_pooled .UPDATE_MOVETYPE 16 0 [10, 11, 12] 0 1
      [0, 1, 1, 0, 1, 1, 0, 0, 1, 0, 0, 1, 1, 0]).calledUnits.Perm [10, 11, 12] :=
  ⟨(C2_update_movetype_each_index_once 16 0 [10, 11, 12] 0 1
      [0, 1, 1, 0, 1, 1, 0, 0, 1, 0, 0, 1, 1, 0]).1 (by decide),
   ((C2_update_movetype_each_index_once 16 0 [10, 11, 12] 0 1
      [0, 1, 1, 0, 1, 1, 0, 0, 1, 0, 0, 1, 1, 0]).2 (by decide)).2.1⟩

/-! ### The staggered `Unit::SlowUpdate` loop -/

theorem seg_append (l : List CUnit) (a b c : Nat) (hab : a ≤ b) (hbc : b ≤ c)
    (hc : c ≤ l.length) : seg l a b ++ seg l b c = seg l a c := by
  unfold seg
  have h1 : l.take c = l.take b ++ (l.take c).drop b := by
    conv_lhs => rw [← List.take_append_drop b (l.take c)]
    rw [List.take_take, min_eq_left hbc]
  conv_rhs => rw [h1]
  rw [List.drop_append_of_le_length]
  rw [List.length_take]
  omega

theorem slowUpdateLoop_eq (l : List CUnit) :
    ∀ (fuel it : Nat) (n : Int), fuel = n.toNat → 0 ≤ n → it ≤ l.length →
      slowUpdateLoop l fuel it n = (min (it + fuel) l.length, seg l it (min (it + fuel) l.length)) := by
  intro fuel
  induction fuel with
  | zero =>
    intro it n _ _ hit
    simp [slowUpdateLoop, seg, min_eq_left hit]
  | succ m ih =>
    intro it n hf hn hit
    have hn0 : n ≠ 0 := by omega
    by_cases hend : it = l.length
    · subst hend
      simp [slowUpdateLoop, seg]
    · have hlt : it < l.length := by omega
      have hget : l[it]? = some l[it] := List.getElem?_eq_getElem hlt
      rw [slowUpdateLoop, if_pos ⟨hend, hn0⟩, hget]
      simp only
      rw [ih (it + 1) (n - 1) (by omega) (by omega) (by omega)]
      have e1 : it + 1 + m = it + (m + 1) := by omega
      rw [e1]
      refine Prod.ext rfl ?_
      simp only
      have hseg : seg l it (it + 1) = [l[it]] := by
        unfold seg
        rw [List.drop_take]
        have : it + 1 - it = 1 := by omega
        rw [this, List.drop_eq_getElem_cons hlt]
        rfl
      have := seg_append l it (it + 1) (min (it + (m + 1)) l.length) (by omega) (by omega)
        (by omega)
      rw [hseg] at this
      exact this

theorem Update_slowUpdate_eq (k frameNum cursor : Nat) (l : List CUnit)
    (hc : frameNum % 2 ^ k = 0 ∨ cursor ≤ l.length) :
    Update_slowUpdate (2 ^ k) frameNum l cursor
      = (min ((if frameNum % 2 ^ k = 0 then 0 else cursor) + (l.length / 2 ^ k + 1)) l.length,
         seg l (if frameNum % 2 ^ k = 0 then 0 else cursor)
           (min ((if frameNum % 2 ^ k = 0 then 0 else cursor) + (l.length / 2 ^ k + 1))
             l.length)) := by
  unfold Update_slowUpdate
  rw [Nat.and_pow_two_sub_one_eq_mod]
  simp only
  rw [slowUpdateLoop_eq l _ _ _ rfl (Int.natCast_nonneg _)]
  · rw [Int.toNat_ofNat]
  · split
    · omega
    · rcases hc with h | h
      · contradiction
      · exact h

theorem stagePos_succ (rate N j : Nat) :
    min (stagePos rate N j + (N / rate + 1)) N = stagePos rate N (j + 1) := by
  unfold stagePos
  rw [Nat.succ_mul]
  generalize N / rate = q
  omega

theorem stagePos_le (rate N j : Nat) : stagePos rate N j ≤ N := by
  unfold stagePos; omega

theorem stagePos_mono (rate N j : Nat) : stagePos rate N j ≤ stagePos rate N (j + 1) := by
  unfold stagePos
  rw [Nat.succ_mul]
  generalize N / rate = q
  omega

theorem stagePos_full (rate N : Nat) (hr : 0 < rate) : stagePos rate N rate = N := by
  unfold stagePos
  have h1 := Nat.div_add_mod N rate
  have h2 := Nat.mod_lt N hr
  have h3 : rate * (N / rate + 1) = rate * (N / rate) + rate := by ring
  have h4 : N ≤ rate * (N / rate + 1) := by omega
  rw [min_eq_right h4]

/-- Within one cycle: `m` consecutive frames starting at position `j` of the cycle, with the
cursor where `j` steps leave it, call `SlowUpdate` on the units between the cursor positions
of step `j` and step `j + m`. -/
theorem slowUpdateWindow_cycle (k : Nat) (l : List CUnit) :
    ∀ (m j frameNum cursor : Nat), frameNum % 2 ^ k = j → j + m ≤ 2 ^ k →
      (j = 0 ∨ cursor = stagePos (2 ^ k) l.length j) →
      (slowUpdateWindow (2 ^ k) l m frameNum cursor).2
        = seg l (stagePos (2 ^ k) l.length j) (stagePos (2 ^ k) l.length (j + m)) := by
  intro m
  induction m with
  | zero =>
    intro j f c _ _ _
    simp [slowUpdateWindow, seg]
  | succ m ih =>
    intro j f c hj hjm hc
    have hstart : (if f % 2 ^ k = 0 then 0 else c) = stagePos (2 ^ k) l.length j := by
      rw [hj]
      split
      · rename_i h0; subst h0; simp [stagePos]
      · rename_i h0
        rcases hc with h | h
        · exact absurd h h0
        · exact h
    have hstep := Update_slowUpdate_eq k f c l (by
      rcases hc with h | h
      · left; rw [hj]; exact h
      · right; rw [h]; exact stagePos_le _ _ _)
    rw [hstart, stagePos_succ] at hstep
    rw [slowUpdateWindow]
    simp only
    rw [hstep]
    simp only
    by_cases hm : m = 0
    · subst hm
      simp [slowUpdateWindow]
    · have hj1 : (f + 1) % 2 ^ k = j + 1 := by
        have hlt : j + 1 < 2 ^ k := by omega
        rw [Nat.add_mod, hj]
        have h1 : 1 % 2 ^ k = 1 := Nat.mod_eq_of_lt (by omega)
        rw [h1]
        exact Nat.mod_eq_of_lt hlt
      rw [ih (j + 1) (f + 1) _ hj1 (by omega) (Or.inr rfl)]
      have e : j + 1 + m = j + (m + 1) := by omega
      rw [e]
      apply seg_append
      · exact stagePos_mono _ _ _
      · unfold stagePos
        have : (j + 1) * (l.length / 2 ^ k + 1) ≤ (j + (m + 1)) * (l.length / 2 ^ k + 1) :=
          Nat.mul_le_mul_right _ (by omega)
        omega
      · exact stagePos_le _ _ _

theorem slowUpdateWindow_add (RATE : Nat) (l : List CUnit) :
    ∀ (a b frameNum cursor : Nat),
      (slowUpdateWindow RATE l (a + b) frameNum cursor).2
        = (slowUpdateWindow RATE l a frameNum cursor).2
          ++ (slowUpdateWindow RATE l b (frameNum + a)
                (slowUpdateWindow RATE l a frameNum cursor).1).2 := by
  intro a
  induction a with
  | zero => intro b f c; simp [slowUpdateWindow]
  | succ a ih =>
    intro b f c
    have e : a + 1 + b = (a + b) + 1 := by omega
    rw [e, slowUpdateWindow, slowUpdateWindow]
    simp only
    rw [ih]
    have e2 : f + 1 + a = f + (a + 1) := by omega
    rw [e2, List.append_assoc]

/-- Claim C3, as amended: with an unchanged active set and `UNIT_SLOWUPDATE_RATE = 2^k`, over
`UNIT_SLOWUPDATE_RATE` consecutive `Update`s that either start at a frame number divisible by
the rate, or start with the cursor where the staggering since the last reset leaves it
(`min((frameNum mod rate) * (size / rate + 1), size)`), the staggered loop calls `SlowUpdate`
exactly once on every entity of the active set. -/
theorem C3_staggered_slow_update_covers_once (k frameNum cursor : Nat) (activeUnits : List CUnit)
    (h : frameNum % 2 ^ k = 0 ∨
      cursor = min ((frameNum % 2 ^ k) * (activeUnits.length / 2 ^ k + 1)) activeUnits.length) :
    (slowUpdateWindow (2 ^ k) activeUnits (2 ^ k) frameNum cursor).2.Perm activeUnits := by
  have hpos : 0 < 2 ^ k := Nat.two_pow_pos k
  have hj := Nat.mod_lt frameNum hpos
  have hsplit : 2 ^ k = (2 ^ k - frameNum % 2 ^ k) + frameNum % 2 ^ k := by omega
  have hw : (slowUpdateWindow (2 ^ k) activeUnits (2 ^ k) frameNum cursor).2
      = (slowUpdateWindow (2 ^ k) activeUnits
          ((2 ^ k - frameNum % 2 ^ k) + frameNum % 2 ^ k) frameNum cursor).2 := by
    rw [← hsplit]
  rw [hw, slowUpdateWindow_add]
  rw [slowUpdateWindow_cycle k activeUnits (2 ^ k - frameNum % 2 ^ k) (frameNum % 2 ^ k)
    frameNum cursor rfl (by omega) h]
  have hf0 : (frameNum + (2 ^ k - frameNum % 2 ^ k)) % 2 ^ k = 0 := by
    have h1 := Nat.div_add_mod frameNum (2 ^ k)
    have h2 : frameNum + (2 ^ k - frameNum % 2 ^ k) = 2 ^ k * (frameNum / 2 ^ k + 1) := by
      have h3 : 2 ^ k * (frameNum / 2 ^ k + 1) = 2 ^ k * (frameNum / 2 ^ k) + 2 ^ k := by ring
      omega
    rw [h2]
    exact Nat.mul_mod_right _ _
  rw [slowUpdateWindow_cycle k activeUnits (frameNum % 2 ^ k) 0 _ _ hf0 (by omega) (Or.inl rfl)]
  have e1 : frameNum % 2 ^ k + (2 ^ k - frameNum % 2 ^ k) = 2 ^ k := by omega
  rw [e1, stagePos_full _ _ hpos, Nat.zero_add]
  have e2 : stagePos (2 ^ k) activeUnits.length 0 = 0 := by simp [stagePos]
  rw [e2]
  unfold seg
  rw [List.take_length, List.drop_zero]
  exact (List.perm_append_comm).trans (by rw [List.take_append_drop])

/-- Claim C3 as amended, at nine units, rate 4, starting at frame 2 with the cursor at
position 6. -/
theorem C3_staggered_slow_update_covers_once_witness :
    (2 % 2 ^ 2 = 0 ∨ 6 = min ((2 % 2 ^ 2) * ([10, 11, 12, 13, 14, 15, 16, 17, 18].length / 2 ^ 2 + 1))
        [10, 11, 12, 13, 14, 15, 16, 17, 18].length) ∧
    (slowUpdateWindow (2 ^ 2) [10, 11, 12, 13, 14, 15, 16, 17, 18] (2 ^ 2) 2 6).2.Perm
      [10, 11, 12, 13, 14, 15, 16, 17, 18] :=
  ⟨by decide, C3_staggered_slow_update_covers_once 2 2 6 [10, 11, 12, 13, 14, 15, 16, 17, 18]
    (by decide)⟩

/-- Claim C3 fails as stated: construct the handler (unit limit 2), add units 10 and 11
(the cursor stays at `end()`), then run the 16 consecutive `Update`s of frames 1 to 16 with
`UNIT_SLOWUPDATE_RATE = 16` and the active set unchanged: frames 1 to 15 find the cursor at
`end()`, frame 16 resets it and slow-updates one unit, so the other unit gets no `SlowUpdate`
in the window. -/
theorem C3_counterexample_unaligned_window :
    (runCalls ⟨true, false⟩ (CUnitHandler.ctor [2] 0 (fun _ => 0) (fun _ => ⟨0, 0, 0, 0⟩))
        [.addUnit 10 0, .addUnit 11 0]).map
      (fun s => (s.activeUnits, s.slowUpdateIterator,
        (slowUpdateWindow (2 ^ 4) s.activeUnits (2 ^ 4) 1 s.slowUpdateIterator).2))
      = some ([11, 10], 2, [11]) ∧
    ¬ ([11] : List CUnit).Perm [11, 10] := by
  constructor
  · decide
  · decide

/-! ### The sequential drain step of `Update` -/

theorem drainLoop_effects (env : TickEnv) (heap : CUnit → UnitFields) :
    ∀ (l : List CUnit) (updateOps : Nat → Int),
      (drainLoop env heap l updateOps).1 = l.flatMap (drainEffects env) := by
  intro l
  induction l with
  | nil => intro uo; rfl
  | cons u rest ih =>
    intro uo
    rw [drainLoop, List.flatMap_cons]
    by_cases hq : env.delayOps u ≠ []
    · by_cases hb : (ExecuteDelayOps u (env.delayOps u)).2 ≠ 0
      · simp only [if_pos hq, if_pos hb, ih, drainEffects]
      · simp only [if_pos hq, if_neg hb, ih, drainEffects]
    · simp only [if_neg hq, ih, drainEffects, List.nil_append]

theorem drainLoop_table_other (env : TickEnv) (heap : CUnit → UnitFields) :
    ∀ (l : List CUnit) (updateOps : Nat → Int) (id : Nat),
      id ∉ l.map (fun u => (heap u).id) →
      (drainLoop env heap l updateOps).2.1 id = updateOps id := by
  intro l
  induction l with
  | nil => intro uo id _; rfl
  | cons u rest ih =>
    intro uo id hid
    simp only [List.map_cons, List.mem_cons, not_or] at hid
    rw [drainLoop]
    by_cases hq : env.delayOps u ≠ []
    · by_cases hb : (ExecuteDelayOps u (env.delayOps u)).2 ≠ 0
      · simp only [if_pos hq, if_pos hb]
        rw [ih _ id hid.2, Function.update_noteq hid.1]
      · simp only [if_pos hq, if_neg hb]
        exact ih _ id hid.2
    · simp only [if_neg hq]
      exact ih _ id hid.2

theorem drainLoop_replay (env : TickEnv) (heap : CUnit → UnitFields) :
    ∀ (l : List CUnit) (updateOps : Nat → Int),
      (l.map (fun u => (heap u).id)).Nodup →
      ∀ (table : Nat → Int),
        (∀ u ∈ l, table (heap u).id = (drainLoop env heap l updateOps).2.1 (heap u).id) →
        replayLoop table (drainLoop env heap l updateOps).2.2
          = l.flatMap (replayEffects env heap) := by
  intro l
  induction l with
  | nil => intro uo _ table _; rfl
  | cons u rest ih =>
    intro uo hnd table htab
    rw [List.map_cons, List.nodup_cons] at hnd
    rw [List.flatMap_cons]
    have hu := htab u (List.mem_cons_self _ _)
    rw [drainLoop] at hu htab ⊢
    by_cases hq : env.delayOps u ≠ []
    · by_cases hb : (ExecuteDelayOps u (env.delayOps u)).2 ≠ 0
      · simp only [if_pos hq, if_pos hb] at hu htab ⊢
        rw [drainLoop_table_other env heap rest _ _ hnd.1, Function.update_same] at hu
        rw [replayLoop, hu]
        rw [ih _ hnd.2 table (fun v hv => htab v (List.mem_cons_of_mem _ hv))]
        simp [replayEffects, hq, hb]
      · simp only [if_pos hq, if_neg hb] at hu htab ⊢
        rw [ih _ hnd.2 table (fun v hv => htab v (List.mem_cons_of_mem _ hv))]
        simp [replayEffects, hb]
    · simp only [if_neg hq] at hu htab ⊢
      rw [ih _ hnd.2 table (fun v hv => htab v (List.mem_cons_of_mem _ hv))]
      simp [replayEffects, hq]

/-- The trace of the drain step in closed form: the immediate effects of every unit in list
order, the synchronisation with the path thread, the replayed `Block`/`UnBlock` calls in
list order, and the snapshot refresh. -/
theorem Update_drain_eq (m : ModInfo) (env : TickEnv) (s : CUnitHandler) (updateOps : Nat → Int)
    (hids : s.liveIds.Nodup) :
    Update_drain m env s updateOps
      = s.activeUnits.flatMap (drainEffects env) ++ [.SynchronizeThread]
        ++ s.activeUnits.flatMap (replayEffects env s.heap)
        ++ (if m.multiThreadSim then [.MergePathCaches] else []) ++ [.UpdateStableData] := by
  unfold Update_drain
  simp only
  rw [drainLoop_effects, drainLoop_replay env s.heap s.activeUnits updateOps hids _
    (fun _ _ => rfl)]

/-- Claim C4, as amended: in the sequential drain step, for E1 earlier than E2 in the active
set (ids pairwise distinct), the immediately applied effects of E1's queued operations come
before those of E2's, and E1's recorded `Block`/`UnBlock` is replayed before E2's; every
replayed `Block`/`UnBlock` comes after the immediate effects of all units and the
synchronisation with the path thread. -/
theorem C4_drain_applies_in_active_set_order (m : ModInfo) (env : TickEnv) (s : CUnitHandler)
    (updateOps : Nat → Int) (before between after : List CUnit) (E1 E2 : CUnit)
    (hsplit : s.activeUnits = before ++ E1 :: between ++ E2 :: after)
    (hids : s.liveIds.Nodup) :
    Update_drain m env s updateOps
      = (before.flatMap (drainEffects env) ++ drainEffects env E1
          ++ between.flatMap (drainEffects env) ++ drainEffects env E2
          ++ after.flatMap (drainEffects env))
        ++ [.SynchronizeThread]
        ++ (before.flatMap (replayEffects env s.heap) ++ replayEffects env s.heap E1
          ++ between.flatMap (replayEffects env s.heap) ++ replayEffects env s.heap E2
          ++ after.flatMap (replayEffects env s.heap))
        ++ (if m.multiThreadSim then [.MergePathCaches] else []) ++ [.UpdateStableData] := by
  rw [Update_drain_eq m env s updateOps hids, hsplit]
  simp only [List.flatMap_append, List.flatMap_cons, List.append_assoc]

/-- Claim C4 as amended, at the active set `[1, 2, 3]` with ids 1, 2, 3, where unit 1 has
queued `[DODAMAGE, BLOCK]` and unit 3 has queued `[UNBLOCK, MOVE]`. -/
theorem C4_drain_applies_in_active_set_order_witness :
    Update_drain ⟨true, true⟩
        ⟨0, fun u => if u = 1 then [.DODAMAGE, .BLOCK] else if u = 3 then [.UNBLOCK, .MOVE] else [],
          fun _ => [], fun _ => false, fun _ => 0, [], [], []⟩
        ⟨[1, 2, 3], [], [], [], 0, 8, 0, [], 0, fun u => ⟨u, 0, 0, 0⟩⟩ (fun _ => 0)
      = [.DelayOpApplied 1 .DODAMAGE, .DelayOpApplied 3 .MOVE, .SynchronizeThread,
         .Block 1, .UnBlock 3, .MergePathCaches, .UpdateStableData] := by
  rw [C4_drain_applies_in_active_set_order ⟨true, true⟩ _ _ _ [] [2] [] 1 3 rfl (by decide)]
  decide

/-- Claim C4 fails as stated: with active set `[1, 2]`, unit 1 holding the queued operation
`BLOCK` and unit 2 holding `DODAMAGE`, the drain step applies unit 2's damage before unit 1's
`Block()` registration, which is only replayed after the loop. -/
theorem C4_counterexample_block_after_later_unit :
    Update_drain ⟨false, true⟩
        ⟨0, fun u => if u = 1 then [.BLOCK] else if u = 2 then [.DODAMAGE] else [],
          fun _ => [], fun _ => false, fun _ => 0, [], [], []⟩
        ⟨[1, 2], [], [], [], 0, 8, 0, [], 0, fun u => ⟨u, 0, 0, 0⟩⟩ (fun _ => 0)
      = [.DelayOpApplied 2 .DODAMAGE, .SynchronizeThread, .Block 1, .UpdateStableData] := by
  decide

/-! ### Where `Update` refreshes the stable snapshot -/

theorem count_set_add (a x : Nat) :
    ∀ (l : List Nat) (i : Nat), i < l.length →
      (l.set i x).count a + (if l[i]? = some a then 1 else 0)
        = l.count a + (if x = a then 1 else 0) := by
  intro l
  induction l with
  | nil => intro i hi; simp at hi
  | cons b rest ih =>
    intro i hi
    cases i with
    | zero =>
      simp only [List.set_cons_zero, List.count_cons, List.getElem?_cons_zero, Option.some.injEq,
        beq_iff_eq]
      omega
    | succ i =>
      have := ih i (by simpa using hi)
      simp only [List.set_cons_succ, List.count_cons, List.getElem?_cons_succ]
      omega

theorem iterSwap_perm (l : List Nat) (i j : Nat) (hi : i < l.length) (hj : j < l.length) :
    (iterSwap l i j).Perm l := by
  rw [List.perm_iff_count]
  intro a
  unfold iterSwap
  have hgi : l.getD i 0 = l[i] := by simp [List.getD, List.getElem?_eq_getElem hi]
  have hgj : l.getD j 0 = l[j] := by simp [List.getD, List.getElem?_eq_getElem hj]
  rw [hgi, hgj]
  have h1 := count_set_add a l[j] l i hi
  have hj' : j < (l.set i l[j]).length := by simpa using hj
  have h2 := count_set_add a l[i] (l.set i l[j]) j hj'
  have h3 : (l.set i l[j])[j]? = some l[j] := by
    rw [List.getElem?_set]
    by_cases hij : i = j
    · simp [hij, hj]
    · simp [hij, List.getElem?_eq_getElem hj]
  rw [h3] at h2
  rw [List.getElem?_eq_getElem hi] at h1
  simp only [Option.some.injEq] at h1 h2
  omega

theorem iterSwap_length (l : List Nat) (i j : Nat) : (iterSwap l i j).length = l.length := by
  simp [iterSwap]

theorem shuffleLoop_perm (draws : Nat → Nat) :
    ∀ (fuel i k : Nat) (l : List Nat), i + fuel = l.length → 1 ≤ i ∨ fuel = 0 →
      (shuffleLoop draws fuel i k l).Perm l := by
  intro fuel
  induction fuel with
  | zero => intro i k l _ _; exact List.Perm.refl _
  | succ n ih =>
    intro i k l hlen _
    rw [shuffleLoop]
    have hj : draws k % (i + 1) < l.length := by
      have : draws k % (i + 1) < i + 1 := Nat.mod_lt (draws k) (Nat.succ_pos i)
      omega
    have hp := iterSwap_perm l i (draws k % (i + 1)) (by omega) hj
    refine (ih (i + 1) (k + 1) _ ?_ (Or.inl (by omega))).trans hp
    rw [iterSwap_length]; omega

theorem random_shuffle_perm (draws : Nat → Nat) (k : Nat) (l : List Nat) :
    (random_shuffle draws k l).Perm l := by
  unfold random_shuffle
  cases l with
  | nil => exact List.Perm.refl _
  | cons a rest =>
    apply shuffleLoop_perm
    · simp; omega
    · exact Or.inl (le_refl _)

theorem ctor_inv (teamMaxUnits : List Nat) (n : Nat) (draws : Nat → Nat)
    (heap : CUnit → UnitFields) : IdInv (CUnitHandler.ctor teamMaxUnits n draws heap) := by
  refine ⟨List.nodup_nil, ?_⟩
  simp only [CUnitHandler.ctor, CUnitHandler.liveIds, List.map_nil, List.nil_append]
  exact (List.reverse_perm _).trans
    ((random_shuffle_perm _ _ _).trans (random_shuffle_perm _ _ _))

theorem findUnit_spec (delUnit : CUnit) :
    ∀ (l : List CUnit) (i : Nat),
      (delUnit ∉ l → findUnit delUnit l i = none) ∧
      (delUnit ∈ l → ∃ j, findUnit delUnit l i = some (i + j) ∧ l.eraseIdx j = l.erase delUnit) := by
  intro l
  induction l with
  | nil => intro i; simp [findUnit]
  | cons u rest ih =>
    intro i
    by_cases hu : u = delUnit
    · subst hu
      refine ⟨fun h => absurd (List.mem_cons_self _ _) h, fun _ => ⟨0, ?_, ?_⟩⟩
      · simp [findUnit]
      · simp
    · obtain ⟨h1, h2⟩ := ih (i + 1)
      refine ⟨fun h => ?_, fun h => ?_⟩
      · rw [findUnit, if_neg hu]
        exact h1 (fun hm => h (List.mem_cons_of_mem _ hm))
      · have hm : delUnit ∈ rest := by
          rcases List.mem_cons.1 h with h | h
          · exact absurd h.symm hu
          · exact h
        obtain ⟨j, hj1, hj2⟩ := h2 hm
        refine ⟨j + 1, ?_, ?_⟩
        · rw [findUnit, if_neg hu, hj1]
          congr 1
          omega
        · rw [List.eraseIdx_cons_succ, hj2, List.erase_cons_tail]
          simpa using hu

theorem debugSweep_not_mem (delUnit : CUnit) :
    ∀ (l : List CUnit) (i cursor : Nat), delUnit ∉ l →
      debugSweep delUnit l i cursor = (l, cursor) := by
  intro l
  induction l with
  | nil => intro i c _; rfl
  | cons u rest ih =>
    intro i c h
    simp only [List.mem_cons, not_or] at h
    rw [debugSweep, if_neg (fun e => h.1 e.symm), ih _ _ h.2]

/-- The active list after `DeleteUnitNow`, when `delUnit` occurs at most once in it. -/
theorem DeleteUnitNow_activeUnits (flags : BuildFlags) (s : CUnitHandler) (delUnit : CUnit)
    (h : s.activeUnits.count delUnit ≤ 1) :
    (DeleteUnitNow flags s delUnit).activeUnits = s.activeUnits.erase delUnit := by
  have hnot : delUnit ∉ s.activeUnits.erase delUnit := by
    intro hm
    have h1 := List.count_erase_self delUnit s.activeUnits
    have h2 : 0 < (s.activeUnits.erase delUnit).count delUnit := List.count_pos_iff.2 hm
    omega
  unfold DeleteUnitNow
  by_cases hmem : delUnit ∈ s.activeUnits
  · obtain ⟨j, hj1, hj2⟩ := (findUnit_spec delUnit s.activeUnits 0).2 hmem
    rw [hj1]
    simp only [Nat.zero_add, hj2]
    split
    · rw [debugSweep_not_mem _ _ _ _ hnot]
    · rfl
  · rw [(findUnit_spec delUnit s.activeUnits 0).1 hmem]
    simp only
    rw [List.erase_of_not_mem hmem]
    split
    · rw [debugSweep_not_mem _ _ _ _ hmem]
    · rfl

theorem AddUnit_inv (flags : BuildFlags) (s : CUnitHandler) (unit : CUnit) (pos : Nat)
    (hs : IdInv s) (hfresh : unit ∉ s.activeUnits) :
    ∀ r, AddUnit flags s unit pos = some r → IdInv r.2 := by
  intro r hr
  unfold AddUnit at hr
  cases hfree : s.freeUnitIDs with
  | nil =>
    rw [hfree] at hr
    simp only at hr
    split at hr
    · cases hr; exact hs
    · cases hr
  | cons id rest =>
    rw [hfree] at hr
    simp only [Option.some.injEq] at hr
    subst hr
    obtain ⟨hnd, hperm⟩ := hs
    have hlist : ∀ ui, (s.activeUnits.take ui ++ unit :: s.activeUnits.drop ui).Perm
        (unit :: s.activeUnits) := by
      intro ui
      refine List.perm_middle.trans ?_
      rw [List.take_append_drop]
    refine ⟨?_, ?_⟩
    · show (s.activeUnits.take _ ++ unit :: s.activeUnits.drop _).Nodup
      rw [(hlist _).nodup_iff]
      exact List.nodup_cons.2 ⟨hfresh, hnd⟩
    · show ((s.activeUnits.take _ ++ unit :: s.activeUnits.drop _).map _ ++ rest).Perm
        (List.range s.maxUnits)
      have hmap : s.activeUnits.map
          (fun u => (Function.update s.heap unit { s.heap unit with id := id } u).id)
          = s.liveIds := by
        unfold CUnitHandler.liveIds
        apply List.map_congr_left
        intro v hv
        have : v ≠ unit := fun e => hfresh (e ▸ hv)
        rw [Function.update_noteq this]
      have h1 := ((hlist (if s.activeUnits = [] then 0 else pos)).map
        (fun u => (Function.update s.heap unit { s.heap unit with id := id } u).id))
      rw [List.map_cons, hmap, Function.update_same] at h1
      refine (h1.append_right rest).trans ?_
      rw [hfree] at hperm
      exact (List.perm_middle.symm).trans hperm

theorem DeleteUnitNow_frame (flags : BuildFlags) (s : CUnitHandler) (delUnit : CUnit) :
    (DeleteUnitNow flags s delUnit).heap = s.heap ∧
    (DeleteUnitNow flags s delUnit).maxUnits = s.maxUnits ∧
    (DeleteUnitNow flags s delUnit).freeUnitIDs
      = if delUnit ∈ s.activeUnits then s.freeUnitIDs ++ [(s.heap delUnit).id]
        else s.freeUnitIDs := by
  unfold DeleteUnitNow
  by_cases hmem : delUnit ∈ s.activeUnits
  · obtain ⟨j, hj1, _⟩ := (findUnit_spec delUnit s.activeUnits 0).2 hmem
    rw [hj1, if_pos hmem]
    simp only
    split <;> exact ⟨rfl, rfl, rfl⟩
  · rw [(findUnit_spec delUnit s.activeUnits 0).1 hmem, if_neg hmem]
    simp only
    split <;> exact ⟨rfl, rfl, rfl⟩

theorem DeleteUnitNow_inv (flags : BuildFlags) (s : CUnitHandler) (delUnit : CUnit)
    (hs : IdInv s) : IdInv (DeleteUnitNow flags s delUnit) := by
  obtain ⟨hnd, hperm⟩ := hs
  have hcnt : s.activeUnits.count delUnit ≤ 1 := List.nodup_iff_count_le_one.1 hnd delUnit
  have hact := DeleteUnitNow_activeUnits flags s delUnit hcnt
  obtain ⟨hheap, hmax, hfree⟩ := DeleteUnitNow_frame flags s delUnit
  refine ⟨?_, ?_⟩
  · rw [hact]
    exact hnd.erase _
  · unfold CUnitHandler.liveIds
    rw [hact, hheap, hmax, hfree]
    by_cases hmem : delUnit ∈ s.activeUnits
    · rw [if_pos hmem]
      have h1 : s.liveIds.Perm
          ((s.heap delUnit).id :: (s.activeUnits.erase delUnit).map (fun u => (s.heap u).id)) :=
        (List.perm_cons_erase hmem).map _
      refine List.Perm.trans ?_ hperm
      have h2 : ((s.activeUnits.erase delUnit).map (fun u => (s.heap u).id)
            ++ (s.freeUnitIDs ++ [(s.heap delUnit).id])).Perm
          (((s.heap delUnit).id :: (s.activeUnits.erase delUnit).map (fun u => (s.heap u).id))
            ++ s.freeUnitIDs) := by
        rw [← List.append_assoc]
        exact List.perm_append_singleton _ _
      exact h2.trans (h1.append_right s.freeUnitIDs).symm
    · rw [if_neg hmem, List.erase_of_not_mem hmem]
      exact hperm

theorem runCalls_inv (flags : BuildFlags) :
    ∀ (calls : List HandlerCall) (s : CUnitHandler), IdInv s →
      addsAreFresh flags s calls = true →
      match runCalls flags s calls with
      | none => True
      | some s' => IdInv s' ∧ s'.maxUnits = s.maxUnits := by
  intro calls
  induction calls with
  | nil => intro s hs _; exact ⟨hs, rfl⟩
  | cons c rest ih =>
    intro s hs hf
    cases c with
    | addUnit unit pos =>
      simp only [addsAreFresh, Bool.and_eq_true, Bool.not_eq_true', List.contains_eq_any_beq,
        List.any_eq_false, beq_iff_eq] at hf
      have hfresh : unit ∉ s.activeUnits := fun hm => hf.1 unit hm rfl
      rw [runCalls]
      cases hr : AddUnit flags s unit pos with
      | none => trivial
      | some r =>
        simp only
        rw [hr] at hf
        have h1 := AddUnit_inv flags s unit pos hs hfresh r hr
        have hmax : r.2.maxUnits = s.maxUnits := by
          unfold AddUnit at hr
          split at hr
          · split at hr
            · cases hr; rfl
            · cases hr
          · cases hr; rfl
        have h2 := ih r.2 h1 hf.2
        revert h2
        cases runCalls flags r.2 rest with
        | none => intro _; trivial
        | some s' => intro h2; exact ⟨h2.1, h2.2.trans hmax⟩
    | deleteUnitNow unit =>
      rw [runCalls]
      simp only [addsAreFresh] at hf
      have h1 := DeleteUnitNow_inv flags s unit hs
      have hmax : (DeleteUnitNow flags s unit).maxUnits = s.maxUnits :=
        (DeleteUnitNow_frame flags s unit).2.1
      have h2 := ih _ h1 hf
      revert h2
      cases runCalls flags (DeleteUnitNow flags s unit) rest with
      | none => intro _; trivial
      | some s' => intro h2; exact ⟨h2.1, h2.2.trans hmax⟩

/-- Claim C6, as amended: starting from the constructed handler, after every sequence of
`AddUnit` and `DeleteUnitNow` calls in which no `AddUnit` is passed a unit that is already
in `activeUnits` (and which no `assert` cut short), the ids of the units in `activeUnits` are
pairwise distinct, lie in `[0, maxUnits)` and are disjoint from `freeUnitIDs`; the live ids
and `freeUnitIDs` together form a permutation of `[0, maxUnits)`. -/
theorem C6_live_ids_and_free_pool_partition (flags : BuildFlags) (teamMaxUnits : List Nat)
    (numExtraThreads : Nat) (draws : Nat → Nat) (heap : CUnit → UnitFields)
    (calls : List HandlerCall)
    (hfresh : addsAreFresh flags
      (CUnitHandler.ctor teamMaxUnits numExtraThreads draws heap) calls = true) :
    match runCalls flags (CUnitHandler.ctor teamMaxUnits numExtraThreads draws heap) calls with
    | none => True
    | some s =>
      s.liveIds.Nodup ∧ (∀ id ∈ s.liveIds, id < s.maxUnits) ∧
      (∀ id ∈ s.liveIds, id ∉ s.freeUnitIDs) ∧
      (s.liveIds ++ s.freeUnitIDs).Perm (List.range s.maxUnits) := by
  have h := runCalls_inv flags calls _ (ctor_inv teamMaxUnits numExtraThreads draws heap) hfresh
  revert h
  cases runCalls flags (CUnitHandler.ctor teamMaxUnits numExtraThreads draws heap) calls with
  | none => intro _; trivial
  | some s =>
    intro h
    obtain ⟨⟨_, hperm⟩, _⟩ := h
    have hnd : (s.liveIds ++ s.freeUnitIDs).Nodup := hperm.nodup_iff.2 (List.nodup_range _)
    refine ⟨(List.nodup_append.1 hnd).1, ?_, ?_, hperm⟩
    · intro id hid
      exact List.mem_range.1 (hperm.subset (List.mem_append_left _ hid))
    · intro id hid hfree
      exact (List.nodup_append.1 hnd).2.2 hid hfree

/-- Claim C6 as amended, for a handler with unit limit 3 after adding units 10 and 11,
deleting 10 and adding 12. -/
theorem C6_live_ids_and_free_pool_partition_witness :
    (runCalls ⟨true, false⟩ (CUnitHandler.ctor [3] 0 (fun k => k) (fun _ => ⟨0, 0, 0, 0⟩))
        [.addUnit 10 0, .addUnit 11 1, .deleteUnitNow 10, .addUnit 12 0]).map
      (fun s => (s.activeUnits, s.liveIds, s.freeUnitIDs)) = some ([12, 11], [0, 1], [2]) ∧
    (match runCalls ⟨true, false⟩ (CUnitHandler.ctor [3] 0 (fun k => k) (fun _ => ⟨0, 0, 0, 0⟩))
        [.addUnit 10 0, .addUnit 11 1, .deleteUnitNow 10, .addUnit 12 0] with
    | none => True
    | some s =>
      s.liveIds.Nodup ∧ (∀ id ∈ s.liveIds, id < s.maxUnits) ∧
      (∀ id ∈ s.liveIds, id ∉ s.freeUnitIDs) ∧
      (s.liveIds ++ s.freeUnitIDs).Perm (List.range s.maxUnits)) :=
  ⟨by decide,
   C6_live_ids_and_free_pool_partition ⟨true, false⟩ [3] 0 (fun k => k) (fun _ => ⟨0, 0, 0, 0⟩)
     [.addUnit 10 0, .addUnit 11 1, .deleteUnitNow 10, .addUnit 12 0] (by decide)⟩

/-- Claim C6 fails as stated: on the constructed handler with unit limit 2, calling `AddUnit`
twice with the same unit object 7 leaves `activeUnits = [7, 7]`; the object carries the second
id, so the live ids are `[0, 0]`, not pairwise distinct, and id 1 is neither live nor free. -/
theorem C6_counterexample_same_unit_added_twice :
    (runCalls ⟨true, false⟩ (CUnitHandler.ctor [2] 0 (fun _ => 0) (fun _ => ⟨0, 0, 0, 0⟩))
        [.addUnit 7 0, .addUnit 7 0]).map
      (fun s => (s.activeUnits, s.liveIds, s.freeUnitIDs)) = some ([7, 7], [0, 0], []) ∧
    ¬ ([0, 0] : List Nat).Nodup := by
  constructor
  · decide
  · decide

/-- Claim C7, as amended: with a non-empty free pool `AddUnit` returns `true`; with an empty
pool and assertions compiled out (`NDEBUG`) it returns `false` and leaves the handler and the
unit (its id included) unchanged; with an empty pool and assertions compiled in, the call
stops at `assert(false)`. -/
theorem C7_AddUnit_false_iff_pool_empty (flags : BuildFlags) (s : CUnitHandler) (unit : CUnit)
    (insertionPos : Nat) :
    (s.freeUnitIDs ≠ [] → ∃ s', AddUnit flags s unit insertionPos = some (true, s')) ∧
    (s.freeUnitIDs = [] →
      AddUnit flags s unit insertionPos = if flags.NDEBUG then some (false, s) else none) := by
  constructor
  · intro h
    unfold AddUnit
    cases hfree : s.freeUnitIDs with
    | nil => exact absurd hfree h
    | cons id rest => exact ⟨_, rfl⟩
  · intro h
    unfold AddUnit
    rw [h]

/-- Claim C7 fails as stated: in a build with assertions (no `NDEBUG`), `AddUnit` on the
constructed handler with unit limit 0 (empty free pool) is stopped by `assert(false)` instead
of returning `false`. -/
theorem C7_counterexample_assert_aborts :
    (CUnitHandler.ctor [] 0 (fun _ => 0) (fun _ => ⟨0, 0, 0, 0⟩)).freeUnitIDs = [] ∧
    (AddUnit ⟨false, false⟩ (CUnitHandler.ctor [] 0 (fun _ => 0) (fun _ => ⟨0, 0, 0, 0⟩))
      7 0).isNone = true := by
  constructor
  · decide
  · decide

theorem erase_eq_filter_of_count (u : CUnit) :
    ∀ l : List CUnit, l.count u ≤ 1 → l.erase u = l.filter (fun v => decide (v ≠ u)) := by
  intro l
  induction l with
  | nil => intro _; rfl
  | cons v rest ih =>
    intro h
    by_cases hv : v = u
    · subst hv
      have h0 : rest.count v = 0 := by
        rw [List.count_cons_self] at h
        omega
      have hnot : v ∉ rest := List.count_eq_zero.1 h0
      rw [List.erase_cons_head, List.filter_cons]
      simp only [ne_eq, not_true_eq_false, decide_False, Bool.false_eq_true, if_false]
      symm
      rw [List.filter_eq_self]
      intro a ha
      simp only [ne_eq, decide_not, Bool.not_eq_true', decide_eq_false_iff_not]
      exact fun e => hnot (e ▸ ha)
    · have h' : rest.count u ≤ 1 := by
        rw [List.count_cons_of_ne (Ne.symm hv)] at h
        exact h
      rw [List.erase_cons_tail (by simpa using hv), List.filter_cons, ih h']
      simp [hv]

/-- Claim C8: when `u` occurs exactly once in `activeUnits`, `DeleteUnitNow(u)` leaves the
list with that one entry erased: the result is the old list without `u`, the remaining
entries in their old order, none added, dropped or duplicated. -/
theorem C8_DeleteUnitNow_erases_only_the_unit (flags : BuildFlags) (s : CUnitHandler) (u : CUnit)
    (h : s.activeUnits.count u = 1) :
    (DeleteUnitNow flags s u).activeUnits = s.activeUnits.erase u ∧
    (DeleteUnitNow flags s u).activeUnits = s.activeUnits.filter (fun v => decide (v ≠ u)) ∧
    (DeleteUnitNow flags s u).activeUnits.Sublist s.activeUnits ∧
    (u :: (DeleteUnitNow flags s u).activeUnits).Perm s.activeUnits := by
  have h1 := DeleteUnitNow_activeUnits flags s u (by omega)
  have hmem : u ∈ s.activeUnits := List.count_pos_iff.1 (by omega)
  refine ⟨h1, ?_, ?_, ?_⟩
  · rw [h1]; exact erase_eq_filter_of_count u _ (by omega)
  · rw [h1]; exact List.erase_sublist _ _
  · rw [h1]; exact (List.perm_cons_erase hmem).symm

/-- Claim C8 at the active set `[10, 11, 12]`, deleting unit 11 in a `_DEBUG` build. -/
theorem C8_DeleteUnitNow_erases_only_the_unit_witness :
    (DeleteUnitNow ⟨false, true⟩
      { activeUnits := [10, 11, 12], units := [some 10, some 11, some 12],
        freeUnitIDs := [], unitsToBeRemoved := [], slowUpdateIterator := 1, maxUnits := 3,
        maxUnitRadius := 0, unitsByDefs := [], simNumExtraThreads := 0,
        heap := fun u => ⟨u - 10, 0, 0, 0⟩ } 11).activeUnits = [10, 12] :=
  (C8_DeleteUnitNow_erases_only_the_unit ⟨false, true⟩
      { activeUnits := [10, 11, 12], units := [some 10, some 11, some 12],
        freeUnitIDs := [], unitsToBeRemoved := [], slowUpdateIterator := 1, maxUnits := 3,
        maxUnitRadius := 0, unitsByDefs := [], simNumExtraThreads := 0,
        heap := fun u => ⟨u - 10, 0, 0, 0⟩ } 11 (by decide)).1

/-! ### The handle table of `IPathManager` -/

theorem PMap.find_insert {α : Type} (m : PMap α) (k k' : Nat) (v : α) :
    (m.insert k v).find k' = if k' = k then some v else m.find k' := by
  induction m with
  | nil =>
    by_cases h : k' = k
    · subst h; simp [PMap.insert, PMap.find]
    · have h' : ¬ k = k' := fun e => h e.symm
      simp [PMap.insert, PMap.find, h, h']
  | cons e rest ih =>
    obtain ⟨k1, v1⟩ := e
    unfold PMap.insert
    by_cases h1 : k < k1
    · rw [if_pos h1]
      by_cases h : k' = k
      · subst h; simp [PMap.find]
      · have h' : ¬ k = k' := fun e => h e.symm
        simp [PMap.find, h, h']
    · rw [if_neg h1]
      by_cases h2 : k = k1
      · rw [if_pos h2]
        subst h2
        by_cases h : k' = k
        · subst h; simp [PMap.find]
        · have h' : ¬ k = k' := fun e => h e.symm
          simp [PMap.find, h, h']
      · rw [if_neg h2]
        by_cases h : k' = k
        · subst h
          have h2' : ¬ k1 = k' := fun e => h2 e.symm
          simp only [PMap.find, h2', if_false, if_true]
          rw [ih]
          simp
        · by_cases h3 : k1 = k'
          · simp [PMap.find, h3, h]
          · simp only [PMap.find, h3, if_false, h]
            rw [ih]
            simp [h]

theorem PMap.find_erase {α : Type} (m : PMap α) (k k' : Nat) :
    (m.erase k).find k' = if k' = k then none else m.find k' := by
  induction m with
  | nil => simp [PMap.erase, PMap.find]
  | cons e rest ih =>
    obtain ⟨k1, v1⟩ := e
    unfold PMap.erase at ih ⊢
    by_cases h1 : k1 = k
    · subst h1
      simp only [List.filter_cons, ne_eq, not_true_eq_false, decide_False, Bool.false_eq_true,
        if_false]
      rw [ih]
      by_cases h : k' = k1
      · simp [h]
      · have h' : ¬ k1 = k' := fun e => h e.symm
        simp [PMap.find, h, h']
    · simp only [List.filter_cons, ne_eq, h1, not_false_eq_true, decide_True, if_true]
      by_cases h : k' = k
      · subst h
        simp only [PMap.find, h1, if_false, if_true]
        rw [ih]
        simp
      · by_cases h3 : k1 = k'
        · simp [PMap.find, h3, h]
        · simp only [PMap.find, h3, if_false, h]
          rw [ih]
          simp [h]

/-- The queued forms and the path thread leave a placeholder entry of `newPathInfos` in
place, with path id `-1`. -/
theorem pathStep_placeholder {σ : Type} (b : PathBackend σ) (h : Nat) (pm : IPathManager σ)
    (step : PathStep)
    (hp : ∃ p, pm.newPathInfos.find h = some p ∧ p.pathID = -1) :
    ∃ p, (pathStep b pm step).newPathInfos.find h = some p ∧ p.pathID = -1 := by
  obtain ⟨p, hp1, hp2⟩ := hp
  cases step with
  | requestPath a =>
    simp only [pathStep, RequestPath, Bool.not_true, Bool.false_eq_true, if_false]
    rw [PMap.find_insert]
    split
    · exact ⟨_, rfl, rfl⟩
    · exact ⟨p, hp1, hp2⟩
  | nextWayPoint h' pos d n o sy =>
    refine ⟨p, ?_, hp2⟩
    simp only [pathStep, NextWayPoint, Bool.not_true, Bool.false_eq_true, if_false]
    split
    · exact hp1
    · split <;> exact hp1
  | pathUpdated h' =>
    refine ⟨p, ?_, hp2⟩
    simp only [pathStep, PathUpdated, Bool.not_true, Bool.false_eq_true, if_false]
    split
    · exact hp1
    · split <;> exact hp1
  | updatePath o h' =>
    exact ⟨p, hp1, hp2⟩
  | deletePath h' =>
    simp only [pathStep, DeletePath, Bool.not_true, Bool.false_eq_true, if_false, markDeleted]
    split
    · rename_i q hq
      simp only
      rw [PMap.find_insert]
      split
      · rename_i e
        subst e
        rw [hp1] at hq
        cases hq
        exact ⟨_, rfl, hp2⟩
      · exact ⟨p, hp1, hp2⟩
    · split
      · exact ⟨p, hp1, hp2⟩
      · exact ⟨p, hp1, hp2⟩
  | thread =>
    refine ⟨p, ?_, hp2⟩
    simp only [pathStep, threadStep]
    split
    · rename_i cid rest _
      simp only [threadOp]
      split <;> (try split) <;> exact hp1
    · exact hp1

theorem pathRun_placeholder {σ : Type} (b : PathBackend σ) (h : Nat) (steps : List PathStep) :
    ∀ (pm : IPathManager σ), (∃ p, pm.newPathInfos.find h = some p ∧ p.pathID = -1) →
      ∃ p, (pathRun b pm steps).newPathInfos.find h = some p ∧ p.pathID = -1 := by
  induction steps with
  | nil => intro pm hp; exact hp
  | cons st rest ih =>
    intro pm hp
    exact ih _ (pathStep_placeholder b h pm st hp)

/-- Claim C9: in threaded-path mode, for the handle returned by the queued form of
`RequestPath`, after any further queued calls and any progress of the path thread but before
`SynchronizeThread`, the handle's entry is the placeholder with path id `-1`, and
`NextWayPoint` on the handle returns `callerPos`, for every `callerPos`. -/
theorem C9_pending_handle_returns_callerPos {σ : Type} (b : PathBackend σ)
    (asyncPathFinder : Bool) (pm : IPathManager σ) (a : RequestArgs) (steps : List PathStep)
    (callerPos : float3) (minDistance numRetries : Int) (owner : Nat) (synced : Bool) :
    (∃ p, GetNewPathData (pathRun b (RequestPath b true asyncPathFinder pm a).2 steps)
        (RequestPath b true asyncPathFinder pm a).1 = some p ∧ p.pathID = -1) ∧
    (NextWayPoint b true asyncPathFinder
      (pathRun b (RequestPath b true asyncPathFinder pm a).2 steps)
      (RequestPath b true asyncPathFinder pm a).1
      callerPos minDistance numRetries owner synced).1 = callerPos := by
  have h0 : ∃ p, (RequestPath b true asyncPathFinder pm a).2.newPathInfos.find
      (RequestPath b true asyncPathFinder pm a).1 = some p ∧ p.pathID = -1 := by
    simp only [RequestPath, Bool.not_true, Bool.false_eq_true, if_false]
    rw [PMap.find_insert, if_pos rfl]
    exact ⟨_, rfl, rfl⟩
  obtain ⟨p, hp1, hp2⟩ := pathRun_placeholder b _ steps _ h0
  have hg : GetNewPathData (pathRun b (RequestPath b true asyncPathFinder pm a).2 steps)
      (RequestPath b true asyncPathFinder pm a).1 = some p := by
    simp only [GetNewPathData, hp1]
  refine ⟨⟨p, hg, hp2⟩, ?_⟩
  simp only [NextWayPoint, Bool.not_true, Bool.false_eq_true, if_false, hg]
  have : p.pathID < 0 := by rw [hp2]; decide
  simp [this]

theorem PMap.insert_keys {α : Type} (m : PMap α) (k : Nat) (v : α) :
    ∀ k', k' ∈ (m.insert k v).map Prod.fst ↔ k' = k ∨ k' ∈ m.map Prod.fst := by
  induction m with
  | nil => intro k'; simp [PMap.insert]
  | cons e rest ih =>
    intro k'
    obtain ⟨k1, v1⟩ := e
    unfold PMap.insert
    by_cases h1 : k < k1
    · simp [h1]
    · by_cases h2 : k = k1
      · subst h2; simp
      · simp only [h1, h2, if_false, List.map_cons, List.mem_cons, ih]
        tauto

theorem PMap.insert_sorted {α : Type} (m : PMap α) (k : Nat) (v : α)
    (hm : (m.map Prod.fst).Pairwise (fun k k' => k < k')) :
    ((m.insert k v).map Prod.fst).Pairwise (fun k k' => k < k') := by
  induction m with
  | nil => simp [PMap.insert]
  | cons e rest ih =>
    obtain ⟨k1, v1⟩ := e
    rw [List.map_cons, List.pairwise_cons] at hm
    unfold PMap.insert
    by_cases h1 : k < k1
    · rw [if_pos h1]
      simp only [List.map_cons, List.pairwise_cons, List.mem_cons]
      refine ⟨?_, hm.1, hm.2⟩
      intro k' hk'
      rcases hk' with rfl | hk'
      · exact h1
      · exact Nat.lt_trans h1 (hm.1 k' hk')
    · by_cases h2 : k = k1
      · subst h2
        simp only [h1, if_false, if_true, List.map_cons, List.pairwise_cons]
        exact hm
      · simp only [h1, h2, if_false, List.map_cons, List.pairwise_cons]
        refine ⟨?_, ih hm.2⟩
        intro k' hk'
        rw [PMap.insert_keys] at hk'
        rcases hk' with rfl | hk'
        · omega
        · exact hm.1 k' hk'

theorem pushUpdate_find (m : PMap (List PathUpdateData)) (k h : Nat) (u : PathUpdateData) :
    (pushUpdate m k u).find h
      = if h = k then some ((m.find k).getD [] ++ [u]) else m.find h := by
  unfold pushUpdate
  rw [PMap.find_insert]

theorem threadOp_frame {σ : Type} (b : PathBackend σ) (pm : IPathManager σ) (cid : PathOpData) :
    (threadOp b pm cid).newPathInfos = pm.newPathInfos ∧
    (threadOp b pm cid).pathInfos = pm.pathInfos ∧
    (threadOp b pm cid).pops = pm.pops ∧
    (threadOp b pm cid).pathOps = pm.pathOps ∧
    (threadOp b pm cid).hasThread = pm.hasThread ∧
    (threadOp b pm cid).pathRequestID = pm.pathRequestID := by
  unfold threadOp
  simp only [Nat.zero_le, if_true]
  split <;> exact ⟨rfl, rfl, rfl, rfl, rfl, rfl⟩

theorem threadOp_log {σ : Type} (b : PathBackend σ) (pm : IPathManager σ) (cid : PathOpData) :
    ∃ new, (threadOp b pm cid).searchLog = pm.searchLog ++ new := by
  unfold threadOp
  simp only [Nat.zero_le, if_true]
  split <;> first
    | exact ⟨_, rfl⟩
    | exact ⟨[], (List.append_nil _).symm⟩

theorem threadOp_keys {σ : Type} (b : PathBackend σ) (pm : IPathManager σ) (cid : PathOpData)
    (hk : (pm.pathUpdates.map Prod.fst).Pairwise (fun k k' => k < k')) :
    ((threadOp b pm cid).pathUpdates.map Prod.fst).Pairwise (fun k k' => k < k') := by
  unfold threadOp
  simp only [Nat.zero_le, if_true]
  split <;> first
    | exact hk
    | exact PMap.insert_sorted _ _ _ hk

/-- An operation that neither creates nor deletes handle `h` leaves the handle's update list
alone or appends an update that is neither a `REQUEST_PATH` nor a `DELETE_PATH` result. -/
theorem threadOp_updates {σ : Type} (b : PathBackend σ) (pm : IPathManager σ) (cid : PathOpData)
    (h : Nat) (hc : ¬ cid.resets h) :
    (threadOp b pm cid).pathUpdates.find h = pm.pathUpdates.find h ∨
    ∃ u, (threadOp b pm cid).pathUpdates.find h = some ((pm.pathUpdates.find h).getD [] ++ [u]) ∧
      u.type ≠ .REQUEST_PATH ∧ u.type ≠ .DELETE_PATH := by
  by_cases hid : cid.pathID = h
  · have hty : cid.type ≠ .DELETE_PATH ∧ cid.type ≠ .REQUEST_PATH := by
      constructor
      · intro e; exact hc ⟨hid, Or.inl e⟩
      · intro e; exact hc ⟨hid, Or.inr e⟩
    unfold threadOp
    simp only [Nat.zero_le, if_true]
    split
    · rename_i e; exact absurd e hty.2
    · exact Or.inr ⟨_, by rw [pushUpdate_find, if_pos hid.symm, hid], by simp, by simp⟩
    · exact Or.inl rfl
    · exact Or.inr ⟨_, by rw [pushUpdate_find, if_pos hid.symm, hid], by simp, by simp⟩
    · rename_i e; exact absurd e hty.1
    · exact Or.inl rfl
  · left
    have hne : ¬ h = cid.pathID := fun e => hid e.symm
    unfold threadOp
    simp only [Nat.zero_le, if_true]
    split <;> first
      | rfl
      | (simp only; rw [pushUpdate_find, if_neg hne])

/-- Processing the queued request of handle `h`: the search result is logged and appended to
the handle's update list. -/
theorem threadOp_request {σ : Type} (b : PathBackend σ) (pm : IPathManager σ) (h : Nat)
    (a : RequestArgs) :
    (threadOp b pm (requestOp h a)).pathUpdates.find h
      = some ((pm.pathUpdates.find h).getD []
          ++ [⟨.REQUEST_PATH, (b.RequestPath pm.search a).2 % 2 ^ 32, false, ZeroVector⟩]) ∧
    (threadOp b pm (requestOp h a)).searchLog
      = pm.searchLog ++ [.RequestPath (some h) a ((b.RequestPath pm.search a).2 % 2 ^ 32)] := by
  constructor
  · simp only [threadOp, requestOp]
    rw [pushUpdate_find, if_pos rfl]
  · simp only [threadOp, requestOp]

/-- What a queued-form call does to the state shared with the path thread: it appends one
operation to `pathOps`; that operation creates or deletes handle `h` only if the call is
`DeletePath(h)` or a `RequestPath` that returns `h`; a registered handle stays registered. -/
theorem queued_step_shape {σ : Type} (b : PathBackend σ) (pm : IPathManager σ) (step : PathStep)
    (h : Nat) (hst : step ≠ .thread) :
    ∃ o, (pathStep b pm step).pathOps = pm.pathOps ++ [o] ∧
      (pathStep b pm step).pops = pm.pops ∧
      (pathStep b pm step).pathUpdates = pm.pathUpdates ∧
      (pathStep b pm step).searchLog = pm.searchLog ∧
      (pathStep b pm step).hasThread = pm.hasThread ∧
      (o.resets h → step = .deletePath h ∨
        (step.isRequest = true ∧ (pm.pathRequestID + 1) % 2 ^ 32 = h)) ∧
      ((∃ p, pm.newPathInfos.find h = some p) →
        ∃ p, (pathStep b pm step).newPathInfos.find h = some p) ∧
      (pathStep b pm step).pathRequestID
        = if step.isRequest then (pm.pathRequestID + 1) % 2 ^ 32 else pm.pathRequestID := by
  cases step with
  | requestPath a =>
    refine ⟨_, rfl, rfl, rfl, rfl, rfl, ?_, ?_, rfl⟩
    · intro hr
      exact Or.inr ⟨rfl, hr.1⟩
    · intro hp
      simp only [pathStep, RequestPath, Bool.not_true, Bool.false_eq_true, if_false]
      rw [PMap.find_insert]
      split
      · exact ⟨_, rfl⟩
      · exact hp
  | nextWayPoint h' pos d n o sy =>
    have key : (pathStep b pm (.nextWayPoint h' pos d n o sy))
        = { pm with pathOps := pm.pathOps ++
            [⟨.NEXT_WAYPOINT, 0, pos, ZeroVector, d, o, sy, h', n⟩] } := by
      simp only [pathStep, NextWayPoint, Bool.not_true, Bool.false_eq_true, if_false]
      split
      · rfl
      · split <;> rfl
    rw [key]
    refine ⟨_, rfl, rfl, rfl, rfl, rfl, ?_, fun hp => hp, rfl⟩
    intro hr
    rcases hr.2 with e | e <;> cases e
  | pathUpdated h' =>
    have key : (pathStep b pm (.pathUpdated h'))
        = { pm with pathOps := pm.pathOps ++
            [⟨.PATH_UPDATED, 0, ZeroVector, ZeroVector, 0, 0, false, h', 0⟩] } := by
      simp only [pathStep, PathUpdated, Bool.not_true, Bool.false_eq_true, if_false]
      split
      · rfl
      · split <;> rfl
    rw [key]
    refine ⟨_, rfl, rfl, rfl, rfl, rfl, ?_, fun hp => hp, rfl⟩
    intro hr
    rcases hr.2 with e | e <;> cases e
  | updatePath o h' =>
    refine ⟨_, rfl, rfl, rfl, rfl, rfl, ?_, fun hp => hp, rfl⟩
    intro hr
    rcases hr.2 with e | e <;> cases e
  | deletePath h' =>
    have hmd : (markDeleted pm h').pathOps = pm.pathOps ∧ (markDeleted pm h').pops = pm.pops ∧
        (markDeleted pm h').pathUpdates = pm.pathUpdates ∧
        (markDeleted pm h').searchLog = pm.searchLog ∧
        (markDeleted pm h').hasThread = pm.hasThread ∧
        (markDeleted pm h').pathRequestID = pm.pathRequestID ∧
        ((∃ p, pm.newPathInfos.find h = some p) →
          ∃ p, (markDeleted pm h').newPathInfos.find h = some p) := by
      unfold markDeleted
      split
      · refine ⟨rfl, rfl, rfl, rfl, rfl, rfl, ?_⟩
        intro hp
        simp only
        rw [PMap.find_insert]
        split
        · exact ⟨_, rfl⟩
        · exact hp
      · split <;> exact ⟨rfl, rfl, rfl, rfl, rfl, rfl, fun hp => hp⟩
    obtain ⟨m1, m2, m3, m4, m5, m6, m7⟩ := hmd
    refine ⟨⟨.DELETE_PATH, 0, ZeroVector, ZeroVector, 0, 0, false, h', 0⟩, ?_, ?_, ?_, ?_, ?_,
      ?_, ?_, ?_⟩
    · simp only [pathStep, DeletePath, Bool.not_true, Bool.false_eq_true, if_false, m1]
    · simp only [pathStep, DeletePath, Bool.not_true, Bool.false_eq_true, if_false, m2]
    · simp only [pathStep, DeletePath, Bool.not_true, Bool.false_eq_true, if_false, m3]
    · simp only [pathStep, DeletePath, Bool.not_true, Bool.false_eq_true, if_false, m4]
    · simp only [pathStep, DeletePath, Bool.not_true, Bool.false_eq_true, if_false, m5]
    · intro hr
      left
      have : h' = h := hr.1
      rw [this]
    · intro hp
      simp only [pathStep, DeletePath, Bool.not_true, Bool.false_eq_true, if_false]
      exact m7 hp
    · simp only [pathStep, DeletePath, Bool.not_true, Bool.false_eq_true, if_false, m6,
        PathStep.isRequest]
  | thread => exact absurd rfl hst

theorem pathStep_requestInv {σ : Type} (b : PathBackend σ) (log0 : List SearchCall) (h : Nat)
    (a : RequestArgs) (pm : IPathManager σ) (step : PathStep)
    (hinv : RequestInv log0 h a pm) (hdel : step ≠ .deletePath h)
    (hreq : step.isRequest = true → (pm.pathRequestID + 1) % 2 ^ 32 ≠ h) :
    RequestInv log0 h a (pathStep b pm step) := by
  obtain ⟨hreg, hkeys, hthr, hstat, hlog⟩ := hinv
  by_cases hst : step = .thread
  · subst hst
    simp only [pathStep, threadStep]
    cases hpops : pm.pops with
    | nil =>
      simp only
      refine ⟨hreg, hkeys, hthr, ?_, hlog⟩
      rcases hstat with ⟨pre, post, hq, hpost⟩ | ⟨pid, us, rest, new, h1, h2, h3, h4, h5, h6⟩
      · left
        refine ⟨pre, post, ?_, hpost⟩
        rw [hpops] at hq
        simpa using hq
      · right
        refine ⟨pid, us, rest, new, h1, h2, ?_, h4, h5, h6⟩
        rw [hpops] at h3
        simpa using h3
    | cons cid rest =>
      simp only
      obtain ⟨f1, f2, f3, f4, f5, f6⟩ := threadOp_frame b { pm with pops := rest } cid
      have hQ : pm.pops ++ pm.pathOps = cid :: (rest ++ pm.pathOps) := by rw [hpops]; rfl
      have hQ' : (threadOp b { pm with pops := rest } cid).pops
          ++ (threadOp b { pm with pops := rest } cid).pathOps = rest ++ pm.pathOps := by
        rw [f3, f4]
      obtain ⟨lnew, hlnew⟩ := threadOp_log b { pm with pops := rest } cid
      obtain ⟨new0, hnew0⟩ := hlog
      have hlog' : ∃ new, (threadOp b { pm with pops := rest } cid).searchLog = log0 ++ new :=
        ⟨new0 ++ lnew, by rw [hlnew]; show pm.searchLog ++ lnew = _; rw [hnew0, List.append_assoc]⟩
      refine ⟨by rw [f1]; exact hreg, threadOp_keys b _ cid hkeys, by rw [f5]; exact hthr, ?_,
        hlog'⟩
      rcases hstat with ⟨pre, post, hq, hpost⟩ | ⟨pid, us, rs, new, h1, h2, h3, h4, h5, h6⟩
      · rw [hQ] at hq
        cases pre with
        | nil =>
          simp only [List.nil_append, List.cons.injEq] at hq
          obtain ⟨hc, hrest⟩ := hq
          subst hc
          right
          obtain ⟨r1, r2⟩ := threadOp_request b { pm with pops := rest } h a
          refine ⟨_, (pm.pathUpdates.find h).getD [], [],
            new0 ++ [SearchCall.RequestPath (some h) a ((b.RequestPath pm.search a).2 % 2 ^ 32)],
            r1, ?_, ?_, ?_, ?_, ?_⟩
          · intro u hu; cases hu
          · rw [hQ', hrest]; exact hpost
          · rw [r2]; show pm.searchLog ++ _ = _; rw [hnew0, List.append_assoc]
          · exact List.mem_append_right _ (List.mem_singleton_self _)
          · exact Nat.mod_lt _ (by decide)
        | cons c pre' =>
          simp only [List.cons_append, List.cons.injEq] at hq
          left
          exact ⟨pre', post, by rw [hQ']; exact hq.2, hpost⟩
      · right
        have hcid : ¬ cid.resets h := h3 cid (by rw [hQ]; exact List.mem_cons_self _ _)
        have hQsub : ∀ o ∈ (threadOp b { pm with pops := rest } cid).pops
            ++ (threadOp b { pm with pops := rest } cid).pathOps, ¬ o.resets h := by
          intro o ho
          rw [hQ'] at ho
          exact h3 o (by rw [hQ]; exact List.mem_cons_of_mem _ ho)
        have hlogd : (threadOp b { pm with pops := rest } cid).searchLog
            = log0 ++ (new ++ lnew) := by
          rw [hlnew]; show pm.searchLog ++ lnew = _; rw [h4, List.append_assoc]
        rcases threadOp_updates b { pm with pops := rest } cid h hcid with hu | ⟨u, hu, t1, t2⟩
        · refine ⟨pid, us, rs, new ++ lnew, ?_, h2, hQsub, hlogd, List.mem_append_left _ h5, h6⟩
          rw [hu]; exact h1
        · refine ⟨pid, us, rs ++ [u], new ++ lnew, ?_, ?_, hQsub, hlogd,
            List.mem_append_left _ h5, h6⟩
          · rw [hu]
            show some ((pm.pathUpdates.find h).getD [] ++ [u]) = _
            rw [h1]
            simp
          · intro v hv
            rcases List.mem_append.1 hv with hv | hv
            · exact h2 v hv
            · rw [List.mem_singleton] at hv
              subst hv
              exact ⟨t1, t2⟩
  · obtain ⟨o, q1, q2, q3, q4, q5, q6, q7, _⟩ := queued_step_shape b pm step h hst
    have ho : ¬ o.resets h := by
      intro hr
      rcases q6 hr with e | ⟨e1, e2⟩
      · exact hdel e
      · exact hreq e1 e2
    refine ⟨q7 hreg, by rw [q3]; exact hkeys, by rw [q5]; exact hthr, ?_, by rw [q4]; exact hlog⟩
    rcases hstat with ⟨pre, post, hq, hpost⟩ | ⟨pid, us, rs, new, h1, h2, h3, h4, h5, h6⟩
    · left
      refine ⟨pre, post ++ [o], ?_, ?_⟩
      · rw [q1, q2, ← List.append_assoc, hq]
        simp
      · intro x hx
        rcases List.mem_append.1 hx with hx | hx
        · exact hpost x hx
        · rw [List.mem_singleton] at hx
          subst hx
          exact ho
    · right
      refine ⟨pid, us, rs, new, by rw [q3]; exact h1, h2, ?_, by rw [q4]; exact h4, h5, h6⟩
      intro x hx
      rw [q1, q2, ← List.append_assoc] at hx
      rcases List.mem_append.1 hx with hx | hx
      · exact h3 x hx
      · rw [List.mem_singleton] at hx
        subst hx
        exact ho

theorem pathStep_requestID {σ : Type} (b : PathBackend σ) (pm : IPathManager σ) (step : PathStep) :
    (pathStep b pm step).pathRequestID
      = if step.isRequest then (pm.pathRequestID + 1) % 2 ^ 32 else pm.pathRequestID := by
  by_cases hst : step = .thread
  · subst hst
    simp only [pathStep, threadStep, PathStep.isRequest, Bool.false_eq_true, if_false]
    split
    · exact (threadOp_frame b _ _).2.2.2.2.2
    · rfl
  · obtain ⟨_, _, _, _, _, _, _, _, h⟩ := queued_step_shape b pm step 0 hst
    exact h

theorem pathRun_requestInv {σ : Type} (b : PathBackend σ) (log0 : List SearchCall) (h : Nat)
    (a : RequestArgs) :
    ∀ (later : List PathStep) (pm : IPathManager σ) (k : Nat),
      RequestInv log0 h a pm → pm.pathRequestID = (h + k) % 2 ^ 32 →
      k + later.countP PathStep.isRequest + 2 ≤ 2 ^ 32 →
      PathStep.deletePath h ∉ later →
      RequestInv log0 h a (pathRun b pm later) := by
  intro later
  induction later with
  | nil => intro pm k hinv _ _ _; exact hinv
  | cons st rest ih =>
    intro pm k hinv hid hcount hdel
    have e32 : (2 : Nat) ^ 32 = 4294967296 := by norm_num
    rw [e32] at hid hcount
    rw [List.countP_cons] at hcount
    have hdel1 : st ≠ .deletePath h := fun e => hdel (e ▸ List.mem_cons_self _ _)
    have hdel2 : PathStep.deletePath h ∉ rest := fun hm => hdel (List.mem_cons_of_mem _ hm)
    have hstep := pathStep_requestInv b log0 h a pm st hinv hdel1 (by
      intro _
      rw [e32, hid]
      omega)
    have hid' := pathStep_requestID b pm st
    rw [e32] at hid'
    by_cases hr : st.isRequest = true
    · rw [if_pos hr, hid] at hid'
      simp only [hr, if_true] at hcount
      refine ih _ (k + 1) hstep ?_ ?_ hdel2
      · rw [e32, hid']; omega
      · rw [e32]; omega
    · rw [if_neg hr, hid] at hid'
      simp only [hr, Bool.false_eq_true, if_false] at hcount
      refine ih _ k hstep ?_ ?_ hdel2
      · rw [e32, hid']
      · rw [e32]; omega

theorem threadRun_requestInv {σ : Type} (b : PathBackend σ) (log0 : List SearchCall) (h : Nat)
    (a : RequestArgs) :
    ∀ (n : Nat) (pm : IPathManager σ), RequestInv log0 h a pm →
      RequestInv log0 h a (pathRun b pm (List.replicate n .thread)) := by
  intro n
  induction n with
  | zero => intro pm hinv; exact hinv
  | succ n ih =>
    intro pm hinv
    exact ih _ (pathStep_requestInv b log0 h a pm .thread hinv (fun e => by cases e)
      (fun e => by cases e))

/-- Enough steps of the path thread empty its batch and `pathOps`. -/
theorem threadRun_idle {σ : Type} (b : PathBackend σ) :
    ∀ (n : Nat) (pm : IPathManager σ),
      pm.pops.length + (if pm.pathOps = [] then 0 else pm.pathOps.length + 1) ≤ n →
      (pathRun b pm (List.replicate n .thread)).pops = [] ∧
      (pathRun b pm (List.replicate n .thread)).pathOps = [] := by
  intro n
  induction n with
  | zero =>
    intro pm hm
    have h1 : pm.pops = [] := List.length_eq_zero.1 (by omega)
    have h2 : pm.pathOps = [] := by
      by_contra hne
      rw [if_neg hne] at hm
      omega
    exact ⟨h1, h2⟩
  | succ n ih =>
    intro pm hm
    show (pathRun b (threadStep b pm) (List.replicate n .thread)).pops = [] ∧
      (pathRun b (threadStep b pm) (List.replicate n .thread)).pathOps = []
    apply ih
    unfold threadStep
    cases hpops : pm.pops with
    | nil =>
      simp only [if_true]
      rw [hpops] at hm
      by_cases hne : pm.pathOps = []
      · simp [hne]
      · rw [if_neg hne] at hm
        simp at hm ⊢
        omega
    | cons cid rest =>
      simp only
      obtain ⟨_, _, f3, f4, _, _⟩ := threadOp_frame b { pm with pops := rest } cid
      rw [f3, f4]
      rw [hpops] at hm
      simp only [List.length_cons] at hm ⊢
      omega

theorem threadDrain_idle {σ : Type} (b : PathBackend σ) (pm : IPathManager σ) :
    (threadDrain b pm).pops = [] ∧ (threadDrain b pm).pathOps = [] := by
  apply threadRun_idle
  split <;> omega

theorem PMap.find_eq_none {α : Type} (m : PMap α) (k : Nat) (hk : k ∉ m.map Prod.fst) :
    m.find k = none := by
  induction m with
  | nil => rfl
  | cons e rest ih =>
    obtain ⟨k1, v1⟩ := e
    simp only [List.map_cons, List.mem_cons, not_or] at hk
    have h1 : ¬ k1 = k := fun e => hk.1 e.symm
    simp only [PMap.find, h1, if_false]
    exact ih hk.2

theorem applyUpdate_find (infos : PMap PathData) (k h : Nat) (u : PathUpdateData) :
    (applyUpdate infos k u).find h
      = if h = k then applyUpdateOpt (infos.find k) u else infos.find h := by
  unfold applyUpdate applyUpdateOpt
  split <;> first
    | rw [PMap.find_insert]
    | (rw [PMap.find_erase])
    | (split <;> simp_all)

theorem applyFold_find (k h : Nat) :
    ∀ (vec : List PathUpdateData) (infos : PMap PathData),
      (vec.foldl (fun acc u => applyUpdate acc k u) infos).find h
        = if h = k then vec.foldl applyUpdateOpt (infos.find k) else infos.find h := by
  intro vec
  induction vec with
  | nil => intro infos; by_cases e : h = k <;> simp [e]
  | cons u rest ih =>
    intro infos
    rw [List.foldl_cons, ih, List.foldl_cons]
    by_cases e : h = k
    · subst e
      simp only [if_true]
      rw [applyUpdate_find, if_pos rfl]
    · simp only [e, if_false]
      rw [applyUpdate_find, if_neg e]

theorem mergeUpdates_find (h : Nat) :
    ∀ (updates : PMap (List PathUpdateData)) (infos : PMap PathData),
      (updates.map Prod.fst).Pairwise (fun k k' => k < k') →
      (mergeUpdates infos updates).find h
        = ((updates.find h).getD []).foldl applyUpdateOpt (infos.find h) := by
  intro updates
  induction updates with
  | nil => intro infos _; rfl
  | cons e rest ih =>
    intro infos hk
    obtain ⟨k, vec⟩ := e
    rw [List.map_cons, List.pairwise_cons] at hk
    have hstep : mergeUpdates infos ((k, vec) :: rest)
        = mergeUpdates (vec.foldl (fun acc u => applyUpdate acc k u) infos) rest := rfl
    rw [hstep, ih _ hk.2, applyFold_find]
    by_cases e : h = k
    · subst e
      have hnot : h ∉ rest.map Prod.fst := fun hm => Nat.lt_irrefl _ (hk.1 h hm)
      rw [PMap.find_eq_none rest h hnot]
      simp [PMap.find]
    · have e' : ¬ k = h := fun x => e x.symm
      simp [PMap.find, e, e']

theorem applyFold_keeps_pathID (v : Int) :
    ∀ (rest : List PathUpdateData) (p0 : PathData),
      (∀ u ∈ rest, u.type ≠ .REQUEST_PATH ∧ u.type ≠ .DELETE_PATH) → p0.pathID = v →
      ∃ p, rest.foldl applyUpdateOpt (some p0) = some p ∧ p.pathID = v := by
  intro rest
  induction rest with
  | nil => intro p0 _ hp; exact ⟨p0, rfl, hp⟩
  | cons u rest ih =>
    intro p0 hr hp
    have hu := hr u (List.mem_cons_self _ _)
    have hrest : ∀ x ∈ rest, x.type ≠ .REQUEST_PATH ∧ x.type ≠ .DELETE_PATH :=
      fun x hx => hr x (List.mem_cons_of_mem _ hx)
    rw [List.foldl_cons]
    unfold applyUpdateOpt
    split
    · rename_i e; exact absurd e hu.1
    · exact ih _ hrest hp
    · exact ih _ hrest hp
    · rename_i e; exact absurd e hu.2
    · exact ih _ hrest hp

theorem toInt32_eq_zero (pid : Nat) (h : pid < 2 ^ 32) : toInt32 pid = 0 ↔ pid = 0 := by
  unfold toInt32
  have e32 : (2 : Nat) ^ 32 = 4294967296 := by norm_num
  have e31 : (2 : Nat) ^ 31 = 2147483648 := by norm_num
  have e32i : (2 : Int) ^ 32 = 4294967296 := by norm_num
  rw [e32] at h
  rw [e32, e31, e32i]
  split <;> omega

/-- The state right after the queued `RequestPath` satisfies the request invariant. -/
theorem RequestPath_requestInv {σ : Type} (b : PathBackend σ) (pm : IPathManager σ)
    (a : RequestArgs) (hthread : pm.hasThread = true)
    (hkeys : (pm.pathUpdates.map Prod.fst).Pairwise (fun k k' => k < k')) :
    RequestInv pm.searchLog (RequestPath b true true pm a).1 a (RequestPath b true true pm a).2 := by
  refine ⟨?_, hkeys, hthread, Or.inl ⟨pm.pops ++ pm.pathOps, [], ?_, ?_⟩, ⟨[], by simp [RequestPath]⟩⟩
  · simp only [RequestPath, Bool.not_true, Bool.false_eq_true, if_false]
    rw [PMap.find_insert, if_pos rfl]
    exact ⟨_, rfl⟩
  · simp only [RequestPath, Bool.not_true, Bool.false_eq_true, if_false, requestOp,
      List.append_assoc]
  · intro o ho; cases ho

/-- The merge of `SynchronizeThread` for a handle whose request has been processed. -/
theorem merge_of_requestDone {σ : Type} (log0 : List SearchCall) (h : Nat) (a : RequestArgs)
    (pid : Nat) (pm : IPathManager σ) (infos : PMap PathData)
    (hkeys : (pm.pathUpdates.map Prod.fst).Pairwise (fun k k' => k < k'))
    (hdone : RequestDone log0 h a pid pm) :
    ∃ p, (mergeUpdates infos pm.pathUpdates).find h = some p ∧ p.pathID = toInt32 pid := by
  obtain ⟨us, rest, new, h1, h2, _, _, _, _⟩ := hdone
  rw [mergeUpdates_find h _ _ hkeys, h1]
  simp only [Option.getD_some, List.foldl_append, List.foldl_cons]
  have hreq : ∀ x : Option PathData,
      applyUpdateOpt x ⟨.REQUEST_PATH, pid, false, ZeroVector⟩
        = some { x.getD PathData.default with pathID := toInt32 pid } := fun _ => rfl
  rw [hreq]
  exact applyFold_keeps_pathID _ rest _ h2 rfl

/-- Claim C10: in threaded-path mode (a path thread exists), let `h` be the handle returned by
the queued `RequestPath`; after any further queued calls and path-thread steps that neither
queue `DeletePath(h)` nor issue `2^32 - 1` or more further requests, `SynchronizeThread` waits
for the thread and merges: the search call for `h` is in the log, the handle-table entry of `h`
holds the path id `pid` that call returned (as an `int`), and `IsFailPath(h)` is true exactly
when that id is 0. -/
theorem C10_synchronized_handle_holds_search_result {σ : Type} (b : PathBackend σ)
    (pm : IPathManager σ) (a : RequestArgs) (later : List PathStep)
    (hthread : pm.hasThread = true)
    (hkeys : (pm.pathUpdates.map Prod.fst).Pairwise (fun k k' => k < k'))
    (hnodel : PathStep.deletePath (RequestPath b true true pm a).1 ∉ later)
    (hcount : later.countP PathStep.isRequest + 2 ≤ 2 ^ 32) :
    ∃ pid new p,
      (SynchronizeThread b (pathRun b (RequestPath b true true pm a).2 later)).searchLog
        = pm.searchLog ++ new ∧
      SearchCall.RequestPath (some (RequestPath b true true pm a).1) a pid ∈ new ∧
      pid < 2 ^ 32 ∧
      (SynchronizeThread b (pathRun b (RequestPath b true true pm a).2 later)).pathInfos.find
        (RequestPath b true true pm a).1 = some p ∧
      p.pathID = toInt32 pid ∧
      (IsFailPath true (SynchronizeThread b (pathRun b (RequestPath b true true pm a).2 later))
        (RequestPath b true true pm a).1 = true ↔ pid = 0) := by
  have h0 := RequestPath_requestInv b pm a hthread hkeys
  have hid : (RequestPath b true true pm a).2.pathRequestID
      = ((RequestPath b true true pm a).1 + 0) % 2 ^ 32 := by
    simp [RequestPath]
  have h1 := pathRun_requestInv b pm.searchLog _ a later _ 0 h0 hid (by omega) hnodel
  have h2 := threadRun_requestInv b pm.searchLog _ a
    ((pathRun b (RequestPath b true true pm a).2 later).pops.length + 1
      + (pathRun b (RequestPath b true true pm a).2 later).pathOps.length) _ h1
  have hidle := threadDrain_idle b (pathRun b (RequestPath b true true pm a).2 later)
  have hdrain : threadDrain b (pathRun b (RequestPath b true true pm a).2 later)
      = pathRun b (pathRun b (RequestPath b true true pm a).2 later)
          (List.replicate ((pathRun b (RequestPath b true true pm a).2 later).pops.length + 1
            + (pathRun b (RequestPath b true true pm a).2 later).pathOps.length) .thread) := rfl
  rw [← hdrain] at h2
  obtain ⟨_, hk2, ht2, hstat, _⟩ := h2
  have hdone : ∃ pid, RequestDone pm.searchLog (RequestPath b true true pm a).1 a pid
      (threadDrain b (pathRun b (RequestPath b true true pm a).2 later)) := by
    rcases hstat with ⟨pre, post, hq, _⟩ | hd
    · rw [hidle.1, hidle.2] at hq
      cases pre <;> cases hq
    · exact hd
  obtain ⟨pid, hd⟩ := hdone
  have hsync : SynchronizeThread b (pathRun b (RequestPath b true true pm a).2 later)
      = { threadDrain b (pathRun b (RequestPath b true true pm a).2 later) with
          pathInfos := mergeUpdates
            ((threadDrain b (pathRun b (RequestPath b true true pm a).2 later)).newPathInfos.foldl
              (fun acc e => acc.insert e.1 e.2)
              (threadDrain b (pathRun b (RequestPath b true true pm a).2 later)).pathInfos)
            (threadDrain b (pathRun b (RequestPath b true true pm a).2 later)).pathUpdates,
          newPathInfos := [], newPathCache := [], pathUpdates := [] } := by
    have hth : (pathRun b (RequestPath b true true pm a).2 later).hasThread = true := h1.hasThread
    simp only [SynchronizeThread, hth, Bool.not_true, Bool.false_eq_true, if_false]
  obtain ⟨p, hp1, hp2⟩ := merge_of_requestDone pm.searchLog _ a pid _
    ((threadDrain b (pathRun b (RequestPath b true true pm a).2 later)).newPathInfos.foldl
      (fun acc e => acc.insert e.1 e.2)
      (threadDrain b (pathRun b (RequestPath b true true pm a).2 later)).pathInfos) hk2 hd
  obtain ⟨us, rest, new, _, _, _, hlog, hmem, hlt⟩ := hd
  rw [hsync]
  refine ⟨pid, new, p, hlog, hmem, hlt, hp1, hp2, ?_⟩
  simp only [IsFailPath, Bool.not_true, Bool.false_eq_true, if_false, GetNewPathData, PMap.find,
    GetPathData, hp1, beq_iff_eq, hp2]
  exact toInt32_eq_zero pid hlt

/-- Claim C10 on a fresh manager with path thread: request a path, query its waypoint, let the
thread take two steps, request a second path, then synchronise. -/
theorem C10_synchronized_handle_holds_search_result_witness :
    ∃ pid new p,
      (SynchronizeThread countingBackend (pathRun countingBackend
        (RequestPath countingBackend true true (IPathManager.fresh true) sampleArgs).2
        [.nextWayPoint 1 ⟨4, 4, 4⟩ 0 0 5 true, .thread, .thread, .requestPath sampleArgs])).searchLog
        = (IPathManager.fresh true).searchLog ++ new ∧
      SearchCall.RequestPath
        (some (RequestPath countingBackend true true (IPathManager.fresh true) sampleArgs).1)
        sampleArgs pid ∈ new ∧
      pid < 2 ^ 32 ∧
      (SynchronizeThread countingBackend (pathRun countingBackend
        (RequestPath countingBackend true true (IPathManager.fresh true) sampleArgs).2
        [.nextWayPoint 1 ⟨4, 4, 4⟩ 0 0 5 true, .thread, .thread,
          .requestPath sampleArgs])).pathInfos.find
        (RequestPath countingBackend true true (IPathManager.fresh true) sampleArgs).1 = some p ∧
      p.pathID = toInt32 pid ∧
      (IsFailPath true (SynchronizeThread countingBackend (pathRun countingBackend
        (RequestPath countingBackend true true (IPathManager.fresh true) sampleArgs).2
        [.nextWayPoint 1 ⟨4, 4, 4⟩ 0 0 5 true, .thread, .thread, .requestPath sampleArgs]))
        (RequestPath countingBackend true true (IPathManager.fresh true) sampleArgs).1 = true
        ↔ pid = 0) :=
  C10_synchronized_handle_holds_search_result countingBackend (IPathManager.fresh true) sampleArgs
    [.nextWayPoint 1 ⟨4, 4, 4⟩ 0 0 5 true, .thread, .thread, .requestPath sampleArgs]
    (by decide) (by decide) (by decide) (by decide)

/-! ### Deleting a pending handle -/

theorem markDeleted_frame {σ : Type} (pm : IPathManager σ) (h : Nat) :
    (markDeleted pm h).pathOps = pm.pathOps ∧ (markDeleted pm h).pops = pm.pops ∧
    (markDeleted pm h).pathUpdates = pm.pathUpdates ∧
    (markDeleted pm h).searchLog = pm.searchLog ∧
    (markDeleted pm h).hasThread = pm.hasThread ∧
    (markDeleted pm h).pathRequestID = pm.pathRequestID ∧
    (markDeleted pm h).search = pm.search ∧
    (markDeleted pm h).newPathCache = pm.newPathCache := by
  unfold markDeleted
  split
  · exact ⟨rfl, rfl, rfl, rfl, rfl, rfl, rfl, rfl⟩
  · split <;> exact ⟨rfl, rfl, rfl, rfl, rfl, rfl, rfl, rfl⟩

theorem DeletePath_deleteInv {σ : Type} (b : PathBackend σ) (pm : IPathManager σ) (h : Nat)
    (hthread : pm.hasThread = true)
    (hkeys : (pm.pathUpdates.map Prod.fst).Pairwise (fun k k' => k < k')) :
    DeleteInv h (DeletePath b true true pm h) := by
  obtain ⟨m1, m2, m3, _, m5, _, _, _⟩ := markDeleted_frame pm h
  refine ⟨?_, ?_, Or.inl ⟨pm.pops ++ pm.pathOps, ?_⟩⟩
  · simp only [DeletePath, Bool.not_true, Bool.false_eq_true, if_false, m5, hthread]
  · simp only [DeletePath, Bool.not_true, Bool.false_eq_true, if_false, m3]
    exact hkeys
  · simp only [DeletePath, Bool.not_true, Bool.false_eq_true, if_false, m1, m2, deleteOp,
      List.append_assoc]

theorem threadOp_delete {σ : Type} (b : PathBackend σ) (pm : IPathManager σ) (h : Nat) :
    (threadOp b pm (deleteOp h)).pathUpdates.find h
      = some ((pm.pathUpdates.find h).getD [] ++ [⟨.DELETE_PATH, 0, false, ZeroVector⟩]) := by
  simp only [threadOp, deleteOp, Nat.zero_le, if_true]
  rw [pushUpdate_find, if_pos rfl]

theorem threadStep_deleteInv {σ : Type} (b : PathBackend σ) (h : Nat) (pm : IPathManager σ)
    (hinv : DeleteInv h pm) : DeleteInv h (threadStep b pm) := by
  obtain ⟨hthr, hkeys, hstat⟩ := hinv
  unfold threadStep
  cases hpops : pm.pops with
  | nil =>
    simp only
    refine ⟨hthr, hkeys, ?_⟩
    rcases hstat with ⟨pre, hq⟩ | ⟨_, h2, xs, hx⟩
    · left
      refine ⟨pre, ?_⟩
      rw [hpops] at hq
      simpa using hq
    · right
      exact ⟨h2, rfl, xs, hx⟩
  | cons cid rest =>
    simp only
    obtain ⟨_, _, f3, f4, f5, _⟩ := threadOp_frame b { pm with pops := rest } cid
    refine ⟨by rw [f5]; exact hthr, threadOp_keys b _ cid hkeys, ?_⟩
    rcases hstat with ⟨pre, hq⟩ | ⟨h1, _, _⟩
    · rw [hpops] at hq
      cases pre with
      | nil =>
        simp only [List.nil_append, List.cons_append, List.cons.injEq] at hq
        obtain ⟨hc, hrest⟩ := hq
        subst hc
        right
        have hr : rest = [] ∧ pm.pathOps = [] := List.append_eq_nil.1 hrest
        refine ⟨by rw [f3]; exact hr.1, by rw [f4]; exact hr.2, _, threadOp_delete b _ h⟩
      | cons c pre' =>
        simp only [List.cons_append, List.cons.injEq] at hq
        left
        exact ⟨pre', by rw [f3, f4]; exact hq.2⟩
    · rw [hpops] at h1
      cases h1

theorem threadRun_deleteInv {σ : Type} (b : PathBackend σ) (h : Nat) :
    ∀ (n : Nat) (pm : IPathManager σ), DeleteInv h pm →
      DeleteInv h (pathRun b pm (List.replicate n .thread)) := by
  intro n
  induction n with
  | zero => intro pm hinv; exact hinv
  | succ n ih =>
    intro pm hinv
    exact ih _ (threadStep_deleteInv b h pm hinv)

theorem applyFold_delete_last (xs : List PathUpdateData) (p : Option PathData) :
    (xs ++ [(⟨.DELETE_PATH, 0, false, ZeroVector⟩ : PathUpdateData)]).foldl applyUpdateOpt p
      = none := by
  rw [List.foldl_append]
  rfl

/-- With a path thread, `SynchronizeThread` is the drain of the thread followed by the merge. -/
theorem SynchronizeThread_eq {σ : Type} (b : PathBackend σ) (pm : IPathManager σ)
    (hthread : pm.hasThread = true) :
    SynchronizeThread b pm
      = { threadDrain b pm with
          pathInfos := mergeUpdates
            ((threadDrain b pm).newPathInfos.foldl (fun acc e => acc.insert e.1 e.2)
              (threadDrain b pm).pathInfos)
            (threadDrain b pm).pathUpdates,
          newPathInfos := [], newPathCache := [], pathUpdates := [] } := by
  simp only [SynchronizeThread, hthread, Bool.not_true, Bool.false_eq_true, if_false]

/-- After a queued `DeletePath(h)` and any number of path-thread steps, `SynchronizeThread`
leaves no entry for `h`. -/
theorem delete_then_synchronize {σ : Type} (b : PathBackend σ) (pm : IPathManager σ) (h n : Nat)
    (hinv : DeleteInv h pm) :
    (SynchronizeThread b (pathRun b pm (List.replicate n .thread))).pathInfos.find h = none ∧
    (SynchronizeThread b (pathRun b pm (List.replicate n .thread))).newPathInfos = [] := by
  have h1 := threadRun_deleteInv b h n pm hinv
  have h2 := threadRun_deleteInv b h
    ((pathRun b pm (List.replicate n .thread)).pops.length + 1
      + (pathRun b pm (List.replicate n .thread)).pathOps.length) _ h1
  have hidle := threadDrain_idle b (pathRun b pm (List.replicate n .thread))
  have hdrain : threadDrain b (pathRun b pm (List.replicate n .thread))
      = pathRun b (pathRun b pm (List.replicate n .thread))
          (List.replicate ((pathRun b pm (List.replicate n .thread)).pops.length + 1
            + (pathRun b pm (List.replicate n .thread)).pathOps.length) .thread) := rfl
  rw [← hdrain] at h2
  obtain ⟨_, hk, hstat⟩ := h2
  rw [SynchronizeThread_eq b _ h1.1]
  refine ⟨?_, rfl⟩
  show (mergeUpdates _ _).find h = none
  rw [mergeUpdates_find h _ _ hk]
  rcases hstat with ⟨pre, hq⟩ | ⟨_, _, xs, hx⟩
  · rw [hidle.1, hidle.2] at hq
    cases pre <;> cases hq
  · rw [hx]
    exact applyFold_delete_last xs _

/-- Claim C11: in threaded-path mode with a path thread, queue `RequestPath` (returning `h`)
and right after it `DeletePath(h)`, with the path thread taking any number of steps in
between and afterwards; after `SynchronizeThread` the handle table has no entry for `h`
(nor has `newPathInfos`), and `NextWayPoint(h, callerPos)` returns `callerPos`, in threaded
and in direct mode. -/
theorem C11_deleted_pending_handle_is_gone {σ : Type} (b : PathBackend σ) (pm : IPathManager σ)
    (a : RequestArgs) (k1 k2 : Nat) (threadedPath : Bool) (callerPos : float3)
    (minDistance numRetries : Int) (owner : Nat) (synced : Bool)
    (hthread : pm.hasThread = true)
    (hkeys : (pm.pathUpdates.map Prod.fst).Pairwise (fun k k' => k < k')) :
    (SynchronizeThread b (pathRun b
      (DeletePath b true true
        (pathRun b (RequestPath b true true pm a).2 (List.replicate k1 .thread))
        (RequestPath b true true pm a).1)
      (List.replicate k2 .thread))).pathInfos.find (RequestPath b true true pm a).1 = none ∧
    GetNewPathData (SynchronizeThread b (pathRun b
      (DeletePath b true true
        (pathRun b (RequestPath b true true pm a).2 (List.replicate k1 .thread))
        (RequestPath b true true pm a).1)
      (List.replicate k2 .thread))) (RequestPath b true true pm a).1 = none ∧
    (NextWayPoint b threadedPath true (SynchronizeThread b (pathRun b
      (DeletePath b true true
        (pathRun b (RequestPath b true true pm a).2 (List.replicate k1 .thread))
        (RequestPath b true true pm a).1)
      (List.replicate k2 .thread))) (RequestPath b true true pm a).1
      callerPos minDistance numRetries owner synced).1 = callerPos := by
  have h0 := threadRun_requestInv b pm.searchLog _ a k1 _
    (RequestPath_requestInv b pm a hthread hkeys)
  have h1 := DeletePath_deleteInv b _ (RequestPath b true true pm a).1 h0.hasThread h0.keys
  obtain ⟨h2, h3⟩ := delete_then_synchronize b _ (RequestPath b true true pm a).1 k2 h1
  have hg : GetNewPathData (SynchronizeThread b (pathRun b
      (DeletePath b true true
        (pathRun b (RequestPath b true true pm a).2 (List.replicate k1 .thread))
        (RequestPath b true true pm a).1)
      (List.replicate k2 .thread))) (RequestPath b true true pm a).1 = none := by
    simp only [GetNewPathData, h3, PMap.find, GetPathData, h2]
  refine ⟨h2, hg, ?_⟩
  cases threadedPath with
  | true => simp only [NextWayPoint, Bool.not_true, Bool.false_eq_true, if_false, hg]
  | false => simp only [NextWayPoint, Bool.not_false, if_true, Bool.not_true,
      Bool.false_eq_true, if_false, GetPathData, h2]

/-- Claim C11 on a fresh manager with path thread: the thread takes one step between the two
calls and none after `DeletePath`. -/
theorem C11_deleted_pending_handle_is_gone_witness :
    (SynchronizeThread countingBackend (pathRun countingBackend
      (DeletePath countingBackend true true
        (pathRun countingBackend
          (RequestPath countingBackend true true (IPathManager.fresh true) sampleArgs).2
          (List.replicate 1 .thread))
        (RequestPath countingBackend true true (IPathManager.fresh true) sampleArgs).1)
      (List.replicate 0 .thread))).pathInfos.find
        (RequestPath countingBackend true true (IPathManager.fresh true) sampleArgs).1 = none :=
  (C11_deleted_pending_handle_is_gone countingBackend (IPathManager.fresh true) sampleArgs 1 0
    true ⟨4, 4, 4⟩ 0 0 5 true (by decide) (by decide)).1

/-! ### Stale handles on the path thread -/

/-- Claim C12: on a freshly constructed manager with path thread, handle 7 is unknown (the
three maps are empty).  Queueing `NextWayPoint(7)`, letting the thread process it and running
`SynchronizeThread` invokes the underlying `NextWayPoint` with path id 4294967295 and creates
an entry for 7 with path id -1; `PathUpdated(7)` likewise invokes the search and creates an
entry; `UpdatePath(7)` and `DeletePath(7)` leave the table empty but still invoke the
underlying operation with path id 4294967295. -/
theorem C12_stale_handle_reaches_the_search :
    GetPathID (IPathManager.fresh true) 7 = -1 ∧
    (IPathManager.fresh true).pathInfos = [] ∧
    (SynchronizeThread countingBackend (pathRun countingBackend (IPathManager.fresh true)
        [.nextWayPoint 7 ⟨4, 4, 4⟩ 0 0 5 true, .thread, .thread])).pathInfos
      = [(7, ⟨-1, ⟨4, 4, 4⟩, false, false⟩)] ∧
    (SynchronizeThread countingBackend (pathRun countingBackend (IPathManager.fresh true)
        [.nextWayPoint 7 ⟨4, 4, 4⟩ 0 0 5 true, .thread, .thread])).searchLog
      = [.NextWayPoint 4294967295 ⟨4, 4, 4⟩] ∧
    (SynchronizeThread countingBackend (pathRun countingBackend (IPathManager.fresh true)
        [.pathUpdated 7, .thread, .thread])).pathInfos
      = [(7, ⟨-1, ZeroVector, false, false⟩)] ∧
    (SynchronizeThread countingBackend (pathRun countingBackend (IPathManager.fresh true)
        [.pathUpdated 7, .thread, .thread])).searchLog = [.PathUpdated 4294967295 false] ∧
    (SynchronizeThread countingBackend (pathRun countingBackend (IPathManager.fresh true)
        [.updatePath 3 7, .thread, .thread])).searchLog = [.UpdatePath 4294967295] ∧
    (SynchronizeThread countingBackend (pathRun countingBackend (IPathManager.fresh true)
        [.deletePath 7, .thread, .thread])).searchLog = [.DeletePath 4294967295] := by
  decide

/-! ### Direct and queued `RequestPath` -/

theorem PMap.insert_cons {α : Type} (k1 : Nat) (v1 : α) (rest : PMap α) (k : Nat) (v : α) :
    PMap.insert ((k1, v1) :: rest) k v
      = if k < k1 then (k, v) :: (k1, v1) :: rest
        else if k = k1 then (k, v) :: rest
        else (k1, v1) :: PMap.insert rest k v := rfl

theorem PMap.insert_insert {α : Type} (m : PMap α) (k : Nat) (v w : α) :
    (m.insert k v).insert k w = m.insert k w := by
  induction m with
  | nil => simp [PMap.insert]
  | cons e rest ih =>
    obtain ⟨k1, v1⟩ := e
    by_cases h1 : k < k1
    · simp [PMap.insert_cons, h1]
    · by_cases h2 : k = k1
      · subst h2
        simp [PMap.insert_cons]
      · rw [PMap.insert_cons, if_neg h1, if_neg h2, PMap.insert_cons, if_neg h1, if_neg h2, ih,
          PMap.insert_cons, if_neg h1, if_neg h2]

theorem threadStep_of_idle {σ : Type} (b : PathBackend σ) (pm : IPathManager σ)
    (h1 : pm.pops = []) (h2 : pm.pathOps = []) : threadStep b pm = pm := by
  obtain ⟨i1, i2, i3, i4, i5, i6, i7, i8, i9, i10, i11⟩ := pm
  simp only at h1 h2
  subst h1 h2
  rfl

theorem threadRun_of_idle {σ : Type} (b : PathBackend σ) (pm : IPathManager σ)
    (h1 : pm.pops = []) (h2 : pm.pathOps = []) :
    ∀ n : Nat, pathRun b pm (List.replicate n .thread) = pm := by
  intro n
  induction n with
  | zero => rfl
  | succ n ih =>
    show pathRun b (threadStep b pm) (List.replicate n .thread) = pm
    rw [threadStep_of_idle b pm h1 h2]
    exact ih

/-- From a synchronized state, two path-thread steps process a queued request, and further
steps change nothing. -/
theorem queued_request_processed {σ : Type} (b : PathBackend σ) (pm : IPathManager σ)
    (a : RequestArgs) (hs : Synchronized pm) (n : Nat) :
    pathRun b (RequestPath b true true pm a).2 (List.replicate (n + 2) .thread)
      = { pm with
          pathRequestID := (pm.pathRequestID + 1) % 2 ^ 32,
          newPathInfos := [((pm.pathRequestID + 1) % 2 ^ 32, PathData.mk2 (-1) a.startPos)],
          search := (b.RequestPath pm.search a).1,
          searchLog := pm.searchLog ++
            [.RequestPath (some ((pm.pathRequestID + 1) % 2 ^ 32)) a
              ((b.RequestPath pm.search a).2 % 2 ^ 32)],
          newPathCache :=
            [((pm.pathRequestID + 1) % 2 ^ 32, (b.RequestPath pm.search a).2 % 2 ^ 32)],
          pathUpdates :=
            [((pm.pathRequestID + 1) % 2 ^ 32,
              [⟨.REQUEST_PATH, (b.RequestPath pm.search a).2 % 2 ^ 32, false, ZeroVector⟩])] } := by
  obtain ⟨i1, i2, i3, i4, i5, i6, i7, i8, i9, i10, i11⟩ := pm
  obtain ⟨h1, h2, h3, h4, h5, h6⟩ := hs
  simp only at h1 h2 h3 h4 h5 h6
  subst h1 h2 h3 h4 h5 h6
  have e : List.replicate (n + 2) PathStep.thread
      = .thread :: .thread :: List.replicate n .thread := rfl
  rw [e]
  simp only [pathRun, List.foldl_cons, pathStep]
  have hrun := threadRun_of_idle b
    (threadStep b (threadStep b (RequestPath b true true
      { pathInfos := i1, newPathInfos := [], pathOps := [], pops := [], pathUpdates := [],
        newPathCache := [], pathRequestID := i7, hasThread := true, search := i9,
        searchLog := i10, invalidLogged := i11 } a).2)) rfl rfl n
  simp only [pathRun] at hrun
  rw [hrun]
  simp [threadStep, RequestPath, threadOp, pushUpdate, PMap.insert, PMap.find]

theorem pathRun_append {σ : Type} (b : PathBackend σ) (pm : IPathManager σ)
    (l1 l2 : List PathStep) : pathRun b (pathRun b pm l1) l2 = pathRun b pm (l1 ++ l2) := by
  simp only [pathRun, List.foldl_append]

/-- From a synchronized state and after any number of thread steps, draining the thread
behind a queued request ends in the state of `queued_request_processed`. -/
theorem queued_request_drained {σ : Type} (b : PathBackend σ) (pm : IPathManager σ)
    (a : RequestArgs) (hs : Synchronized pm) (k : Nat) :
    threadDrain b (pathRun b (RequestPath b true true pm a).2 (List.replicate k .thread))
      = pathRun b (RequestPath b true true pm a).2 (List.replicate 2 .thread) := by
  have h2 := queued_request_processed b pm a hs
  obtain ⟨_, _, hops, hpops, _, _⟩ := hs
  match k with
  | 0 =>
    have hl : (RequestPath b true true pm a).2.pops.length + 1
        + (RequestPath b true true pm a).2.pathOps.length = 2 := by
      simp [RequestPath, hops, hpops]
    show pathRun b _ (List.replicate _ .thread) = _
    rw [show pathRun b (RequestPath b true true pm a).2 (List.replicate 0 .thread)
      = (RequestPath b true true pm a).2 from rfl, hl]
  | 1 =>
    have hl : (pathRun b (RequestPath b true true pm a).2 (List.replicate 1 .thread)).pops.length
        + 1 + (pathRun b (RequestPath b true true pm a).2
          (List.replicate 1 .thread)).pathOps.length = 2 := by
      simp [pathRun, pathStep, threadStep, RequestPath, hops, hpops]
    show pathRun b _ (List.replicate _ .thread) = _
    rw [hl, pathRun_append, ← List.replicate_add]
    rw [h2 1, h2 0]
  | n + 2 =>
    have hl : (pathRun b (RequestPath b true true pm a).2
          (List.replicate (n + 2) .thread)).pops.length
        + 1 + (pathRun b (RequestPath b true true pm a).2
          (List.replicate (n + 2) .thread)).pathOps.length = 1 := by
      rw [h2 n]
      simp [hops, hpops]
    show pathRun b _ (List.replicate _ .thread) = _
    rw [hl, pathRun_append, ← List.replicate_add]
    rw [h2 (n + 1), h2 0]

/-- Claim C13: with asynchronous pathing enabled, from a synchronized manager state, the
direct form of `RequestPath` and the queued form return the same handle, the successor of
`pathRequestID` as an `unsigned int`; and the queued form followed by any number of
path-thread steps and `SynchronizeThread` leaves exactly the state the direct form leaves,
in which the handle's entry has the search result as path id, `startPos` as next waypoint
and `updated = false`. -/
theorem C13_direct_and_queued_request_agree {σ : Type} (b : PathBackend σ)
    (pm : IPathManager σ) (a : RequestArgs) (k : Nat) (hs : Synchronized pm) :
    (RequestPath b false true pm a).1 = (RequestPath b true true pm a).1 ∧
    (RequestPath b true true pm a).1 = (pm.pathRequestID + 1) % 2 ^ 32 ∧
    (pm.pathRequestID + 1 < 2 ^ 32 → (RequestPath b true true pm a).1 = pm.pathRequestID + 1) ∧
    SynchronizeThread b (pathRun b (RequestPath b true true pm a).2 (List.replicate k .thread))
      = (RequestPath b false true pm a).2 ∧
    (RequestPath b false true pm a).2.pathInfos.find (RequestPath b false true pm a).1
      = some ⟨toInt32 ((b.RequestPath pm.search a).2 % 2 ^ 32), a.startPos, false, false⟩ := by
  refine ⟨rfl, rfl, fun h => Nat.mod_eq_of_lt h, ?_, ?_⟩
  · have hd := queued_request_drained b pm a hs k
    have h2 := queued_request_processed b pm a hs 0
    have hthr : (pathRun b (RequestPath b true true pm a).2
        (List.replicate k .thread)).hasThread = true :=
      (threadRun_requestInv b pm.searchLog _ a k _
        (RequestPath_requestInv b pm a hs.1
          (by rw [hs.2.2.2.2.1]; exact List.Pairwise.nil))).hasThread
    rw [SynchronizeThread_eq b _ hthr, hd, h2]
    obtain ⟨i1, i2, i3, i4, i5, i6, i7, i8, i9, i10, i11⟩ := pm
    obtain ⟨e1, e2, e3, e4, e5, e6⟩ := hs
    simp only at e1 e2 e3 e4 e5 e6
    subst e1 e2 e3 e4 e5 e6
    simp [RequestPath, mergeUpdates, applyUpdate, PMap.find_insert, PMap.insert_insert,
      PathData.mk2]
  · simp [RequestPath, PMap.find_insert, PathData.mk2]

/-- Claim C13 on a fresh manager with path thread, one thread step before the merge. -/
theorem C13_direct_and_queued_request_agree_witness :
    Synchronized (IPathManager.fresh true) ∧
    (RequestPath countingBackend true true (IPathManager.fresh true) sampleArgs).1 = 1 ∧
    SynchronizeThread countingBackend
        (pathRun countingBackend
          (RequestPath countingBackend true true (IPathManager.fresh true) sampleArgs).2
          (List.replicate 1 .thread))
      = (RequestPath countingBackend false true (IPathManager.fresh true) sampleArgs).2 :=
  ⟨⟨rfl, rfl, rfl, rfl, rfl, rfl⟩,
   (C13_direct_and_queued_request_agree countingBackend (IPathManager.fresh true) sampleArgs 1
      ⟨rfl, rfl, rfl, rfl, rfl, rfl⟩).2.2.1 (by decide),
   (C13_direct_and_queued_request_agree countingBackend (IPathManager.fresh true) sampleArgs 1
      ⟨rfl, rfl, rfl, rfl, rfl, rfl⟩).2.2.2.1⟩

/-! ### What `SynchronizeThread` leaves behind -/

theorem threadStep_frame {σ : Type} (b : PathBackend σ) (pm : IPathManager σ)
    (hk : (pm.pathUpdates.map Prod.fst).Pairwise (fun k k' => k < k')) :
    (threadStep b pm).newPathInfos = pm.newPathInfos ∧
    (threadStep b pm).pathInfos = pm.pathInfos ∧
    (threadStep b pm).hasThread = pm.hasThread ∧
    (threadStep b pm).pathRequestID = pm.pathRequestID ∧
    ((threadStep b pm).pathUpdates.map Prod.fst).Pairwise (fun k k' => k < k') := by
  unfold threadStep
  split
  · rename_i cid rest _
    obtain ⟨f1, f2, _, _, f5, f6⟩ := threadOp_frame b { pm with pops := rest } cid
    exact ⟨f1, f2, f5, f6, threadOp_keys b _ cid hk⟩
  · exact ⟨rfl, rfl, rfl, rfl, hk⟩

theorem threadRun_frame {σ : Type} (b : PathBackend σ) :
    ∀ (n : Nat) (pm : IPathManager σ),
      (pm.pathUpdates.map Prod.fst).Pairwise (fun k k' => k < k') →
      (pathRun b pm (List.replicate n .thread)).newPathInfos = pm.newPathInfos ∧
      (pathRun b pm (List.replicate n .thread)).pathInfos = pm.pathInfos ∧
      (pathRun b pm (List.replicate n .thread)).hasThread = pm.hasThread ∧
      (pathRun b pm (List.replicate n .thread)).pathRequestID = pm.pathRequestID ∧
      ((pathRun b pm (List.replicate n .thread)).pathUpdates.map Prod.fst).Pairwise
        (fun k k' => k < k') := by
  intro n
  induction n with
  | zero => intro pm hk; exact ⟨rfl, rfl, rfl, rfl, hk⟩
  | succ n ih =>
    intro pm hk
    obtain ⟨f1, f2, f3, f4, f5⟩ := threadStep_frame b pm hk
    obtain ⟨g1, g2, g3, g4, g5⟩ := ih (threadStep b pm) f5
    exact ⟨g1.trans f1, g2.trans f2, g3.trans f3, g4.trans f4, g5⟩

/-- Copying a map into another, entry by entry: the copied entry wins. -/
theorem copy_find {α : Type} (h : Nat) :
    ∀ (l acc : PMap α), (l.map Prod.fst).Pairwise (fun k k' => k < k') →
      (l.foldl (fun acc e => acc.insert e.1 e.2) acc).find h
        = match l.find h with
          | some p => some p
          | none => acc.find h := by
  intro l
  induction l with
  | nil => intro acc _; rfl
  | cons e rest ih =>
    intro acc hk
    obtain ⟨k1, v1⟩ := e
    rw [List.map_cons, List.pairwise_cons] at hk
    rw [List.foldl_cons, ih _ hk.2, PMap.find_insert]
    by_cases e1 : k1 = h
    · subst e1
      have hn : PMap.find rest k1 = none :=
        PMap.find_eq_none rest k1 (fun hmem => Nat.lt_irrefl _ (hk.1 _ hmem))
      simp [hn, PMap.find]
    · have e2 : ¬ h = k1 := fun e => e1 e.symm
      simp [PMap.find, e1, e2]

theorem applyFold_no_delete (us : List PathUpdateData) :
    ∀ p : PathData, (∀ u ∈ us, u.type ≠ .DELETE_PATH) →
      us.foldl applyUpdateOpt (some p) = some (us.foldl applyResult p) := by
  induction us with
  | nil => intro p _; rfl
  | cons u rest ih =>
    intro p hno
    have hu : u.type ≠ .DELETE_PATH := hno u (List.mem_cons_self _ _)
    have hstep : applyUpdateOpt (some p) u = some (applyResult p u) := by
      unfold applyUpdateOpt applyResult
      cases ht : u.type <;> first
        | rfl
        | exact absurd ht hu
    rw [List.foldl_cons, List.foldl_cons, hstep]
    exact ih _ (fun u' hu' => hno u' (List.mem_cons_of_mem _ hu'))

/-- Claim C14: when a path thread exists, after `SynchronizeThread` the maps `newPathInfos`,
`pathUpdates` and `newPathCache` are empty and the thread is idle; and every handle `h`
registered in `newPathInfos` with entry `p`, none of whose results is `DELETE_PATH`, is in
`pathInfos` with the results the thread produced for it applied to `p` in the order the
thread pushed them. -/
theorem C14_synchronize_merges_and_clears {σ : Type} (b : PathBackend σ) (pm : IPathManager σ)
    (hthread : pm.hasThread = true)
    (hnew : (pm.newPathInfos.map Prod.fst).Pairwise (fun k k' => k < k'))
    (hupd : (pm.pathUpdates.map Prod.fst).Pairwise (fun k k' => k < k')) :
    (SynchronizeThread b pm).newPathInfos = [] ∧
    (SynchronizeThread b pm).pathUpdates = [] ∧
    (SynchronizeThread b pm).newPathCache = [] ∧
    (SynchronizeThread b pm).pops = [] ∧
    (SynchronizeThread b pm).pathOps = [] ∧
    ∀ (h : Nat) (p : PathData), pm.newPathInfos.find h = some p →
      (∀ u ∈ ((threadDrain b pm).pathUpdates.find h).getD [], u.type ≠ .DELETE_PATH) →
      (SynchronizeThread b pm).pathInfos.find h
        = some ((((threadDrain b pm).pathUpdates.find h).getD []).foldl applyResult p) := by
  obtain ⟨f1, _, _, _, f5⟩ := threadRun_frame b
    (pm.pops.length + 1 + pm.pathOps.length) pm hupd
  have hidle := threadDrain_idle b pm
  rw [SynchronizeThread_eq b pm hthread]
  refine ⟨rfl, rfl, rfl, hidle.1, hidle.2, ?_⟩
  intro h p hp hno
  show (mergeUpdates _ _).find h = _
  have g1 : (threadDrain b pm).newPathInfos = pm.newPathInfos := f1
  have g5 : ((threadDrain b pm).pathUpdates.map Prod.fst).Pairwise (fun k k' => k < k') := f5
  rw [mergeUpdates_find h _ _ g5, copy_find h _ _ (by rw [g1]; exact hnew), g1, hp]
  exact applyFold_no_delete _ p hno

/-- Claim C14 on a manager with one queued request and one queued `NextWayPoint` for its
handle 1: after `SynchronizeThread` the entry of handle 1 has the search result 1 as path id
and the waypoint the thread computed. -/
theorem C14_synchronize_merges_and_clears_witness :
    (pathRun countingBackend (IPathManager.fresh true)
        [.requestPath sampleArgs, .nextWayPoint 1 ⟨4, 4, 4⟩ 0 0 5 true]).newPathInfos.find 1
      = some ⟨-1, ⟨1, 2, 3⟩, false, false⟩ ∧
    (SynchronizeThread countingBackend (pathRun countingBackend (IPathManager.fresh true)
        [.requestPath sampleArgs, .nextWayPoint 1 ⟨4, 4, 4⟩ 0 0 5 true])).pathInfos.find 1
      = some ⟨1, ⟨4, 4, 4⟩, false, false⟩ :=
  ⟨by decide,
   (C14_synchronize_merges_and_clears countingBackend
      (pathRun countingBackend (IPathManager.fresh true)
        [.requestPath sampleArgs, .nextWayPoint 1 ⟨4, 4, 4⟩ 0 0 5 true])
      (by decide) (by decide) (by decide)).2.2.2.2.2 1 ⟨-1, ⟨1, 2, 3⟩, false, false⟩
      (by decide) (by decide)⟩

/-! ### The tick under different worker counts -/

/-- Claim C15, evaluated on the code: the same handler (units 10 and 11 added to a handler
with room for two), the same frame 0 and `UNIT_SLOWUPDATE_RATE = 16`, once with no extra
simulation worker and once with one.  Without workers the tick calls
`moveType->SlowUpdate` on units 10 and 11, with one worker on unit 10 only. -/
theorem C15_worker_count_changes_the_tick :
    (runCalls ⟨true, false⟩ (CUnitHandler.ctor [2] 0 (fun _ => 0) (fun _ => ⟨0, 0, 0, 0⟩))
        [.addUnit 10 0, .addUnit 11 1]).map
      (fun s => (Update ⟨true, false⟩ ⟨true, false⟩ ⟨16, 8, 1, 2, 4, 8⟩
        ⟨0, fun _ => [], fun _ => [], fun _ => false, fun _ => 0, [], [], []⟩ s (fun _ => 0)).2)
      = some [.UpdateUnits, .UpdateTicks, .SetMultiThreadedSim true, .SetThreadedPath false,
          .UpdateMoveType 10, .UpdateMoveType 11, .SetMultiThreadedSim false,
          .UnitUpdate 10, .UnitUpdate 11, .SetMultiThreadedSim true,
          .MoveTypeSlowUpdate 10, .MoveTypeSlowUpdate 11, .SetMultiThreadedSim false,
          .SlowUpdate 10] ∧
    (runCalls ⟨true, false⟩ (CUnitHandler.ctor [2] 1 (fun _ => 0) (fun _ => ⟨0, 0, 0, 0⟩))
        [.addUnit 10 0, .addUnit 11 1]).map
      (fun s => (Update ⟨true, false⟩ ⟨true, false⟩ ⟨16, 8, 1, 2, 4, 8⟩
        ⟨0, fun _ => [], fun _ => [], fun _ => false, fun _ => 0, [], [], []⟩ s (fun _ => 0)).2)
      = some [.UpdateUnits, .UpdateTicks, .SetMultiThreadedSim true, .SetThreadedPath false,
          .UpdateMoveType 10, .UpdateMoveType 11, .SetMultiThreadedSim false,
          .UnitUpdate 10, .UnitUpdate 11, .SetMultiThreadedSim true,
          .MoveTypeSlowUpdate 10, .SetMultiThreadedSim false,
          .SlowUpdate 10] := by
  decide

/-! ### The units table -/

theorem DeleteUnitNow_absent (flags : BuildFlags) (s : CUnitHandler) (delUnit : CUnit)
    (hmem : delUnit ∉ s.activeUnits) : DeleteUnitNow flags s delUnit = s := by
  unfold DeleteUnitNow
  rw [(findUnit_spec delUnit s.activeUnits 0).1 hmem]
  simp only
  split
  · rw [debugSweep_not_mem _ _ _ _ hmem]
  · rfl

theorem DeleteUnitNow_units (flags : BuildFlags) (s : CUnitHandler) (delUnit : CUnit)
    (hmem : delUnit ∈ s.activeUnits) :
    (DeleteUnitNow flags s delUnit).units = s.units.set (s.heap delUnit).id none := by
  unfold DeleteUnitNow
  obtain ⟨j, hj1, _⟩ := (findUnit_spec delUnit s.activeUnits 0).2 hmem
  rw [hj1]
  simp only
  split <;> rfl

theorem ctor_table (teamMaxUnits : List Nat) (n : Nat) (draws : Nat → Nat)
    (heap : CUnit → UnitFields) : TableInv (CUnitHandler.ctor teamMaxUnits n draws heap) := by
  refine ⟨by simp [CUnitHandler.ctor], ?_⟩
  intro id u
  simp only [CUnitHandler.ctor, List.getElem?_replicate, List.not_mem_nil, false_and, iff_false]
  split <;> simp

/-- The ids of the active units are pairwise distinct, below `maxUnits`, and not free. -/
theorem IdInv.facts {s : CUnitHandler} (hs : IdInv s) :
    (∀ u ∈ s.activeUnits, ∀ v ∈ s.activeUnits, (s.heap u).id = (s.heap v).id → u = v) ∧
    (∀ u ∈ s.activeUnits, (s.heap u).id < s.maxUnits) ∧
    (∀ id ∈ s.freeUnitIDs, id < s.maxUnits) ∧
    (∀ u ∈ s.activeUnits, (s.heap u).id ∉ s.freeUnitIDs) := by
  obtain ⟨_, hperm⟩ := hs
  have hnd : (s.liveIds ++ s.freeUnitIDs).Nodup := hperm.nodup_iff.2 (List.nodup_range _)
  have hlive : s.liveIds.Nodup := (List.nodup_append.1 hnd).1
  refine ⟨?_, ?_, ?_, ?_⟩
  · intro u hu v hv huv
    exact List.inj_on_of_nodup_map hlive hu hv huv
  · intro u hu
    exact List.mem_range.1 (hperm.subset (List.mem_append_left _ (List.mem_map_of_mem _ hu)))
  · intro id hid
    exact List.mem_range.1 (hperm.subset (List.mem_append_right _ hid))
  · intro u hu hfree
    exact (List.nodup_append.1 hnd).2.2 (List.mem_map_of_mem _ hu) hfree

theorem mem_insertAt (unit v : CUnit) (l : List CUnit) (ui : Nat) :
    v ∈ l.take ui ++ unit :: l.drop ui ↔ v = unit ∨ v ∈ l := by
  have hperm : (l.take ui ++ unit :: l.drop ui).Perm (unit :: l) := by
    refine List.perm_middle.trans ?_
    rw [List.take_append_drop]
  rw [hperm.mem_iff, List.mem_cons]

theorem AddUnit_table (flags : BuildFlags) (s : CUnitHandler) (unit : CUnit) (pos : Nat)
    (hs : IdInv s) (ht : TableInv s) (hfresh : unit ∉ s.activeUnits) :
    ∀ r, AddUnit flags s unit pos = some r → TableInv r.2 := by
  intro r hr
  unfold AddUnit at hr
  cases hfree : s.freeUnitIDs with
  | nil =>
    rw [hfree] at hr
    simp only at hr
    split at hr
    · cases hr; exact ht
    · cases hr
  | cons id rest =>
    rw [hfree] at hr
    simp only [Option.some.injEq] at hr
    subst hr
    obtain ⟨_, _, hfreeLt, hnotFree⟩ := hs.facts
    obtain ⟨hlen, htab⟩ := ht
    have hidfree : id ∈ s.freeUnitIDs := by rw [hfree]; exact List.mem_cons_self _ _
    have hid : id < s.units.length := by rw [hlen]; exact hfreeLt id hidfree
    refine ⟨?_, ?_⟩
    · show (s.units.set id (some unit)).length = s.maxUnits
      rw [List.length_set]
      exact hlen
    · intro id' u
      show (s.units.set id (some unit))[id']? = some (some u) ↔
        (u ∈ s.activeUnits.take _ ++ unit :: s.activeUnits.drop _ ∧
          (Function.update s.heap unit { s.heap unit with id := id } u).id = id')
      rw [mem_insertAt, List.getElem?_set]
      by_cases e : id = id'
      · subst e
        rw [if_pos rfl, if_pos hid]
        constructor
        · intro h
          simp only [Option.some.injEq] at h
          subst h
          exact ⟨Or.inl rfl, by rw [Function.update_same]⟩
        · rintro ⟨hu | hu, hidu⟩
          · rw [hu]
          · have hne : u ≠ unit := fun e => hfresh (e ▸ hu)
            rw [Function.update_noteq hne] at hidu
            exact absurd hidfree (hidu ▸ hnotFree u hu)
      · rw [if_neg e, htab id' u]
        constructor
        · rintro ⟨hu, hidu⟩
          have hne : u ≠ unit := fun e => hfresh (e ▸ hu)
          exact ⟨Or.inr hu, by rw [Function.update_noteq hne]; exact hidu⟩
        · rintro ⟨hu | hu, hidu⟩
          · subst hu
            rw [Function.update_same] at hidu
            exact absurd hidu e
          · have hne : u ≠ unit := fun e => hfresh (e ▸ hu)
            rw [Function.update_noteq hne] at hidu
            exact ⟨hu, hidu⟩

theorem DeleteUnitNow_table (flags : BuildFlags) (s : CUnitHandler) (delUnit : CUnit)
    (hs : IdInv s) (ht : TableInv s) : TableInv (DeleteUnitNow flags s delUnit) := by
  by_cases hmem : delUnit ∈ s.activeUnits
  · obtain ⟨hinj, hlt, _, _⟩ := hs.facts
    obtain ⟨hlen, htab⟩ := ht
    have hcnt : s.activeUnits.count delUnit ≤ 1 := List.nodup_iff_count_le_one.1 hs.1 delUnit
    have hact := DeleteUnitNow_activeUnits flags s delUnit hcnt
    obtain ⟨hheap, hmax, _⟩ := DeleteUnitNow_frame flags s delUnit
    have hunits := DeleteUnitNow_units flags s delUnit hmem
    have hid : (s.heap delUnit).id < s.units.length := by rw [hlen]; exact hlt _ hmem
    refine ⟨?_, ?_⟩
    · rw [hunits, hmax, List.length_set]
      exact hlen
    · intro id' u
      rw [hunits, hact, hheap, List.getElem?_set, hs.1.mem_erase_iff]
      by_cases e : (s.heap delUnit).id = id'
      · rw [if_pos e, if_pos hid]
        constructor
        · intro h
          cases h
        · rintro ⟨⟨hne, hu⟩, hidu⟩
          exact absurd (hinj u hu delUnit hmem (hidu.trans e.symm)) hne
      · rw [if_neg e, htab id' u]
        constructor
        · rintro ⟨hu, hidu⟩
          refine ⟨⟨?_, hu⟩, hidu⟩
          intro hud
          subst hud
          exact e hidu
        · rintro ⟨⟨_, hu⟩, hidu⟩
          exact ⟨hu, hidu⟩
  · rw [DeleteUnitNow_absent flags s delUnit hmem]
    exact ht

theorem runCalls_table (flags : BuildFlags) :
    ∀ (calls : List HandlerCall) (s : CUnitHandler), IdInv s → TableInv s →
      addsAreFresh flags s calls = true →
      match runCalls flags s calls with
      | none => True
      | some s' => IdInv s' ∧ TableInv s' := by
  intro calls
  induction calls with
  | nil => intro s hs ht _; exact ⟨hs, ht⟩
  | cons c rest ih =>
    intro s hs ht hf
    cases c with
    | addUnit unit pos =>
      simp only [addsAreFresh, Bool.and_eq_true, Bool.not_eq_true', List.contains_eq_any_beq,
        List.any_eq_false, beq_iff_eq] at hf
      have hfresh : unit ∉ s.activeUnits := fun hm => hf.1 unit hm rfl
      rw [runCalls]
      cases hr : AddUnit flags s unit pos with
      | none => trivial
      | some r =>
        simp only
        rw [hr] at hf
        exact ih r.2 (AddUnit_inv flags s unit pos hs hfresh r hr)
          (AddUnit_table flags s unit pos hs ht hfresh r hr) hf.2
    | deleteUnitNow unit =>
      rw [runCalls]
      simp only [addsAreFresh] at hf
      exact ih _ (DeleteUnitNow_inv flags s unit hs) (DeleteUnitNow_table flags s unit hs ht) hf

/-- Claim C16, as amended: starting from the constructed handler, after every sequence of
`AddUnit` and `DeleteUnitNow` calls in which no `AddUnit` is passed a unit that is already
in `activeUnits`, for every id below `maxUnits` the table entry `units[id]` is unit `u`
exactly when `u` is active and has that id, and is `NULL` exactly when no active unit has that
id; `GetUnit(u.id)` returns `u` right after a successful `AddUnit(u)`, and `GetUnit` returns
`NULL` for the id of an active unit `u` right after `DeleteUnitNow(u)`. -/
theorem C16_units_table_mirrors_active_set (flags : BuildFlags) (teamMaxUnits : List Nat)
    (numExtraThreads : Nat) (draws : Nat → Nat) (heap : CUnit → UnitFields)
    (calls : List HandlerCall)
    (hfresh : addsAreFresh flags
      (CUnitHandler.ctor teamMaxUnits numExtraThreads draws heap) calls = true) :
    match runCalls flags (CUnitHandler.ctor teamMaxUnits numExtraThreads draws heap) calls with
    | none => True
    | some s =>
      (∀ (id : Nat) (u : CUnit), id < s.maxUnits →
        (GetUnit s id = some (some u) ↔ (u ∈ s.activeUnits ∧ (s.heap u).id = id))) ∧
      (∀ id : Nat, id < s.maxUnits →
        (GetUnit s id = some none ↔ ∀ u ∈ s.activeUnits, (s.heap u).id ≠ id)) ∧
      (∀ (unit : CUnit) (pos : Nat) (s' : CUnitHandler),
        AddUnit flags s unit pos = some (true, s') →
        GetUnit s' (s'.heap unit).id = some (some unit)) ∧
      (∀ u ∈ s.activeUnits, GetUnit (DeleteUnitNow flags s u) (s.heap u).id = some none) := by
  have h := runCalls_table flags calls _ (ctor_inv teamMaxUnits numExtraThreads draws heap)
    (ctor_table teamMaxUnits numExtraThreads draws heap) hfresh
  revert h
  cases runCalls flags (CUnitHandler.ctor teamMaxUnits numExtraThreads draws heap) calls with
  | none => intro _; trivial
  | some s =>
    intro h
    obtain ⟨hs, hlen, htab⟩ := h
    obtain ⟨_, hlt, hfreeLt, _⟩ := hs.facts
    refine ⟨?_, ?_, ?_, ?_⟩
    · intro id u hid
      simp only [GetUnit, MaxUnits, if_pos hid]
      exact htab id u
    · intro id hid
      simp only [GetUnit, MaxUnits, if_pos hid]
      have hin : id < s.units.length := by rw [hlen]; exact hid
      constructor
      · intro h0 u hu hidu
        have h1 := (htab id u).2 ⟨hu, hidu⟩
        rw [h0] at h1
        cases h1
      · intro hno
        rw [List.getElem?_eq_getElem hin]
        cases hx : s.units[id] with
        | none => rfl
        | some u =>
          have h1 : s.units[id]? = some (some u) := by rw [List.getElem?_eq_getElem hin, hx]
          exact absurd ((htab id u).1 h1).2 (hno u ((htab id u).1 h1).1)
    · intro unit pos s' hadd
      unfold AddUnit at hadd
      cases hfree : s.freeUnitIDs with
      | nil =>
        rw [hfree] at hadd
        simp only at hadd
        split at hadd <;> cases hadd
      | cons id rest =>
        rw [hfree] at hadd
        simp only [Option.some.injEq, Prod.mk.injEq, true_and] at hadd
        subst hadd
        have hid : id < s.maxUnits := hfreeLt id (by rw [hfree]; exact List.mem_cons_self _ _)
        simp only [GetUnit, MaxUnits, Function.update_same, if_pos hid]
        rw [List.getElem?_set, if_pos rfl, if_pos (by rw [hlen]; exact hid)]
    · intro u hu
      have hid : (s.heap u).id < s.maxUnits := hlt u hu
      simp only [GetUnit, MaxUnits, (DeleteUnitNow_frame flags s u).2.1, if_pos hid,
        DeleteUnitNow_units flags s u hu]
      rw [List.getElem?_set, if_pos rfl, if_pos (by rw [hlen]; exact hid)]

/-- Claim C16 as amended, for a handler with unit limit 3 after adding units 10 and 11 and
deleting 10: unit 11 sits in slot 1, slots 0 and 2 are `NULL`. -/
theorem C16_units_table_mirrors_active_set_witness :
    (runCalls ⟨true, false⟩ (CUnitHandler.ctor [3] 0 (fun k => k) (fun _ => ⟨0, 0, 0, 0⟩))
        [.addUnit 10 0, .addUnit 11 1, .deleteUnitNow 10]).map
      (fun s => (s.activeUnits, s.liveIds, [GetUnit s 0, GetUnit s 1, GetUnit s 2]))
      = some ([11], [1], [some none, some (some 11), some none]) ∧
    (match runCalls ⟨true, false⟩ (CUnitHandler.ctor [3] 0 (fun k => k) (fun _ => ⟨0, 0, 0, 0⟩))
        [.addUnit 10 0, .addUnit 11 1, .deleteUnitNow 10] with
    | none => True
    | some s =>
      (∀ (id : Nat) (u : CUnit), id < s.maxUnits →
        (GetUnit s id = some (some u) ↔ (u ∈ s.activeUnits ∧ (s.heap u).id = id))) ∧
      (∀ id : Nat, id < s.maxUnits →
        (GetUnit s id = some none ↔ ∀ u ∈ s.activeUnits, (s.heap u).id ≠ id)) ∧
      (∀ (unit : CUnit) (pos : Nat) (s' : CUnitHandler),
        AddUnit ⟨true, false⟩ s unit pos = some (true, s') →
        GetUnit s' (s'.heap unit).id = some (some unit)) ∧
      (∀ u ∈ s.activeUnits,
        GetUnit (DeleteUnitNow ⟨true, false⟩ s u) (s.heap u).id = some none)) :=
  ⟨by decide,
   C16_units_table_mirrors_active_set ⟨true, false⟩ [3] 0 (fun k => k) (fun _ => ⟨0, 0, 0, 0⟩)
     [.addUnit 10 0, .addUnit 11 1, .deleteUnitNow 10] (by decide)⟩

/-- Claim C16 fails as stated: on the constructed handler with unit limit 2, calling `AddUnit`
twice with the same unit object 7 leaves `activeUnits = [7, 7]` with live ids `[0, 0]`, while
the table entry of id 1 is unit 7: it is non-null although no active unit has id 1. -/
theorem C16_counterexample_stale_table_entry :
    (runCalls ⟨true, false⟩ (CUnitHandler.ctor [2] 0 (fun _ => 0) (fun _ => ⟨0, 0, 0, 0⟩))
        [.addUnit 7 0, .addUnit 7 0]).map
      (fun s => (s.activeUnits, s.liveIds, s.maxUnits, GetUnit s 1))
      = some ([7, 7], [0, 0], 2, some (some 7)) ∧
    1 ∉ ([0, 0] : List Nat) := by
  constructor
  · decide
  · decide

/-! ### `GetUnit` -/

theorem AddUnit_units_length (flags : BuildFlags) (s : CUnitHandler) (unit : CUnit) (pos : Nat) :
    ∀ r, AddUnit flags s unit pos = some r →
      r.2.units.length = s.units.length ∧ r.2.maxUnits = s.maxUnits := by
  intro r hr
  unfold AddUnit at hr
  split at hr
  · split at hr
    · cases hr; exact ⟨rfl, rfl⟩
    · cases hr
  · cases hr
    exact ⟨List.length_set _ _ _, rfl⟩

theorem DeleteUnitNow_units_length (flags : BuildFlags) (s : CUnitHandler) (delUnit : CUnit) :
    (DeleteUnitNow flags s delUnit).units.length = s.units.length := by
  by_cases hmem : delUnit ∈ s.activeUnits
  · rw [DeleteUnitNow_units flags s delUnit hmem, List.length_set]
  · rw [DeleteUnitNow_absent flags s delUnit hmem]

/-- The units table keeps the size the constructor gave it. -/
theorem runCalls_units_length (flags : BuildFlags) :
    ∀ (calls : List HandlerCall) (s s' : CUnitHandler), s.units.length = s.maxUnits →
      runCalls flags s calls = some s' → s'.units.length = s'.maxUnits := by
  intro calls
  induction calls with
  | nil =>
    intro s s' hs hr
    simp only [runCalls, Option.some.injEq] at hr
    subst hr
    exact hs
  | cons c rest ih =>
    intro s s' hs hr
    cases c with
    | addUnit unit pos =>
      rw [runCalls] at hr
      cases hadd : AddUnit flags s unit pos with
      | none => rw [hadd] at hr; cases hr
      | some r =>
        rw [hadd] at hr
        obtain ⟨h1, h2⟩ := AddUnit_units_length flags s unit pos r hadd
        exact ih r.2 s' (by rw [h1, h2]; exact hs) hr
    | deleteUnitNow unit =>
      rw [runCalls] at hr
      exact ih _ s' (by
        rw [DeleteUnitNow_units_length, (DeleteUnitNow_frame flags s unit).2.1]; exact hs) hr

theorem toUInt32_neg (i : Int) (hneg : i < 0) (hmin : -2 ^ 31 ≤ i) : 2 ^ 31 ≤ toUInt32 i := by
  unfold toUInt32
  have h31 : (2 : Int) ^ 31 = 2147483648 := by norm_num
  have h32 : (2 : Int) ^ 32 = 4294967296 := by norm_num
  have n31 : (2 : Nat) ^ 31 = 2147483648 := by norm_num
  rw [h31] at hmin
  rw [h32, n31]
  omega

/-- Claim C17: in every state of the handler reached from the constructor by `AddUnit` and
`DeleteUnitNow` calls, `GetUnit(unitID)` returns `NULL` for every `unitID >= MaxUnits()`; for
a unit limit of at most 2^31 this includes every negative `int` id, converted to
`unsigned int`; for `unitID < MaxUnits()` it returns `units[unitID]`; and the index it reads
is always inside the table. -/
theorem C17_GetUnit_checks_the_bound (flags : BuildFlags) (teamMaxUnits : List Nat)
    (numExtraThreads : Nat) (draws : Nat → Nat) (heap : CUnit → UnitFields)
    (calls : List HandlerCall) (s : CUnitHandler)
    (hrun : runCalls flags (CUnitHandler.ctor teamMaxUnits numExtraThreads draws heap) calls
      = some s) :
    (∀ unitID : Nat, MaxUnits s ≤ unitID → GetUnit s unitID = some none) ∧
    (MaxUnits s ≤ 2 ^ 31 →
      ∀ i : Int, i < 0 → -2 ^ 31 ≤ i → GetUnit s (toUInt32 i) = some none) ∧
    (∀ unitID : Nat, unitID < MaxUnits s → GetUnit s unitID = GetUnitUnsafe s unitID) ∧
    (∀ unitID : Nat, GetUnit s unitID ≠ none) := by
  have hlen : s.units.length = s.maxUnits :=
    runCalls_units_length flags calls _ s (ctor_table _ _ _ _).1 hrun
  have hge : ∀ unitID : Nat, MaxUnits s ≤ unitID → GetUnit s unitID = some none := by
    intro unitID h
    unfold GetUnit
    rw [if_neg (Nat.not_lt.2 h)]
  refine ⟨hge, ?_, ?_, ?_⟩
  · intro hmax i hneg hmin
    exact hge _ (Nat.le_trans hmax (toUInt32_neg i hneg hmin))
  · intro unitID h
    unfold GetUnit GetUnitUnsafe
    rw [if_pos h]
  · intro unitID
    unfold GetUnit
    split
    · rename_i h
      rw [List.getElem?_eq_getElem (by rw [hlen]; exact h)]
      exact Option.some_ne_none _
    · exact Option.some_ne_none _

/-- Claim C17 on the handler with unit limit 3 holding unit 11 in slot 1: ids 3 and -1 give
`NULL`, id 1 gives `units[1]`, unit 11. -/
theorem C17_GetUnit_checks_the_bound_witness :
    runCalls ⟨true, false⟩ (CUnitHandler.ctor [3] 0 (fun k => k) (fun _ => ⟨0, 0, 0, 0⟩))
        [.addUnit 10 0, .addUnit 11 1, .deleteUnitNow 10] = some sampleHandler ∧
    GetUnit sampleHandler 3 = some none ∧
    GetUnit sampleHandler (toUInt32 (-1)) = some none ∧
    GetUnit sampleHandler 1 = GetUnitUnsafe sampleHandler 1 ∧
    GetUnitUnsafe sampleHandler 1 = some (some 11) :=
  ⟨rfl,
   (C17_GetUnit_checks_the_bound ⟨true, false⟩ [3] 0 (fun k => k) (fun _ => ⟨0, 0, 0, 0⟩)
     [.addUnit 10 0, .addUnit 11 1, .deleteUnitNow 10] sampleHandler rfl).1 3 (by decide),
   (C17_GetUnit_checks_the_bound ⟨true, false⟩ [3] 0 (fun k => k) (fun _ => ⟨0, 0, 0, 0⟩)
     [.addUnit 10 0, .addUnit 11 1, .deleteUnitNow 10] sampleHandler rfl).2.1 (by decide)
     (-1) (by decide) (by decide),
   (C17_GetUnit_checks_the_bound ⟨true, false⟩ [3] 0 (fun k => k) (fun _ => ⟨0, 0, 0, 0⟩)
     [.addUnit 10 0, .addUnit 11 1, .deleteUnitNow 10] sampleHandler rfl).2.2.1 1 (by decide),
   by decide⟩

/-! ### Deferred removal -/

theorem ExecuteDelayOps_deletedNow (u : CUnit) :
    ∀ (q : List DelayOpType), (ExecuteDelayOps u q).1.filterMap Event.deletedNow = [] := by
  intro q
  induction q with
  | nil => rfl
  | cons op rest ih =>
    unfold ExecuteDelayOps
    split
    · exact ih
    · exact ih
    · simp only [List.filterMap_cons, Event.deletedNow, ih]

theorem removalLoop_eq (flags : BuildFlags) (env : TickEnv) :
    ∀ (pending : List CUnit) (s : CUnitHandler),
      (removalLoop flags env pending s).1
        = { pending.foldl (DeleteUnitNow flags) s with unitsToBeRemoved := [] } ∧
      (removalLoop flags env pending s).2.filterMap Event.deletedNow = pending := by
  intro pending
  induction pending with
  | nil => intro s; exact ⟨rfl, rfl⟩
  | cons delUnit rest ih =>
    intro s
    obtain ⟨h1, h2⟩ := ih (DeleteUnitNow flags s delUnit)
    refine ⟨?_, ?_⟩
    · simp only [removalLoop, List.foldl_cons]
      exact h1
    · simp only [removalLoop, List.cons_append, List.nil_append, List.filterMap_cons,
        List.filterMap_append, Event.deletedNow, h2, ExecuteDelayOps_deletedNow]

theorem foldl_DeleteUnitNow_active (flags : BuildFlags) :
    ∀ (l : List CUnit) (s : CUnitHandler), s.activeUnits.Nodup →
      (l.foldl (DeleteUnitNow flags) s).activeUnits = s.activeUnits.diff l := by
  intro l
  induction l with
  | nil => intro s _; rfl
  | cons x rest ih =>
    intro s hnd
    have hact := DeleteUnitNow_activeUnits flags s x (List.nodup_iff_count_le_one.1 hnd x)
    rw [List.foldl_cons, ih _ (by rw [hact]; exact hnd.erase x), hact, List.diff_cons]

/-- Claim C18: `DeleteUnit(u)` appends `u` to `unitsToBeRemoved` and leaves `activeUnits`, the
units table, `freeUnitIDs` and the cursor as they are; the first block of `Update` calls
`DeleteUnitNow` on every pending unit, last one first, and leaves `unitsToBeRemoved` empty; in
an active set of distinct units no pending unit is active afterwards; and the trace of
`Update` starts with that block, the later phases running on the state it leaves. -/
theorem C18_DeleteUnit_defers_to_next_Update (flags : BuildFlags) (env : TickEnv)
    (s : CUnitHandler) (u : CUnit) :
    (DeleteUnit s u).unitsToBeRemoved = s.unitsToBeRemoved ++ [u] ∧
    (DeleteUnit s u).activeUnits = s.activeUnits ∧
    (DeleteUnit s u).units = s.units ∧
    (DeleteUnit s u).freeUnitIDs = s.freeUnitIDs ∧
    (DeleteUnit s u).slowUpdateIterator = s.slowUpdateIterator ∧
    (Update_removal flags env s).1
      = { s.unitsToBeRemoved.reverse.foldl (DeleteUnitNow flags) s with unitsToBeRemoved := [] } ∧
    (Update_removal flags env s).1.unitsToBeRemoved = [] ∧
    (Update_removal flags env s).2.filterMap Event.deletedNow = s.unitsToBeRemoved.reverse ∧
    (s.activeUnits.Nodup →
      ∀ v ∈ s.unitsToBeRemoved, v ∉ (Update_removal flags env s).1.activeUnits) ∧
    (∀ (m : ModInfo) (c : UnitConsts) (updateOps : Nat → Int),
      (Update flags m c env s updateOps).2
        = (Update_removal flags env s).2 ++ [.UpdateTicks]
          ++ Update_moveType m c env (Update_removal flags env s).1 updateOps
          ++ (Update_units env (Update_removal flags env s).1.activeUnits
                (Update_removal flags env s).1).2
          ++ Update_moveTypeSlow m c env
              (Update_units env (Update_removal flags env s).1.activeUnits
                (Update_removal flags env s).1).1
          ++ (Update_slowUpdate c.UNIT_SLOWUPDATE_RATE env.frameNum
              (Update_units env (Update_removal flags env s).1.activeUnits
                (Update_removal flags env s).1).1.activeUnits
              (Update_units env (Update_removal flags env s).1.activeUnits
                (Update_removal flags env s).1).1.slowUpdateIterator).2.map .SlowUpdate) := by
  have hstate : (Update_removal flags env s).1
      = { s.unitsToBeRemoved.reverse.foldl (DeleteUnitNow flags) s
          with unitsToBeRemoved := [] } := by
    unfold Update_removal
    split
    · rename_i he
      rw [he]
      obtain ⟨a1, a2, a3, a4, a5, a6, a7, a8, a9, a10⟩ := s
      simp only at he
      subst he
      rfl
    · exact (removalLoop_eq flags env _ s).1
  have htrace : (Update_removal flags env s).2.filterMap Event.deletedNow
      = s.unitsToBeRemoved.reverse := by
    unfold Update_removal
    split
    · rename_i he
      rw [he]
      rfl
    · simp only [List.filterMap_append, (removalLoop_eq flags env _ s).2]
      simp [Event.deletedNow]
  refine ⟨rfl, rfl, rfl, rfl, rfl, hstate, by rw [hstate], htrace, ?_, fun _ _ _ => rfl⟩
  intro hnd v hv
  rw [hstate]
  show v ∉ (s.unitsToBeRemoved.reverse.foldl (DeleteUnitNow flags) s).activeUnits
  rw [foldl_DeleteUnitNow_active flags _ s hnd, hnd.mem_diff_iff]
  exact fun h => h.2 (List.mem_reverse.2 hv)

/-! ### The per-tick budget of the staggered slow update -/

theorem specSlowCount_eq (RATE n : Nat) (hR : 0 < RATE) :
    specSlowCount RATE n = if RATE ∣ n then n / RATE else n / RATE + 1 := by
  unfold specSlowCount
  have hdm := Nat.div_add_mod n RATE
  have hlt := Nat.mod_lt n hR
  generalize hq : n / RATE = q at hdm ⊢
  generalize hr : n % RATE = r at hdm hlt
  have hn : n + RATE - 1 = r + RATE - 1 + RATE * q := by omega
  rw [hn, Nat.add_mul_div_left _ _ hR]
  by_cases hd : RATE ∣ n
  · rw [if_pos hd]
    have hr0 : r = 0 := by
      rw [← hr]
      exact Nat.eq_zero_of_dvd_of_lt (by simpa using (Nat.dvd_iff_mod_eq_zero.1 hd ▸ dvd_zero _))
        (Nat.mod_lt n hR)
    subst hr0
    rw [Nat.div_eq_of_lt (by omega)]
    omega
  · rw [if_neg hd]
    have hr0 : 0 < r := by
      rw [← hr]
      exact Nat.pos_of_ne_zero (fun h0 => hd (Nat.dvd_of_mod_eq_zero h0))
    have h1 : (r + RATE - 1) / RATE = 1 :=
      Nat.div_eq_of_lt_le (by omega) (by omega)
    rw [h1]
    omega

theorem seg_length (l : List CUnit) (a b : Nat) : (seg l a b).length = min b l.length - a := by
  simp [seg]

/-- Claim C20, as amended: for a positive rate, the bound `countEnd` of the pooled slow-update
phase and the budget `n` of the sequential slow-update loop are
`activeCount / UNIT_SLOWUPDATE_RATE + 1` (integer division); this is
`ceil(activeCount / UNIT_SLOWUPDATE_RATE)` when the rate does not divide the active count and
one more when it does; and the sequential loop calls `SlowUpdate` on that many units, or on
all units from the cursor to the end of the list when these are fewer. -/
theorem C20_slow_update_budget (RATE frameNum cursor : Nat) (activeUnits : List CUnit)
    (hRATE : 0 < RATE) (hcursor : cursor ≤ activeUnits.length) :
    slowCount RATE activeUnits = ((activeUnits.length / RATE + 1 : Nat) : Int) ∧
    (¬ RATE ∣ activeUnits.length →
      slowCount RATE activeUnits = (specSlowCount RATE activeUnits.length : Int)) ∧
    (RATE ∣ activeUnits.length →
      slowCount RATE activeUnits = (specSlowCount RATE activeUnits.length : Int) + 1) ∧
    (Update_slowUpdate RATE frameNum activeUnits cursor).2.length
      = min (activeUnits.length / RATE + 1)
          (activeUnits.length - (if frameNum &&& (RATE - 1) = 0 then 0 else cursor)) := by
  have hspec := specSlowCount_eq RATE activeUnits.length hRATE
  refine ⟨rfl, ?_, ?_, ?_⟩
  · intro hd
    rw [if_neg hd] at hspec
    rw [hspec]
    rfl
  · intro hd
    rw [if_pos hd] at hspec
    rw [hspec]
    unfold slowCount
    push_cast
    rfl
  · unfold Update_slowUpdate
    simp only
    have hit : (if frameNum &&& (RATE - 1) = 0 then 0 else cursor) ≤ activeUnits.length := by
      split
      · exact Nat.zero_le _
      · exact hcursor
    rw [slowUpdateLoop_eq activeUnits _ _ _ rfl (Int.natCast_nonneg _) hit, seg_length,
      Int.toNat_ofNat]
    generalize activeUnits.length / RATE = q
    omega

/-- Claim C20 as amended, for three units and rate 2: the budget is 2, which is
`ceil(3 / 2)`, and at frame 0 two units are processed. -/
theorem C20_slow_update_budget_witness :
    slowCount 2 [10, 11, 12] = 2 ∧
    slowCount 2 [10, 11, 12] = (specSlowCount 2 3 : Int) ∧
    (Update_slowUpdate 2 0 [10, 11, 12] 0).2.length = 2 :=
  ⟨(C20_slow_update_budget 2 0 0 [10, 11, 12] (by decide) (by decide)).1,
   (C20_slow_update_budget 2 0 0 [10, 11, 12] (by decide) (by decide)).2.1 (by decide),
   (C20_slow_update_budget 2 0 0 [10, 11, 12] (by decide) (by decide)).2.2.2⟩

/-- Claim C20 fails as stated: with 16 active units and `UNIT_SLOWUPDATE_RATE = 16` the bound
of the pooled phase and the budget of the sequential loop are 2, and the sequential loop
processes two units at frame 0, while `ceil(16 / 16)` is 1; with an empty active set the
bound is 1, while `ceil(0 / 16)` is 0. -/
theorem C20_counterexample_rate_divides_count :
    slowCount 16 (List.range 16) = 2 ∧
    (Update_slowUpdate 16 0 (List.range 16) 0).2 = [0, 1] ∧
    specSlowCount 16 (List.range 16).length = 1 ∧
    slowCount 16 [] = 1 ∧
    specSlowCount 16 0 = 0 := by
  decide

/-! ### Where `AddUnit` inserts -/

theorem eraseIdx_insertAt (unit : CUnit) (l : List CUnit) (ui : Nat) (h : ui ≤ l.length) :
    (l.take ui ++ unit :: l.drop ui).eraseIdx ui = l ∧
    (l.take ui ++ unit :: l.drop ui)[ui]? = some unit := by
  have hlen : (l.take ui).length = ui := by simp [h]
  refine ⟨?_, ?_⟩
  · rw [List.eraseIdx_append_of_length_le (by rw [hlen]), hlen, Nat.sub_self]
    simp
  · rw [List.getElem?_append_right (by rw [hlen]), hlen, Nat.sub_self]
    simp

theorem erase_insertAt (unit : CUnit) (l : List CUnit) (ui : Nat) (hfresh : unit ∉ l) :
    (l.take ui ++ unit :: l.drop ui).erase unit = l := by
  have h1 : unit ∉ l.take ui := fun h => hfresh (List.mem_of_mem_take h)
  rw [List.erase_append_right _ h1, List.erase_cons_head, List.take_append_drop]

/-! ### Single-precision rounding of the insertion index -/

theorem excessBits_small (fuel n : Nat) (h : n < 2 ^ 24) : excessBits fuel n = 0 := by
  cases fuel with
  | zero => rfl
  | succ fuel => simp only [excessBits, if_pos h]

theorem excessBits_spec : ∀ (fuel n : Nat), n < 2 ^ (24 + fuel) →
    n / 2 ^ excessBits fuel n < 2 ^ 24 ∧
    (2 ^ 24 ≤ n → 0 < excessBits fuel n ∧ 2 ^ (23 + excessBits fuel n) ≤ n) := by
  intro fuel
  induction fuel with
  | zero =>
    intro n hn
    have hn2 : n < 2 ^ 24 := hn
    refine ⟨?_, fun h => absurd hn2 (Nat.not_lt.2 h)⟩
    simp only [excessBits, pow_zero, Nat.div_one]
    exact hn2
  | succ fuel ih =>
    intro n hn
    by_cases h : n < 2 ^ 24
    · rw [excessBits_small _ _ h]
      refine ⟨?_, fun h2 => absurd h (Nat.not_lt.2 h2)⟩
      simp only [pow_zero, Nat.div_one]
      exact h
    · have hstep : excessBits (fuel + 1) n = excessBits fuel (n / 2) + 1 := by
        simp only [excessBits, if_neg h]
      rw [hstep]
      have hn2 : n / 2 < 2 ^ (24 + fuel) := by
        rw [Nat.div_lt_iff_lt_mul (by decide)]
        rw [show 24 + (fuel + 1) = (24 + fuel) + 1 by omega, pow_succ] at hn
        exact hn
      obtain ⟨h1, h2⟩ := ih (n / 2) hn2
      refine ⟨?_, fun _ => ⟨Nat.succ_pos _, ?_⟩⟩
      · rw [pow_succ', ← Nat.div_div_eq_div_mul]
        exact h1
      · by_cases h3 : 2 ^ 24 ≤ n / 2
        · have h4 := (h2 h3).2
          rw [show 23 + (excessBits fuel (n / 2) + 1) = (23 + excessBits fuel (n / 2)) + 1
            by omega, pow_succ]
          have h5 := Nat.div_mul_le_self n 2
          omega
        · rw [excessBits_small _ _ (Nat.lt_of_not_le h3)]
          exact Nat.le_of_not_lt h

/-- The rounding of `roundToFloat` is rounding to nearest, ties to even: a number `n` below
`2^24` is kept as it is, and for `2^(23+d) ≤ n < 2^(24+d)` the result is a multiple
`mant · 2^d` of the spacing `2^d` of the 24-bit numbers of that range, at a distance of at
most half the spacing from `n`, with `mant` even when `n` is half-way between two of them. -/
theorem roundToFloat_nearest (n : Nat) (e : Int) :
    (n < 2 ^ 24 → roundToFloat n e = ⟨n, e⟩) ∧
    (2 ^ 24 ≤ n → ∃ d : Nat, 0 < d ∧ 2 ^ (23 + d) ≤ n ∧ n < 2 ^ (24 + d) ∧
      (roundToFloat n e).expo = e + d ∧
      2 ^ 23 ≤ (roundToFloat n e).mant ∧ (roundToFloat n e).mant ≤ 2 ^ 24 ∧
      2 * n ≤ 2 * ((roundToFloat n e).mant * 2 ^ d) + 2 ^ d ∧
      2 * ((roundToFloat n e).mant * 2 ^ d) ≤ 2 * n + 2 ^ d ∧
      ((2 * n = 2 * ((roundToFloat n e).mant * 2 ^ d) + 2 ^ d ∨
          2 * ((roundToFloat n e).mant * 2 ^ d) = 2 * n + 2 ^ d) →
        (roundToFloat n e).mant % 2 = 0)) := by
  refine ⟨fun h => by rw [roundToFloat, if_pos h], fun hbig => ?_⟩
  have hsmall : ¬ n < 2 ^ 24 := Nat.not_lt.2 hbig
  have hspec := excessBits_spec n n (lt_of_lt_of_le (Nat.lt_two_pow n)
    (Nat.pow_le_pow_right (by decide) (by omega)))
  obtain ⟨hpos, hlow⟩ := hspec.2 hbig
  have hq := hspec.1
  generalize hd : excessBits n n = d at hpos hlow hq
  have hD : 0 < 2 ^ d := Nat.two_pow_pos d
  have hDH : 2 ^ d = 2 * 2 ^ (d - 1) := by
    rw [← pow_succ', Nat.sub_add_cancel hpos]
  have hdm := Nat.div_add_mod n (2 ^ d)
  have hml := Nat.mod_lt n hD
  have hup : n < 2 ^ (24 + d) := by
    rw [pow_add]
    exact (Nat.div_lt_iff_lt_mul hD).1 hq
  have hqlow : 2 ^ 23 ≤ n / 2 ^ d := by
    rw [Nat.le_div_iff_mul_le hD, ← pow_add]
    exact hlow
  refine ⟨d, hpos, hlow, hup, ?_⟩
  by_cases hcond : 2 ^ (d - 1) < n % 2 ^ d ∨ (n % 2 ^ d = 2 ^ (d - 1) ∧ n / 2 ^ d % 2 = 1)
  · have hr : roundToFloat n e = ⟨n / 2 ^ d + 1, e + d⟩ := by
      rw [roundToFloat, if_neg hsmall]
      simp only [hd, if_pos hcond]
    rw [hr]
    simp only
    generalize n / 2 ^ d = q at hdm hq hqlow hcond ⊢
    generalize n % 2 ^ d = rest at hdm hml hcond ⊢
    generalize 2 ^ (d - 1) = H at hDH hcond ⊢
    have hexp : (q + 1) * 2 ^ d = 2 ^ d * q + 2 ^ d := by ring
    generalize 2 ^ d = D at hD hDH hdm hml hexp ⊢
    refine ⟨trivial, by omega, by omega, by omega, by omega, ?_⟩
    intro htie
    rcases hcond with h | ⟨_, h⟩
    · omega
    · omega
  · have hr : roundToFloat n e = ⟨n / 2 ^ d, e + d⟩ := by
      rw [roundToFloat, if_neg hsmall]
      simp only [hd, if_neg hcond]
    rw [hr]
    simp only
    rw [not_or, not_and_or] at hcond
    generalize n / 2 ^ d = q at hdm hq hqlow hcond ⊢
    generalize n % 2 ^ d = rest at hdm hml hcond ⊢
    generalize 2 ^ (d - 1) = H at hDH hcond ⊢
    have hexp : q * 2 ^ d = 2 ^ d * q := by ring
    generalize 2 ^ d = D at hD hDH hdm hml hexp ⊢
    refine ⟨trivial, by omega, by omega, by omega, by omega, ?_⟩
    intro htie
    rcases hcond with ⟨h1, h2 | h2⟩
    · omega
    · omega

theorem float.toUInt_scaled (M k d : Nat) (h : d ≤ k) :
    float.toUInt ⟨M, -(k : Int) + (d : Int)⟩ = M / 2 ^ (k - d) := by
  unfold float.toUInt
  by_cases hkd : d = k
  · subst hkd
    simp
  · have hlt : d < k := Nat.lt_of_le_of_ne h hkd
    have hneg : ¬ (0 : Int) ≤ -(k : Int) + (d : Int) := by omega
    have hk : (-(-(k : Int) + (d : Int))).toNat = k - d := by omega
    simp only [if_neg hneg, hk]

/-- The truncated rounded value of `N / 2^k`, for a product `N` below `2^(24+k)`: the kept
part `N / 2^d` or its successor, scaled down by the remaining `k - d` bits. -/
theorem toUInt_roundToFloat (N k : Nat) (hN : N < 2 ^ (24 + k)) :
    float.toUInt (roundToFloat N (-(k : Int))) = N / 2 ^ k ∨
    (2 ^ 24 ≤ N ∧ excessBits N N ≤ k ∧ 0 < excessBits N N ∧
      2 ^ (23 + excessBits N N) ≤ N ∧
      2 ^ (excessBits N N - 1) ≤ N % 2 ^ excessBits N N ∧
      float.toUInt (roundToFloat N (-(k : Int)))
        = (N / 2 ^ excessBits N N + 1) / 2 ^ (k - excessBits N N)) := by
  by_cases hsmall : N < 2 ^ 24
  · left
    have h := float.toUInt_scaled N k 0 (Nat.zero_le k)
    simp only [Int.ofNat_zero, Int.add_zero, Nat.sub_zero, Nat.cast_zero, add_zero] at h
    rw [roundToFloat, if_pos hsmall]
    exact h
  · have hspec := excessBits_spec N N (lt_of_lt_of_le (Nat.lt_two_pow N)
      (Nat.pow_le_pow_right (by decide) (by omega)))
    obtain ⟨hpos, hlow⟩ := hspec.2 (Nat.le_of_not_lt hsmall)
    generalize hd : excessBits N N = d at hpos hlow hspec
    have hdk : d ≤ k := by
      by_contra hcon
      have h1 : 2 ^ (24 + k) ≤ 2 ^ (23 + d) :=
        Nat.pow_le_pow_right (by decide) (by omega)
      omega
    have hdiv : N / 2 ^ k = N / 2 ^ d / 2 ^ (k - d) := by
      rw [Nat.div_div_eq_div_mul, ← pow_add, Nat.add_sub_cancel' hdk]
    by_cases hup : 2 ^ (d - 1) < N % 2 ^ d ∨ (N % 2 ^ d = 2 ^ (d - 1) ∧ N / 2 ^ d % 2 = 1)
    · right
      refine ⟨Nat.le_of_not_lt hsmall, hdk, hpos, hlow, ?_, ?_⟩
      · rcases hup with h | h
        · exact Nat.le_of_lt h
        · exact Nat.le_of_eq h.1.symm
      · rw [roundToFloat, if_neg hsmall]
        simp only [hd, if_pos hup]
        exact float.toUInt_scaled _ k d hdk
    · left
      rw [roundToFloat, if_neg hsmall]
      simp only [hd, if_neg hup]
      rw [float.toUInt_scaled _ k d hdk, hdiv]

/-- The index computed for the draw `m / 2^k < 1` with a 24-bit `m` and fewer than `2^24`
units, against the exact quotient `m * size / 2^k`. -/
theorem truncRound_bounds (m k size : Nat) (hm : m < 2 ^ 24) (hr : m < 2 ^ k)
    (hs : size < 2 ^ 24) :
    m * size / 2 ^ k ≤ float.toUInt (roundToFloat (m * size) (-(k : Int))) ∧
    float.toUInt (roundToFloat (m * size) (-(k : Int))) ≤ m * size / 2 ^ k + 1 ∧
    (0 < size → float.toUInt (roundToFloat (m * size) (-(k : Int))) < size) ∧
    (m * size < 2 ^ 24 →
      float.toUInt (roundToFloat (m * size) (-(k : Int))) = m * size / 2 ^ k) ∧
    (float.toUInt (roundToFloat (m * size) (-(k : Int))) = m * size / 2 ^ k + 1 →
      2 ^ 24 * ((m * size / 2 ^ k + 1) * 2 ^ k - m * size) < (m * size / 2 ^ k + 1) * 2 ^ k) := by
  have hk : 0 < 2 ^ k := Nat.two_pow_pos _
  have hN : m * size < 2 ^ (24 + k) := by
    rcases Nat.eq_zero_or_pos size with h0 | hpos
    · subst h0
      simp
    · calc m * size < 2 ^ k * size := Nat.mul_lt_mul_of_pos_right hr hpos
        _ ≤ 2 ^ k * 2 ^ 24 := Nat.mul_le_mul_left _ (Nat.le_of_lt hs)
        _ = 2 ^ (24 + k) := by rw [pow_add, Nat.mul_comm]
  have hflt : 0 < size → m * size / 2 ^ k < size := by
    intro hpos
    rw [Nat.div_lt_iff_lt_mul hk]
    calc m * size < 2 ^ k * size := Nat.mul_lt_mul_of_pos_right hr hpos
      _ = size * 2 ^ k := Nat.mul_comm _ _
  -- `N + size ≤ 2^k * size` and `N < 2^24 * size` for a non-empty list
  have hNs : m * size + size ≤ 2 ^ k * size := by
    calc m * size + size = (m + 1) * size := by ring
      _ ≤ 2 ^ k * size := Nat.mul_le_mul_right _ hr
  have hNm : 0 < size → m * size < 2 ^ 24 * size :=
    fun hpos => Nat.mul_lt_mul_of_pos_right hm hpos
  rcases toUInt_roundToFloat (m * size) k hN with hidx | ⟨hbig, hdk, hdpos, hlow, hrest, hidx⟩
  · rw [hidx]
    exact ⟨Nat.le_refl _, Nat.le_succ _, hflt, fun _ => rfl, fun h => absurd h (by omega)⟩
  · rw [hidx]
    generalize hNdef : m * size = N at hN hflt hNs hNm hbig hdk hdpos hlow hrest hidx ⊢
    generalize hddef : excessBits N N = d at hdk hdpos hlow hrest hidx ⊢
    have hc : 0 < 2 ^ (k - d) := Nat.two_pow_pos _
    have hD : 0 < 2 ^ d := Nat.two_pow_pos _
    have hK : 2 ^ k = 2 ^ (k - d) * 2 ^ d := by
      rw [← pow_add, Nat.sub_add_cancel hdk]
    have hDH : 2 ^ d = 2 * 2 ^ (d - 1) := by
      rw [← pow_succ', Nat.sub_add_cancel hdpos]
    have hlow2 : 2 ^ 24 * 2 ^ (d - 1) ≤ N := by
      rw [← pow_add]
      have : 24 + (d - 1) = 23 + d := by omega
      rw [this]
      exact hlow
    have hdiv : N / 2 ^ k = N / 2 ^ d / 2 ^ (k - d) := by
      rw [Nat.div_div_eq_div_mul, ← pow_add, Nat.add_sub_cancel' hdk]
    have hqD := Nat.div_add_mod N (2 ^ d)
    have hgc := Nat.div_add_mod (N / 2 ^ d) (2 ^ (k - d))
    have hgc2 := Nat.mod_lt (N / 2 ^ d) hc
    have hfK := Nat.div_add_mod N (2 ^ k)
    have hfK2 := Nat.mod_lt N hk
    rw [hdiv] at hfK ⊢
    generalize hq : N / 2 ^ d = q at hqD hgc hgc2 hfK ⊢
    generalize hg : q / 2 ^ (k - d) = g at hgc hfK ⊢
    generalize hrm : N % 2 ^ d = rm at hqD hrest
    generalize hc' : 2 ^ (k - d) = c at hc hK hgc hgc2 hg ⊢
    generalize hH : 2 ^ (d - 1) = H at hDH hlow2 hrest
    generalize hD' : 2 ^ d = D at hD hK hDH hqD
    generalize hK' : 2 ^ k = K at hk hK hfK hfK2 hNs ⊢
    -- `(q + 1) * D ≤ N + H`
    have hup : (q + 1) * D ≤ N + H := by
      have : (q + 1) * D = D * q + D := by ring
      omega
    refine ⟨by rw [← hg]; exact Nat.div_le_div_right (Nat.le_succ q), ?_, ?_,
      fun h => absurd h (by omega), ?_⟩
    · calc (q + 1) / c ≤ (q + c) / c := Nat.div_le_div_right (by omega)
        _ = q / c + 1 := Nat.add_div_right q hc
        _ = g + 1 := by rw [hg]
    · intro hpos
      rw [Nat.div_lt_iff_lt_mul hc]
      have hHs : H < size := by
        have h1 := hNm hpos
        have h2 : 2 ^ 24 * H < 2 ^ 24 * size := lt_of_le_of_lt hlow2 h1
        exact Nat.lt_of_mul_lt_mul_left h2
      have h3 : (q + 1) * D < size * c * D := by
        calc (q + 1) * D ≤ N + H := hup
          _ < N + size := by omega
          _ ≤ K * size := hNs
          _ = size * c * D := by rw [hK]; ring
      exact Nat.lt_of_mul_lt_mul_right h3
    · intro hsucc
      have h1 : (g + 1) * c ≤ q + 1 := by
        have := Nat.div_mul_le_self (q + 1) c
        rw [hsucc] at this
        exact this
      have h2 : (g + 1) * c = c * g + c := by ring
      have h3 : (g + 1) * K = (q + 1) * D := by
        have h4 : (g + 1) * c = q + 1 := by omega
        rw [hK, ← Nat.mul_assoc, h4]
      have h5 : (g + 1) * K = K * g + K := by ring
      have h6 : 2 ^ 24 * ((g + 1) * K - N) ≤ 2 ^ 24 * H :=
        Nat.mul_le_mul_left _ (by omega)
      omega

theorem float.lt_one_cases (r : float) (hr : r.toRat < 1) :
    r.mant = 0 ∨ ∃ k : Nat, r.expo = -(k : Int) ∧ r.mant < 2 ^ k := by
  by_cases h0 : r.mant = 0
  · exact Or.inl h0
  · right
    have hm1 : (1 : ℚ) ≤ (r.mant : ℚ) := by
      exact_mod_cast Nat.one_le_iff_ne_zero.2 h0
    unfold float.toRat at hr
    by_cases he : 0 ≤ r.expo
    · exfalso
      have h2 : (1 : ℚ) ≤ 2 ^ r.expo := one_le_zpow₀ (by norm_num) he
      have h3 : (1 : ℚ) ≤ (r.mant : ℚ) * 2 ^ r.expo := by
        calc (1 : ℚ) = 1 * 1 := by norm_num
          _ ≤ (r.mant : ℚ) * 2 ^ r.expo := mul_le_mul hm1 h2 (by norm_num) (by linarith)
      linarith
    · refine ⟨(-r.expo).toNat, by omega, ?_⟩
      have hk : r.expo = -(((-r.expo).toNat : Nat) : Int) := by omega
      rw [hk, zpow_neg, zpow_natCast] at hr
      have hpos : (0 : ℚ) < 2 ^ (-r.expo).toNat := by positivity
      have h4 : (r.mant : ℚ) < 2 ^ (-r.expo).toNat := by
        have := mul_lt_mul_of_pos_right hr hpos
        rwa [mul_assoc, inv_mul_cancel₀ (ne_of_gt hpos), mul_one, one_mul] at this
      exact_mod_cast h4

theorem float.toRat_mul_size (m size k : Nat) :
    (⟨m, -(k : Int)⟩ : float).toRat * (size : ℚ) = ((m * size : Nat) : ℚ) / ((2 ^ k : Nat) : ℚ) := by
  unfold float.toRat
  simp only [zpow_neg, zpow_natCast]
  push_cast
  ring

/-- The index of line 160 against the exact product of the draw and the size: for a draw
`r < 1` with a 24-bit significand and fewer than `2^24` units, the index is `floor(r * size)`
or one more; it is below `size`; it is `floor(r * size)` when the product needs no rounding;
and it is one more only if `r * size` is within the relative distance `2^-24` below the next
integer. -/
theorem insertionPos_spec (r : float) (size : Nat) (hm : r.mant < 2 ^ 24) (hr : r.toRat < 1)
    (hs : size < 2 ^ 24) :
    ⌊r.toRat * (size : ℚ)⌋₊ ≤ insertionPos r size ∧
    insertionPos r size ≤ ⌊r.toRat * (size : ℚ)⌋₊ + 1 ∧
    (0 < size → insertionPos r size < size) ∧
    (r.mant * size < 2 ^ 24 → insertionPos r size = ⌊r.toRat * (size : ℚ)⌋₊) ∧
    (insertionPos r size = ⌊r.toRat * (size : ℚ)⌋₊ + 1 →
      ((⌊r.toRat * (size : ℚ)⌋₊ : ℚ) + 1 - r.toRat * (size : ℚ)) * 2 ^ 24
        < (⌊r.toRat * (size : ℚ)⌋₊ : ℚ) + 1) := by
  have hconv : float.ofUInt size = ⟨size, 0⟩ := by
    simp only [float.ofUInt, roundToFloat, if_pos hs]
  have hins : insertionPos r size = float.toUInt (roundToFloat (r.mant * size) r.expo) := by
    simp only [insertionPos, float.mul, hconv, Int.add_zero]
  rcases float.lt_one_cases r hr with h0 | ⟨k, hk, hmk⟩
  · have hval : r.toRat * (size : ℚ) = 0 := by
      simp [float.toRat, h0]
    have hidx : insertionPos r size = 0 := by
      rw [hins, h0, Nat.zero_mul]
      simp only [roundToFloat, float.toUInt]
      split <;> simp
    rw [hval, hidx, Nat.floor_zero]
    refine ⟨Nat.le_refl _, Nat.zero_le _, fun h => h, fun _ => rfl, fun h => absurd h (by omega)⟩
  · obtain ⟨m, e⟩ := r
    simp only at hk hmk hm hins
    subst hk
    have hfloor : ⌊(⟨m, -(k : Int)⟩ : float).toRat * (size : ℚ)⌋₊ = m * size / 2 ^ k := by
      rw [float.toRat_mul_size, Nat.floor_div_eq_div]
    obtain ⟨b1, b2, b3, b4, b5⟩ := truncRound_bounds m k size hm hmk hs
    rw [hfloor, hins]
    refine ⟨b1, b2, b3, b4, ?_⟩
    intro hsucc
    have h5 := b5 hsucc
    have hKpos : (0 : ℚ) < ((2 ^ k : Nat) : ℚ) := by
      exact_mod_cast Nat.two_pow_pos k
    have hle : m * size ≤ (m * size / 2 ^ k + 1) * 2 ^ k := by
      have hdm := Nat.div_add_mod (m * size) (2 ^ k)
      have hml := Nat.mod_lt (m * size) (Nat.two_pow_pos k)
      have hexp : (m * size / 2 ^ k + 1) * 2 ^ k = 2 ^ k * (m * size / 2 ^ k) + 2 ^ k := by
        ring
      omega
    have key : ((((m * size / 2 ^ k : Nat) : ℚ) + 1) * ((2 ^ k : Nat) : ℚ)
        - ((m * size : Nat) : ℚ)) * 2 ^ 24
        < (((m * size / 2 ^ k : Nat) : ℚ) + 1) * ((2 ^ k : Nat) : ℚ) := by
      have h6 : ((2 ^ 24 * ((m * size / 2 ^ k + 1) * 2 ^ k - m * size) : Nat) : ℚ)
          < (((m * size / 2 ^ k + 1) * 2 ^ k : Nat) : ℚ) := by
        exact_mod_cast h5
      rw [Nat.cast_mul, Nat.cast_sub hle] at h6
      push_cast at h6 ⊢
      linarith
    rw [float.toRat_mul_size]
    have hrew : (((m * size / 2 ^ k : Nat) : ℚ) + 1
          - ((m * size : Nat) : ℚ) / ((2 ^ k : Nat) : ℚ)) * 2 ^ 24
        = ((((m * size / 2 ^ k : Nat) : ℚ) + 1) * ((2 ^ k : Nat) : ℚ)
            - ((m * size : Nat) : ℚ)) * 2 ^ 24 / ((2 ^ k : Nat) : ℚ) := by
      field_simp
    rw [hrew, div_lt_iff₀ hKpos]
    exact key

/-- Claim C22, as amended: a successful `AddUnit(u)` (the free pool is not empty) into an
active set of `s < 2^24` units, with a draw `r < 1` of type `float`, inserts `u` at the index
that line 160 computes, the single-precision product of `r` and `s` converted to
`unsigned int`.  That index is `floor(r * s)` or `floor(r * s) + 1`; it is `floor(r * s)`
whenever the product needs no rounding, and it is one more only if `r * s` lies within the
relative distance `2^-24` below the next integer; it is below `s` for a non-empty set and
never exceeds `s`.  For an empty set the index is 0 whatever number is passed for the draw.
The new list is the old one with `u` put in at that index: removing that entry gives back the
old list, the old list is a sublist of the new one, and for a unit that was not active before
erasing `u` from the new list gives the old list. -/
theorem C22_AddUnit_inserts_at_rounded_product (flags : BuildFlags) (s : CUnitHandler)
    (u : CUnit) (r : float) (hfree : s.freeUnitIDs ≠ []) (hm : r.mant < 2 ^ 24)
    (hdraw : r.toRat < 1) (hsize : s.activeUnits.length < 2 ^ 24) :
    (AddUnit flags s u (insertionPos r s.activeUnits.length)).map
        (fun x => (x.1, x.2.activeUnits))
      = some (true,
          s.activeUnits.take (insertionPos r s.activeUnits.length)
            ++ u :: s.activeUnits.drop (insertionPos r s.activeUnits.length)) ∧
    ⌊r.toRat * (s.activeUnits.length : ℚ)⌋₊ ≤ insertionPos r s.activeUnits.length ∧
    insertionPos r s.activeUnits.length ≤ ⌊r.toRat * (s.activeUnits.length : ℚ)⌋₊ + 1 ∧
    (r.mant * s.activeUnits.length < 2 ^ 24 →
      insertionPos r s.activeUnits.length = ⌊r.toRat * (s.activeUnits.length : ℚ)⌋₊) ∧
    (insertionPos r s.activeUnits.length = ⌊r.toRat * (s.activeUnits.length : ℚ)⌋₊ + 1 →
      ((⌊r.toRat * (s.activeUnits.length : ℚ)⌋₊ : ℚ) + 1
          - r.toRat * (s.activeUnits.length : ℚ)) * 2 ^ 24
        < (⌊r.toRat * (s.activeUnits.length : ℚ)⌋₊ : ℚ) + 1) ∧
    (s.activeUnits ≠ [] → insertionPos r s.activeUnits.length < s.activeUnits.length) ∧
    insertionPos r s.activeUnits.length ≤ s.activeUnits.length ∧
    (s.activeUnits = [] → ∀ pos : Nat,
      (AddUnit flags s u pos).map (fun x => (x.1, x.2.activeUnits)) = some (true, [u])) ∧
    (s.activeUnits.take (insertionPos r s.activeUnits.length)
        ++ u :: s.activeUnits.drop (insertionPos r s.activeUnits.length))[
        insertionPos r s.activeUnits.length]? = some u ∧
    (s.activeUnits.take (insertionPos r s.activeUnits.length)
        ++ u :: s.activeUnits.drop (insertionPos r s.activeUnits.length)).eraseIdx
        (insertionPos r s.activeUnits.length) = s.activeUnits ∧
    s.activeUnits.Sublist
      (s.activeUnits.take (insertionPos r s.activeUnits.length)
        ++ u :: s.activeUnits.drop (insertionPos r s.activeUnits.length)) ∧
    (u ∉ s.activeUnits →
      (s.activeUnits.take (insertionPos r s.activeUnits.length)
        ++ u :: s.activeUnits.drop (insertionPos r s.activeUnits.length)).erase u
        = s.activeUnits) := by
  obtain ⟨n1, n2, n3, n4, n5⟩ := insertionPos_spec r s.activeUnits.length hm hdraw hsize
  have hidx : insertionPos r s.activeUnits.length ≤ s.activeUnits.length := by
    rcases Nat.eq_zero_or_pos s.activeUnits.length with h0 | hpos
    · have h1 := n1
      have h2 := n2
      rw [h0] at h1 h2 ⊢
      simp only [Nat.cast_zero, mul_zero, Nat.floor_zero] at h2
      have h3 : insertionPos r 0 = 0 := by
        have h4 := n4 (by rw [h0]; simp)
        rw [h0] at h4
        simpa using h4
      omega
    · exact Nat.le_of_lt (n3 hpos)
  have he := eraseIdx_insertAt u s.activeUnits _ hidx
  cases hf : s.freeUnitIDs with
  | nil => exact absurd hf hfree
  | cons id rest =>
    refine ⟨?_, n1, n2, n4, n5, fun hne => n3 (List.length_pos.2 hne), hidx, ?_, he.2, he.1,
      ?_, ?_⟩
    · by_cases hempty : s.activeUnits = []
      · simp only [AddUnit, hf, hempty, if_true, Option.map_some', List.take_nil,
          List.drop_nil, List.nil_append]
      · simp only [AddUnit, hf, hempty, if_false, Option.map_some']
    · intro hempty pos
      simp only [AddUnit, hf, hempty, if_true, Option.map_some', List.take_nil, List.drop_nil,
        List.nil_append]
    · have h2 := List.eraseIdx_sublist
        (s.activeUnits.take (insertionPos r s.activeUnits.length)
          ++ u :: s.activeUnits.drop (insertionPos r s.activeUnits.length))
        (insertionPos r s.activeUnits.length)
      rw [he.1] at h2
      exact h2
    · intro hfresh
      exact erase_insertAt u s.activeUnits _ hfresh

/-- Claim C22 as amended, on the handler holding units 10 to 20, adding unit 99 with the draw
`1/2`: the index is `floor(11/2) = 5`. -/
theorem C22_AddUnit_inserts_at_rounded_product_witness :
    (AddUnit ⟨true, false⟩ elevenUnits 99
        (insertionPos ⟨1, -1⟩ elevenUnits.activeUnits.length)).map
      (fun x => (x.1, x.2.activeUnits))
      = some (true, [10, 11, 12, 13, 14, 99, 15, 16, 17, 18, 19, 20]) ∧
    insertionPos ⟨1, -1⟩ elevenUnits.activeUnits.length
      = ⌊(⟨1, -1⟩ : float).toRat * (elevenUnits.activeUnits.length : ℚ)⌋₊ :=
  ⟨(C22_AddUnit_inserts_at_rounded_product ⟨true, false⟩ elevenUnits 99 ⟨1, -1⟩
      (by decide) (by decide) (by norm_num [float.toRat]) (by decide)).1,
   (C22_AddUnit_inserts_at_rounded_product ⟨true, false⟩ elevenUnits 99 ⟨1, -1⟩
      (by decide) (by decide) (by norm_num [float.toRat]) (by decide)).2.2.2.1 (by decide)⟩

/-- Claim C22 fails as stated: with 31 active units and the draw `r = 8659208 · 2^-28`, the
`float` nearest to `1057/32767`, the exact product `r * 31 = 1 - 2^-25` has integer part 0,
but it rounds to the `float` 1, so `AddUnit` puts the new unit at index 1, behind unit 10.
Rounding up to the next integer is not confined to ties: for the `float` nearest to
`217/32767` and 151 units the exact product is `1 - 2^-30` and the index is 1 as well. -/
theorem C22_counterexample_product_rounds_up :
    (⟨8659208, -28⟩ : float).toRat < 1 ∧
    |(⟨8659208, -28⟩ : float).toRat - 1057 / 32767| ≤ 2 ^ (-29 : ℤ) ∧
    ⌊(⟨8659208, -28⟩ : float).toRat * (thirtyOneUnits.activeUnits.length : ℚ)⌋₊ = 0 ∧
    (AddUnit ⟨true, false⟩ thirtyOneUnits 99
        (insertionPos ⟨8659208, -28⟩ thirtyOneUnits.activeUnits.length)).map
      (fun x => (x.1, x.2.activeUnits.take 3, x.2.activeUnits.length))
      = some (true, [10, 99, 11], 32) ∧
    ⌊(⟨14221746, -31⟩ : float).toRat * ((151 : Nat) : ℚ)⌋₊ = 0 ∧
    insertionPos ⟨14221746, -31⟩ 151 = 1 := by
  refine ⟨by norm_num [float.toRat], ?_, ?_, by decide, ?_, by decide⟩
  · rw [abs_le]
    constructor <;> norm_num [float.toRat]
  · have hlen : thirtyOneUnits.activeUnits.length = 31 := by decide
    rw [hlen]
    show ⌊(⟨8659208, -((28 : Nat) : Int)⟩ : float).toRat * ((31 : Nat) : ℚ)⌋₊ = 0
    rw [float.toRat_mul_size, Nat.floor_div_eq_div]
    decide
  · show ⌊(⟨14221746, -((31 : Nat) : Int)⟩ : float).toRat * ((151 : Nat) : ℚ)⌋₊ = 0
    rw [float.toRat_mul_size, Nat.floor_div_eq_div]
    decide

/-- The index for 151 units and the draw `13777316 · 2^-26`, the `float` nearest to
`6727/32767`, is 30: the draw is below `6727/32767`, whose exact product with 151 is 31. -/
theorem insertionPos_nearest_draw :
    |(⟨13777316, -26⟩ : float).toRat - 6727 / 32767| ≤ 2 ^ (-27 : ℤ) ∧
    insertionPos ⟨13777316, -26⟩ 151 = 30 ∧
    ⌊(⟨13777316, -26⟩ : float).toRat * ((151 : Nat) : ℚ)⌋₊ = 30 ∧
    6727 * 151 / 32767 = 31 := by
  refine ⟨?_, by decide, ?_, by decide⟩
  · rw [abs_le]
    constructor <;> norm_num [float.toRat]
  · show ⌊(⟨13777316, -((26 : Nat) : Int)⟩ : float).toRat * ((151 : Nat) : ℚ)⌋₊ = 30
    rw [float.toRat_mul_size, Nat.floor_div_eq_div]
    decide

/-! ### The queued query wrappers leave the handle table alone -/

theorem markDeleted_core {σ : Type} (pm : IPathManager σ) (cid h : Nat) :
    ((markDeleted pm cid).pathInfos.find h).map PathData.core
      = (pm.pathInfos.find h).map PathData.core ∧
    ((markDeleted pm cid).newPathInfos.find h).map PathData.core
      = (pm.newPathInfos.find h).map PathData.core := by
  unfold markDeleted
  cases h1 : pm.newPathInfos.find cid with
  | some p =>
    refine ⟨rfl, ?_⟩
    show ((pm.newPathInfos.insert cid _).find h).map PathData.core = _
    rw [PMap.find_insert]
    by_cases e : h = cid
    · subst e
      rw [if_pos rfl, h1]
      rfl
    · rw [if_neg e]
  | none =>
    cases h2 : pm.pathInfos.find cid with
    | some p =>
      refine ⟨?_, rfl⟩
      show ((pm.pathInfos.insert cid _).find h).map PathData.core = _
      rw [PMap.find_insert]
      by_cases e : h = cid
      · subst e
        rw [if_pos rfl, h2]
        rfl
      · rw [if_neg e]
    | none => exact ⟨rfl, rfl⟩

/-- One queued query call: the operation is appended, the entries keep their values, the
search is not touched. -/
theorem queued_query_step {σ : Type} (b : PathBackend σ) (pm : IPathManager σ) (st : PathStep)
    (op : PathOpData) (hop : st.queuedOp = some op) :
    (pathStep b pm st).pathOps = pm.pathOps ++ [op] ∧
    (pathStep b pm st).pops = pm.pops ∧
    (pathStep b pm st).pathUpdates = pm.pathUpdates ∧
    (pathStep b pm st).searchLog = pm.searchLog ∧
    (pathStep b pm st).search = pm.search ∧
    (∀ h, ((pathStep b pm st).pathInfos.find h).map PathData.core
      = (pm.pathInfos.find h).map PathData.core) ∧
    (∀ h, ((pathStep b pm st).newPathInfos.find h).map PathData.core
      = (pm.newPathInfos.find h).map PathData.core) := by
  cases st with
  | requestPath a => cases hop
  | thread => cases hop
  | nextWayPoint h pos d n o sy =>
    simp only [PathStep.queuedOp, Option.some.injEq] at hop
    subst hop
    have hshape : pathStep b pm (.nextWayPoint h pos d n o sy)
        = { pm with pathOps := pm.pathOps ++
            [⟨.NEXT_WAYPOINT, 0, pos, ZeroVector, d, o, sy, h, n⟩] } := by
      simp only [pathStep, NextWayPoint, Bool.not_true, Bool.false_eq_true, if_false]
      split
      · rfl
      · split <;> rfl
    rw [hshape]
    exact ⟨rfl, rfl, rfl, rfl, rfl, fun _ => rfl, fun _ => rfl⟩
  | pathUpdated h =>
    simp only [PathStep.queuedOp, Option.some.injEq] at hop
    subst hop
    have hshape : pathStep b pm (.pathUpdated h)
        = { pm with pathOps := pm.pathOps ++
            [⟨.PATH_UPDATED, 0, ZeroVector, ZeroVector, 0, 0, false, h, 0⟩] } := by
      simp only [pathStep, PathUpdated, Bool.not_true, Bool.false_eq_true, if_false]
      split
      · rfl
      · split <;> rfl
    rw [hshape]
    exact ⟨rfl, rfl, rfl, rfl, rfl, fun _ => rfl, fun _ => rfl⟩
  | updatePath o h =>
    simp only [PathStep.queuedOp, Option.some.injEq] at hop
    subst hop
    have hshape : pathStep b pm (.updatePath o h)
        = { pm with pathOps := pm.pathOps ++
            [⟨.UPDATE_PATH, 0, ZeroVector, ZeroVector, 0, o, false, h, 0⟩] } := by
      simp only [pathStep, UpdatePath, Bool.not_true, Bool.false_eq_true, if_false]
    rw [hshape]
    exact ⟨rfl, rfl, rfl, rfl, rfl, fun _ => rfl, fun _ => rfl⟩
  | deletePath h =>
    simp only [PathStep.queuedOp, Option.some.injEq] at hop
    subst hop
    obtain ⟨m1, m2, m3, m4, _, _, m7, _⟩ := markDeleted_frame pm h
    have hshape : pathStep b pm (.deletePath h)
        = { markDeleted pm h with pathOps := (markDeleted pm h).pathOps ++
            [⟨.DELETE_PATH, 0, ZeroVector, ZeroVector, 0, 0, false, h, 0⟩] } := by
      simp only [pathStep, DeletePath, Bool.not_true, Bool.false_eq_true, if_false]
    rw [hshape]
    exact ⟨by rw [← m1], m2, m3, m4, m7, fun k => (markDeleted_core pm h k).1,
      fun k => (markDeleted_core pm h k).2⟩

theorem queuedOp_tag_handle (st : PathStep) (op : PathOpData) (hop : st.queuedOp = some op) :
    st.tag = some op.type ∧ st.handle = some op.pathID := by
  cases st <;> cases hop <;> exact ⟨rfl, rfl⟩

/-- Claim C23: in threaded-path mode, any sequence of queued `NextWayPoint`, `UpdatePath`,
`PathUpdated` and `DeletePath` calls leaves the `(path id, next waypoint, updated)` values of
every entry of `pathInfos` and of `newPathInfos` as they were and removes no entry, makes no
call into the path search, leaves the path thread's batch and the result list alone, and
appends to `pathOps` exactly one operation per call, carrying the tag and the handle of the
call, in call order. -/
theorem C23_queued_queries_only_append {σ : Type} (b : PathBackend σ) (steps : List PathStep) :
    ∀ (pm : IPathManager σ), (∀ st ∈ steps, st.queuedOp ≠ none) →
      (pathRun b pm steps).pathOps = pm.pathOps ++ steps.filterMap PathStep.queuedOp ∧
      (steps.filterMap PathStep.queuedOp).map (fun o => (some o.type, some o.pathID))
        = steps.map (fun st => (st.tag, st.handle)) ∧
      (pathRun b pm steps).pops = pm.pops ∧
      (pathRun b pm steps).pathUpdates = pm.pathUpdates ∧
      (pathRun b pm steps).searchLog = pm.searchLog ∧
      (pathRun b pm steps).search = pm.search ∧
      (∀ h, ((pathRun b pm steps).pathInfos.find h).map PathData.core
        = (pm.pathInfos.find h).map PathData.core) ∧
      (∀ h, ((pathRun b pm steps).newPathInfos.find h).map PathData.core
        = (pm.newPathInfos.find h).map PathData.core) := by
  induction steps with
  | nil =>
    intro pm _
    exact ⟨by simp [pathRun], rfl, rfl, rfl, rfl, rfl, fun _ => rfl, fun _ => rfl⟩
  | cons st rest ih =>
    intro pm hq
    cases hop : st.queuedOp with
    | none => exact absurd hop (hq st (List.mem_cons_self _ _))
    | some op =>
      obtain ⟨s1, s2, s3, s4, s5, s6, s7⟩ := queued_query_step b pm st op hop
      obtain ⟨r1, r2, r3, r4, r5, r6, r7, r8⟩ :=
        ih (pathStep b pm st) (fun st' h' => hq st' (List.mem_cons_of_mem _ h'))
      obtain ⟨t1, t2⟩ := queuedOp_tag_handle st op hop
      have hrun : pathRun b pm (st :: rest) = pathRun b (pathStep b pm st) rest := rfl
      rw [hrun]
      refine ⟨?_, ?_, r3.trans s2, r4.trans s3, r5.trans s4, r6.trans s5,
        fun h => (r7 h).trans (s6 h), fun h => (r8 h).trans (s7 h)⟩
      · rw [r1, s1, List.filterMap_cons, hop, List.append_assoc]
        rfl
      · rw [List.filterMap_cons, hop, List.map_cons, List.map_cons, r2, t1, t2]

/-- Claim C23 after a queued request (handle 1): four queued query calls append their four
operations behind the request, in call order. -/
theorem C23_queued_queries_only_append_witness :
    (pathRun countingBackend
        (pathRun countingBackend (IPathManager.fresh true) [.requestPath sampleArgs])
        [.nextWayPoint 1 ⟨4, 4, 4⟩ 0 0 5 true, .pathUpdated 1, .updatePath 5 1,
          .deletePath 1]).pathOps.map (fun o => (o.type, o.pathID))
      = [(.REQUEST_PATH, 1), (.NEXT_WAYPOINT, 1), (.PATH_UPDATED, 1), (.UPDATE_PATH, 1),
          (.DELETE_PATH, 1)] := by
  rw [(C23_queued_queries_only_append countingBackend
    [.nextWayPoint 1 ⟨4, 4, 4⟩ 0 0 5 true, .pathUpdated 1, .updatePath 5 1, .deletePath 1]
    (pathRun countingBackend (IPathManager.fresh true) [.requestPath sampleArgs])
    (by decide)).1]
  decide

/-! ### Tags and the default branches -/

theorem PMap.mem_insert {α : Type} (m : PMap α) (k : Nat) (v : α) (e : Nat × α)
    (he : e ∈ m.insert k v) : e = (k, v) ∨ e ∈ m := by
  induction m with
  | nil =>
    simp only [PMap.insert, List.mem_singleton] at he
    exact Or.inl he
  | cons e1 rest ih =>
    obtain ⟨k1, v1⟩ := e1
    rw [PMap.insert_cons] at he
    split at he
    · rcases List.mem_cons.1 he with h | h
      · exact Or.inl h
      · exact Or.inr h
    · split at he
      · rcases List.mem_cons.1 he with h | h
        · exact Or.inl h
        · exact Or.inr (List.mem_cons_of_mem _ h)
      · rcases List.mem_cons.1 he with h | h
        · exact Or.inr (h ▸ List.mem_cons_self _ _)
        · rcases ih h with h2 | h2
          · exact Or.inl h2
          · exact Or.inr (List.mem_cons_of_mem _ h2)

theorem PMap.find_mem {α : Type} (m : PMap α) (k : Nat) (v : α) (h : m.find k = some v) :
    (k, v) ∈ m := by
  induction m with
  | nil => cases h
  | cons e1 rest ih =>
    obtain ⟨k1, v1⟩ := e1
    simp only [PMap.find] at h
    split at h
    · rename_i e
      simp only [Option.some.injEq] at h
      subst e h
      exact List.mem_cons_self _ _
    · exact List.mem_cons_of_mem _ (ih h)

theorem pushUpdate_tags (m : PMap (List PathUpdateData)) (k : Nat) (u0 : PathUpdateData)
    (hm : ∀ e ∈ m, ∀ u ∈ e.2, u.type.isUpdate = true) (h0 : u0.type.isUpdate = true) :
    ∀ e ∈ pushUpdate m k u0, ∀ u ∈ e.2, u.type.isUpdate = true := by
  intro e he u hu
  rcases PMap.mem_insert m k _ e he with h | h
  · subst h
    rcases List.mem_append.1 hu with h1 | h1
    · cases hf : m.find k with
      | none => rw [hf] at h1; cases h1
      | some old =>
        rw [hf] at h1
        exact hm _ (PMap.find_mem m k old hf) u h1
    · rw [List.mem_singleton.1 h1]
      exact h0
  · exact hm e h u hu

theorem threadOp_tags {σ : Type} (b : PathBackend σ) (pm : IPathManager σ) (cid : PathOpData)
    (hm : ∀ e ∈ pm.pathUpdates, ∀ u ∈ e.2, u.type.isUpdate = true) :
    (∀ e ∈ (threadOp b pm cid).pathUpdates, ∀ u ∈ e.2, u.type.isUpdate = true) ∧
    (cid.type.isOp = true → (threadOp b pm cid).invalidLogged = pm.invalidLogged) ∧
    (cid.type.isOp = false →
      threadOp b pm cid = { pm with invalidLogged := pm.invalidLogged + 1 }) := by
  unfold threadOp
  simp only [Nat.zero_le, if_true]
  split
  · exact ⟨pushUpdate_tags _ _ _ hm rfl, fun _ => rfl, fun h => by simp_all [PathRequestType.isOp]⟩
  · exact ⟨pushUpdate_tags _ _ _ hm rfl, fun _ => rfl, fun h => by simp_all [PathRequestType.isOp]⟩
  · exact ⟨hm, fun _ => rfl, fun h => by simp_all [PathRequestType.isOp]⟩
  · exact ⟨pushUpdate_tags _ _ _ hm rfl, fun _ => rfl, fun h => by simp_all [PathRequestType.isOp]⟩
  · exact ⟨pushUpdate_tags _ _ _ hm rfl, fun _ => rfl, fun h => by simp_all [PathRequestType.isOp]⟩
  · rename_i h1 h2 h3 h4 h5
    refine ⟨hm, fun h => ?_, fun _ => rfl⟩
    cases ht : cid.type <;> simp_all [PathRequestType.isOp]

theorem markDeleted_invalidLogged {σ : Type} (pm : IPathManager σ) (h : Nat) :
    (markDeleted pm h).invalidLogged = pm.invalidLogged := by
  unfold markDeleted
  split
  · rfl
  · split <;> rfl

theorem wrapper_invalidLogged {σ : Type} (b : PathBackend σ) (pm : IPathManager σ)
    (st : PathStep) (hst : st ≠ .thread) :
    (pathStep b pm st).invalidLogged = pm.invalidLogged := by
  cases st with
  | thread => exact absurd rfl hst
  | requestPath a => rfl
  | nextWayPoint h pos d n o sy =>
    simp only [pathStep, NextWayPoint, Bool.not_true, Bool.false_eq_true, if_false]
    split
    · rfl
    · split <;> rfl
  | pathUpdated h =>
    simp only [pathStep, PathUpdated, Bool.not_true, Bool.false_eq_true, if_false]
    split
    · rfl
    · split <;> rfl
  | updatePath o h => rfl
  | deletePath h =>
    simp only [pathStep, DeletePath, Bool.not_true, Bool.false_eq_true, if_false]
    exact markDeleted_invalidLogged pm h

theorem wrapper_tag {σ : Type} (b : PathBackend σ) (pm : IPathManager σ)
    (st : PathStep) (hst : st ≠ .thread) :
    ∃ o, o.type.isOp = true ∧ (pathStep b pm st).pathOps = pm.pathOps ++ [o] ∧
      (pathStep b pm st).pops = pm.pops ∧
      (pathStep b pm st).pathUpdates = pm.pathUpdates := by
  cases hq : st.queuedOp with
  | some op =>
    obtain ⟨s1, s2, s3, _⟩ := queued_query_step b pm st op hq
    refine ⟨op, ?_, s1, s2, s3⟩
    cases st <;> cases hq <;> rfl
  | none =>
    cases st with
    | thread => exact absurd rfl hst
    | requestPath a =>
      exact ⟨requestOp ((pm.pathRequestID + 1) % 2 ^ 32) a, rfl, rfl, rfl, rfl⟩
    | nextWayPoint h pos d n o sy => cases hq
    | pathUpdated h => cases hq
    | updatePath o h => cases hq
    | deletePath h => cases hq

theorem pathStep_tags {σ : Type} (b : PathBackend σ) (pm : IPathManager σ) (st : PathStep)
    (h : TagsOk pm) :
    TagsOk (pathStep b pm st) ∧ (pathStep b pm st).invalidLogged = pm.invalidLogged := by
  obtain ⟨hops, hupd⟩ := h
  by_cases hst : st = .thread
  · subst hst
    show TagsOk (threadStep b pm) ∧ (threadStep b pm).invalidLogged = pm.invalidLogged
    unfold threadStep
    cases hp : pm.pops with
    | nil =>
      refine ⟨⟨?_, hupd⟩, ?_⟩
      · intro o ho
        apply hops
        rw [hp]
        simpa using ho
      · rfl
    | cons cid rest =>
      simp only
      obtain ⟨_, _, f3, f4, _, _⟩ := threadOp_frame b { pm with pops := rest } cid
      obtain ⟨t1, t2, _⟩ := threadOp_tags b { pm with pops := rest } cid hupd
      have hcid : cid.type.isOp = true := hops cid (by rw [hp]; simp)
      refine ⟨⟨?_, t1⟩, t2 hcid⟩
      intro o ho
      rw [f3, f4] at ho
      apply hops
      rw [hp]
      rcases List.mem_append.1 ho with h1 | h1
      · exact List.mem_append_left _ (List.mem_cons_of_mem _ h1)
      · exact List.mem_append_right _ h1
  · obtain ⟨o, ho, w1, w2, w3⟩ := wrapper_tag b pm st hst
    refine ⟨⟨?_, by rw [w3]; exact hupd⟩, wrapper_invalidLogged b pm st hst⟩
    intro o' ho'
    rw [w1, w2, ← List.append_assoc] at ho'
    rcases List.mem_append.1 ho' with h1 | h1
    · exact hops o' h1
    · rw [List.mem_singleton.1 h1]
      exact ho

theorem pathRun_tags {σ : Type} (b : PathBackend σ) (steps : List PathStep) :
    ∀ pm : IPathManager σ, TagsOk pm →
      TagsOk (pathRun b pm steps) ∧ (pathRun b pm steps).invalidLogged = pm.invalidLogged := by
  induction steps with
  | nil => intro pm h; exact ⟨h, rfl⟩
  | cons st rest ih =>
    intro pm h
    obtain ⟨h1, h2⟩ := pathStep_tags b pm st h
    obtain ⟨h3, h4⟩ := ih (pathStep b pm st) h1
    exact ⟨h3, h4.trans h2⟩

theorem mergeLogs_of_tags (updates : PMap (List PathUpdateData))
    (h : ∀ e ∈ updates, ∀ u ∈ e.2, u.type.isUpdate = true) : mergeLogs updates = 0 := by
  unfold mergeLogs
  apply List.sum_eq_zero
  intro n hn
  obtain ⟨e, he, rfl⟩ := List.mem_map.1 hn
  rw [List.length_eq_zero, List.filter_eq_nil_iff]
  intro u hu
  have := h e he u hu
  cases ht : u.type <;> simp_all [PathRequestType.isUpdate]

theorem SynchronizeThread_tags {σ : Type} (b : PathBackend σ) (pm : IPathManager σ)
    (h : TagsOk pm) :
    TagsOk (SynchronizeThread b pm) ∧
    (SynchronizeThread b pm).invalidLogged = pm.invalidLogged ∧
    mergeLogs (threadDrain b pm).pathUpdates = 0 := by
  obtain ⟨h1, h2⟩ := pathRun_tags b
    (List.replicate (pm.pops.length + 1 + pm.pathOps.length) .thread) pm h
  have hd : threadDrain b pm
      = pathRun b pm (List.replicate (pm.pops.length + 1 + pm.pathOps.length) .thread) := rfl
  rw [← hd] at h1 h2
  refine ⟨?_, ?_, mergeLogs_of_tags _ h1.2⟩
  · unfold SynchronizeThread
    split
    · exact h
    · exact ⟨h1.1, fun e he => by cases he⟩
  · unfold SynchronizeThread
    split
    · rfl
    · exact h2

/-- Claim C24: every operation a queued wrapper pushes onto `pathOps` carries a tag with a
case in the path thread's switch; from a state whose queues hold only handled tags (such as
the initial one), after any sequence of wrapper calls and thread steps all queued operations
and all pending results still carry handled tags, the thread has logged no
"Invalid path request", and `SynchronizeThread` logs no "Invalid path update"; an operation
with any other tag only adds a log line, an update with any other tag changes nothing. -/
theorem C24_tags_are_handled {σ : Type} (b : PathBackend σ) (pm : IPathManager σ)
    (steps : List PathStep) (h : TagsOk pm) :
    (∀ (pm' : IPathManager σ) (st : PathStep), st ≠ .thread →
      ∃ o, o.type.isOp = true ∧ (pathStep b pm' st).pathOps = pm'.pathOps ++ [o]) ∧
    TagsOk (pathRun b pm steps) ∧
    (pathRun b pm steps).invalidLogged = pm.invalidLogged ∧
    mergeLogs (threadDrain b (pathRun b pm steps)).pathUpdates = 0 ∧
    (SynchronizeThread b (pathRun b pm steps)).invalidLogged = pm.invalidLogged ∧
    TagsOk (SynchronizeThread b (pathRun b pm steps)) ∧
    (∀ (pm' : IPathManager σ) (cid : PathOpData), cid.type.isOp = false →
      threadOp b pm' cid = { pm' with invalidLogged := pm'.invalidLogged + 1 }) ∧
    (∀ (infos : PMap PathData) (k : Nat) (u : PathUpdateData), u.type.isUpdate = false →
      applyUpdate infos k u = infos) := by
  obtain ⟨h1, h2⟩ := pathRun_tags b steps pm h
  obtain ⟨h3, h4, h5⟩ := SynchronizeThread_tags b _ h1
  refine ⟨?_, h1, h2, h5, h4.trans h2, h3, ?_, ?_⟩
  · intro pm' st hst
    obtain ⟨o, ho, w1, _⟩ := wrapper_tag b pm' st hst
    exact ⟨o, ho, w1⟩
  · intro pm' cid hc
    unfold threadOp
    simp only [Nat.zero_le, if_true]
    split <;> first
      | rfl
      | (rename_i e; rw [e] at hc; cases hc)
  · intro infos k u hu
    unfold applyUpdate
    split <;> first
      | rfl
      | (rename_i e; rw [e] at hu; cases hu)

/-- Claim C24 on a fresh manager: a request, a waypoint query and a delete, interleaved with
thread steps, leave the log counter at 0 through the merge. -/
theorem C24_tags_are_handled_witness :
    (SynchronizeThread countingBackend (pathRun countingBackend (IPathManager.fresh true)
      [.requestPath sampleArgs, .thread, .nextWayPoint 1 ⟨4, 4, 4⟩ 0 0 5 true, .thread,
        .deletePath 1])).invalidLogged = 0 :=
  (C24_tags_are_handled countingBackend (IPathManager.fresh true)
    [.requestPath sampleArgs, .thread, .nextWayPoint 1 ⟨4, 4, 4⟩ 0 0 5 true, .thread,
      .deletePath 1]
    ⟨(fun o ho => by cases ho), (fun e he => by cases he)⟩).2.2.2.2.1

/-! ### The worker count of the constructor -/

theorem toUInt32_of_small (x : Int) (h0 : 0 ≤ x) (h1 : x < 2 ^ 32) : toUInt32 x = x.toNat := by
  unfold toUInt32
  rw [Int.emod_eq_of_lt h0 h1]

theorem toInt32_of_small (n : Nat) (h : n < 2 ^ 31) : toInt32 n = (n : Int) := by
  unfold toInt32
  have h2 : n % 2 ^ 32 = n := Nat.mod_eq_of_lt (by
    have : (2 : Nat) ^ 31 < 2 ^ 32 := by norm_num
    omega)
  rw [h2, if_pos h]

/-- Without wrap-around, that is when the main threads do not claim more than the logical
cores plus the main simulation threads, the constructor's value is the spec's. -/
theorem ctorSimNumExtraThreads_no_wrap (sizeBits lcpu pcpu : Nat) (T M : Int)
    (hbits : 32 ≤ sizeBits) (hL : lcpu < 2 ^ 31) (hT : 0 ≤ T) (hM : 0 ≤ M) (hM2 : M < 2 ^ 31)
    (hnw : T * ((lcpu / pcpu : Nat) : Int) ≤ (lcpu : Int) + M) :
    (ctorSimNumExtraThreads sizeBits true 0 lcpu pcpu T M : Int) = specExtraThreads lcpu pcpu T := by
  have hq : lcpu / pcpu < 2 ^ 31 := lt_of_le_of_lt (Nat.div_le_self _ _) hL
  have hp0 : 0 ≤ T * ((lcpu / pcpu : Nat) : Int) := mul_nonneg hT (Int.natCast_nonneg _)
  have e31 : (2 : Int) ^ 31 = 2147483648 := by norm_num
  have e32 : (2 : Int) ^ 32 = 4294967296 := by norm_num
  have n31 : (2 : Nat) ^ 31 = 2147483648 := by norm_num
  have hpow : (2 : Int) ^ 32 ≤ 2 ^ sizeBits := pow_le_pow_right₀ (by norm_num) hbits
  unfold ctorSimNumExtraThreads ctorNumThreads specExtraThreads
  simp only [Bool.not_true, Bool.false_eq_true, if_false, max_self, Int.toNat_zero, if_true]
  rw [toInt32_of_small _ hq]
  generalize T * ((lcpu / pcpu : Nat) : Int) = p at hnw hp0 ⊢
  rw [toUInt32_of_small M hM (by omega), toUInt32_of_small _ (by omega) (by omega)]
  have hval : ((max M.toNat ((lcpu : Int) - p + M).toNat : Nat) : Int) - M
      = max 0 ((lcpu : Int) - p) := by
    omega
  rw [hval, Int.emod_eq_of_lt (by omega) (by omega)]
  omega

/-- Claim C25, evaluated on the code: in auto mode with multi-threaded simulation, for
`L = 2` logical cores on `P = 1` physical core, `T = 2` main threads and `M = 1` main
simulation thread, the unsigned expression `L - T * (L / P) + M` wraps to 4294967295, so
`numThreads` is 4294967295 and `simNumExtraThreads` 4294967294 (for a 32-bit and for a
64-bit `size_t`), while `max(0, L - T * floor(L / P))` is 0.  Whenever
`T * floor(L / P) <= L + M` the constructor's value is the spec's. -/
theorem C25_worker_count_wraps_around :
    ctorNumThreads 0 2 1 2 1 = 4294967295 ∧
    ctorSimNumExtraThreads 32 true 0 2 1 2 1 = 4294967294 ∧
    ctorSimNumExtraThreads 64 true 0 2 1 2 1 = 4294967294 ∧
    specExtraThreads 2 1 2 = 0 ∧
    (∀ (sizeBits lcpu pcpu : Nat) (T M : Int), 32 ≤ sizeBits → lcpu < 2 ^ 31 → 0 ≤ T →
      0 ≤ M → M < 2 ^ 31 → T * ((lcpu / pcpu : Nat) : Int) ≤ (lcpu : Int) + M →
      (ctorSimNumExtraThreads sizeBits true 0 lcpu pcpu T M : Int)
        = specExtraThreads lcpu pcpu T) := by
  refine ⟨by decide, by decide, by decide, by decide, ?_⟩
  intro sizeBits lcpu pcpu T M h1 h2 h3 h4 h5 h6
  exact ctorSimNumExtraThreads_no_wrap sizeBits lcpu pcpu T M h1 h2 h3 h4 h5 h6

/-! ### The cursor after `DeleteUnitNow` -/

theorem cursor_after_erase (pre post : List CUnit) (u : CUnit) (c : Nat) (hpre : u ∉ pre) (hpost : u ∉ post)
    (hc : c ≤ (pre ++ u :: post).length) :
    (pre ++ post).drop
        (if pre.length < (if c ≠ (pre ++ u :: post).length ∧ (pre ++ u :: post)[c]? = some u
            then c + 1 else c)
          then (if c ≠ (pre ++ u :: post).length ∧ (pre ++ u :: post)[c]? = some u
            then c + 1 else c) - 1
          else (if c ≠ (pre ++ u :: post).length ∧ (pre ++ u :: post)[c]? = some u
            then c + 1 else c))
      = ((pre ++ u :: post).drop c).erase u ∧
    (pre ++ post).take
        (if pre.length < (if c ≠ (pre ++ u :: post).length ∧ (pre ++ u :: post)[c]? = some u
            then c + 1 else c)
          then (if c ≠ (pre ++ u :: post).length ∧ (pre ++ u :: post)[c]? = some u
            then c + 1 else c) - 1
          else (if c ≠ (pre ++ u :: post).length ∧ (pre ++ u :: post)[c]? = some u
            then c + 1 else c))
      = ((pre ++ u :: post).take c).erase u ∧
    (if pre.length < (if c ≠ (pre ++ u :: post).length ∧ (pre ++ u :: post)[c]? = some u
            then c + 1 else c)
          then (if c ≠ (pre ++ u :: post).length ∧ (pre ++ u :: post)[c]? = some u
            then c + 1 else c) - 1
          else (if c ≠ (pre ++ u :: post).length ∧ (pre ++ u :: post)[c]? = some u
            then c + 1 else c))
      = (if pre.length < c then c - 1 else c) := by
  have hlen : (pre ++ u :: post).length = pre.length + post.length + 1 := by simp; omega
  rw [hlen] at hc
  rcases Nat.lt_trichotomy c pre.length with h | h | h
  · -- cursor before the erased node
    have hget : (pre ++ u :: post)[c]? ≠ some u := by
      rw [List.getElem?_append_left h]
      intro e
      exact hpre (List.mem_iff_getElem?.2 ⟨_, e⟩)
    have h1 : ¬ pre.length < c := by omega
    simp only [hget, and_false, if_false, h1]
    refine ⟨?_, ?_, trivial⟩
    · rw [List.drop_append_of_le_length (Nat.le_of_lt h),
        List.drop_append_of_le_length (Nat.le_of_lt h),
        List.erase_append_right _ (fun hm => hpre (List.mem_of_mem_drop hm)),
        List.erase_cons_head]
    · rw [List.take_append_of_le_length (Nat.le_of_lt h),
        List.take_append_of_le_length (Nat.le_of_lt h),
        List.erase_of_not_mem (fun hm => hpre (List.mem_of_mem_take hm))]
  · -- cursor on the erased node
    subst h
    have hget : (pre ++ u :: post)[pre.length]? = some u := by
      rw [List.getElem?_append_right (le_refl _)]
      simp
    have hne : pre.length ≠ (pre ++ u :: post).length := by omega
    simp only [hget, hne, ne_eq, not_false_eq_true, and_self, if_true, Nat.lt_succ_self,
      Nat.add_sub_cancel, Nat.lt_irrefl, if_false]
    refine ⟨?_, ?_, trivial⟩
    · rw [List.drop_append_of_le_length (le_refl _), List.drop_append_of_le_length (le_refl _)]
      simp
    · rw [List.take_append_of_le_length (le_refl _), List.take_append_of_le_length (le_refl _)]
      simp [List.erase_of_not_mem hpre]
  · -- cursor behind the erased node
    have hget : (pre ++ u :: post)[c]? ≠ some u := by
      rw [List.getElem?_append_right (Nat.le_of_lt h)]
      obtain ⟨k, hk⟩ : ∃ k, c - pre.length = k + 1 := ⟨c - pre.length - 1, by omega⟩
      rw [hk, List.getElem?_cons_succ]
      intro e
      exact hpost (List.mem_iff_getElem?.2 ⟨_, e⟩)
    simp only [hget, and_false, if_false, h, if_true]
    obtain ⟨k, hk⟩ : ∃ k, c = pre.length + (k + 1) := ⟨c - pre.length - 1, by omega⟩
    subst hk
    have e0 : pre.length + (k + 1) - 1 = pre.length + k := by omega
    rw [e0]
    refine ⟨?_, ?_, trivial⟩
    · rw [List.drop_append, List.drop_append, List.drop_succ_cons,
        List.erase_of_not_mem (fun hm => hpost (List.mem_of_mem_drop hm))]
    · rw [List.take_append, List.take_append, List.take_succ_cons,
        List.erase_append_right _ hpre, List.erase_cons_head]

theorem findUnit_append (u : CUnit) (post : List CUnit) :
    ∀ (pre : List CUnit) (i : Nat), u ∉ pre →
      findUnit u (pre ++ u :: post) i = some (i + pre.length) := by
  intro pre
  induction pre with
  | nil => intro i _; simp [findUnit]
  | cons a rest ih =>
    intro i hpre
    have ha : a ≠ u := fun e => hpre (e ▸ List.mem_cons_self _ _)
    have hrest : u ∉ rest := fun h => hpre (List.mem_cons_of_mem _ h)
    show (if a = u then some i else findUnit u (rest ++ u :: post) (i + 1)) = _
    rw [if_neg ha, ih (i + 1) hrest, List.length_cons, Option.some.injEq]
    omega

/-- With `u` exactly at position `pre.length`, `DeleteUnitNow(u)` leaves `pre ++ post` and
the cursor the two `if`s of the code compute. -/
theorem DeleteUnitNow_split (flags : BuildFlags) (s : CUnitHandler) (u : CUnit)
    (pre post : List CUnit) (hl : s.activeUnits = pre ++ u :: post) (hpre : u ∉ pre)
    (hpost : u ∉ post) :
    (DeleteUnitNow flags s u).activeUnits = pre ++ post ∧
    (DeleteUnitNow flags s u).slowUpdateIterator
      = (if pre.length < (if s.slowUpdateIterator ≠ (pre ++ u :: post).length
              ∧ (pre ++ u :: post)[s.slowUpdateIterator]? = some u
            then s.slowUpdateIterator + 1 else s.slowUpdateIterator)
          then (if s.slowUpdateIterator ≠ (pre ++ u :: post).length
              ∧ (pre ++ u :: post)[s.slowUpdateIterator]? = some u
            then s.slowUpdateIterator + 1 else s.slowUpdateIterator) - 1
          else (if s.slowUpdateIterator ≠ (pre ++ u :: post).length
              ∧ (pre ++ u :: post)[s.slowUpdateIterator]? = some u
            then s.slowUpdateIterator + 1 else s.slowUpdateIterator)) := by
  have hnot : u ∉ pre ++ post := by
    intro h
    rcases List.mem_append.1 h with h1 | h1
    · exact hpre h1
    · exact hpost h1
  have herase : (pre ++ u :: post).eraseIdx pre.length = pre ++ post := by
    rw [List.eraseIdx_append_of_length_le (le_refl _), Nat.sub_self]
    rfl
  unfold DeleteUnitNow
  rw [hl, findUnit_append u post pre 0 hpre]
  simp only [Nat.zero_add, herase]
  split
  · rw [debugSweep_not_mem _ _ _ _ hnot]
    exact ⟨rfl, rfl⟩
  · exact ⟨rfl, rfl⟩

theorem getElem?_of_drop_erase (l l' : List CUnit) (c c' : Nat) (u : CUnit)
    (h : l'.drop c' = (l.drop c).erase u) :
    (l[c]? = some u → l'[c']? = l[c + 1]?) ∧ (l[c]? ≠ some u → l'[c']? = l[c]?) := by
  have hhead : l'[c']? = ((l.drop c).erase u).head? := by rw [← h, List.head?_drop]
  by_cases hlt : c < l.length
  · have hd : l.drop c = l[c] :: l.drop (c + 1) := List.drop_eq_getElem_cons hlt
    rw [hhead, hd, List.getElem?_eq_getElem hlt]
    constructor
    · intro e
      simp only [Option.some.injEq] at e
      rw [e, List.erase_cons_head, List.head?_drop]
    · intro e
      have hne : l[c] ≠ u := fun e' => e (by rw [e'])
      rw [List.erase_cons_tail (by simpa using hne)]
      rfl
  · have hn : l[c]? = none := List.getElem?_eq_none (Nat.le_of_not_lt hlt)
    rw [hhead, List.drop_of_length_le (Nat.le_of_not_lt hlt), hn]
    exact ⟨(fun e => by cases e), (fun _ => rfl)⟩

/-- The cursor of the index model after `DeleteUnitNow(u)`, in an active set of distinct units
with a cursor within the list: it stays within the list, the units from the cursor to the
end are the old ones without `u`, and the units before the cursor are the old ones without
`u`; if the cursor referred to `u` it now refers to the successor of `u`, otherwise it refers
to the unit (or end position) it referred to before. -/
theorem DeleteUnitNow_cursor_index (flags : BuildFlags) (s : CUnitHandler) (u : CUnit)
    (hnd : s.activeUnits.Nodup) (hc : s.slowUpdateIterator ≤ s.activeUnits.length) :
    (DeleteUnitNow flags s u).slowUpdateIterator
      ≤ (DeleteUnitNow flags s u).activeUnits.length ∧
    (DeleteUnitNow flags s u).activeUnits.drop (DeleteUnitNow flags s u).slowUpdateIterator
      = (s.activeUnits.drop s.slowUpdateIterator).erase u ∧
    (DeleteUnitNow flags s u).activeUnits.take (DeleteUnitNow flags s u).slowUpdateIterator
      = (s.activeUnits.take s.slowUpdateIterator).erase u ∧
    (s.activeUnits[s.slowUpdateIterator]? = some u →
      (DeleteUnitNow flags s u).activeUnits[(DeleteUnitNow flags s u).slowUpdateIterator]?
        = s.activeUnits[s.slowUpdateIterator + 1]?) ∧
    (s.activeUnits[s.slowUpdateIterator]? ≠ some u →
      (DeleteUnitNow flags s u).activeUnits[(DeleteUnitNow flags s u).slowUpdateIterator]?
        = s.activeUnits[s.slowUpdateIterator]?) ∧
    (∀ v, (DeleteUnitNow flags s u).activeUnits[(DeleteUnitNow flags s u).slowUpdateIterator]?
        = some v → v ∈ (DeleteUnitNow flags s u).activeUnits ∧ v ≠ u) := by
  have hcnt : s.activeUnits.count u ≤ 1 := List.nodup_iff_count_le_one.1 hnd u
  have hact := DeleteUnitNow_activeUnits flags s u hcnt
  have hmain : (DeleteUnitNow flags s u).slowUpdateIterator
        ≤ (DeleteUnitNow flags s u).activeUnits.length ∧
      (DeleteUnitNow flags s u).activeUnits.drop (DeleteUnitNow flags s u).slowUpdateIterator
        = (s.activeUnits.drop s.slowUpdateIterator).erase u ∧
      (DeleteUnitNow flags s u).activeUnits.take (DeleteUnitNow flags s u).slowUpdateIterator
        = (s.activeUnits.take s.slowUpdateIterator).erase u := by
    by_cases hmem : u ∈ s.activeUnits
    · obtain ⟨pre, post, hl, hpre⟩ := List.eq_append_cons_of_mem hmem
      have hpost : u ∉ post := by
        rw [hl] at hnd
        exact (List.nodup_cons.1 (List.nodup_append.1 hnd).2.1).1
      obtain ⟨d1, d2⟩ := DeleteUnitNow_split flags s u pre post hl hpre hpost
      rw [hl] at hc
      obtain ⟨e1, e2, e3⟩ := cursor_after_erase pre post u s.slowUpdateIterator hpre hpost hc
      rw [← d2] at e1 e2 e3
      rw [d1, hl]
      refine ⟨?_, e1, e2⟩
      rw [e3]
      simp only [List.length_append, List.length_cons] at hc ⊢
      split <;> omega
    · rw [DeleteUnitNow_absent flags s u hmem]
      exact ⟨hc, (List.erase_of_not_mem (fun h => hmem (List.mem_of_mem_drop h))).symm,
        (List.erase_of_not_mem (fun h => hmem (List.mem_of_mem_take h))).symm⟩
  obtain ⟨h1, h2, h3⟩ := hmain
  obtain ⟨h4, h5⟩ := getElem?_of_drop_erase s.activeUnits _ s.slowUpdateIterator _ u h2
  refine ⟨h1, h2, h3, h4, h5, ?_⟩
  intro v hv
  have hv2 : v ∈ (DeleteUnitNow flags s u).activeUnits := List.mem_iff_getElem?.2 ⟨_, hv⟩
  refine ⟨hv2, ?_⟩
  rw [hact, hnd.mem_erase_iff] at hv2
  exact hv2.1

/-! ### `DeleteUnitNow` on list nodes and unit objects -/

theorem findNode_none (u : CUnit) :
    ∀ (l : List (Nat × CUnit)), u ∉ l.map Prod.snd → findNode u l = none := by
  intro l
  induction l with
  | nil => intro _; rfl
  | cons n rest ih =>
    intro h
    simp only [List.map_cons, List.mem_cons, not_or] at h
    have hne : ¬ n.2 = u := fun e => h.1 e.symm
    simp [findNode, hne, ih h.2]

theorem findNode_split (u : CUnit) :
    ∀ (l : List (Nat × CUnit)), u ∈ l.map Prod.snd →
      ∃ pre a post, l = pre ++ (a, u) :: post ∧ u ∉ pre.map Prod.snd ∧
        findNode u l = some a := by
  intro l
  induction l with
  | nil => intro h; simp at h
  | cons n rest ih =>
    intro h
    by_cases hn : n.2 = u
    · refine ⟨[], n.1, rest, ?_, by simp, ?_⟩
      · rw [← hn]; rfl
      · simp only [findNode, if_pos hn]
    · simp only [List.map_cons, List.mem_cons] at h
      rcases h with h | h
      · exact absurd h.symm hn
      · obtain ⟨pre, a, post, h1, h2, h3⟩ := ih h
        refine ⟨n :: pre, a, post, by rw [h1]; rfl, ?_, ?_⟩
        · simp only [List.map_cons, List.mem_cons, not_or]
          exact ⟨fun e => hn e.symm, h2⟩
        · simp only [findNode, if_neg hn, h3]

theorem sweepNodes_eq_filter (u : CUnit) :
    ∀ (l : List (Nat × CUnit)), sweepNodes u l = l.filter (fun n => decide (n.2 ≠ u)) := by
  intro l
  induction l with
  | nil => rfl
  | cons n rest ih =>
    by_cases hn : n.2 = u
    · simp [sweepNodes, hn, ih, List.filter_cons]
    · simp [sweepNodes, hn, ih, List.filter_cons]

theorem filter_ne_of_not_mem (u : CUnit) (l : List (Nat × CUnit)) (h : u ∉ l.map Prod.snd) :
    l.filter (fun n => decide (n.2 ≠ u)) = l := by
  rw [List.filter_eq_self]
  intro n hn
  simp only [ne_eq, decide_eq_true_eq]
  intro e
  exact h (List.mem_map.2 ⟨n, hn, e⟩)

theorem filter_ne_split (u : CUnit) (pre post : List (Nat × CUnit)) (a : Nat)
    (h1 : u ∉ pre.map Prod.snd) (h2 : u ∉ post.map Prod.snd) :
    (pre ++ (a, u) :: post).filter (fun n => decide (n.2 ≠ u)) = pre ++ post := by
  rw [List.filter_append, List.filter_cons, filter_ne_of_not_mem u pre h1,
    filter_ne_of_not_mem u post h2]
  simp

theorem eraseNode_split (a : Nat) (v : CUnit) (post : List (Nat × CUnit)) :
    ∀ (pre : List (Nat × CUnit)), a ∉ pre.map Prod.fst →
      eraseNode (pre ++ (a, v) :: post) a = pre ++ post := by
  intro pre
  induction pre with
  | nil => intro _; simp [eraseNode]
  | cons n rest ih =>
    intro h
    simp only [List.map_cons, List.mem_cons, not_or] at h
    have hne : ¬ n.1 = a := fun e => h.1 e.symm
    simp [eraseNode, hne, ih h.2]

theorem nodeValue_split (a : Nat) (v : CUnit) (post : List (Nat × CUnit)) :
    ∀ (pre : List (Nat × CUnit)), a ∉ pre.map Prod.fst →
      nodeValue (pre ++ (a, v) :: post) a = some v := by
  intro pre
  induction pre with
  | nil => intro _; simp [nodeValue]
  | cons n rest ih =>
    intro h
    simp only [List.map_cons, List.mem_cons, not_or] at h
    have hne : ¬ n.1 = a := fun e => h.1 e.symm
    simp [nodeValue, hne, ih h.2]

theorem nextIter_split (a : Nat) (v : CUnit) (post : List (Nat × CUnit)) :
    ∀ (pre : List (Nat × CUnit)), a ∉ pre.map Prod.fst →
      nextIter (pre ++ (a, v) :: post) a = some (post.head?.map Prod.fst) := by
  intro pre
  induction pre with
  | nil => intro _; simp [nextIter]
  | cons n rest ih =>
    intro h
    simp only [List.map_cons, List.mem_cons, not_or] at h
    have hne : ¬ n.1 = a := fun e => h.1 e.symm
    simp [nextIter, hne, ih h.2]

theorem unitsFrom_split (a : Nat) (v : CUnit) (post : List (Nat × CUnit)) :
    ∀ (pre : List (Nat × CUnit)), a ∉ pre.map Prod.fst →
      unitsFrom (pre ++ (a, v) :: post) (some a) = some (v :: post.map Prod.snd) := by
  intro pre
  induction pre with
  | nil => intro _; simp [unitsFrom]
  | cons n rest ih =>
    intro h
    simp only [List.map_cons, List.mem_cons, not_or] at h
    have hne : ¬ n.1 = a := fun e => h.1 e.symm
    simp [unitsFrom, hne, ih h.2]

theorem unitsBefore_split (a : Nat) (v : CUnit) (post : List (Nat × CUnit)) :
    ∀ (pre : List (Nat × CUnit)), a ∉ pre.map Prod.fst →
      unitsBefore (pre ++ (a, v) :: post) (some a) = pre.map Prod.snd := by
  intro pre
  induction pre with
  | nil => intro _; simp [unitsBefore]
  | cons n rest ih =>
    intro h
    simp only [List.map_cons, List.mem_cons, not_or] at h
    have hne : ¬ n.1 = a := fun e => h.1 e.symm
    simp [unitsBefore, hne, ih h.2]

theorem node_split (a : Nat) :
    ∀ (l : List (Nat × CUnit)), a ∈ l.map Prod.fst →
      ∃ pre v post, l = pre ++ (a, v) :: post ∧ a ∉ pre.map Prod.fst := by
  intro l
  induction l with
  | nil => intro h; simp at h
  | cons n rest ih =>
    intro h
    by_cases hn : n.1 = a
    · refine ⟨[], n.2, rest, ?_, by simp⟩
      rw [← hn]; rfl
    · simp only [List.map_cons, List.mem_cons] at h
      rcases h with h | h
      · exact absurd h.symm hn
      · obtain ⟨pre, v, post, h1, h2⟩ := ih h
        refine ⟨n :: pre, v, post, by rw [h1]; rfl, ?_⟩
        simp only [List.map_cons, List.mem_cons, not_or]
        exact ⟨fun e => hn e.symm, h2⟩

theorem values_filter_ne (u : CUnit) (l : List (Nat × CUnit))
    (hvals : (l.map Prod.snd).Nodup) :
    (l.filter (fun n => decide (n.2 ≠ u))).map Prod.snd = (l.map Prod.snd).erase u := by
  rw [hvals.erase_eq_filter]
  clear hvals
  induction l with
  | nil => rfl
  | cons n rest ih =>
    by_cases hn : n.2 = u
    · simpa [List.filter_cons, hn] using ih
    · simpa [List.filter_cons, hn] using ih

theorem nodeValue_mem :
    ∀ (l : List (Nat × CUnit)) (a : Nat) (v : CUnit), nodeValue l a = some v →
      v ∈ l.map Prod.snd := by
  intro l
  induction l with
  | nil => intro a v h; simp [nodeValue] at h
  | cons n rest ih =>
    intro a v h
    by_cases hn : n.1 = a
    · simp [nodeValue, hn] at h
      simp [h]
    · simp [nodeValue, hn] at h
      simp only [List.map_cons, List.mem_cons]
      exact Or.inr (ih a v h)

theorem advanceCursor_split (u : CUnit) (pre post : List (Nat × CUnit)) (a : Nat) (v : CUnit)
    (ha : a ∉ pre.map Prod.fst) :
    advanceCursor (pre ++ (a, v) :: post) u (some a)
      = if u = v then some (post.head?.map Prod.fst) else some (some a) := by
  simp only [advanceCursor, nodeValue_split a v post pre ha, nextIter_split a v post pre ha]

/-- What lines 192-194 and the erasure do to the cursor, on the list alone: for nodes with
distinct addresses holding distinct units and a valid cursor, the new cursor is valid for the
list without the nodes of `u`, and the units at and after it, and those before it, are the
old ones without `u`. -/
theorem advanceCursor_spec (l : List (Nat × CUnit)) (u : CUnit) (c : Option Nat)
    (haddr : (l.map Prod.fst).Nodup) (hunits : (l.map Prod.snd).Nodup)
    (hcur : iterValid l c) :
    ∃ c', advanceCursor l u c = some c' ∧
      iterValid (l.filter (fun n => decide (n.2 ≠ u))) c' ∧
      (∀ a, c = some a → nodeValue l a = some u → nextIter l a = some c') ∧
      ((∀ a, c = some a → nodeValue l a ≠ some u) → c' = c) ∧
      unitsFrom (l.filter (fun n => decide (n.2 ≠ u))) c'
        = (unitsFrom l c).map (fun x => x.erase u) ∧
      (unitsFrom l c).isSome = true ∧
      unitsBefore (l.filter (fun n => decide (n.2 ≠ u))) c' = (unitsBefore l c).erase u := by
  cases c with
  | none =>
    refine ⟨none, rfl, (fun a h => by cases h), (fun a h => by cases h), (fun _ => rfl),
      ?_, ?_, ?_⟩
    · have h0 : ∀ x : List (Nat × CUnit), unitsFrom x none = some [] := by
        intro x; cases x <;> rfl
      rw [h0, h0]
      rfl
    · cases l <;> rfl
    · have h1 : ∀ x : List (Nat × CUnit), unitsBefore x none = x.map Prod.snd := by
        intro x; cases x <;> rfl
      rw [h1, h1, values_filter_ne u l hunits]
  | some a =>
    obtain ⟨pre, v, post, hl, hpre⟩ := node_split a l (hcur a rfl)
    subst hl
    have hv : (pre.map Prod.snd ++ v :: post.map Prod.snd).Nodup := by
      simpa using hunits
    have had : (pre.map Prod.fst ++ a :: post.map Prod.fst).Nodup := by
      simpa using haddr
    have hvpre : (pre.map Prod.snd).Nodup := (List.nodup_append.1 hv).1
    have hvpost : (post.map Prod.snd).Nodup := (List.nodup_cons.1 (List.nodup_append.1 hv).2.1).2
    have hv_post : v ∉ post.map Prod.snd := (List.nodup_cons.1 (List.nodup_append.1 hv).2.1).1
    have hv_pre : v ∉ pre.map Prod.snd := fun h =>
      (List.nodup_append.1 hv).2.2 h (List.mem_cons_self _ _)
    rw [advanceCursor_split u pre post a v hpre, unitsFrom_split a v post pre hpre,
      unitsBefore_split a v post pre hpre]
    by_cases huv : u = v
    · subst huv
      rw [if_pos rfl, filter_ne_split u pre post a hv_pre hv_post]
      refine ⟨_, rfl, ?_, ?_, ?_, ?_, rfl, ?_⟩
      · intro b hb
        cases post with
        | nil => cases hb
        | cons n post' =>
          simp only [List.head?_cons, Option.map_some', Option.some.injEq] at hb
          subst hb
          simp
      · intro b hb _
        cases hb
        exact nextIter_split a u post pre hpre
      · intro h
        exact absurd (nodeValue_split a u post pre hpre) (h a rfl)
      · cases post with
        | nil =>
          simp only [List.head?_nil, Option.map_none', List.append_nil, List.map_nil,
            Option.map_some', List.erase_cons_head]
          cases pre <;> rfl
        | cons n post' =>
          have hn : n.1 ∉ pre.map Prod.fst := by
            intro h
            have := (List.nodup_append.1 had).2.2 h
            simp at this
          obtain ⟨b, w⟩ := n
          simp only [List.head?_cons, Option.map_some', List.erase_cons_head]
          rw [unitsFrom_split b w post' pre hn]
          rfl
      · rw [List.erase_of_not_mem hv_pre]
        cases post with
        | nil =>
          simp only [List.head?_nil, Option.map_none', List.append_nil]
          cases pre <;> rfl
        | cons n post' =>
          have hn : n.1 ∉ pre.map Prod.fst := by
            intro h
            have := (List.nodup_append.1 had).2.2 h
            simp at this
          obtain ⟨b, w⟩ := n
          simp only [List.head?_cons, Option.map_some']
          exact unitsBefore_split b w post' pre hn
    · rw [if_neg huv]
      have hvu : ¬ v = u := fun e => huv e.symm
      have hfil : (pre ++ (a, v) :: post).filter (fun n => decide (n.2 ≠ u))
          = pre.filter (fun n => decide (n.2 ≠ u)) ++ (a, v)
              :: post.filter (fun n => decide (n.2 ≠ u)) := by
        rw [List.filter_append, List.filter_cons]
        simp [hvu]
      have hpre' : a ∉ (pre.filter (fun n => decide (n.2 ≠ u))).map Prod.fst := by
        intro h
        obtain ⟨n, hn, e⟩ := List.mem_map.1 h
        exact hpre (List.mem_map.2 ⟨n, List.mem_of_mem_filter hn, e⟩)
      rw [hfil]
      refine ⟨_, rfl, ?_, ?_, fun _ => rfl, ?_, rfl, ?_⟩
      · intro b hb
        cases hb
        simp
      · intro b hb hval
        cases hb
        rw [nodeValue_split a v post pre hpre] at hval
        simp only [Option.some.injEq] at hval
        exact absurd hval.symm huv
      · rw [unitsFrom_split a v _ _ hpre', values_filter_ne u post hvpost]
        simp only [Option.map_some', Option.some.injEq]
        rw [List.erase_cons_tail]
        simpa using hvu
      · rw [unitsBefore_split a v _ _ hpre', values_filter_ne u pre hvpre]

theorem advanceCursor_absent (l : List (Nat × CUnit)) (u : CUnit) (c c' : Option Nat)
    (habsent : u ∉ l.map Prod.snd) (h : advanceCursor l u c = some c') : c' = c := by
  cases c with
  | none =>
    simp only [advanceCursor, Option.some.injEq] at h
    exact h.symm
  | some a =>
    cases hv : nodeValue l a with
    | none =>
      simp only [advanceCursor, hv] at h
      cases h
    | some v =>
      have hne : ¬ u = v := fun e => habsent (e ▸ nodeValue_mem l a v hv)
      simp only [advanceCursor, hv, if_neg hne, Option.some.injEq] at h
      exact h.symm

theorem DeleteUnitNow_live_absent (flags : BuildFlags) (m : CUnitHandlerMem)
    (u : CUnit) (habsent : u ∉ m.activeUnits.map Prod.snd) (hlive : u ∉ m.deleted) :
    m.DeleteUnitNow flags u = some m := by
  unfold CUnitHandlerMem.DeleteUnitNow
  rw [if_neg hlive, findNode_none u _ habsent]
  simp only [Option.map_some', Option.some.injEq]
  split
  · rw [sweepNodes_eq_filter, filter_ne_of_not_mem u _ habsent]
  · rfl

theorem DeleteUnitNow_of_deleted (flags : BuildFlags) (m : CUnitHandlerMem)
    (u : CUnit) (hdel : u ∈ m.deleted) : m.DeleteUnitNow flags u = none := by
  unfold CUnitHandlerMem.DeleteUnitNow
  rw [if_pos hdel]

/-- The node list and the cursor that `DeleteUnitNow` leaves, for a live `delUnit`, nodes with
distinct addresses holding distinct units, and a cursor that `advanceCursor` can read. -/
theorem DeleteUnitNow_nodes (flags : BuildFlags) (m : CUnitHandlerMem)
    (u : CUnit) (c' : Option Nat)
    (haddr : (m.activeUnits.map Prod.fst).Nodup) (hunits : (m.activeUnits.map Prod.snd).Nodup)
    (hlive : u ∉ m.deleted)
    (hc : advanceCursor m.activeUnits u m.slowUpdateIterator = some c') :
    (m.DeleteUnitNow flags u).map (fun m' => (m'.activeUnits, m'.slowUpdateIterator))
      = some (m.activeUnits.filter (fun n => decide (n.2 ≠ u)), c') := by
  by_cases hmem : u ∈ m.activeUnits.map Prod.snd
  · obtain ⟨pre, b, post, hl, hpre, hfind⟩ := findNode_split u _ hmem
    have hv : (pre.map Prod.snd ++ u :: post.map Prod.snd).Nodup := by
      simpa [hl] using hunits
    have had : (pre.map Prod.fst ++ b :: post.map Prod.fst).Nodup := by
      simpa [hl] using haddr
    have hpost : u ∉ post.map Prod.snd := (List.nodup_cons.1 (List.nodup_append.1 hv).2.1).1
    have hb : b ∉ pre.map Prod.fst := fun h =>
      (List.nodup_append.1 had).2.2 h (List.mem_cons_self _ _)
    have herase : eraseNode m.activeUnits b = pre ++ post := by
      rw [hl]; exact eraseNode_split b u post pre hb
    have hfil : m.activeUnits.filter (fun n => decide (n.2 ≠ u)) = pre ++ post := by
      rw [hl]; exact filter_ne_split u pre post b hpre hpost
    have hsweep : sweepNodes u (pre ++ post) = pre ++ post := by
      rw [sweepNodes_eq_filter, ← hfil, List.filter_filter]
      simp
    unfold CUnitHandlerMem.DeleteUnitNow
    rw [if_neg hlive, hfind]
    simp only [hc, Option.map_some', herase, hfil]
    split
    · simp only [hsweep]
    · rfl
  · rw [DeleteUnitNow_live_absent flags m u hmem hlive,
      filter_ne_of_not_mem u _ hmem, advanceCursor_absent _ u _ c' hmem hc]
    rfl

/-- Claim C19, as amended: `DeleteUnitNow(u)` for a unit `u` that is not in `activeUnits` and
whose object has not been deleted leaves the handler as it is, with or without the `_DEBUG`
sweep: `activeUnits`, the units table, `freeUnitIDs` (no id is returned to the pool) and
`slowUpdateIterator` are unchanged.  For a unit whose object has been deleted, as it is for
every unit that `DeleteUnitNow` has removed from the set, the call has no defined result: its
first statement reads the object. -/
theorem C19_DeleteUnitNow_of_live_absent_unit (flags : BuildFlags) (m : CUnitHandlerMem)
    (u : CUnit) (habsent : u ∉ m.activeUnits.map Prod.snd) :
    (u ∉ m.deleted →
      m.DeleteUnitNow flags u = some m ∧
      (m.DeleteUnitNow flags u).map
          (fun m' => (m'.activeUnits, m'.units, m'.freeUnitIDs, m'.slowUpdateIterator))
        = some (m.activeUnits, m.units, m.freeUnitIDs, m.slowUpdateIterator)) ∧
    (u ∈ m.deleted → m.DeleteUnitNow flags u = none) := by
  refine ⟨fun hlive => ?_, DeleteUnitNow_of_deleted flags m u⟩
  have h := DeleteUnitNow_live_absent flags m u habsent hlive
  exact ⟨h, by rw [h]; rfl⟩

/-- Claim C19 as amended, on the handler holding units 10, 11, 12, for the live unit 13 that
was never added, in a build with the `_DEBUG` sweep. -/
theorem C19_DeleteUnitNow_of_live_absent_unit_witness :
    13 ∉ threeNodes.activeUnits.map Prod.snd ∧ 13 ∉ threeNodes.deleted ∧
    (threeNodes.DeleteUnitNow ⟨false, true⟩ 13).map
        (fun m' => (m'.activeUnits, m'.units, m'.freeUnitIDs, m'.slowUpdateIterator))
      = some ([(100, 10), (101, 11), (102, 12)], [some 10, some 11, some 12], [], some 101) :=
  ⟨by decide, by decide,
   ((C19_DeleteUnitNow_of_live_absent_unit ⟨false, true⟩ threeNodes 13 (by decide)).1
     (by decide)).2⟩

/-- Claim C19 fails as stated: on the handler holding units 10, 11, 12, `DeleteUnitNow(11)`
removes unit 11 and deletes its object; unit 11 is then no longer in the active set, and a
second `DeleteUnitNow(11)` is not a no-op: it has no defined result, since it starts by
reading the deleted object. -/
theorem C19_counterexample_removed_unit_is_read :
    (threeNodes.DeleteUnitNow ⟨true, false⟩ 11).map
        (fun m' => (m'.activeUnits.map Prod.snd, m'.deleted)) = some ([10, 12], [11]) ∧
    ((threeNodes.DeleteUnitNow ⟨true, false⟩ 11).bind
        (fun m' => m'.DeleteUnitNow ⟨true, false⟩ 11)).isSome = false := by
  decide


theorem unitsBefore_take (l : List (Nat × CUnit)) (c : Option Nat) (hcur : iterValid l c) :
    unitsBefore l c = (l.map Prod.snd).take (unitsBefore l c).length := by
  cases c with
  | none =>
    have h1 : unitsBefore l none = l.map Prod.snd := by cases l <;> rfl
    rw [h1, List.take_length]
  | some a =>
    obtain ⟨pre, v, post, hl, hpre⟩ := node_split a l (hcur a rfl)
    subst hl
    rw [unitsBefore_split a v post pre hpre, List.map_append, List.take_left]

/-- The units from a valid cursor on are the units from the index of its node on, which is
where the staggered slow update of `Update_slowUpdate` continues. -/
theorem unitsFrom_drop (l : List (Nat × CUnit)) (c : Option Nat) (hcur : iterValid l c) :
    unitsFrom l c = some ((l.map Prod.snd).drop (unitsBefore l c).length) := by
  cases c with
  | none =>
    have h0 : unitsFrom l none = some [] := by cases l <;> rfl
    have h1 : unitsBefore l none = l.map Prod.snd := by cases l <;> rfl
    rw [h0, h1, List.drop_length]
  | some a =>
    obtain ⟨pre, v, post, hl, hpre⟩ := node_split a l (hcur a rfl)
    subst hl
    rw [unitsFrom_split a v post pre hpre, unitsBefore_split a v post pre hpre,
      List.map_append, List.drop_left]
    rfl

/-- The index model of `DeleteUnitNow` is the node model seen from outside: for a live unit,
nodes with distinct addresses holding distinct units and a valid cursor, the list of units and
the index of the cursor node that `CUnitHandlerMem.DeleteUnitNow` leaves are the `activeUnits`
and the `slowUpdateIterator` that `DeleteUnitNow` computes from the list of units and the
index of the cursor. -/
theorem DeleteUnitNow_refines (flags : BuildFlags) (m : CUnitHandlerMem) (s : CUnitHandler)
    (u : CUnit) (haddr : (m.activeUnits.map Prod.fst).Nodup)
    (hunits : (m.activeUnits.map Prod.snd).Nodup)
    (hcur : iterValid m.activeUnits m.slowUpdateIterator) (hlive : u ∉ m.deleted)
    (hact : s.activeUnits = m.activeUnits.map Prod.snd)
    (hidx : s.slowUpdateIterator = (unitsBefore m.activeUnits m.slowUpdateIterator).length) :
    (m.DeleteUnitNow flags u).map
        (fun m' => (m'.activeUnits.map Prod.snd,
          (unitsBefore m'.activeUnits m'.slowUpdateIterator).length))
      = some ((DeleteUnitNow flags s u).activeUnits,
          (DeleteUnitNow flags s u).slowUpdateIterator) := by
  obtain ⟨c', hc, _, _, _, _, _, k6⟩ :=
    advanceCursor_spec m.activeUnits u m.slowUpdateIterator haddr hunits hcur
  have hR := DeleteUnitNow_nodes flags m u c' haddr hunits hlive hc
  have hnd : s.activeUnits.Nodup := by rw [hact]; exact hunits
  have hle : s.slowUpdateIterator ≤ s.activeUnits.length := by
    rw [hidx, hact]
    have h := congrArg List.length (unitsBefore_take _ _ hcur)
    rw [List.length_take] at h
    omega
  obtain ⟨i1, _, i3, _⟩ := DeleteUnitNow_cursor_index flags s u hnd hle
  have hactive := DeleteUnitNow_activeUnits flags s u (List.nodup_iff_count_le_one.1 hnd u)
  have htake : s.activeUnits.take s.slowUpdateIterator
      = unitsBefore m.activeUnits m.slowUpdateIterator := by
    rw [hidx, hact]
    exact (unitsBefore_take _ _ hcur).symm
  have hlen : (DeleteUnitNow flags s u).slowUpdateIterator
      = ((unitsBefore m.activeUnits m.slowUpdateIterator).erase u).length := by
    rw [← htake, ← i3, List.length_take, Nat.min_eq_left i1]
  cases hx : m.DeleteUnitNow flags u with
  | none => rw [hx] at hR; cases hR
  | some m' =>
    rw [hx] at hR
    simp only [Option.map_some', Option.some.injEq, Prod.mk.injEq] at hR
    obtain ⟨h1, h2⟩ := hR
    rw [Option.map_some', h1, h2, k6, values_filter_ne u _ hunits, hactive, hact, hlen]


/-- Claim C26: for nodes with distinct addresses holding distinct units, a valid
`slowUpdateIterator` and a live unit `u`, `DeleteUnitNow(u)` is defined and erases the node
of `u` only; afterwards `slowUpdateIterator` is `end()` or points to a node of the list (it
does not dangle); if it pointed to the node of `u` it points to the successor of that node,
and otherwise it is unchanged; the units at and after it, which the staggered slow update has
yet to visit, and the units before it are the old ones without `u`, so the removal makes the
slow update neither skip nor repeat a remaining unit.  With and without the `_DEBUG`
sweep. -/
theorem C26_cursor_survives_DeleteUnitNow (flags : BuildFlags) (m : CUnitHandlerMem)
    (u : CUnit) (haddr : (m.activeUnits.map Prod.fst).Nodup)
    (hunits : (m.activeUnits.map Prod.snd).Nodup)
    (hcur : iterValid m.activeUnits m.slowUpdateIterator) (hlive : u ∉ m.deleted) :
    (m.DeleteUnitNow flags u).map (fun m' => m'.activeUnits)
      = some (m.activeUnits.filter (fun n => decide (n.2 ≠ u))) ∧
    (∀ m', m.DeleteUnitNow flags u = some m' →
      iterValid m'.activeUnits m'.slowUpdateIterator) ∧
    (∀ a, m.slowUpdateIterator = some a → nodeValue m.activeUnits a = some u →
      (m.DeleteUnitNow flags u).map (fun m' => m'.slowUpdateIterator)
        = nextIter m.activeUnits a) ∧
    ((∀ a, m.slowUpdateIterator = some a → nodeValue m.activeUnits a ≠ some u) →
      (m.DeleteUnitNow flags u).map (fun m' => m'.slowUpdateIterator)
        = some m.slowUpdateIterator) ∧
    (m.DeleteUnitNow flags u).map (fun m' => unitsFrom m'.activeUnits m'.slowUpdateIterator)
      = some ((unitsFrom m.activeUnits m.slowUpdateIterator).map (fun l => l.erase u)) ∧
    (unitsFrom m.activeUnits m.slowUpdateIterator).isSome = true ∧
    (m.DeleteUnitNow flags u).map (fun m' => unitsBefore m'.activeUnits m'.slowUpdateIterator)
      = some ((unitsBefore m.activeUnits m.slowUpdateIterator).erase u) := by
  obtain ⟨c', hc, k1, k2, k3, k4, k5, k6⟩ :=
    advanceCursor_spec m.activeUnits u m.slowUpdateIterator haddr hunits hcur
  have hR := DeleteUnitNow_nodes flags m u c' haddr hunits hlive hc
  cases hx : m.DeleteUnitNow flags u with
  | none => rw [hx] at hR; cases hR
  | some m' =>
    rw [hx] at hR
    simp only [Option.map_some', Option.some.injEq, Prod.mk.injEq] at hR
    obtain ⟨h1, h2⟩ := hR
    refine ⟨?_, ?_, ?_, ?_, ?_, k5, ?_⟩
    · rw [Option.map_some', h1]
    · intro m'' e
      cases e
      rw [h1, h2]
      exact k1
    · intro a ha hval
      rw [Option.map_some', h2]
      exact (k2 a ha hval).symm
    · intro h
      rw [Option.map_some', h2, k3 h]
    · rw [Option.map_some', h1, h2, k4]
    · rw [Option.map_some', h1, h2, k6]

/-- Claim C26 on the nodes of units 10, 11, 12 with the cursor on the node of unit 11, in a
build with the `_DEBUG` sweep: after `DeleteUnitNow(11)` the cursor is on the node of unit 12,
with unit 12 yet to visit and unit 10 passed. -/
theorem C26_cursor_survives_DeleteUnitNow_witness :
    (threeNodes.DeleteUnitNow ⟨false, true⟩ 11).map (fun m' => m'.activeUnits)
      = some [(100, 10), (102, 12)] ∧
    (threeNodes.DeleteUnitNow ⟨false, true⟩ 11).map (fun m' => m'.slowUpdateIterator)
      = some (some 102) ∧
    (threeNodes.DeleteUnitNow ⟨false, true⟩ 11).map
        (fun m' => unitsFrom m'.activeUnits m'.slowUpdateIterator) = some (some [12]) ∧
    (threeNodes.DeleteUnitNow ⟨false, true⟩ 11).map
        (fun m' => unitsBefore m'.activeUnits m'.slowUpdateIterator) = some [10] :=
  ⟨(C26_cursor_survives_DeleteUnitNow ⟨false, true⟩ threeNodes 11 (by decide) (by decide)
      (fun a h => by cases h; decide) (by decide)).1,
   (C26_cursor_survives_DeleteUnitNow ⟨false, true⟩ threeNodes 11 (by decide) (by decide)
      (fun a h => by cases h; decide) (by decide)).2.2.1 101 rfl rfl,
   (C26_cursor_survives_DeleteUnitNow ⟨false, true⟩ threeNodes 11 (by decide) (by decide)
      (fun a h => by cases h; decide) (by decide)).2.2.2.2.1,
   (C26_cursor_survives_DeleteUnitNow ⟨false, true⟩ threeNodes 11 (by decide) (by decide)
      (fun a h => by cases h; decide) (by decide)).2.2.2.2.2.2⟩

/-! ### `AtomicCounterInt` -/

theorem wrapInt32_of_range (x : Int) (h0 : -2 ^ 31 ≤ x) (h1 : x < 2 ^ 31) : wrapInt32 x = x := by
  unfold wrapInt32 toInt32 toUInt32
  have e31 : (2 : Int) ^ 31 = 2147483648 := by norm_num
  have e32 : (2 : Int) ^ 32 = 4294967296 := by norm_num
  have n31 : (2 : Nat) ^ 31 = 2147483648 := by norm_num
  have n32 : (2 : Nat) ^ 32 = 4294967296 := by norm_num
  rw [e31] at h0 h1
  rw [e32, n31, n32]
  split <;> omega

theorem increments_MSVC (k : Nat) :
    ∀ (v : Int), -2 ^ 31 ≤ v → v + k < 2 ^ 31 →
      AtomicCounterInt.increments .MSVC k ⟨v⟩
        = (List.range k).map (fun j : Nat => v + 1 + (j : Int)) := by
  induction k with
  | zero => intro v _ _; rfl
  | succ k ih =>
    intro v h0 h1
    have hw : wrapInt32 (v + 1) = v + 1 := by
      apply wrapInt32_of_range
      · have : (0 : Int) < 2 ^ 31 := by norm_num
        omega
      · push_cast at h1
        omega
    have hstep : AtomicCounterInt.increment .MSVC ⟨v⟩ = (v + 1, ⟨v + 1⟩) := by
      simp only [AtomicCounterInt.increment, hw]
    rw [AtomicCounterInt.increments, hstep, ih (v + 1) (by omega) (by push_cast at h1 ⊢; omega),
      List.range_succ_eq_map, List.map_cons, List.map_map]
    simp only [Nat.cast_zero, add_zero, List.cons.injEq, true_and]
    apply List.map_congr_left
    intro j _
    simp only [Function.comp, Nat.cast_succ]
    omega

/-- Claim C27, evaluated on the code: on the GCC branch `operator=` stores the constant 1,
not its argument, so after assigning -1 the counter holds 1 and three increments return
2, 3, 4 instead of 0, 1, 2; whatever is assigned, the next increment returns 2.  On the
Apple branch the assignment is not a store to the counter.  On the MSVC branch `k`
increments after assigning `v` return `v + 1, ..., v + k` as long as these fit 32 bits. -/
theorem C27_gcc_assignment_stores_one :
    (AtomicCounterInt.assign .GCC ⟨0⟩ (-1)).map
        (fun r => (r.1, r.2.num, AtomicCounterInt.increments .GCC 3 r.2))
      = some (-1, 1, [2, 3, 4]) ∧
    (∀ (c : AtomicCounterInt) (v : Int),
      (AtomicCounterInt.assign .GCC c v).map
        (fun r => (AtomicCounterInt.increment .GCC r.2).1) = some 2) ∧
    (∀ (c : AtomicCounterInt) (v : Int), AtomicCounterInt.assign .APPLE c v = none) ∧
    (∀ (c : AtomicCounterInt) (v : Int) (k : Nat), -2 ^ 31 ≤ v → v + k < 2 ^ 31 →
      (AtomicCounterInt.assign .MSVC c v).map
        (fun r => AtomicCounterInt.increments .MSVC k r.2)
        = some ((List.range k).map (fun j : Nat => v + 1 + (j : Int)))) := by
  have h2 : (AtomicCounterInt.increment .GCC ⟨1⟩).1 = 2 := by decide
  refine ⟨by decide, (fun _ _ => ?_), (fun _ _ => rfl), ?_⟩
  · simp only [AtomicCounterInt.assign, Option.map_some', h2]
  · intro c v k h0 h1
    simp only [AtomicCounterInt.assign, Option.map_some', increments_MSVC k v h0 h1]

/-! ### `TestUnitBuildSquare` without commands -/

theorem BuildSquareStatus.min_blocked (b : BuildSquareStatus) :
    BuildSquareStatus.min .BUILDSQUARE_BLOCKED b = .BUILDSQUARE_BLOCKED := by
  cases b <;> rfl

theorem BuildSquareStatus.min_assoc (a b c : BuildSquareStatus) :
    BuildSquareStatus.min (BuildSquareStatus.min a b) c
      = BuildSquareStatus.min a (BuildSquareStatus.min b c) := by
  cases a <;> cases b <;> cases c <;> rfl

theorem BuildSquareStatus.min_open (b : BuildSquareStatus) :
    BuildSquareStatus.min .BUILDSQUARE_OPEN b = b := by
  cases b <;> rfl

theorem foldl_min_blocked (l : List BuildSquareStatus) :
    l.foldl BuildSquareStatus.min .BUILDSQUARE_BLOCKED = .BUILDSQUARE_BLOCKED := by
  induction l with
  | nil => rfl
  | cons b rest ih => rw [List.foldl_cons, BuildSquareStatus.min_blocked, ih]

theorem foldl_min_eq (l : List BuildSquareStatus) :
    ∀ a : BuildSquareStatus,
      l.foldl BuildSquareStatus.min a = BuildSquareStatus.min a (minStatus l) := by
  unfold minStatus
  induction l with
  | nil => intro a; cases a <;> rfl
  | cons b rest ih =>
    intro a
    rw [List.foldl_cons, List.foldl_cons, ih (BuildSquareStatus.min a b),
      ih (BuildSquareStatus.min .BUILDSQUARE_OPEN b), BuildSquareStatus.min_open,
      BuildSquareStatus.min_assoc]

theorem scanZ_eq (tbs : Int → Int → BuildSquareStatus) (x : Int) :
    ∀ (zs : List Int) (canBuild : BuildSquareStatus),
      (scanZ tbs x zs canBuild).1 = (zs.map (tbs x)).foldl BuildSquareStatus.min canBuild ∧
      ((scanZ tbs x zs canBuild).2 = true →
        (zs.map (tbs x)).foldl BuildSquareStatus.min canBuild = .BUILDSQUARE_BLOCKED) := by
  intro zs
  induction zs with
  | nil => intro canBuild; exact ⟨rfl, fun h => by cases h⟩
  | cons z rest ih =>
    intro canBuild
    rw [scanZ, List.map_cons, List.foldl_cons]
    by_cases hb : BuildSquareStatus.min canBuild (tbs x z) = .BUILDSQUARE_BLOCKED
    · rw [if_pos hb, hb, foldl_min_blocked]
      exact ⟨rfl, fun _ => rfl⟩
    · rw [if_neg hb]
      exact ih _

theorem scanX_eq (tbs : Int → Int → BuildSquareStatus) (zs : List Int) :
    ∀ (xs : List Int) (canBuild : BuildSquareStatus),
      scanX tbs zs xs canBuild
        = (xs.flatMap (fun x => zs.map (tbs x))).foldl BuildSquareStatus.min canBuild := by
  intro xs
  induction xs with
  | nil => intro canBuild; rfl
  | cons x rest ih =>
    intro canBuild
    obtain ⟨h1, h2⟩ := scanZ_eq tbs x zs canBuild
    rw [scanX, List.flatMap_cons, List.foldl_append]
    by_cases hr : (scanZ tbs x zs canBuild).2 = true
    · simp only [hr, if_true, h2 hr, foldl_min_blocked]
    · simp only [hr, Bool.false_eq_true, if_false, ih, h1]

theorem forCoords_succ (SQUARE_SIZE : Int) (fuel : Nat) (x b : Int) :
    forCoords SQUARE_SIZE (fuel + 1) x b
      = if x < b then x :: forCoords SQUARE_SIZE fuel (x + SQUARE_SIZE) b else [] := rfl

/-- With a positive step the loop ends on its condition: more iterations allowed give the
same values. -/
theorem forCoords_stable (SQUARE_SIZE b : Int) (hSQ : 0 < SQUARE_SIZE) :
    ∀ (fuel : Nat) (a : Int), (b - a).toNat ≤ fuel →
      forCoords SQUARE_SIZE (fuel + 1) a b = forCoords SQUARE_SIZE fuel a b := by
  intro fuel
  induction fuel with
  | zero =>
    intro a h
    have : ¬ a < b := by omega
    simp [forCoords, this]
  | succ n ih =>
    intro a h
    rw [forCoords_succ SQUARE_SIZE (n + 1) a b, forCoords_succ SQUARE_SIZE n a b]
    by_cases hlt : a < b
    · rw [if_pos hlt, if_pos hlt, ih (a + SQUARE_SIZE) (by omega)]
    · rw [if_neg hlt, if_neg hlt]

theorem forCoords_enough (SQUARE_SIZE a b : Int) (hSQ : 0 < SQUARE_SIZE) (k : Nat) :
    forCoords SQUARE_SIZE ((b - a).toNat + k) a b = forCoords SQUARE_SIZE (b - a).toNat a b := by
  induction k with
  | zero => rfl
  | succ k ih =>
    rw [← Nat.add_assoc, forCoords_stable SQUARE_SIZE b hSQ _ a (by omega), ih]

/-- Claim C29: called without a command list, `TestUnitBuildSquare` returns the minimum
(`BLOCKED < OCCUPIED < RECLAIMABLE < OPEN`) of its initial status and the `TestBuildSquare`
status of every footprint square: the loop with the early return computes the fold of
`std::min` over all squares.  The initial status is `BLOCKED` exactly when the unit needs a
geothermal and no feature nearby is one, and then the result is `BLOCKED`.  The square size
being positive, the two loops end on their conditions. -/
theorem C29_TestUnitBuildSquare_is_the_minimum (SQUARE_SIZE : Int)
    (tbs tbsShow : Int → Int → BuildSquareStatus) (features : List GeoFeature)
    (buildInfo : BuildInfo) (hSQ : 0 < SQUARE_SIZE) :
    TestUnitBuildSquare SQUARE_SIZE tbs tbsShow features buildInfo none
      = ((footprintSquares SQUARE_SIZE buildInfo).map (fun p => tbs p.1 p.2)).foldl
          BuildSquareStatus.min (initialStatus buildInfo features) ∧
    TestUnitBuildSquare SQUARE_SIZE tbs tbsShow features buildInfo none
      = BuildSquareStatus.min (initialStatus buildInfo features)
          (minStatus ((footprintSquares SQUARE_SIZE buildInfo).map (fun p => tbs p.1 p.2))) ∧
    (initialStatus buildInfo features = .BUILDSQUARE_BLOCKED ↔
      (buildInfo.needGeo = true ∧
        ∀ fi ∈ features, ¬ (fi.geoThermal = true
          ∧ |fi.pos.x - buildInfo.pos.x| < buildInfo.xsize * 4 - 4
          ∧ |fi.pos.z - buildInfo.pos.z| < buildInfo.zsize * 4 - 4))) ∧
    (initialStatus buildInfo features = .BUILDSQUARE_BLOCKED →
      TestUnitBuildSquare SQUARE_SIZE tbs tbsShow features buildInfo none
        = .BUILDSQUARE_BLOCKED) ∧
    (∀ (a b : Int) (k : Nat),
      forCoords SQUARE_SIZE ((b - a).toNat + k) a b = forCoords SQUARE_SIZE (b - a).toNat a b) := by
  have h1 : TestUnitBuildSquare SQUARE_SIZE tbs tbsShow features buildInfo none
      = ((footprintSquares SQUARE_SIZE buildInfo).map (fun p => tbs p.1 p.2)).foldl
          BuildSquareStatus.min (initialStatus buildInfo features) := by
    simp only [TestUnitBuildSquare, footprintSquares, scanX_eq, List.map_flatMap, List.map_map]
    rfl
  refine ⟨h1, ?_, ?_, ?_, fun a b k => forCoords_enough SQUARE_SIZE a b hSQ k⟩
  · rw [h1, foldl_min_eq]
  · unfold initialStatus
    by_cases hg : buildInfo.needGeo = true
    · rw [if_pos hg]
      by_cases hany : features.any (fun fi => fi.geoThermal
          && decide (|fi.pos.x - buildInfo.pos.x| < buildInfo.xsize * 4 - 4)
          && decide (|fi.pos.z - buildInfo.pos.z| < buildInfo.zsize * 4 - 4)) = true
      · rw [if_pos hany]
        constructor
        · intro h; cases h
        · rintro ⟨_, hno⟩
          obtain ⟨fi, hfi, hc⟩ := List.any_eq_true.1 hany
          simp only [Bool.and_eq_true, decide_eq_true_eq] at hc
          exact absurd ⟨hc.1.1, hc.1.2, hc.2⟩ (hno fi hfi)
      · rw [if_neg hany]
        refine ⟨fun _ => ⟨hg, ?_⟩, fun _ => rfl⟩
        intro fi hfi hc
        apply hany
        apply List.any_eq_true.2
        exact ⟨fi, hfi, by simp only [Bool.and_eq_true, decide_eq_true_eq]; exact ⟨⟨hc.1, hc.2.1⟩, hc.2.2⟩⟩
    · rw [if_neg hg]
      constructor
      · intro h; cases h
      · rintro ⟨h, _⟩
        exact absurd h hg
  · intro hb
    rw [h1, hb, foldl_min_blocked]

/-- Claim C29 for a 2x2 footprint at (100, 100) with square size 8 where one square is
reclaimable and the others open: the result is `BUILDSQUARE_RECLAIMABLE`. -/
theorem C29_TestUnitBuildSquare_is_the_minimum_witness :
    footprintSquares 8 ⟨2, 2, ⟨100, 0, 100⟩, false⟩
      = [(92, 92), (92, 100), (100, 92), (100, 100)] ∧
    TestUnitBuildSquare 8
        (fun x z => if x = 100 ∧ z = 92 then .BUILDSQUARE_RECLAIMABLE else .BUILDSQUARE_OPEN)
        (fun _ _ => .BUILDSQUARE_OPEN) [] ⟨2, 2, ⟨100, 0, 100⟩, false⟩ none
      = .BUILDSQUARE_RECLAIMABLE := by
  refine ⟨by decide, ?_⟩
  rw [(C29_TestUnitBuildSquare_is_the_minimum 8
    (fun x z => if x = 100 ∧ z = 92 then .BUILDSQUARE_RECLAIMABLE else .BUILDSQUARE_OPEN)
    (fun _ _ => .BUILDSQUARE_OPEN) [] ⟨2, 2, ⟨100, 0, 100⟩, false⟩ (by decide)).1]
  decide

/-! ### `WriteSetupText` -/

theorem stripNul_append_nul (l : List Nat) : stripNul (l ++ [0]) = stripNul l := by
  simp [stripNul, List.dropWhile]

theorem stripNul_append_char (l : List Nat) (c : Nat) (hc : c ≠ 0) :
    stripNul (l ++ [c]) = l ++ [c] := by
  simp [stripNul, List.dropWhile, hc]

theorem trimLoop_spec (text : List Nat) :
    ∀ (n k : Nat), n ≤ text.length →
      trimLoop text (n + 1 + k) (n : Int)
        = some (if stripNul (text.take n) = [] then .readOutside (-1)
            else .wrote ((stripNul (text.take n)).length : Int) (stripNul (text.take n))) := by
  intro n
  induction n with
  | zero =>
    intro k _
    have hf : 0 + 1 + k = k + 1 := by omega
    rw [hf, trimLoop]
    have hnone : c_strAt text ((0 : Nat) - 1 : Int) = none := by
      unfold c_strAt
      rw [if_neg (by omega)]
    rw [hnone]
    simp [stripNul]
  | succ n ih =>
    intro k hn
    have hf : n + 1 + 1 + k = (n + 1 + k) + 1 := by omega
    have hlt : n < text.length := hn
    have hidx : ((n + 1 : Nat) : Int) - 1 = (n : Int) := by push_cast; omega
    have hread : c_strAt text (((n + 1 : Nat) : Int) - 1) = some text[n] := by
      unfold c_strAt
      rw [hidx, if_pos ⟨by omega, by omega⟩, Int.toNat_ofNat, List.getD_eq_getElem?_getD,
        List.getElem?_append_left hlt, List.getElem?_eq_getElem hlt]
      rfl
    have htake : text.take (n + 1) = text.take n ++ [text[n]] := by
      rw [List.take_succ, List.getElem?_eq_getElem hlt]
      rfl
    rw [hf, trimLoop, hread]
    simp only
    by_cases hz : text[n] = 0
    · rw [if_pos hz, hidx, ih k (Nat.le_of_lt hlt), htake, hz, stripNul_append_nul]
    · rw [if_neg hz, htake, stripNul_append_char _ _ hz, ← htake]
      have hne : text.take (n + 1) ≠ [] := by
        rw [htake]
        exact List.append_ne_nil_of_right_ne_nil _ (List.cons_ne_nil _ _)
      rw [if_neg hne, List.length_take, min_eq_left hn, Int.toNat_ofNat]

theorem WriteSetupText_eq (text : List Nat) :
    WriteSetupText text
      = some (if stripNul text = [] then .readOutside (-1)
          else .wrote ((stripNul text).length : Int) (stripNul text)) := by
  have h := trimLoop_spec text text.length 0 (le_refl _)
  rw [List.take_length] at h
  exact h

theorem stripNul_of_all_nul (text : List Nat) (h : ∀ ch ∈ text, ch = 0) : stripNul text = [] := by
  unfold stripNul
  rw [List.reverse_eq_nil_iff, List.dropWhile_eq_nil_iff]
  intro ch hch
  simp only [beq_iff_eq]
  exact h ch (List.mem_reverse.1 hch)

/-- Claim C30, evaluated on the code: for the empty text, and for the text of two NUL
characters, the loop of `WriteSetupText` reads `text.c_str()[-1]`, one character before the
start of the text, without having written anything; the same holds for every text
consisting only of NUL characters.  For every other text the run ends with the text without
its trailing NUL characters written and `scriptSize` set to its length. -/
theorem C30_WriteSetupText_reads_before_the_text :
    WriteSetupText [] = some (.readOutside (-1)) ∧
    WriteSetupText [0, 0] = some (.readOutside (-1)) ∧
    (∀ text : List Nat, (∀ ch ∈ text, ch = 0) →
      WriteSetupText text = some (.readOutside (-1))) ∧
    (∀ text : List Nat, stripNul text ≠ [] →
      WriteSetupText text
        = some (.wrote ((stripNul text).length : Int) (stripNul text))) := by
  refine ⟨by decide, by decide, ?_, ?_⟩
  · intro text h
    rw [WriteSetupText_eq, if_pos (stripNul_of_all_nul text h)]
  · intro text h
    rw [WriteSetupText_eq, if_neg h]

/-! ### The DELAYED_SLOW_UPDATE_MOVETYPE round -/

theorem filterMap_set_none {α β : Type} (f : α → Option β) (a b : α) (ha : f a = none)
    (hb : f b = none) :
    ∀ (l : List α) (i : Nat), l[i]? = some a → (l.set i b).filterMap f = l.filterMap f := by
  intro l
  induction l with
  | nil => intro i h; cases h
  | cons x rest ih =>
    intro i h
    cases i with
    | zero =>
      simp only [List.getElem?_cons_zero, Option.some.injEq] at h
      subst h
      simp [List.filterMap_cons, ha, hb]
    | succ j =>
      simp only [List.getElem?_cons_succ] at h
      simp only [List.set_cons_succ, List.filterMap_cons, ih j h]

theorem filterMap_set_gain {α β : Type} (f : α → Option β) (a b : α) (k : β) (ha : f a = none)
    (hb : f b = some k) :
    ∀ (l : List α) (i : Nat), l[i]? = some a →
      ((l.set i b).filterMap f).Perm (k :: l.filterMap f) := by
  intro l
  induction l with
  | nil => intro i h; cases h
  | cons x rest ih =>
    intro i h
    cases i with
    | zero =>
      simp only [List.getElem?_cons_zero, Option.some.injEq] at h
      subst h
      simp [List.filterMap_cons, ha, hb]
    | succ j =>
      simp only [List.getElem?_cons_succ] at h
      simp only [List.set_cons_succ, List.filterMap_cons]
      cases hx : f x with
      | none => exact ih j h
      | some y => exact ((ih j h).cons y).trans (List.Perm.swap k y _)

theorem filterMap_set_lose {α β : Type} (f : α → Option β) (a b : α) (k : β)
    (ha : f a = some k) (hb : f b = none) :
    ∀ (l : List α) (i : Nat), l[i]? = some a →
      (l.filterMap f).Perm (k :: (l.set i b).filterMap f) := by
  intro l
  induction l with
  | nil => intro i h; cases h
  | cons x rest ih =>
    intro i h
    cases i with
    | zero =>
      simp only [List.getElem?_cons_zero, Option.some.injEq] at h
      subst h
      simp [List.filterMap_cons, ha, hb]
    | succ j =>
      simp only [List.getElem?_cons_succ] at h
      simp only [List.set_cons_succ, List.filterMap_cons]
      cases hx : f x with
      | none => exact ih j h
      | some y => exact ((ih j h).cons y).trans (List.Perm.swap k y _)

theorem delayedStep_claiming (c : UnitConsts) (updateOps : Nat → Nat) (s : DelayedPool) (i : Nat)
    (h : s.pcs[i]? = some .claiming) :
    delayedStep c updateOps s i
      = if s.atomicCount + 1 ≥ 4
        then { s with atomicCount := s.atomicCount + 1, pcs := s.pcs.set i .atBarrier }
        else { s with atomicCount := s.atomicCount + 1,
                      pcs := s.pcs.set i (.running (s.atomicCount + 1)) } := by
  simp only [delayedStep, h]

theorem delayedStep_running (c : UnitConsts) (updateOps : Nat → Nat) (s : DelayedPool) (i : Nat)
    (k : Int) (h : s.pcs[i]? = some (.running k)) :
    delayedStep c updateOps s i
      = { s with done := s.done ++ [(i, k)],
                 trace := s.trace ++ delayedSwitch c updateOps k,
                 pcs := s.pcs.set i .claiming } := by
  simp only [delayedStep, h]

theorem delayedStep_idle (c : UnitConsts) (updateOps : Nat → Nat) (s : DelayedPool) (i : Nat)
    (h : s.pcs[i]? = none ∨ s.pcs[i]? = some .atBarrier) :
    delayedStep c updateOps s i = s := by
  rcases h with h | h <;> simp only [delayedStep, h]

theorem getElem?_set_atBarrier (pcs : List DelayedPc) (i j : Nat) (pc : DelayedPc)
    (hpc : pc ≠ .atBarrier) (h : (pcs.set i pc)[j]? = some .atBarrier) :
    pcs[j]? = some .atBarrier := by
  rw [List.getElem?_set] at h
  split at h
  · split at h
    · simp only [Option.some.injEq] at h
      exact absurd h hpc
    · cases h
  · exact h

theorem delayedStep_inv (c : UnitConsts) (updateOps : Nat → Nat) (n : Nat) (s : DelayedPool)
    (i : Nat) (h : DelayedInv c updateOps n s) :
    DelayedInv c updateOps n (delayedStep c updateOps s i) := by
  cases hpc : s.pcs[i]? with
  | none => rw [delayedStep_idle c updateOps s i (Or.inl hpc)]; exact h
  | some pc =>
    cases pc with
    | atBarrier => rw [delayedStep_idle c updateOps s i (Or.inr hpc)]; exact h
    | claiming =>
      rw [delayedStep_claiming c updateOps s i hpc]
      have hcnt := h.cnt
      by_cases hge : s.atomicCount + 1 ≥ 4
      · rw [if_pos hge]
        refine ⟨by show -1 ≤ s.atomicCount + 1; omega, ?_, ?_, ?_, h.who, h.trace⟩
        · show (s.pcs.set i .atBarrier).length = n
          rw [List.length_set]; exact h.len
        · show (s.done.map Prod.snd ++ (s.pcs.set i .atBarrier).filterMap DelayedPc.held).Perm
            ((List.range (min (s.atomicCount + 1 + 1) 4).toNat).map (fun k : Nat => (k : Int)))
          rw [filterMap_set_none DelayedPc.held .claiming .atBarrier rfl rfl s.pcs i hpc]
          have e : (min (s.atomicCount + 1 + 1) 4).toNat = (min (s.atomicCount + 1) 4).toNat := by
            omega
          rw [e]
          exact h.claimed
        · intro j _
          show 3 ≤ s.atomicCount + 1
          omega
      · rw [if_neg hge]
        refine ⟨by show -1 ≤ s.atomicCount + 1; omega, ?_, ?_, ?_, h.who, h.trace⟩
        · show (s.pcs.set i (.running (s.atomicCount + 1))).length = n
          rw [List.length_set]; exact h.len
        · show (s.done.map Prod.snd
              ++ (s.pcs.set i (.running (s.atomicCount + 1))).filterMap DelayedPc.held).Perm
            ((List.range (min (s.atomicCount + 1 + 1) 4).toNat).map (fun k : Nat => (k : Int)))
          have e1 : (min (s.atomicCount + 1 + 1) 4).toNat
              = (min (s.atomicCount + 1) 4).toNat + 1 := by omega
          have e2 : (((min (s.atomicCount + 1) 4).toNat : Nat) : Int) = s.atomicCount + 1 := by
            omega
          rw [e1, List.range_succ, List.map_append, List.map_singleton, e2]
          have hg := filterMap_set_gain DelayedPc.held .claiming
            (.running (s.atomicCount + 1)) (s.atomicCount + 1) rfl rfl s.pcs i hpc
          have h1 := (hg.append_left (s.done.map Prod.snd)).trans List.perm_middle
          exact (h1.trans (h.claimed.cons _)).trans (List.perm_append_singleton _ _).symm
        · intro j hj
          have := h.exited j (getElem?_set_atBarrier s.pcs i j _ (by intro e; cases e) hj)
          show 3 ≤ s.atomicCount + 1
          omega
    | running k =>
      rw [delayedStep_running c updateOps s i k hpc]
      have hilt : i < n := by
        rw [← h.len]
        exact (List.getElem?_eq_some.1 hpc).1
      refine ⟨h.cnt, ?_, ?_, ?_, ?_, ?_⟩
      · show (s.pcs.set i .claiming).length = n
        rw [List.length_set]; exact h.len
      · show ((s.done ++ [(i, k)]).map Prod.snd
            ++ (s.pcs.set i .claiming).filterMap DelayedPc.held).Perm _
        have hl := filterMap_set_lose DelayedPc.held (.running k) .claiming k rfl rfl s.pcs i hpc
        rw [List.map_append, List.map_singleton, List.append_assoc, List.singleton_append]
        exact ((hl.append_left (s.done.map Prod.snd)).symm).trans h.claimed
      · intro j hj
        exact h.exited j (getElem?_set_atBarrier s.pcs i j _ (by intro e; cases e) hj)
      · intro d hd
        rcases List.mem_append.1 hd with h1 | h1
        · exact h.who d h1
        · rw [List.mem_singleton.1 h1]
          exact hilt
      · show s.trace ++ delayedSwitch c updateOps k
          = (s.done ++ [(i, k)]).flatMap (fun d => delayedSwitch c updateOps d.2)
        rw [List.flatMap_append, h.trace]
        simp

theorem count_completion (steps i : Nat) :
    ∀ n : Nat, (completion n steps).count i = if i < n then steps else 0 := by
  intro n
  induction n with
  | zero => simp [completion]
  | succ n ih =>
    unfold completion at ih ⊢
    rw [List.range_succ, List.flatMap_append, List.count_append, ih]
    simp only [List.flatMap_cons, List.flatMap_nil, List.append_nil, List.count_replicate]
    by_cases h1 : i < n
    · have h2 : ¬ (n == i) = true := by simp; omega
      have h3 : i < n + 1 := by omega
      simp [h1, h2, h3]
    · by_cases h4 : n = i
      · subst h4
        simp
      · have h2 : ¬ (n == i) = true := by simpa using h4
        have h3 : ¬ i < n + 1 := by omega
        simp [h1, h2, h3]

theorem delayedStep_other (c : UnitConsts) (updateOps : Nat → Nat) (s : DelayedPool) (i j : Nat)
    (hij : j ≠ i) :
    (delayedStep c updateOps s j).pcs[i]? = s.pcs[i]? ∧
    s.atomicCount ≤ (delayedStep c updateOps s j).atomicCount := by
  cases hpc : s.pcs[j]? with
  | none => rw [delayedStep_idle c updateOps s j (Or.inl hpc)]; exact ⟨rfl, le_refl _⟩
  | some pc =>
    cases pc with
    | atBarrier => rw [delayedStep_idle c updateOps s j (Or.inr hpc)]; exact ⟨rfl, le_refl _⟩
    | claiming =>
      rw [delayedStep_claiming c updateOps s j hpc]
      split
      · exact ⟨by show (s.pcs.set j _)[i]? = _; rw [List.getElem?_set_ne hij],
          by show s.atomicCount ≤ s.atomicCount + 1; omega⟩
      · exact ⟨by show (s.pcs.set j _)[i]? = _; rw [List.getElem?_set_ne hij],
          by show s.atomicCount ≤ s.atomicCount + 1; omega⟩
    | running k =>
      rw [delayedStep_running c updateOps s j k hpc]
      exact ⟨by show (s.pcs.set j _)[i]? = _; rw [List.getElem?_set_ne hij], le_refl _⟩

theorem delayedStepsLeft_step (c : UnitConsts) (updateOps : Nat → Nat) (s : DelayedPool)
    (i j : Nat) :
    delayedStepsLeft (delayedStep c updateOps s j) i
      ≤ delayedStepsLeft s i - (if j = i then 1 else 0) := by
  by_cases hji : j = i
  · subst hji
    rw [if_pos rfl]
    cases hpc : s.pcs[j]? with
    | none =>
      rw [delayedStep_idle c updateOps s j (Or.inl hpc)]
      simp [delayedStepsLeft, hpc]
    | some pc =>
      have hlt : j < s.pcs.length := (List.getElem?_eq_some.1 hpc).1
      cases pc with
      | atBarrier =>
        rw [delayedStep_idle c updateOps s j (Or.inr hpc)]
        simp [delayedStepsLeft, hpc]
      | claiming =>
        rw [delayedStep_claiming c updateOps s j hpc]
        split
        · simp only [delayedStepsLeft, List.getElem?_set, if_pos hlt, if_true]
          exact Nat.zero_le _
        · rename_i hge
          simp only [delayedStepsLeft, List.getElem?_set, if_pos hlt, if_true, hpc]
          omega
      | running k =>
        rw [delayedStep_running c updateOps s j k hpc]
        simp only [delayedStepsLeft, List.getElem?_set, if_pos hlt, if_true, hpc]
        omega
  · rw [if_neg hji, Nat.sub_zero]
    obtain ⟨h1, h2⟩ := delayedStep_other c updateOps s i j hji
    simp only [delayedStepsLeft, h1]
    cases s.pcs[i]? with
    | none => exact le_refl _
    | some pc =>
      cases pc with
      | atBarrier => exact le_refl _
      | claiming => simp only; omega
      | running k => simp only; omega

theorem delayedStepsLeft_run (c : UnitConsts) (updateOps : Nat → Nat) (i : Nat)
    (sched : List Nat) :
    ∀ s : DelayedPool,
      delayedStepsLeft (sched.foldl (delayedStep c updateOps) s) i
        ≤ delayedStepsLeft s i - sched.count i := by
  induction sched with
  | nil => intro s; simp
  | cons j rest ih =>
    intro s
    have h1 := ih (delayedStep c updateOps s j)
    have h2 := delayedStepsLeft_step c updateOps s i j
    have h3 : (j :: rest).count i = rest.count i + (if j = i then 1 else 0) := by
      rw [List.count_cons]
      simp
    rw [h3, List.foldl_cons]
    omega

theorem delayedRun_inv (c : UnitConsts) (updateOps : Nat → Nat) (n : Nat) (sched : List Nat) :
    ∀ s : DelayedPool, DelayedInv c updateOps n s →
      DelayedInv c updateOps n (sched.foldl (delayedStep c updateOps) s) := by
  induction sched with
  | nil => intro s h; exact h
  | cons j rest ih =>
    intro s h
    exact ih _ (delayedStep_inv c updateOps n s j h)

theorem delayedSwitch_valid (c : UnitConsts) (updateOps : Nat → Nat) (k : Int) (h0 : 0 ≤ k)
    (h1 : k < 4) : Event.InvalidSlowUpdateType ∉ delayedSwitch c updateOps k := by
  intro hmem
  unfold delayedSwitch delayedSubTask at hmem
  split at hmem
  · obtain ⟨_, _, e⟩ := List.mem_map.1 hmem; cases e
  · split at hmem
    · obtain ⟨_, _, e⟩ := List.mem_map.1 hmem; cases e
    · split at hmem
      · obtain ⟨_, _, e⟩ := List.mem_map.1 hmem; cases e
      · split at hmem
        · obtain ⟨_, _, e⟩ := List.mem_map.1 hmem; cases e
        · omega

/-- In a state of a DELAYED round reached by any interleaving, the sub-tasks run so far are
distinct indices in `0 .. 3`, and the default branch has not been taken; once every thread
is at the barrier, they are exactly 0, 1, 2, 3. -/
theorem delayedInv_facts (c : UnitConsts) (updateOps : Nat → Nat) (n : Nat) (s : DelayedPool)
    (h : DelayedInv c updateOps n s) :
    (s.done.map Prod.snd).Nodup ∧
    (∀ d ∈ s.done, 0 ≤ d.2 ∧ d.2 < 4) ∧
    Event.InvalidSlowUpdateType ∉ s.trace ∧
    (1 ≤ n → (∀ pc ∈ s.pcs, pc = .atBarrier) → (s.done.map Prod.snd).Perm [0, 1, 2, 3]) := by
  have hnd : s.claimed.Nodup :=
    h.claimed.nodup_iff.2
      ((List.nodup_range _).map (fun a b e => by simpa using e))
  have hrange : ∀ d ∈ s.done, 0 ≤ d.2 ∧ d.2 < 4 := by
    intro d hd
    have h1 : d.2 ∈ s.claimed := List.mem_append_left _ (List.mem_map_of_mem _ hd)
    obtain ⟨k, hk, e⟩ := List.mem_map.1 (h.claimed.subset h1)
    have hk2 := List.mem_range.1 hk
    rw [← e]
    have := h.cnt
    omega
  refine ⟨(List.nodup_append.1 hnd).1, hrange, ?_, ?_⟩
  · rw [h.trace]
    intro hmem
    obtain ⟨d, hd, he⟩ := List.mem_flatMap.1 hmem
    exact delayedSwitch_valid c updateOps d.2 (hrange d hd).1 (hrange d hd).2 he
  · intro hn hall
    have hnone : s.pcs.filterMap DelayedPc.held = [] := by
      rw [List.filterMap_eq_nil_iff]
      intro pc hpc
      rw [hall pc hpc]
      rfl
    have h0 : s.pcs[0]? = some .atBarrier := by
      have hlt : 0 < s.pcs.length := by rw [h.len]; exact hn
      rw [List.getElem?_eq_getElem hlt]
      exact congrArg some (hall _ (List.getElem_mem _))
    have hcnt := h.exited 0 h0
    have hc := h.claimed
    unfold DelayedPool.claimed at hc
    rw [hnone, List.append_nil] at hc
    have e : (min (s.atomicCount + 1) 4).toNat = 4 := by omega
    rw [e] at hc
    exact hc

theorem delayedInit_inv (c : UnitConsts) (updateOps : Nat → Nat) (n : Nat) :
    DelayedInv c updateOps n
      { atomicCount := -1, pcs := List.replicate n .claiming, done := [], trace := [] } where
  cnt := le_refl _
  len := List.length_replicate _ _
  claimed := by
    have hnone : (List.replicate n DelayedPc.claiming).filterMap DelayedPc.held = [] := by
      rw [List.filterMap_eq_nil_iff]
      intro pc hpc
      rw [List.eq_of_mem_replicate hpc]
      rfl
    simp [DelayedPool.claimed, hnone]
  exited := by
    intro i hi
    rw [List.getElem?_replicate] at hi
    split at hi <;> cases hi
  who := by intro d hd; cases hd
  trace := rfl

theorem runDelayedRound_finished (c : UnitConsts) (updateOps : Nat → Nat) (n : Nat)
    (sched : List Nat) :
    ∀ pc ∈ (runDelayedRound c updateOps n sched).pcs, pc = .atBarrier := by
  intro pc hpc
  obtain ⟨i, hi⟩ := List.mem_iff_getElem?.1 hpc
  have hinv : DelayedInv c updateOps n (runDelayedRound c updateOps n sched) :=
    delayedRun_inv c updateOps n _ _ (delayedInit_inv c updateOps n)
  have hilt : i < n := by
    rw [← hinv.len]
    exact (List.getElem?_eq_some.1 hi).1
  have h1 := delayedStepsLeft_run c updateOps i (sched ++ completion n 9)
    { atomicCount := -1, pcs := List.replicate n .claiming, done := [], trace := [] }
  have h2 : delayedStepsLeft
      { atomicCount := -1, pcs := List.replicate n .claiming, done := [], trace := [] } i = 9 := by
    simp only [delayedStepsLeft, List.getElem?_replicate, if_pos hilt]
    rfl
  have h3 : 9 ≤ (sched ++ completion n 9).count i := by
    rw [List.count_append, count_completion, if_pos hilt]
    omega
  have h4 : delayedStepsLeft (runDelayedRound c updateOps n sched) i = 0 := by
    unfold runDelayedRound
    omega
  simp only [delayedStepsLeft, hi] at h4
  cases pc with
  | atBarrier => rfl
  | claiming => simp at h4
  | running k => simp at h4

/-- Claim C21: a DELAYED_SLOW_UPDATE_MOVETYPE round with `nThreads >= 1` pool threads, the
counter reset to -1, run under any interleaving `sched` of the threads' steps and then to
the barrier, ends with every thread at the barrier; the sub-tasks run are exactly the
indices 0, 1, 2, 3, each once and each by one thread of the pool; the calls made are those
of the four sub-tasks, and the "Invalid slow update type" branch is not taken.  At every
moment of every interleaving the sub-tasks run so far are distinct and the default branch
has not been taken. -/
theorem C21_delayed_subtasks_run_once (c : UnitConsts) (updateOps : Nat → Nat)
    (nThreads : Nat) (sched : List Nat) (hn : 1 ≤ nThreads) :
    (∀ pc ∈ (runDelayedRound c updateOps nThreads sched).pcs, pc = .atBarrier) ∧
    ((runDelayedRound c updateOps nThreads sched).done.map Prod.snd).Perm [0, 1, 2, 3] ∧
    (∀ d ∈ (runDelayedRound c updateOps nThreads sched).done, d.1 < nThreads) ∧
    (runDelayedRound c updateOps nThreads sched).trace
      = (runDelayedRound c updateOps nThreads sched).done.flatMap
          (fun d => delayedSwitch c updateOps d.2) ∧
    Event.InvalidSlowUpdateType ∉ (runDelayedRound c updateOps nThreads sched).trace ∧
    (∀ steps : List Nat,
      ((steps.foldl (delayedStep c updateOps)
          { atomicCount := -1, pcs := List.replicate nThreads .claiming, done := [],
            trace := [] }).done.map Prod.snd).Nodup ∧
      Event.InvalidSlowUpdateType ∉
        (steps.foldl (delayedStep c updateOps)
          { atomicCount := -1, pcs := List.replicate nThreads .claiming, done := [],
            trace := [] }).trace) := by
  have hinv : DelayedInv c updateOps nThreads (runDelayedRound c updateOps nThreads sched) :=
    delayedRun_inv c updateOps nThreads _ _ (delayedInit_inv c updateOps nThreads)
  have hfin := runDelayedRound_finished c updateOps nThreads sched
  obtain ⟨_, _, f3, f4⟩ := delayedInv_facts c updateOps nThreads _ hinv
  refine ⟨hfin, f4 hn hfin, hinv.who, hinv.trace, f3, ?_⟩
  intro steps
  obtain ⟨g1, _, g3, _⟩ := delayedInv_facts c updateOps nThreads _
    (delayedRun_inv c updateOps nThreads steps _ (delayedInit_inv c updateOps nThreads))
  exact ⟨g1, g3⟩

/-- Claim C21 with two threads and an interleaving in which thread 1 claims first and
thread 0 second: thread 1 runs sub-task 0, thread 0 runs 1, 2 and 3. -/
theorem C21_delayed_subtasks_run_once_witness :
    (runDelayedRound ⟨16, 2, 1, 2, 4, 8⟩ (fun _ => 0) 2 [1, 0, 1]).done
      = [(1, 0), (0, 1), (0, 2), (0, 3)] ∧
    ((runDelayedRound ⟨16, 2, 1, 2, 4, 8⟩ (fun _ => 0) 2 [1, 0, 1]).done.map Prod.snd).Perm
      [0, 1, 2, 3] :=
  ⟨by decide,
   (C21_delayed_subtasks_run_once ⟨16, 2, 1, 2, 4, 8⟩ (fun _ => 0) 2 [1, 0, 1]
      (by decide)).2.1⟩

/-! ### The order of a worker's claims -/

theorem callsOf_append (s : PoolState) (j i : Nat) (k : Int) (unit : CUnit) :
    (List.map (fun c : Nat × Int × CUnit => c.2.1)
        ((s.calls ++ [(j, k, unit)]).filter (fun c => decide (c.1 = i))))
      = s.callsOf i ++ (if j = i then [k] else []) := by
  unfold PoolState.callsOf
  rw [List.filter_append, List.map_append]
  by_cases h : j = i
  · simp [h]
  · simp [h]

theorem poolStep_order (stage : SimThreadingStage) (countEnd : Int) (base : List CUnit)
    (hst : stage = .SLOW_UPDATE_MOVETYPE ∨ countEnd ≤ base.length)
    (s : PoolState) (j : Nat) (hs : PoolInv countEnd base s) (ho : ClaimOrder s) :
    ClaimOrder (poolStep stage countEnd s j) := by
  cases hw : s.workers[j]? with
  | none => rw [poolStep_none hw]; exact ho
  | some w =>
    have hjlt : j < s.workers.length := (List.getElem?_eq_some.1 hw).1
    cases hpc : w.pc with
    | atBarrier => rw [poolStep_atBarrier hw hpc]; exact ho
    | claiming =>
      rw [poolStep_claiming hw hpc]
      obtain ⟨_, _, hcur, _⟩ := claimPass_spec stage countEnd s.atomicCount base w hst
        (hs.workers j w hw)
      intro i w' hw'
      have hw2 : (s.workers.set j (claimPass stage countEnd s.atomicCount w).2)[i]? = some w' :=
        hw'
      rw [List.getElem?_set] at hw2
      by_cases hji : j = i
      · subst hji
        rw [if_pos rfl, if_pos hjlt, Option.some.injEq] at hw2
        subst hw2
        refine ⟨(ho j w hw).1, ?_⟩
        intro hc k hk
        rw [hcur hc]
        obtain ⟨c, hcmem, hck⟩ := List.mem_map.1 hk
        have hcal := hs.called c (List.mem_filter.1 hcmem).1
        rw [← hck]
        omega
      · rw [if_neg hji] at hw2
        exact ho i w' hw2
    | calling =>
      cases hit : w.it with
      | nil =>
        rw [poolStep_calling_nil hw hpc hit]
        intro i w' hw'
        have hw2 : (s.workers.set j { w with pc := .claiming })[i]? = some w' := hw'
        rw [List.getElem?_set] at hw2
        by_cases hji : j = i
        · subst hji
          rw [if_pos rfl, if_pos hjlt, Option.some.injEq] at hw2
          subst hw2
          exact ⟨(ho j w hw).1, fun hc => by cases hc⟩
        · rw [if_neg hji] at hw2
          exact ho i w' hw2
      | cons unit rest =>
        rw [poolStep_calling_cons hw hpc hit]
        intro i w' hw'
        have hw2 : (s.workers.set j { w with pc := .claiming })[i]? = some w' := hw'
        rw [List.getElem?_set] at hw2
        show (List.map (fun c : Nat × Int × CUnit => c.2.1)
            ((s.calls ++ [(j, w.curPos, unit)]).filter (fun c => decide (c.1 = i)))).Pairwise
              (fun a b => a < b) ∧
          (w'.pc = .calling → ∀ k ∈ List.map (fun c : Nat × Int × CUnit => c.2.1)
            ((s.calls ++ [(j, w.curPos, unit)]).filter (fun c => decide (c.1 = i))),
            k < w'.curPos)
        rw [callsOf_append]
        by_cases hji : j = i
        · subst hji
          rw [if_pos rfl, if_pos hjlt, Option.some.injEq] at hw2
          subst hw2
          rw [if_pos rfl]
          obtain ⟨h1, h2⟩ := ho j w hw
          refine ⟨?_, fun hc => by cases hc⟩
          rw [List.pairwise_append]
          refine ⟨h1, List.pairwise_singleton _ _, ?_⟩
          intro a ha b hb
          rw [List.mem_singleton.1 hb]
          exact h2 hpc a ha
        · rw [if_neg hji] at hw2
          rw [if_neg hji, List.append_nil]
          exact ho i w' hw2

theorem poolRun_order (stage : SimThreadingStage) (countEnd : Int) (base : List CUnit)
    (hst : stage = .SLOW_UPDATE_MOVETYPE ∨ countEnd ≤ base.length) (sched : List Nat) :
    ∀ s : PoolState, PoolInv countEnd base s → ClaimOrder s →
      ClaimOrder (poolRun stage countEnd s sched) := by
  induction sched with
  | nil => intro s _ ho; exact ho
  | cons j rest ih =>
    intro s hs ho
    exact ih _ (poolStep_inv stage countEnd base hst s j hs)
      (poolStep_order stage countEnd base hst s j hs ho)

theorem poolInit_order (nThreads : Nat) (start : List CUnit) :
    ClaimOrder (poolInit nThreads start) := by
  intro i w _
  exact ⟨List.Pairwise.nil, fun _ k hk => by cases hk⟩

theorem pooled_eq_poolRun (stage : SimThreadingStage) (RATE frameNum : Nat)
    (activeUnits : List CUnit) (slowUpdateIterator simNumExtraThreads : Nat) (sched : List Nat) :
    MoveTypeThreadFunc_pooled stage RATE frameNum activeUnits slowUpdateIterator
        simNumExtraThreads sched
      = poolRun stage (stageCountEnd stage RATE activeUnits)
          (poolInit (simNumExtraThreads + 1)
            (stageStart stage RATE frameNum activeUnits slowUpdateIterator)) sched := by
  cases stage <;> rfl

theorem stage_side_condition (stage : SimThreadingStage) (RATE frameNum : Nat)
    (activeUnits : List CUnit) (slowUpdateIterator : Nat) :
    stage = .SLOW_UPDATE_MOVETYPE ∨
      stageCountEnd stage RATE activeUnits
        ≤ (stageStart stage RATE frameNum activeUnits slowUpdateIterator).length := by
  cases stage
  · exact Or.inr (le_refl _)
  · exact Or.inr (le_refl _)
  · exact Or.inl rfl
  · exact Or.inr (le_refl _)

/-- Claim C28: in a pooled UPDATE_MOVETYPE or SLOW_UPDATE_MOVETYPE round over an unmodified
active set, under any interleaving and at any moment: (1) the indices for which a thread has
made its call are strictly increasing; (2) a thread about to dereference its iterator holds
an index above all it has processed, its iterator is the start position advanced by that
index, and it is not the end position; (3) a thread about to claim has its iterator at most
at the next index, and if the claim leads to a call its position is exactly the claimed
index; (4) no thread has dereferenced the end position; (5) every call made for index `k`
was on the `k`-th unit from the start position. -/
theorem C28_claims_increase_and_iterator_follows (stage : SimThreadingStage)
    (RATE frameNum : Nat) (activeUnits : List CUnit)
    (slowUpdateIterator simNumExtraThreads : Nat) (sched : List Nat)
    (_hstage : stage = .UPDATE_MOVETYPE ∨ stage = .SLOW_UPDATE_MOVETYPE) :
    (∀ i : Nat, ((MoveTypeThreadFunc_pooled stage RATE frameNum activeUnits slowUpdateIterator
        simNumExtraThreads sched).callsOf i).Pairwise (fun a b => a < b)) ∧
    (∀ (i : Nat) (w : Worker),
      (MoveTypeThreadFunc_pooled stage RATE frameNum activeUnits slowUpdateIterator
        simNumExtraThreads sched).workers[i]? = some w → w.pc = .calling →
      w.it = (stageStart stage RATE frameNum activeUnits slowUpdateIterator).drop
          w.curPos.toNat ∧
      w.it ≠ [] ∧
      w.it.head? = (stageStart stage RATE frameNum activeUnits slowUpdateIterator)[
          w.curPos.toNat]? ∧
      0 ≤ w.curPos ∧
      w.curPos ≤ (MoveTypeThreadFunc_pooled stage RATE frameNum activeUnits
        slowUpdateIterator simNumExtraThreads sched).atomicCount ∧
      ∀ k ∈ (MoveTypeThreadFunc_pooled stage RATE frameNum activeUnits slowUpdateIterator
        simNumExtraThreads sched).callsOf i, k < w.curPos) ∧
    (∀ (i : Nat) (w : Worker),
      (MoveTypeThreadFunc_pooled stage RATE frameNum activeUnits slowUpdateIterator
        simNumExtraThreads sched).workers[i]? = some w → w.pc = .claiming →
      w.curPos ≤ (MoveTypeThreadFunc_pooled stage RATE frameNum activeUnits
        slowUpdateIterator simNumExtraThreads sched).atomicCount + 1 ∧
      ((claimPass stage (stageCountEnd stage RATE activeUnits)
          (MoveTypeThreadFunc_pooled stage RATE frameNum activeUnits slowUpdateIterator
            simNumExtraThreads sched).atomicCount w).2.pc = .calling →
        (claimPass stage (stageCountEnd stage RATE activeUnits)
          (MoveTypeThreadFunc_pooled stage RATE frameNum activeUnits slowUpdateIterator
            simNumExtraThreads sched).atomicCount w).2.curPos
          = (MoveTypeThreadFunc_pooled stage RATE frameNum activeUnits slowUpdateIterator
            simNumExtraThreads sched).atomicCount + 1)) ∧
    (MoveTypeThreadFunc_pooled stage RATE frameNum activeUnits slowUpdateIterator
      simNumExtraThreads sched).derefEnd = false ∧
    (∀ c ∈ (MoveTypeThreadFunc_pooled stage RATE frameNum activeUnits slowUpdateIterator
        simNumExtraThreads sched).calls,
      0 ≤ c.2.1 ∧
      (stageStart stage RATE frameNum activeUnits slowUpdateIterator)[c.2.1.toNat]?
        = some c.2.2) := by
  have hst := stage_side_condition stage RATE frameNum activeUnits slowUpdateIterator
  rw [pooled_eq_poolRun]
  have hinv := poolRun_inv stage (stageCountEnd stage RATE activeUnits)
    (stageStart stage RATE frameNum activeUnits slowUpdateIterator) hst sched _
    (poolInit_inv _ (simNumExtraThreads + 1) _)
  have hord := poolRun_order stage (stageCountEnd stage RATE activeUnits)
    (stageStart stage RATE frameNum activeUnits slowUpdateIterator) hst sched _
    (poolInit_inv _ (simNumExtraThreads + 1) _) (poolInit_order _ _)
  refine ⟨?_, ?_, ?_, hinv.noDeref, ?_⟩
  · intro i
    cases hw : (poolRun stage (stageCountEnd stage RATE activeUnits)
        (poolInit (simNumExtraThreads + 1)
          (stageStart stage RATE frameNum activeUnits slowUpdateIterator)) sched).workers[i]? with
    | some w => exact (hord i w hw).1
    | none =>
      have hempty : (poolRun stage (stageCountEnd stage RATE activeUnits)
          (poolInit (simNumExtraThreads + 1)
            (stageStart stage RATE frameNum activeUnits slowUpdateIterator)) sched).callsOf i
          = [] := by
        unfold PoolState.callsOf
        rw [List.map_eq_nil_iff, List.filter_eq_nil_iff]
        intro c hc
        have hlt := (hinv.called c hc).2.2.2.2
        have hge := List.getElem?_eq_none_iff.1 hw
        simp only [decide_eq_true_eq]
        omega
      rw [hempty]
      exact List.Pairwise.nil
  · intro i w hw hpc
    have hwi := hinv.workers i w hw
    obtain ⟨hc1, hc2⟩ := hwi.calling hpc
    have hpos := hwi.pos
    have hlt : w.curPos.toNat
        < (stageStart stage RATE frameNum activeUnits slowUpdateIterator).length := by
      simp only [poolBound] at hc2
      omega
    refine ⟨hwi.it_eq, ?_, ?_, hpos, hc1, (hord i w hw).2 hpc⟩
    · rw [hwi.it_eq]
      intro h
      have := List.drop_eq_nil_iff.1 h
      omega
    · rw [hwi.it_eq, List.head?_drop]
  · intro i w hw hpc
    have hwi := hinv.workers i w hw
    obtain ⟨_, _, hcur, _⟩ := claimPass_spec stage (stageCountEnd stage RATE activeUnits) _
      (stageStart stage RATE frameNum activeUnits slowUpdateIterator) w hst hwi
    exact ⟨hwi.le, hcur⟩
  · intro c hc
    obtain ⟨h0, _, _, h3, _⟩ := hinv.called c hc
    exact ⟨h0, h3⟩

/-- Claim C28 for the UPDATE_MOVETYPE stage over `[10, 11, 12]` with two threads, stopped in
the middle of the round: no thread has dereferenced the end position. -/
theorem C28_claims_increase_and_iterator_follows_witness :
    (MoveTypeThreadFunc_pooled .UPDATE_MOVETYPE 16 0 [10, 11, 12] 0 1
      [0, 1, 1, 0, 1]).derefEnd = false ∧
    ((MoveTypeThreadFunc_pooled .UPDATE_MOVETYPE 16 0 [10, 11, 12] 0 1
      [0, 1, 1, 0, 1]).callsOf 1).Pairwise (fun a b => a < b) :=
  ⟨(C28_claims_increase_and_iterator_follows .UPDATE_MOVETYPE 16 0 [10, 11, 12] 0 1
      [0, 1, 1, 0, 1] (Or.inl rfl)).2.2.2.1,
   (C28_claims_increase_and_iterator_follows .UPDATE_MOVETYPE 16 0 [10, 11, 12] 0 1
      [0, 1, 1, 0, 1] (Or.inl rfl)).1 1⟩

end Spring
